import Mathlib

/-!
# Layout reconstruction of `extract.c`

A shallow embedding of the span / line / paragraph builders, the page loader and the
paragraph emitter of `src/extract.c`.

Conventions of the embedding.

* `float` values are exact rationals; `+ - * /` and comparisons are exact, with two
  exceptions. In `matrices_to_font_size`, whose result is truncated to an `int` and compared
  for equality, the rounding of a value to `float` is the field `to_float` of `Libm`. A
  `float` division whose divisor can be zero yields a `float_quot`, an infinity or a NaN
  at the divisor zero.
* The functions of `math.h` that the program calls (`sqrt`, `atan2`, `sin`, `cos`) are
  fields of a `Libm` record that every numeric definition takes as a parameter.
* A page is an arena: `page->spans` is a list of spans, a `span_t*` is an index into it.
  Likewise a `line_t*` is an index into the list of lines.
* `assert` is a fault: functions that can reach an assertion return `Except Fault _`.
* The loops that set their index inside the body run on a step budget and return
  `Except Halt _`: those of `make_lines` and `make_paragraphs`, for which the theorems show
  that the budget they are given is never used up, and the loop over the paragraphs of a
  page of the emitter with rotation.
* The output buffer of the emitter is a list of items: the characters appended by the
  program, and one item for each call of a helper of `docx.c` that opens or closes a
  paragraph or a run.
* Allocation never fails; `realloc` to the size zero frees the block and returns `NULL`, so
  that the `assert` after it fails.
* An `int` has 32 bits: a conversion from `float` or `double` truncates towards zero, and
  `int` arithmetic that can overflow wraps around.
* Every other division is that of the rationals; its divisor is a constant other than
  zero, a number of glyphs that is at least two, or a determinant that was tested.
-/

namespace Extract

/-! ## Faults -/

/-- Ways in which a run of the embedded program ends without a normal return. -/
inductive Fault where
  /-- an `assert` of the program was violated -/
  | assert_failed
  /-- an index that stands for a pointer does not point into its arena -/
  | bad_pointer
  /-- the function returned `-1` with `errno == EINVAL` -/
  | einval
  /-- the function returned `-1` with `errno == ESRCH` -/
  | esrch
  /-- the function returned `-1` because the tag reader failed or reached end of input -/
  | reader
  /-- the function returned `-1` because a required attribute is missing or malformed -/
  | attribute
  deriving DecidableEq

/-- How a bounded loop of the embedding ends without a normal return: by a fault of the
program, or because the step budget given to the loop was used up. -/
inductive Halt where
  | fault (f : Fault)
  | out_of_fuel
  deriving DecidableEq

/-! ## Numbers -/

/-- The `math.h` functions used by the program, and `to_float`, the rounding of a value to
the nearest `float`. -/
structure Libm where
  sqrt : ℚ → ℚ
  atan2 : ℚ → ℚ → ℚ
  sin : ℚ → ℚ
  cos : ℚ → ℚ
  to_float : ℚ → ℚ

/-- `g_pi`, written as in the source. -/
def g_pi : ℚ := 314159265 / 100000000

/-- Conversion of a `float` or a `double` to `int`: truncation towards zero. When the
truncated value is not an `int` the conversion has no result defined by C; the value here
is `INT_MIN`, which the conversion instructions of x86 give. -/
def float_to_int (x : ℚ) : Int :=
  if -2147483649 < x ∧ x < 2147483648 then (if 0 ≤ x then ⌊x⌋ else ⌈x⌉) else -2147483648

/-- The `int` that `int` arithmetic gives where the exact result is `z`: `z` when it is an
`int`, and wrapped around in two's complement otherwise. -/
def int_wrap (z : Int) : Int := (z + 2147483648) % 4294967296 - 2147483648

/-- The value of a `float` division: a number, or what IEEE 754 gives at the divisor
zero. -/
inductive float_quot where
  | finite (q : ℚ)
  | pos_inf
  | neg_inf
  | nan
  deriving DecidableEq

/-- `x / y` for `float`s. A divisor that is zero is `+0`, as the product of two square
roots is: the quotient is then an infinity with the sign of `x`, or a NaN for `0 / 0`. -/
def float_div (x y : ℚ) : float_quot :=
  if y ≠ 0 then .finite (x / y)
  else if x > 0 then .pos_inf
  else if x < 0 then .neg_inf
  else .nan

/-- `r < c` for a quotient `r` and a number `c`; false for a NaN. -/
def float_lt : float_quot → ℚ → Prop
  | .finite q, c => q < c
  | .neg_inf, _ => True
  | _, _ => False

/-- `r > c` for a quotient `r` and a number `c`; false for a NaN. -/
def float_gt : float_quot → ℚ → Prop
  | .finite q, c => q > c
  | .pos_inf, _ => True
  | _, _ => False

/-- `fabs(r) > c` for a quotient `r` and a number `c`; false for a NaN. -/
def float_fabs_gt : float_quot → ℚ → Prop
  | .finite q, c => |q| > c
  | .pos_inf, _ => True
  | .neg_inf, _ => True
  | .nan, _ => False

instance (r : float_quot) (c : ℚ) : Decidable (float_lt r c) :=
  match r with
  | .finite q => inferInstanceAs (Decidable (q < c))
  | .neg_inf => isTrue trivial
  | .pos_inf => isFalse fun h => h
  | .nan => isFalse fun h => h

instance (r : float_quot) (c : ℚ) : Decidable (float_gt r c) :=
  match r with
  | .finite q => inferInstanceAs (Decidable (q > c))
  | .pos_inf => isTrue trivial
  | .neg_inf => isFalse fun h => h
  | .nan => isFalse fun h => h

instance (r : float_quot) (c : ℚ) : Decidable (float_fabs_gt r c) :=
  match r with
  | .finite q => inferInstanceAs (Decidable (|q| > c))
  | .pos_inf => isTrue trivial
  | .neg_inf => isTrue trivial
  | .nan => isFalse fun h => h

/-! ## Data model -/

/-- `matrix_t`. -/
structure matrix_t where
  a : ℚ
  b : ℚ
  c : ℚ
  d : ℚ
  e : ℚ
  f : ℚ
  deriving DecidableEq

/-- `point_t`. -/
structure point_t where
  x : ℚ
  y : ℚ
  deriving DecidableEq

/-- `char_t`: a single char in a span. -/
structure char_t where
  pre_x : ℚ
  pre_y : ℚ
  x : ℚ
  y : ℚ
  gid : Int
  ucs : Nat
  adv : ℚ
  deriving DecidableEq

/-- `char_init`: every field zero. -/
def char_init : char_t :=
  { pre_x := 0, pre_y := 0, x := 0, y := 0, gid := 0, ucs := 0, adv := 0 }

/-- `span_t`: `chars_num` is the length of `chars`; the three one-bit fields are booleans. -/
structure span_t where
  ctm : matrix_t
  trm : matrix_t
  font_name : String
  font_bold : Bool
  font_italic : Bool
  wmode : Bool
  chars : List char_t
  deriving DecidableEq

/-- `line_t`: the spans of a line, as indices into the page's spans. -/
structure line_t where
  spans : List Nat
  deriving DecidableEq

/-- `paragraph_t`: the lines of a paragraph, as indices into the page's lines. -/
structure paragraph_t where
  lines : List Nat
  deriving DecidableEq

/-- Dereference of a `span_t*`. -/
def span_at (spans : List span_t) (i : Nat) : Except Fault span_t :=
  match spans[i]? with
  | some s => .ok s
  | none => .error .bad_pointer

/-- Dereference of a `line_t*`. -/
def line_at (lines : List line_t) (i : Nat) : Except Fault line_t :=
  match lines[i]? with
  | some l => .ok l
  | none => .error .bad_pointer

/-! ## Geometry primitives -/

/-- `matrix_expansion`. -/
def matrix_expansion (m : Libm) (M : matrix_t) : ℚ :=
  m.sqrt |M.a * M.d - M.b * M.c|

/-- `s_sign`: `+1`, `0` or `-1` depending on the sign of `x`. -/
def s_sign (x : ℚ) : Int :=
  if x < 0 then -1 else if x > 0 then 1 else 0

/-- `matrix_cmp4`: compares the first four members. -/
def matrix_cmp4 (lhs rhs : matrix_t) : Int :=
  if s_sign (lhs.a - rhs.a) ≠ 0 then s_sign (lhs.a - rhs.a)
  else if s_sign (lhs.b - rhs.b) ≠ 0 then s_sign (lhs.b - rhs.b)
  else if s_sign (lhs.c - rhs.c) ≠ 0 then s_sign (lhs.c - rhs.c)
  else if s_sign (lhs.d - rhs.d) ≠ 0 then s_sign (lhs.d - rhs.d)
  else 0

/-- `multiply_matrix_point`. -/
def multiply_matrix_point (M : matrix_t) (p : point_t) : point_t :=
  { x := M.a * p.x + M.c * p.y, y := M.b * p.x + M.d * p.y }

/-! ## Spans and lines -/

/-- `span_append_c`: appends a char with `.ucs = c` and all other fields zeroed. -/
def span_append_c (span : span_t) (c : Nat) : span_t :=
  { span with chars := span.chars ++ [{ char_init with ucs := c }] }

/-- `span_char_first`, with its assertion. -/
def span_char_first (span : span_t) : Except Fault char_t :=
  match span.chars.head? with
  | some c => .ok c
  | none => .error .assert_failed

/-- `span_char_last`, with its assertion. -/
def span_char_last (span : span_t) : Except Fault char_t :=
  match span.chars.getLast? with
  | some c => .ok c
  | none => .error .assert_failed

/-- `span_angle`: uses the CTM only. -/
def span_angle (m : Libm) (span : span_t) : ℚ :=
  m.atan2 (-span.ctm.c) span.ctm.a

/-- `span_adv_total`: total width of a span. -/
def span_adv_total (m : Libm) (span : span_t) : Except Fault ℚ := do
  let last ← span_char_last span
  let first ← span_char_first span
  let dx := last.x - first.x
  let dy := last.y - first.y
  let adv := last.adv * matrix_expansion m span.trm
  pure (m.sqrt (dx * dx + dy * dy) + adv)

/-- `spans_adv`: distance between the end of `a` and the beginning of `b`. -/
def spans_adv (m : Libm) (a_span : span_t) (a b : char_t) : ℚ :=
  let delta_x := b.x - a.x
  let delta_y := b.y - a.y
  let s := m.sqrt (delta_x * delta_x + delta_y * delta_y)
  let a_size := a.adv * matrix_expansion m a_span.trm
  s - a_size

/-- `line_span_last`, with its assertion; the result is the span's index. -/
def line_span_last (line : line_t) : Except Fault Nat :=
  match line.spans.getLast? with
  | some s => .ok s
  | none => .error .assert_failed

/-- `line_span_first`, with its assertion; the result is the span's index. -/
def line_span_first (line : line_t) : Except Fault Nat :=
  match line.spans.head? with
  | some s => .ok s
  | none => .error .assert_failed

/-- `line_item_first`: first char of a line. -/
def line_item_first (spans : List span_t) (line : line_t) : Except Fault char_t := do
  let i ← line_span_first line
  let span ← span_at spans i
  span_char_first span

/-- `line_item_last`: last char of a line. -/
def line_item_last (spans : List span_t) (line : line_t) : Except Fault char_t := do
  let i ← line_span_last line
  let span ← span_at spans i
  span_char_last span

/-- `line_angle`: the angle of the first span of the line. -/
def line_angle (m : Libm) (spans : List span_t) (line : line_t) : Except Fault ℚ :=
  match line.spans.head? with
  | some i => do
      let span ← span_at spans i
      pure (span_angle m span)
  | none => .error .assert_failed

/-- `lines_are_compatible`: `a_ptr` and `b_ptr` are the addresses of the two lines; the
`spans` member of an allocated line is never `NULL`. -/
def lines_are_compatible (m : Libm) (spans : List span_t) (a_ptr b_ptr : Nat)
    (a b : line_t) (angle_a : ℚ) : Except Fault Bool :=
  if a_ptr = b_ptr then pure false
  else do
    let ia ← line_span_first a
    let sa ← span_at spans ia
    let ib ← line_span_first b
    let sb ← span_at spans ib
    if sa.wmode ≠ sb.wmode then pure false
    else if matrix_cmp4 sa.ctm sb.ctm ≠ 0 then pure false
    else if span_angle m sb ≠ angle_a then pure false
    else pure true

/-! ## `make_lines` -/

/-- The state of `make_lines`: the page's spans and the array `lines`, whose absorbed
slots are `NULL`. -/
structure lines_state where
  spans : List span_t
  lines : List (Option line_t)
  deriving DecidableEq

/-- The inner loop of `make_lines` over `b`; `nearest` is `nearest_line_b` together with
`nearest_adv` once `nearest_line` is set. -/
def make_lines_scan (m : Libm) (st : lines_state) (a : Nat) (line_a : line_t)
    (span_a : span_t) (angle_a : ℚ) :
    List Nat → Option (Nat × ℚ) → Except Fault (Option (Nat × ℚ))
  | [], nearest => .ok nearest
  | b :: bs, nearest =>
    match st.lines[b]? with
    | some (some line_b) =>
      if b = a then make_lines_scan m st a line_a span_a angle_a bs nearest
      else
        match lines_are_compatible m st.spans a b line_a line_b angle_a with
        | .error e => .error e
        | .ok false => make_lines_scan m st a line_a span_a angle_a bs nearest
        | .ok true =>
          match line_span_first line_b with
          | .error e => .error e
          | .ok ib =>
            match span_at st.spans ib with
            | .error e => .error e
            | .ok span_b =>
              match span_char_first span_b, span_char_last span_a with
              | .ok bfirst, .ok alast =>
                let dx := bfirst.x - alast.x
                let dy := bfirst.y - alast.y
                let angle_a_b := m.atan2 (-dy) dx
                if |angle_a_b - angle_a| * 180 / g_pi ≤ 1 then
                  let adv := spans_adv m span_a alast bfirst
                  match nearest with
                  | none =>
                    make_lines_scan m st a line_a span_a angle_a bs (some (b, adv))
                  | some (nb, nearest_adv) =>
                    if adv < nearest_adv then
                      make_lines_scan m st a line_a span_a angle_a bs (some (b, adv))
                    else
                      make_lines_scan m st a line_a span_a angle_a bs (some (nb, nearest_adv))
                else make_lines_scan m st a line_a span_a angle_a bs nearest
              | .error e, _ => .error e
              | _, .error e => .error e
    | _ => make_lines_scan m st a line_a span_a angle_a bs nearest

/-- The synthetic space that `make_lines` appends: zeroed, `ucs = ' '`, `adv = nearest_adv`. -/
def line_space (nearest_adv : ℚ) : char_t :=
  { char_init with ucs := 32, adv := nearest_adv }

/-- The spans after the space decision of a join in `make_lines`. -/
def make_lines_space (m : Libm) (spans : List span_t) (ia : Nat) (span_a span_b : span_t)
    (nearest_adv : ℚ) : Except Fault (List span_t) :=
  match span_char_last span_a, span_char_first span_b with
  | .ok alast, .ok bfirst =>
    if alast.ucs ≠ 32 ∧ bfirst.ucs ≠ 32 then
      match span_adv_total m span_a, span_adv_total m span_b with
      | .ok ta, .ok tb =>
        let average_adv := (ta + tb) / ((span_a.chars.length + span_b.chars.length : Nat) : ℚ)
        if nearest_adv > (1 / 4) * average_adv then
          .ok (spans.set ia { span_a with chars := span_a.chars ++ [line_space nearest_adv] })
        else .ok spans
      | .error e, _ => .error e
      | _, .error e => .error e
    else .ok spans
  | .error e, _ => .error e
  | _, .error e => .error e

/-- The join of `make_lines`: line `b` is moved onto the end of line `a`. -/
def make_lines_join (m : Libm) (st : lines_state) (a b : Nat) (line_a : line_t) (ia : Nat)
    (nearest_adv : ℚ) : Except Fault lines_state :=
  match st.lines[b]? with
  | some (some nearest_line) =>
    match line_span_first nearest_line with
    | .error e => .error e
    | .ok ib =>
      match span_at st.spans ia, span_at st.spans ib with
      | .ok span_a, .ok span_b =>
        match make_lines_space m st.spans ia span_a span_b nearest_adv with
        | .error e => .error e
        | .ok spans =>
          .ok { spans := spans
                lines := (st.lines.set a (some { spans := line_a.spans ++ nearest_line.spans })).set
                  b none }
      | .error e, _ => .error e
      | _, .error e => .error e
  | _ => .error .bad_pointer

/-- One pass of the body of the outer loop of `make_lines` at index `a`; the result holds
the value of `a` at the next test of the loop condition. -/
def make_lines_step (m : Libm) (a : Nat) (st : lines_state) : Except Fault (Nat × lines_state) :=
  match st.lines[a]? with
  | some (some line_a) =>
    match line_span_last line_a with
    | .error e => .error e
    | .ok ia =>
      match span_at st.spans ia with
      | .error e => .error e
      | .ok span_a =>
        match make_lines_scan m st a line_a span_a (span_angle m span_a)
            (List.range st.lines.length) none with
        | .error e => .error e
        | .ok none => .ok (a + 1, st)
        | .ok (some (b, nearest_adv)) =>
          match make_lines_join m st a b line_a ia nearest_adv with
          | .error e => .error e
          | .ok st1 => .ok (if b > a then a else a + 1, st1)
  | _ => .ok (a + 1, st)

/-- The outer loop of `make_lines`, bounded by `fuel` passes of its body. -/
def make_lines_loop (m : Libm) : Nat → Nat → lines_state → Except Halt lines_state
  | 0, a, st => if a < st.lines.length then .error .out_of_fuel else .ok st
  | fuel + 1, a, st =>
    if a < st.lines.length then
      match make_lines_step m a st with
      | .error e => .error (.fault e)
      | .ok (a1, st1) => make_lines_loop m fuel a1 st1
    else .ok st

/-- `make_lines`: returns the page's spans, to which spaces may have been appended, and the
lines that remain after the empty slots are removed. When no line remains, `realloc` is
called with the size zero and `assert(l)` fails. -/
def make_lines (m : Libm) (spans : List span_t) : Except Halt (List span_t × List line_t) :=
  let init : lines_state :=
    { spans := spans, lines := (List.range spans.length).map fun a => some { spans := [a] } }
  match make_lines_loop m (2 * spans.length) 0 init with
  | .error e => .error e
  | .ok st =>
    if st.lines.reduceOption = [] then .error (.fault .assert_failed)
    else .ok (st.spans, st.lines.reduceOption)

/-! ## `make_paragraphs` -/

/-- The loop of `line_font_size_max`: `size` is an `int`, `size_max` a `float`. -/
def line_font_size_max_loop (m : Libm) (spans : List span_t) : List Nat → ℚ → Except Fault ℚ
  | [], size_max => .ok size_max
  | i :: rest, size_max =>
    match span_at spans i with
    | .error e => .error e
    | .ok span =>
      if ((float_to_int (matrix_expansion m span.trm) : Int) : ℚ) > size_max then
        line_font_size_max_loop m spans rest ((float_to_int (matrix_expansion m span.trm) : Int) : ℚ)
      else line_font_size_max_loop m spans rest size_max

/-- `line_font_size_max`: max font size of all spans of a line. -/
def line_font_size_max (m : Libm) (spans : List span_t) (line : line_t) : Except Fault ℚ :=
  line_font_size_max_loop m spans line.spans 0

/-- `line_distance`: distance between parallel lines at `angle`. -/
def line_distance (m : Libm) (ax ay bx «by» angle : ℚ) : ℚ :=
  (bx - ax) * m.sin angle + («by» - ay) * m.cos angle

/-- `paragraph_line_first`, with its assertion; the result is the line's index. -/
def paragraph_line_first (paragraph : paragraph_t) : Except Fault Nat :=
  match paragraph.lines.head? with
  | some l => .ok l
  | none => .error .assert_failed

/-- `paragraph_line_last`, with its assertion; the result is the line's index. -/
def paragraph_line_last (paragraph : paragraph_t) : Except Fault Nat :=
  match paragraph.lines.getLast? with
  | some l => .ok l
  | none => .error .assert_failed

/-- `paragraphs_cmp`: the comparison function handed to `qsort`. -/
def paragraphs_cmp (m : Libm) (spans : List span_t) (lines : List line_t)
    (a_paragraph b_paragraph : paragraph_t) : Except Fault Int :=
  match paragraph_line_first a_paragraph, paragraph_line_first b_paragraph with
  | .ok a_ptr, .ok b_ptr =>
    match line_at lines a_ptr, line_at lines b_ptr with
    | .ok a_line, .ok b_line =>
      match line_span_first a_line, line_span_first b_line with
      | .ok ia, .ok ib =>
        match span_at spans ia, span_at spans ib with
        | .ok a_span, .ok b_span =>
          if matrix_cmp4 a_span.ctm b_span.ctm ≠ 0 then .ok (matrix_cmp4 a_span.ctm b_span.ctm)
          else
            match line_angle m spans a_line, line_angle m spans b_line with
            | .ok a_angle, .ok b_angle =>
              if |a_angle - b_angle| > (314 / 100) / 2 then .ok 0
              else
                match line_item_first spans a_line, line_item_first spans b_line with
                | .ok afirst, .ok bfirst =>
                  if line_distance m afirst.x afirst.y bfirst.x bfirst.y
                      ((a_angle + b_angle) / 2) > 0 then .ok (-1)
                  else if line_distance m afirst.x afirst.y bfirst.x bfirst.y
                      ((a_angle + b_angle) / 2) < 0 then .ok 1
                  else .ok 0
                | .error e, _ => .error e
                | _, .error e => .error e
            | .error e, _ => .error e
            | _, .error e => .error e
        | .error e, _ => .error e
        | _, .error e => .error e
      | .error e, _ => .error e
      | _, .error e => .error e
    | .error e, _ => .error e
    | _, .error e => .error e
  | .error e, _ => .error e
  | _, .error e => .error e

/-- Insertion of `x` into a sorted list, by calls of the comparison function. -/
def qsort_insert {α : Type} (cmp : α → α → Except Fault Int) (x : α) :
    List α → Except Fault (List α)
  | [] => .ok [x]
  | y :: ys =>
    match cmp x y with
    | .error e => .error e
    | .ok d =>
      if d ≤ 0 then .ok (x :: y :: ys)
      else
        match qsort_insert cmp x ys with
        | .error e => .error e
        | .ok r => .ok (y :: r)

/-- The library function `qsort`, as an insertion sort that calls the comparison function;
a fault of the comparison function ends the sort. -/
def qsort {α : Type} (cmp : α → α → Except Fault Int) : List α → Except Fault (List α)
  | [] => .ok []
  | x :: xs =>
    match qsort cmp xs with
    | .error e => .error e
    | .ok r => qsort_insert cmp x r

/-- The state of `make_paragraphs`: the page's spans and the array `paragraphs`, whose
absorbed slots are `NULL`. The page's lines do not change. -/
structure paragraphs_state where
  spans : List span_t
  paragraphs : List (Option paragraph_t)
  deriving DecidableEq

/-- The inner loop of `make_paragraphs` over `b`; the accumulator is `nearest_paragraph_b`
(set exactly when `nearest_paragraph` is) and `nearest_paragraph_distance`. -/
def make_paragraphs_scan (m : Libm) (spans : List span_t) (lines : List line_t)
    (paragraphs : List (Option paragraph_t)) (a_ptr : Nat) (line_a : line_t) (angle_a : ℚ) :
    List Nat → Option Nat × ℚ → Except Fault (Option Nat × ℚ)
  | [], nearest => .ok nearest
  | b :: bs, nearest =>
    match paragraphs[b]? with
    | some (some paragraph_b) =>
      match paragraph_line_first paragraph_b with
      | .error e => .error e
      | .ok b_ptr =>
        match line_at lines b_ptr with
        | .error e => .error e
        | .ok line_b =>
          match lines_are_compatible m spans a_ptr b_ptr line_a line_b angle_a with
          | .error e => .error e
          | .ok false =>
            make_paragraphs_scan m spans lines paragraphs a_ptr line_a angle_a bs nearest
          | .ok true =>
            match line_item_last spans line_a, line_item_first spans line_b with
            | .ok alast, .ok bfirst =>
              if line_distance m alast.x alast.y bfirst.x bfirst.y angle_a > 0 then
                if nearest.2 = -1
                    ∨ line_distance m alast.x alast.y bfirst.x bfirst.y angle_a < nearest.2 then
                  make_paragraphs_scan m spans lines paragraphs a_ptr line_a angle_a bs
                    (some b, line_distance m alast.x alast.y bfirst.x bfirst.y angle_a)
                else make_paragraphs_scan m spans lines paragraphs a_ptr line_a angle_a bs nearest
              else make_paragraphs_scan m spans lines paragraphs a_ptr line_a angle_a bs nearest
            | .error e, _ => .error e
            | _, .error e => .error e
    | _ => make_paragraphs_scan m spans lines paragraphs a_ptr line_a angle_a bs nearest

/-- The change that a join of `make_paragraphs` makes to the last span of the last line of
paragraph `a`: a trailing `-` is removed, otherwise a space is appended by `span_append_c`
and then placed after `chars[chars_num-2]`. -/
def make_paragraphs_join_span (a_span : span_t) : Except Fault span_t :=
  match span_char_last a_span with
  | .error e => .error e
  | .ok last =>
    if last.ucs = 45 then .ok { a_span with chars := a_span.chars.dropLast }
    else
      let s := span_append_c a_span 32
      match s.chars[s.chars.length - 2]?, s.chars[s.chars.length - 1]? with
      | some c_prev, some c =>
        let c1 : char_t :=
          { c with x := c_prev.x + c_prev.adv * s.ctm.a, y := c_prev.y + c_prev.adv * s.ctm.c }
        .ok { s with chars := s.chars.set (s.chars.length - 1) c1 }
      | _, _ => .error .bad_pointer

/-- The join of `make_paragraphs`: paragraph `b` is moved onto the end of paragraph `a`. -/
def make_paragraphs_join (st : paragraphs_state) (a b : Nat) (paragraph_a : paragraph_t)
    (line_a : line_t) : Except Fault paragraphs_state :=
  match st.paragraphs[b]? with
  | some (some nearest_paragraph) =>
    match line_span_last line_a with
    | .error e => .error e
    | .ok ia =>
      match span_at st.spans ia with
      | .error e => .error e
      | .ok a_span =>
        match make_paragraphs_join_span a_span with
        | .error e => .error e
        | .ok a_span1 =>
          .ok { spans := st.spans.set ia a_span1
                paragraphs :=
                  (st.paragraphs.set a
                    (some { lines := paragraph_a.lines ++ nearest_paragraph.lines })).set b none }
  | _ => .error .bad_pointer

/-- One pass of the body of the outer loop of `make_paragraphs` at index `a`; the result
holds the value of `a` at the next test of the loop condition. -/
def make_paragraphs_step (m : Libm) (lines : List line_t) (a : Nat) (st : paragraphs_state) :
    Except Fault (Nat × paragraphs_state) :=
  match st.paragraphs[a]? with
  | some (some paragraph_a) =>
    match paragraph_line_last paragraph_a with
    | .error e => .error e
    | .ok a_ptr =>
      match line_at lines a_ptr with
      | .error e => .error e
      | .ok line_a =>
        match line_angle m st.spans line_a with
        | .error e => .error e
        | .ok angle_a =>
          match make_paragraphs_scan m st.spans lines st.paragraphs a_ptr line_a angle_a
              (List.range st.paragraphs.length) (none, -1) with
          | .error e => .error e
          | .ok (none, _) => .ok (a + 1, st)
          | .ok (some b, nearest_paragraph_distance) =>
            match st.paragraphs[b]? with
            | some (some nearest_paragraph) =>
              match paragraph_line_first nearest_paragraph with
              | .error e => .error e
              | .ok b_ptr =>
                match line_at lines b_ptr with
                | .error e => .error e
                | .ok line_b =>
                  match line_font_size_max m st.spans line_b with
                  | .error e => .error e
                  | .ok line_b_size =>
                    if nearest_paragraph_distance < (3 / 2) * line_b_size then
                      match make_paragraphs_join st a b paragraph_a line_a with
                      | .error e => .error e
                      | .ok st1 => .ok (if b > a then a else a + 1, st1)
                    else .ok (a + 1, st)
            | _ => .error .bad_pointer
  | _ => .ok (a + 1, st)

/-- The outer loop of `make_paragraphs`, bounded by `fuel` passes of its body. -/
def make_paragraphs_loop (m : Libm) (lines : List line_t) :
    Nat → Nat → paragraphs_state → Except Halt paragraphs_state
  | 0, a, st => if a < st.paragraphs.length then .error .out_of_fuel else .ok st
  | fuel + 1, a, st =>
    if a < st.paragraphs.length then
      match make_paragraphs_step m lines a st with
      | .error e => .error (.fault e)
      | .ok (a1, st1) => make_paragraphs_loop m lines fuel a1 st1
    else .ok st

/-- `make_paragraphs`: returns the page's spans, which the joins may have changed, and the
paragraphs that remain after the empty slots are removed, sorted by `paragraphs_cmp`. When
no paragraph remains, `realloc` is called with the size zero and `assert(p)` fails. -/
def make_paragraphs (m : Libm) (spans : List span_t) (lines : List line_t) :
    Except Halt (List span_t × List paragraph_t) :=
  let init : paragraphs_state :=
    { spans := spans
      paragraphs := (List.range lines.length).map fun a => some { lines := [a] } }
  match make_paragraphs_loop m lines (2 * lines.length) 0 init with
  | .error e => .error e
  | .ok st =>
    if st.paragraphs.reduceOption = [] then .error (.fault .assert_failed)
    else
      match qsort (paragraphs_cmp m st.spans lines) st.paragraphs.reduceOption with
      | .error e => .error (.fault e)
      | .ok sorted => .ok (st.spans, sorted)

/-- The processing of one page by `extract_document_join`: `make_lines`, then
`make_paragraphs`. The result is the page's spans, lines and paragraphs. -/
def page_join (m : Libm) (spans : List span_t) :
    Except Halt (List span_t × List line_t × List paragraph_t) :=
  match make_lines m spans with
  | .error e => .error e
  | .ok (spans1, lines) =>
    match make_paragraphs m spans1 lines with
    | .error e => .error e
    | .ok (spans2, paragraphs) => .ok (spans2, lines, paragraphs)

/-! ## Page loader -/

/-- `page_t`: the spans of a page and, once the page is joined, its lines and paragraphs. -/
structure page_t where
  spans : List span_t
  lines : List line_t
  paragraphs : List paragraph_t
  deriving DecidableEq

/-- `extract_document_t`. -/
structure extract_document_t where
  pages : List page_t
  deriving DecidableEq

/-- Modelled from the spec: the value of an attribute of a tag. The token reader is not part
of the sources at hand; its coercion helpers "yield integer, unsigned, float, or a
six-number matrix", so an attribute carries its text, or the number or matrix that its text
denotes. -/
inductive xml_value where
  | text (s : String)
  | number (q : ℚ)
  | matrix (M : matrix_t)
  deriving DecidableEq

/-- Modelled from the spec: `extract_xml_tag_t`, a tag name with attributes and text. -/
structure extract_xml_tag_t where
  name : String
  attributes : List (String × xml_value)
  text : List Char
  deriving DecidableEq

/-- Modelled from the spec: what one call of `extract_xml_pparse_next` yields before the end
of the input, a tag or a failure of the reader. -/
inductive xml_event where
  | tag (t : extract_xml_tag_t)
  | failure
  deriving DecidableEq

/-- Modelled from the spec: `extract_xml_tag_attributes_find`, `none` for `NULL`. -/
def extract_xml_tag_attributes_find (tag : extract_xml_tag_t) (name : String) :
    Option xml_value :=
  (tag.attributes.find? fun p => p.1 = name).map Prod.snd

/-- Modelled from the spec: `extract_xml_tag_attributes_find_float`. -/
def extract_xml_tag_attributes_find_float (tag : extract_xml_tag_t) (name : String) :
    Except Fault ℚ :=
  match extract_xml_tag_attributes_find tag name with
  | some (.number q) => .ok q
  | _ => .error .attribute

/-- Modelled from the spec: `extract_xml_tag_attributes_find_int`. -/
def extract_xml_tag_attributes_find_int (tag : extract_xml_tag_t) (name : String) :
    Except Fault Int :=
  match extract_xml_tag_attributes_find tag name with
  | some (.number q) =>
    if q.den = 1 ∧ -2147483648 ≤ q.num ∧ q.num ≤ 2147483647 then .ok q.num
    else .error .attribute
  | _ => .error .attribute

/-- Modelled from the spec: `extract_xml_tag_attributes_find_uint`. -/
def extract_xml_tag_attributes_find_uint (tag : extract_xml_tag_t) (name : String) :
    Except Fault Nat :=
  match extract_xml_tag_attributes_find tag name with
  | some (.number q) =>
    if q.den = 1 ∧ 0 ≤ q.num ∧ q.num < 4294967296 then .ok q.num.toNat else .error .attribute
  | _ => .error .attribute

/-- Modelled from the spec: `extract_xml_tag_attributes_find_size`. -/
def extract_xml_tag_attributes_find_size (tag : extract_xml_tag_t) (name : String) :
    Except Fault Nat :=
  match extract_xml_tag_attributes_find tag name with
  | some (.number q) => if q.den = 1 ∧ 0 ≤ q.num then .ok q.num.toNat else .error .attribute
  | _ => .error .attribute

/-- `s_matrix_read`: `EINVAL` when the text is `NULL` or does not hold six numbers. -/
def s_matrix_read (text : Option xml_value) : Except Fault matrix_t :=
  match text with
  | some (.matrix M) => .ok M
  | _ => .error .einval

/-- `strstr(text, pattern) != NULL`. -/
def strstr : List Char → List Char → Bool
  | [], pattern => pattern.isEmpty
  | c :: cs, pattern => pattern.isPrefixOf (c :: cs) || strstr cs pattern

/-- The font name kept by the loader: the text after the first `+` found by `strchr`, or
all of it. -/
def font_name_strip (f : List Char) : List Char :=
  match f.dropWhile fun c => c ≠ '+' with
  | [] => f
  | _ :: ff => ff

/-- `page_span_end_clean` on the spans of a page: leaves them unchanged, or removes the
space in last-but-one position of the last span, or moves the last char into a new span. -/
def page_span_end_clean (m : Libm) (spans : List span_t) : Except Fault (List span_t) :=
  match spans.getLast? with
  | none => .error .assert_failed
  | some span =>
    let n := span.chars.length
    if n = 0 then .error .assert_failed
    else if n = 1 then .ok spans
    else
      match span.chars[n - 2]?, span.chars[n - 1]? with
      | some c2, some c1 =>
        let font_size := matrix_expansion m span.trm * matrix_expansion m span.ctm
        let dir : point_t :=
          multiply_matrix_point span.trm (if span.wmode then { x := 0, y := 1 } else { x := 1, y := 0 })
        let x := c2.pre_x + c2.adv * dir.x
        let y := c2.pre_y + c2.adv * dir.y
        let err_x := float_div (c1.pre_x - x) font_size
        let err_y := float_div (c1.pre_y - y) font_size
        if n ≥ 2 ∧ c2.ucs = 32 then
          let remove_penultimate_space : Bool :=
            (decide (float_lt err_x (-c2.adv / 2) ∧ float_gt err_x (-c2.adv)))
              || decide (float_lt (float_div (c1.pre_x - c2.pre_x) font_size) (c1.adv / 10))
          if remove_penultimate_space then
            .ok (spans.set (spans.length - 1)
              { span with chars := (span.chars.set (n - 2) c1).dropLast })
          else .ok spans
        else if float_fabs_gt err_x (1 / 100) ∨ float_fabs_gt err_y (1 / 100) then
          .ok (spans.set (spans.length - 1) { span with chars := span.chars.dropLast }
            ++ [{ span with chars := [c1] }])
        else .ok spans
      | _, _ => .error .bad_pointer

/-- The body of the loop over the `char` tags of a span (after the tag name is checked):
the autosplit decision, the new char, and `page_span_end_clean`. `span` is the last span
of the page. The result is the new offset and the page's spans. -/
def load_char (m : Libm) (autosplit : Bool) (tag : extract_xml_tag_t) (offset_x offset_y : ℚ)
    (spans : List span_t) : Except Fault (ℚ × ℚ × List span_t) :=
  match extract_xml_tag_attributes_find_float tag "x",
      extract_xml_tag_attributes_find_float tag "y" with
  | .ok char_pre_x, .ok char_pre_y =>
    match spans.getLast? with
    | none => .error .bad_pointer
    | some span0 =>
      let split : Bool := autosplit && decide (char_pre_y - offset_y ≠ 0)
      let e := span0.ctm.e + span0.ctm.a * (char_pre_x - offset_x)
        + span0.ctm.b * (char_pre_y - offset_y)
      let f := span0.ctm.f + span0.ctm.c * (char_pre_x - offset_x)
        + span0.ctm.d * (char_pre_y - offset_y)
      let offset_x1 := if split then char_pre_x else offset_x
      let offset_y1 := if split then char_pre_y else offset_y
      let span1 : span_t := if split then { span0 with ctm := { span0.ctm with e := e, f := f } }
        else span0
      let spans1 : List span_t :=
        if split then
          if span0.chars.length > 0 then spans ++ [{ span1 with chars := [] }]
          else spans.set (spans.length - 1) span1
        else spans
      let span : span_t := if split ∧ span0.chars.length > 0 then { span1 with chars := [] }
        else span1
      let pre_x := char_pre_x - offset_x1
      let pre_y := char_pre_y - offset_y1
      match extract_xml_tag_attributes_find_float tag "adv",
          extract_xml_tag_attributes_find_uint tag "ucs" with
      | .ok adv, .ok ucs =>
        let char_ : char_t :=
          { pre_x := pre_x, pre_y := pre_y
            x := span.ctm.a * pre_x + span.ctm.b * pre_y + span.ctm.e
            y := span.ctm.c * pre_x + span.ctm.d * pre_y + span.ctm.f
            gid := 0, ucs := ucs, adv := adv }
        match page_span_end_clean m
            (spans1.set (spans1.length - 1) { span with chars := span.chars ++ [char_] }) with
        | .error err => .error err
        | .ok spans2 => .ok (offset_x1, offset_y1, spans2)
      | .error err, _ => .error err
      | _, .error err => .error err
  | .error err, _ => .error err
  | _, .error err => .error err

/-- The start of a span (after the tag name is checked): the new span appended by
`page_span_append`, with its matrices, font and writing mode. -/
def load_span (tag : extract_xml_tag_t) : Except Fault span_t :=
  match s_matrix_read (extract_xml_tag_attributes_find tag "ctm") with
  | .error err => .error err
  | .ok ctm =>
    match s_matrix_read (extract_xml_tag_attributes_find tag "trm") with
    | .error err => .error err
    | .ok trm =>
      match extract_xml_tag_attributes_find tag "font_name" with
      | some (.text f) =>
        let font_name := font_name_strip f.toList
        match extract_xml_tag_attributes_find_int tag "wmode" with
        | .error err => .error err
        | .ok wmode =>
          .ok { ctm := ctm, trm := trm, font_name := String.mk font_name
                font_bold := strstr font_name "-Bold".toList
                font_italic := strstr font_name "-Oblique".toList
                wmode := decide (wmode % 2 ≠ 0), chars := [] }
      | _ => .error .attribute

/-- Whether `cc` is one of the hex digits accepted in image data. -/
def image_hex_digit (cc : Char) : Bool :=
  ('0' ≤ cc && cc ≤ '9') || ('a' ≤ cc && cc ≤ 'f')

/-- The loop over `i < datasize` of a compressed image: `count` is `datasize - i` and `c`
the text from the read position on; the end of the text is its terminating `NUL`. -/
def load_image_data : Nat → List Char → Except Fault Unit
  | 0, _ => .ok ()
  | _ + 1, [] => .error .einval
  | count + 1, cc :: rest =>
    if cc = ' ' ∨ cc = '\n' then load_image_data count (cc :: rest)
    else if image_hex_digit cc then
      match rest with
      | [] => .error .einval
      | cc2 :: rest2 =>
        if image_hex_digit cc2 then load_image_data count rest2 else .error .einval
    else .error .einval

/-- Where the loader is when it calls `extract_xml_pparse_next`. -/
inductive load_mode where
  /-- top of the outer loop: a `page` tag, `?xml` or the end of the input comes next -/
  | document
  /-- top of the loop over the children of a page -/
  | page
  /-- top of the loop over the children of a span, with `offset_x` and `offset_y` -/
  | span (offset_x offset_y : ℚ)
  /-- in the loop over the lines of a pixmap, before `<line>`: `y` and `h` -/
  | pixmap_line (y h : Int)
  /-- in the loop over the lines of a pixmap, before `</line>`: `y` and `h` -/
  | pixmap_line_end (y h : Int)
  /-- after the data of an image, before `</image>` -/
  | image_end

/-- The loops of `extract_intermediate_to_document` over the events of the reader. `done`
holds the pages that are complete, `spans` the spans of the page being read. -/
def load_events (m : Libm) (autosplit : Bool) :
    load_mode → List page_t → List span_t → List xml_event → Except Fault extract_document_t
  | .document, done, _, [] => .ok { pages := done }
  | _, _, _, [] => .error .reader
  | _, _, _, .failure :: _ => .error .reader
  | .document, done, spans, .tag tag :: rest =>
    if tag.name = "?xml" then load_events m autosplit .document done spans rest
    else if tag.name ≠ "page" then .error .esrch
    else load_events m autosplit .page done [] rest
  | .page, done, spans, .tag tag :: rest =>
    if tag.name = "/page" then
      load_events m autosplit .document
        (done ++ [{ spans := spans, lines := [], paragraphs := [] }]) [] rest
    else if tag.name = "image" then
      match extract_xml_tag_attributes_find tag "type" with
      | none => .error .einval
      | some type =>
        if type = .text "pixmap" then
          match extract_xml_tag_attributes_find_int tag "w",
              extract_xml_tag_attributes_find_int tag "h" with
          | .ok _, .ok h =>
            if 0 < h then load_events m autosplit (.pixmap_line 0 h) done spans rest
            else load_events m autosplit .image_end done spans rest
          | .error err, _ => .error err
          | _, .error err => .error err
        else
          match extract_xml_tag_attributes_find_size tag "datasize" with
          | .error err => .error err
          | .ok datasize =>
            match load_image_data datasize tag.text with
            | .error err => .error err
            | .ok _ => load_events m autosplit .image_end done spans rest
    else if tag.name ≠ "span" then .error .esrch
    else
      match load_span tag with
      | .error err => .error err
      | .ok span => load_events m autosplit (.span 0 0) done (spans ++ [span]) rest
  | .pixmap_line y h, done, spans, .tag tag :: rest =>
    if tag.name ≠ "line" then .error .esrch
    else
      match extract_xml_tag_attributes_find_int tag "y" with
      | .error err => .error err
      | .ok yy =>
        if yy ≠ y then .error .esrch
        else load_events m autosplit (.pixmap_line_end y h) done spans rest
  | .pixmap_line_end y h, done, spans, .tag tag :: rest =>
    if tag.name ≠ "/line" then .error .esrch
    else if y + 1 < h then load_events m autosplit (.pixmap_line (y + 1) h) done spans rest
    else load_events m autosplit .image_end done spans rest
  | .image_end, done, spans, .tag tag :: rest =>
    if tag.name ≠ "/image" then .error .esrch
    else load_events m autosplit .page done spans rest
  | .span offset_x offset_y, done, spans, .tag tag :: rest =>
    if tag.name = "/span" then load_events m autosplit .page done spans rest
    else if tag.name ≠ "char" then .error .esrch
    else
      match load_char m autosplit tag offset_x offset_y spans with
      | .error err => .error err
      | .ok (offset_x1, offset_y1, spans1) =>
        load_events m autosplit (.span offset_x1 offset_y1) done spans1 rest

/-- `extract_intermediate_to_document` on the events that the reader yields: the document
on return `0`, a fault on return `-1`. -/
def extract_intermediate_to_document (m : Libm) (events : List xml_event) (autosplit : Bool) :
    Except Fault extract_document_t :=
  load_events m autosplit .document [] [] events

/-! ## Paragraph emitter: the text of the glyphs -/

/-- Modelled from the spec: `extract_docx_char_append_string`, append-string of the dynamic
string buffer. The buffer is a list, of characters or of the items of `docx_item`. -/
def extract_docx_char_append_string {α : Type} (content : List α) (text : List α) : List α :=
  content ++ text

/-- Modelled from the spec: `extract_docx_char_append_char`, append-char of the dynamic
string buffer. -/
def extract_docx_char_append_char {α : Type} (content : List α) (c : α) : List α :=
  content ++ [c]

/-- Modelled from the spec: `extract_docx_char_truncate_if`, which drops one trailing
character iff it equals the given value. -/
def extract_docx_char_truncate_if {α : Type} [DecidableEq α] (content : List α) (c : α) :
    List α :=
  if content.getLast? = some c then content.dropLast else content

/-- The conversion `int c = char_->ucs` of a 32-bit `unsigned` to a 32-bit `int`. -/
def unsigned_to_int (ucs : Nat) : Int :=
  if ucs % 4294967296 < 2147483648 then (ucs % 4294967296 : Nat)
  else ((ucs % 4294967296 : Nat) : Int) - 4294967296

/-- The text that `snprintf` writes for `%x` given the `int` `c`: the argument read as a
32-bit `unsigned`, in lowercase hexadecimal digits. -/
def snprintf_x (c : Int) : List Char :=
  Nat.toDigits 16 (c % 4294967296).toNat

/-- The body of the loop over the chars of a span in
`extract_document_to_docx_content_paragraph`: the text appended for one glyph. -/
def docx_content_char (content : List Char) (ucs : Nat) : List Char :=
  let c := unsigned_to_int ucs
  if c = 60 then extract_docx_char_append_string content "&lt;".toList
  else if c = 62 then extract_docx_char_append_string content "&gt;".toList
  else if c = 38 then extract_docx_char_append_string content "&amp;".toList
  else if c = 34 then extract_docx_char_append_string content "&quot;".toList
  else if c = 39 then extract_docx_char_append_string content "&apos;".toList
  else if c = 0xFB00 then extract_docx_char_append_string content "ff".toList
  else if c = 0xFB01 then extract_docx_char_append_string content "fi".toList
  else if c = 0xFB02 then extract_docx_char_append_string content "fl".toList
  else if c = 0xFB03 then extract_docx_char_append_string content "ffi".toList
  else if c = 0xFB04 then extract_docx_char_append_string content "ffl".toList
  else if c ≥ 32 ∧ c ≤ 127 then extract_docx_char_append_char content (Char.ofNat c.toNat)
  else extract_docx_char_append_string content ("&#x".toList ++ snprintf_x c ++ ";".toList)

/-- The loop over the chars of a span in `extract_document_to_docx_content_paragraph`. -/
def docx_content_chars (content : List Char) (chars : List char_t) : List Char :=
  chars.foldl (fun content char_ => docx_content_char content char_.ucs) content

/-- Value of a hexadecimal digit. -/
def hex_digit_value (c : Char) : Option Nat :=
  if '0' ≤ c ∧ c ≤ '9' then some (c.toNat - 48)
  else if 'a' ≤ c ∧ c ≤ 'f' then some (c.toNat - 87)
  else if 'A' ≤ c ∧ c ≤ 'F' then some (c.toNat - 55)
  else none

/-- Value of the digits read so far (`value`) followed by the digits of the list. -/
def hex_decode_loop : List Char → Nat → Option Nat
  | [], value => some value
  | c :: cs, value =>
    match hex_digit_value c with
    | some d => hex_decode_loop cs (value * 16 + d)
    | none => none

/-- The code point that the digits of a numeric character reference `&#xHEX;` denote. -/
def hex_decode (digits : List Char) : Option Nat :=
  if digits = [] then none else hex_decode_loop digits 0

/-! ## Notions used to state and prove the properties -/

/-- The code points of the glyphs of the spans of a page, in order. -/
def spans_ucs (spans : List span_t) : List Nat :=
  spans.flatMap fun s => s.chars.map fun c => c.ucs

/-- The code points of the glyphs of the span that a span pointer points to. -/
def ucs_at (spans : List span_t) (i : Nat) : List Nat :=
  (spans[i]?.map fun s => s.chars.map fun c => c.ucs).getD []

/-- The code points of the glyphs held by the lines of a page: line by line, span by span. -/
def lines_ucs (spans : List span_t) (lines : List line_t) : List Nat :=
  lines.flatMap fun l => l.spans.flatMap (ucs_at spans)

/-- The entries held by the slots of an array of which some are `NULL`. -/
def slot_items {α : Type} (f : α → List Nat) (slots : List (Option α)) : Multiset Nat :=
  ((slots.reduceOption.flatMap f : List Nat) : Multiset Nat)

/-- What two spans must share to lie on one line: writing mode and the first four members
of the CTM. -/
def span_key (s : span_t) : Bool × ℚ × ℚ × ℚ × ℚ :=
  (s.wmode, s.ctm.a, s.ctm.b, s.ctm.c, s.ctm.d)

/-- A span of the page after spaces were appended to it: all else is as before. -/
def span_extends (o s : span_t) : Prop :=
  ∃ extra : List char_t, s = { o with chars := o.chars ++ extra } ∧ ∀ c ∈ extra, c.ucs = 32

/-- The invariant of the loop of `make_lines` over the spans `orig` it was called with. -/
structure lines_inv (orig : List span_t) (st : lines_state) : Prop where
  ext : List.Forall₂ span_extends orig st.spans
  len : st.lines.length = orig.length
  wf : ∀ (b : Nat) (l : line_t), st.lines[b]? = some (some l) →
    l.spans.head? = some b ∧ ∀ i ∈ l.spans, i < orig.length
  part : slot_items line_t.spans st.lines = Multiset.range orig.length
  same : ∀ (b : Nat) (l : line_t), st.lines[b]? = some (some l) →
    ∃ k, ∀ i ∈ l.spans, ∀ o, orig[i]? = some o → span_key o = k

/-- What the inner loop of `make_lines` has found so far is nothing, or a line `b` other
than `a` whose first span has the key of the first span of line `a`. -/
def lines_candidate (st : lines_state) (a : Nat) (line_a : line_t) (r : Option (Nat × ℚ)) :
    Prop :=
  ∀ b adv, r = some (b, adv) → b ≠ a ∧ ∃ lb ia ib sa sb,
    st.lines[b]? = some (some lb) ∧ line_a.spans.head? = some ia ∧ st.spans[ia]? = some sa ∧
    lb.spans.head? = some ib ∧ st.spans[ib]? = some sb ∧ span_key sa = span_key sb

/-- What the inner loop of `make_paragraphs` has found so far is nothing, or a paragraph `b`
whose first line is compatible with the line `line_a` at `a_ptr`. -/
def paragraphs_candidate (m : Libm) (spans : List span_t) (lines : List line_t)
    (paragraphs : List (Option paragraph_t)) (a_ptr : Nat) (line_a : line_t) (angle_a : ℚ)
    (r : Option Nat × ℚ) : Prop :=
  ∀ b, r.1 = some b → ∃ pb b_ptr line_b,
    paragraphs[b]? = some (some pb) ∧ pb.lines.head? = some b_ptr ∧
    lines[b_ptr]? = some line_b ∧
    lines_are_compatible m spans a_ptr b_ptr line_a line_b angle_a = .ok true

/-- The invariant of the loop of `make_paragraphs` over the spans `orig` and the lines it
was called with: the spans keep their keys, and a paragraph holds at least one line and
only lines of the page. -/
structure paragraphs_inv (orig : List span_t) (lines : List line_t) (st : paragraphs_state) :
    Prop where
  keys : List.Forall₂ (fun o s => span_key s = span_key o) orig st.spans
  wf : ∀ (b : Nat) (p : paragraph_t), st.paragraphs[b]? = some (some p) →
    p.lines ≠ [] ∧ ∀ li ∈ p.lines, li < lines.length

/-- The spans of the lines of a paragraph have one key. -/
def paragraph_same (orig : List span_t) (lines : List line_t) (p : paragraph_t) : Prop :=
  ∃ k, ∀ li ∈ p.lines, ∀ l, lines[li]? = some l →
    ∀ i ∈ l.spans, ∀ o, orig[i]? = some o → span_key o = k

/-- The first span of the first line of a paragraph, when the pointers lead to one. -/
def paragraph_first_span (spans : List span_t) (lines : List line_t) (p : paragraph_t) :
    Option span_t :=
  p.lines.head?.bind fun li => lines[li]?.bind fun l => l.spans.head?.bind fun i => spans[i]?

/-- The first four members of a matrix, ordered lexicographically. -/
def lex4 (M : matrix_t) : ℚ ×ₗ ℚ ×ₗ ℚ ×ₗ ℚ :=
  toLex (M.a, toLex (M.b, toLex (M.c, M.d)))

/-- The position of a glyph across the lines of a span: `x sin θ + y cos θ` for the angle
`θ` of the span. -/
def glyph_offset (m : Libm) (s : span_t) (g : char_t) : ℚ :=
  g.x * m.sin (span_angle m s) + g.y * m.cos (span_angle m s)

/-- The key by which `paragraphs_cmp` orders paragraphs: the first four members of the CTM
of the first span, then the offset of the first glyph across the lines. -/
def sort_key (m : Libm) (spans : List span_t) (lines : List line_t) (p : paragraph_t) :
    (ℚ ×ₗ ℚ ×ₗ ℚ ×ₗ ℚ) ×ₗ ℚ :=
  match paragraph_first_span spans lines p with
  | none => toLex (toLex (0, toLex (0, toLex (0, 0))), 0)
  | some s => toLex (lex4 s.ctm, (s.chars.head?.map (glyph_offset m s)).getD 0)

/-- The text for a glyph as a function of its code point `c`, read as a natural number. -/
def glyph_text (c : Nat) : List Char :=
  if c = 60 then "&lt;".toList else if c = 62 then "&gt;".toList
  else if c = 38 then "&amp;".toList else if c = 34 then "&quot;".toList
  else if c = 39 then "&apos;".toList else if c = 0xFB00 then "ff".toList
  else if c = 0xFB01 then "fi".toList else if c = 0xFB02 then "fl".toList
  else if c = 0xFB03 then "ffi".toList else if c = 0xFB04 then "ffl".toList
  else if 32 ≤ c ∧ c ≤ 127 then [Char.ofNat c]
  else "&#x".toList ++ Nat.toDigits 16 c ++ ";".toList

/-! ## Sample instances for evaluation -/

/-- Integer square root by binary digits, most significant first. -/
def isqrt_go (n : Nat) : Nat → Nat → Nat
  | 0, r => r
  | k + 1, r => if (r + 2 ^ k) * (r + 2 ^ k) ≤ n then isqrt_go n k (r + 2 ^ k) else isqrt_go n k r

/-- Sample square root: exact on squares of rationals, rounded down to six decimals
otherwise. -/
def sample_sqrt (x : ℚ) : ℚ :=
  if x ≤ 0 then 0
  else (isqrt_go (x.num.toNat * x.den * 1000000000000) 64 0 : ℚ) / ((x.den * 1000000 : Nat) : ℚ)

/-- Sample arc tangent on `[-1, 1]`. -/
def sample_atan (t : ℚ) : ℚ := t * (g_pi / 4) + (273 / 1000) * t * (1 - |t|)

/-- Sample `atan2`: exact on the positive x axis. -/
def sample_atan2 (y x : ℚ) : ℚ :=
  if x = 0 ∧ y = 0 then 0
  else if |y| ≤ |x| then
    if x > 0 then sample_atan (y / x)
    else if y ≥ 0 then sample_atan (y / x) + g_pi
    else sample_atan (y / x) - g_pi
  else
    if y > 0 then g_pi / 2 - sample_atan (x / y)
    else - g_pi / 2 - sample_atan (x / y)

/-- Sample sine: a Taylor polynomial, exact at `0`. -/
def sample_sin (x : ℚ) : ℚ := x - x ^ 3 / 6 + x ^ 5 / 120 - x ^ 7 / 5040

/-- Sample cosine: a Taylor polynomial, exact at `0`. -/
def sample_cos (x : ℚ) : ℚ := 1 - x ^ 2 / 2 + x ^ 4 / 24 - x ^ 6 / 720

/-- A computable instance of `Libm`; the numbers of the samples are `float`s, which
`to_float` leaves as they are. -/
def sample_libm : Libm :=
  { sqrt := sample_sqrt, atan2 := sample_atan2, sin := sample_sin, cos := sample_cos
    to_float := fun x => x }

/-- The identity matrix. -/
def matrix_identity : matrix_t := { a := 1, b := 0, c := 0, d := 1, e := 0, f := 0 }

/-- A glyph with code point `u` at `(x, y)`, before and after the transformation, with
advance `adv`. -/
def sample_char (u : Nat) (x y adv : ℚ) : char_t :=
  { pre_x := x, pre_y := y, x := x, y := y, gid := 0, ucs := u, adv := adv }

/-- A horizontal span with identity CTM and TRM in font `F`. -/
def sample_span (chars : List char_t) : span_t :=
  { ctm := matrix_identity, trm := matrix_identity, font_name := "F", font_bold := false,
    font_italic := false, wmode := false, chars := chars }

deriving instance DecidableEq for Except

/-- The state of `make_paragraphs` for the two lines `ab` and `xy`, one below the other. -/
def sample_paragraphs_before : paragraphs_state :=
  { spans := [sample_span [sample_char 97 0 0 1, sample_char 98 1 0 1],
              sample_span [sample_char 120 0 1 1, sample_char 121 1 1 1]]
    paragraphs := [some { lines := [0] }, some { lines := [1] }] }

/-- The state after the second line is joined onto the first. -/
def sample_paragraphs_after : paragraphs_state :=
  { spans := [sample_span [sample_char 97 0 0 1, sample_char 98 1 0 1,
                { char_init with ucs := 32, x := 2 }],
              sample_span [sample_char 120 0 1 1, sample_char 121 1 1 1]]
    paragraphs := [some { lines := [0, 1] }, none] }

/-- A tag without attributes. -/
def sample_tag (name : String) : extract_xml_tag_t :=
  { name := name, attributes := [], text := [] }

/-- A `span` tag with identity CTM and TRM, font `F` and horizontal writing mode. -/
def sample_span_tag : extract_xml_tag_t :=
  { name := "span"
    attributes := [("ctm", .matrix matrix_identity), ("trm", .matrix matrix_identity),
      ("font_name", .text "F"), ("wmode", .number 0)]
    text := [] }

/-- A `char` tag. -/
def sample_char_tag (ucs : Nat) (x y adv : ℚ) : extract_xml_tag_t :=
  { name := "char"
    attributes := [("x", .number x), ("y", .number y), ("adv", .number adv),
      ("ucs", .number ucs)]
    text := [] }

/-- Two single-glyph spans, `b` at `(0, 10)` and `a` at `(0, 0)`. -/
def sample_far_spans : List span_t :=
  [sample_span [sample_char 98 0 10 1], sample_span [sample_char 97 0 0 1]]

/-- One line for each of two spans. -/
def sample_two_lines : List line_t :=
  [{ spans := [0] }, { spans := [1] }]

/-! ## Notions for the properties of the loader -/

/-- Whether an event of the reader is a tag named `page`. -/
def is_page_tag : xml_event → Bool
  | .tag tag => decide (tag.name = "page")
  | .failure => false

/-- The number of pages that the loader has begun and not yet appended to the complete
ones: none at the top of the outer loop, one anywhere inside a page. -/
def load_mode_pending : load_mode → Nat
  | .document => 0
  | _ => 1

/-- The offset that the loader carries while it is in the loop over the children of a
span. -/
def load_mode_offset : load_mode → Option (ℚ × ℚ)
  | .span offset_x offset_y => some (offset_x, offset_y)
  | _ => none

/-- The position of `g` is its position before the transformation, mapped by `ctm` in the
way of the loader. -/
def glyph_placed (ctm : matrix_t) (g : char_t) : Prop :=
  g.x = ctm.a * g.pre_x + ctm.b * g.pre_y + ctm.e ∧
  g.y = ctm.c * g.pre_x + ctm.d * g.pre_y + ctm.f

/-- Some `char` tag among the events has the position of `g` before the transformation as
its `x` and `y`, and the code point and the advance of `g`. -/
def glyph_of_char_tag (events : List xml_event) (g : char_t) : Prop :=
  ∃ tag, xml_event.tag tag ∈ events ∧ tag.name = "char" ∧
    extract_xml_tag_attributes_find_float tag "x" = .ok g.pre_x ∧
    extract_xml_tag_attributes_find_float tag "y" = .ok g.pre_y ∧
    extract_xml_tag_attributes_find_float tag "adv" = .ok g.adv ∧
    extract_xml_tag_attributes_find_uint tag "ucs" = .ok g.ucs

/-- Some `span` tag among the events has the CTM of `span` as its `ctm`. -/
def span_of_span_tag (events : List xml_event) (span : span_t) : Prop :=
  ∃ tag, xml_event.tag tag ∈ events ∧ tag.name = "span" ∧
    s_matrix_read (extract_xml_tag_attributes_find tag "ctm") = .ok span.ctm

/-- The faults with which a function returns `-1`; the others end the program or read
outside an array. -/
def is_return_fault : Fault → Bool
  | .einval => true
  | .esrch => true
  | .reader => true
  | .attribute => true
  | _ => false

/-- A `span` tag with the given CTM and font name, identity TRM and horizontal writing
mode. -/
def sample_span_tag_of (ctm : matrix_t) (font_name : String) : extract_xml_tag_t :=
  { name := "span"
    attributes := [("ctm", .matrix ctm), ("trm", .matrix matrix_identity),
      ("font_name", .text font_name), ("wmode", .number 0)]
    text := [] }

/-- A CTM that scales by two and moves by `(10, 20)`. -/
def sample_ctm : matrix_t := { a := 2, b := 0, c := 0, d := 2, e := 10, f := 20 }

/-- An `image` tag of a compressed image with the given `datasize` and text. -/
def sample_image_tag (datasize : Nat) (text : String) : extract_xml_tag_t :=
  { name := "image"
    attributes := [("type", .text "jpeg"), ("datasize", .number datasize)]
    text := text.toList }

/-- A page with one span, whose CTM is `sample_ctm`, and one glyph at `(3, 4)`. -/
def sample_ctm_events : List xml_event :=
  [.tag (sample_tag "page"), .tag (sample_span_tag_of sample_ctm "F"),
    .tag (sample_char_tag 97 3 4 1), .tag (sample_tag "/span"), .tag (sample_tag "/page")]

/-- The document that `sample_ctm_events` is loaded as. -/
def sample_ctm_document : extract_document_t :=
  { pages := [{ spans := [{ sample_span
                  [{ pre_x := 3, pre_y := 4, x := 16, y := 28, gid := 0, ucs := 97, adv := 1 }]
                  with ctm := sample_ctm }]
                lines := [], paragraphs := [] }] }

/-! ## Paragraph emitter: paragraphs and runs -/

/-- Modelled from the spec: what the output buffer holds. The helpers that open and close
paragraphs and runs are not part of the sources at hand; the text that one call of such a
helper appends is kept as one item, which names the helper and its arguments. The other
items are the characters that the three `extract_docx_char_...` helpers append. -/
inductive docx_item where
  | char (c : Char)
  | paragraph_start
  | paragraph_finish
  | paragraph_empty
  | run_start (font_name : String) (font_size : ℚ) (bold italic : Bool)
  | run_finish
  deriving DecidableEq

/-- A text as items of the buffer. -/
def docx_text (text : List Char) : List docx_item :=
  text.map docx_item.char

/-- Modelled from the spec: `extract_docx_paragraph_start`, "open a paragraph element". -/
def extract_docx_paragraph_start (content : List docx_item) : List docx_item :=
  content ++ [.paragraph_start]

/-- Modelled from the spec: `extract_docx_paragraph_finish`, "close the paragraph". -/
def extract_docx_paragraph_finish (content : List docx_item) : List docx_item :=
  content ++ [.paragraph_finish]

/-- Modelled from the spec: `extract_docx_paragraph_empty`, "emit an empty paragraph". -/
def extract_docx_paragraph_empty (content : List docx_item) : List docx_item :=
  content ++ [.paragraph_empty]

/-- Modelled from the spec: `extract_docx_run_start`, "open a new run with those
properties". -/
def extract_docx_run_start (content : List docx_item) (font_name : String) (font_size : ℚ)
    (bold italic : Bool) : List docx_item :=
  content ++ [.run_start font_name font_size bold italic]

/-- Modelled from the spec: `extract_docx_run_finish`, "close the run". -/
def extract_docx_run_finish (content : List docx_item) : List docx_item :=
  content ++ [.run_finish]

/-- `matrices_to_font_size`: the font size, rounded to the nearest 0.01 by way of an
`int`. The product of the two expansions and the product `font_size * 100` are `float`s, and
so is the result; `+ 0.5` and `/ 100.0` are operations on `double`s, taken as exact. -/
def matrices_to_font_size (m : Libm) (ctm trm : matrix_t) : ℚ :=
  let font_size := m.to_float (matrix_expansion m trm * matrix_expansion m ctm)
  m.to_float (((float_to_int (m.to_float (font_size * 100) + 1 / 2) : Int) : ℚ) / 100)

/-- `content_state_t`: `font_name` and `ctm_prev` are `none` for `NULL`; `ctm_prev` points
at the CTM of a span, which the emitter does not change, and holds its value. -/
structure content_state_t where
  font_name : Option String
  font_size : ℚ
  font_bold : Bool
  font_italic : Bool
  ctm_prev : Option matrix_t
  deriving DecidableEq

/-- The state that the emitters set up for each page. -/
def content_state_init : content_state_t :=
  { font_name := none, font_size := 0, font_bold := false, font_italic := false
    ctm_prev := none }

/-- The body of the loop over the spans of a line in
`extract_document_to_docx_content_paragraph`: the run of the span, the text of its glyphs
(that of `docx_content_chars`, as characters of the buffer), and the removal of a
trailing `-`. -/
def docx_content_span (m : Libm) (state : content_state_t) (span : span_t)
    (content : List docx_item) : content_state_t × List docx_item :=
  let font_size_new := matrices_to_font_size m span.ctm span.trm
  let new_run : Bool :=
    match state.font_name with
    | none => true
    | some font_name =>
      decide (span.font_name ≠ font_name) || decide (span.font_bold ≠ state.font_bold)
        || decide (span.font_italic ≠ state.font_italic)
        || decide (font_size_new ≠ state.font_size)
  let state1 : content_state_t :=
    if new_run then
      { font_name := some span.font_name, font_size := font_size_new
        font_bold := span.font_bold, font_italic := span.font_italic
        ctm_prev := some span.ctm }
    else { state with ctm_prev := some span.ctm }
  let content1 :=
    if new_run then
      extract_docx_run_start
        (if state.font_name.isSome then extract_docx_run_finish content else content)
        span.font_name font_size_new span.font_bold span.font_italic
    else content
  let content2 :=
    extract_docx_char_append_string content1 (docx_text (docx_content_chars [] span.chars))
  (state1, extract_docx_char_truncate_if content2 (.char '-'))

/-- The loop over the spans of a line in `extract_document_to_docx_content_paragraph`. -/
def docx_content_line (m : Libm) (spans : List span_t) :
    List Nat → content_state_t → List docx_item →
      Except Fault (content_state_t × List docx_item)
  | [], state, content => .ok (state, content)
  | s :: rest, state, content =>
    match span_at spans s with
    | .error err => .error err
    | .ok span =>
      docx_content_line m spans rest (docx_content_span m state span content).1
        (docx_content_span m state span content).2

/-- The loop over the lines of a paragraph in
`extract_document_to_docx_content_paragraph`. -/
def docx_content_lines (m : Libm) (spans : List span_t) (lines : List line_t) :
    List Nat → content_state_t → List docx_item →
      Except Fault (content_state_t × List docx_item)
  | [], state, content => .ok (state, content)
  | l :: rest, state, content =>
    match line_at lines l with
    | .error err => .error err
    | .ok line =>
      match docx_content_line m spans line.spans state content with
      | .error err => .error err
      | .ok (state1, content1) => docx_content_lines m spans lines rest state1 content1

/-- `extract_document_to_docx_content_paragraph`, for a paragraph of the page with the
given spans and lines: the new state and the new content. -/
def extract_document_to_docx_content_paragraph (m : Libm) (spans : List span_t)
    (lines : List line_t) (state : content_state_t) (paragraph : paragraph_t)
    (content : List docx_item) : Except Fault (content_state_t × List docx_item) :=
  match docx_content_lines m spans lines paragraph.lines state
      (extract_docx_paragraph_start content) with
  | .error err => .error err
  | .ok (state1, content1) =>
    .ok ({ state1 with font_name := none },
      extract_docx_paragraph_finish
        (if state1.font_name.isSome then extract_docx_run_finish content1 else content1))

/-- The span `paragraph->lines[0]->spans[0]`; reading past the end of either array is a
fault. -/
def docx_paragraph_span (spans : List span_t) (lines : List line_t) (paragraph : paragraph_t) :
    Except Fault span_t :=
  match paragraph.lines with
  | [] => .error .bad_pointer
  | l :: _ =>
    match line_at lines l with
    | .error err => .error err
    | .ok line =>
      match line.spans with
      | [] => .error .bad_pointer
      | s :: _ => span_at spans s

/-- The test that both emitters make before a paragraph: whether spacing is on, a span was
emitted before on this page, the paragraph has a first line with a first span, and the CTM
of that span differs in `a`, `b`, `c` or `d` from the CTM of the span emitted last. -/
def docx_content_ctm_changed (spans : List span_t) (lines : List line_t) (spacing : Int)
    (state : content_state_t) (paragraph : paragraph_t) : Except Fault Bool :=
  if spacing = 0 then .ok false
  else
    match state.ctm_prev with
    | none => .ok false
    | some ctm_prev =>
      match paragraph.lines with
      | [] => .ok false
      | l :: _ =>
        match line_at lines l with
        | .error err => .error err
        | .ok line =>
          match line.spans with
          | [] => .ok false
          | s :: _ =>
            match span_at spans s with
            | .error err => .error err
            | .ok span => .ok (decide (matrix_cmp4 ctm_prev span.ctm ≠ 0))

/-- The empty paragraphs that both emitters put before a paragraph. -/
def docx_content_spacing (spans : List span_t) (lines : List line_t) (spacing : Int)
    (state : content_state_t) (paragraph : paragraph_t) (content : List docx_item) :
    Except Fault (List docx_item) :=
  match docx_content_ctm_changed spans lines spacing state paragraph with
  | .error err => .error err
  | .ok changed =>
    let content1 := if changed then extract_docx_paragraph_empty content else content
    .ok (if spacing ≠ 0 then extract_docx_paragraph_empty content1 else content1)

/-- The loop over the paragraphs of a page in
`extract_document_to_docx_content_norotation`. -/
def docx_content_norotation_page (m : Libm) (spans : List span_t) (lines : List line_t)
    (spacing : Int) :
    List paragraph_t → content_state_t → List docx_item →
      Except Fault (content_state_t × List docx_item)
  | [], state, content => .ok (state, content)
  | paragraph :: rest, state, content =>
    match docx_content_spacing spans lines spacing state paragraph content with
    | .error err => .error err
    | .ok content1 =>
      match extract_document_to_docx_content_paragraph m spans lines state paragraph
          content1 with
      | .error err => .error err
      | .ok (state2, content2) =>
        docx_content_norotation_page m spans lines spacing rest state2 content2

/-- The loop over the pages of a document in
`extract_document_to_docx_content_norotation`. -/
def docx_content_norotation_pages (m : Libm) (spacing : Int) :
    List page_t → List docx_item → Except Fault (List docx_item)
  | [], content => .ok content
  | page :: rest, content =>
    match docx_content_norotation_page m page.spans page.lines spacing page.paragraphs
        content_state_init content with
    | .error err => .error err
    | .ok (_, content1) => docx_content_norotation_pages m spacing rest content1

/-- `extract_document_to_docx_content_norotation`: the content on return `0`. -/
def extract_document_to_docx_content_norotation (m : Libm) (document : extract_document_t)
    (spacing : Int) : Except Fault (List docx_item) :=
  docx_content_norotation_pages m spacing document.pages []

/-! ## Paragraph emitter: rotated text -/

/-- The text that `printf` writes for `%i`. -/
def snprintf_i (n : Int) : List Char :=
  if n < 0 then '-' :: Nat.toDigits 10 n.natAbs else Nat.toDigits 10 n.toNat

/-- The loop over the lines of a paragraph that updates `extent`. -/
def docx_extent_lines (m : Libm) (spans : List span_t) (lines : List line_t) (rotate : ℚ)
    (origin : point_t) (ctm_inverse : matrix_t) :
    List Nat → point_t → Except Fault point_t
  | [], extent => .ok extent
  | l :: rest, extent => do
    let line ← line_at lines l
    let s ← line_span_last line
    let span ← span_at spans s
    let char_ ← span_char_last span
    let adv := char_.adv * matrix_expansion m span.trm
    let x := char_.x + adv * m.cos rotate
    let y := char_.y + adv * m.sin rotate
    let dx := x - origin.x
    let dy := y - origin.y
    let xx := ctm_inverse.a * dx + ctm_inverse.b * dy
    let yy := -(ctm_inverse.c * dx + ctm_inverse.d * dy)
    docx_extent_lines m spans lines rotate origin ctm_inverse rest
      { x := if xx > extent.x then xx else extent.x
        y := if yy > extent.y then yy else extent.y }

/-- The loop `for (p=p0; p<page->paragraphs_num; ++p)` that finds the paragraphs with the
rotation `rotate0`, on the paragraphs from `p` on: the index `p1` at which it ends, and the
extent. -/
def docx_extent_paragraphs (m : Libm) (spans : List span_t) (lines : List line_t)
    (rotate0 : ℚ) (origin : point_t) (ctm_inverse : matrix_t) :
    List paragraph_t → Nat → point_t → Except Fault (Nat × point_t)
  | [], p, extent => .ok (p, extent)
  | paragraph :: rest, p, extent => do
    let span ← docx_paragraph_span spans lines paragraph
    let rotate := m.atan2 span.ctm.b span.ctm.a
    if rotate ≠ rotate0 then .ok (p, extent)
    else
      let extent1 ← docx_extent_lines m spans lines rotate origin ctm_inverse
        paragraph.lines extent
      docx_extent_paragraphs m spans lines rotate0 origin ctm_inverse rest (p + 1) extent1

/-- The loops `for (p=p0; p<p1; ++p)` that emit the paragraphs of a text box. -/
def docx_content_paragraphs (m : Libm) (spans : List span_t) (lines : List line_t) :
    List paragraph_t → content_state_t → List docx_item →
      Except Fault (content_state_t × List docx_item)
  | [], state, content => .ok (state, content)
  | paragraph :: rest, state, content =>
    match extract_document_to_docx_content_paragraph m spans lines state paragraph
        content with
    | .error err => .error err
    | .ok (state1, content1) => docx_content_paragraphs m spans lines rest state1 content1

/-- The texts appended before the paragraphs of a text box, one for each call. -/
def docx_text_box_head (x y w h text_box_id rot : Int) : List (List Char) :=
  [
      "\n".toList,
      "\n".toList,
      "<w:p>\n".toList,
      "  <w:r>\n".toList,
      "    <mc:AlternateContent>\n".toList,
      "      <mc:Choice Requires=\"wps\">\n".toList,
      "        <w:drawing>\n".toList,
      ("          <wp:anchor distT=\"0\" distB=\"0\" distL=\"0\" distR=\"0\" simplePos=\"0\"" ++
        " relativeHeight=\"0\" behindDoc=\"0\" locked=\"0\" layoutInCell=\"1\" allowOverlap=" ++
        "\"1\" wp14:anchorId=\"53A210D1\" wp14:editId=\"2B7E8016\">\n").toList,
      "            <wp:simplePos x=\"0\" y=\"0\"/>\n".toList,
      "            <wp:positionH relativeFrom=\"page\">\n".toList,
      "              <wp:posOffset>".toList ++ snprintf_i x ++ "</wp:posOffset>\n".toList,
      "            </wp:positionH>\n".toList,
      "            <wp:positionV relativeFrom=\"page\">\n".toList,
      "              <wp:posOffset>".toList ++ snprintf_i y ++ "</wp:posOffset>\n".toList,
      "            </wp:positionV>\n".toList,
      "            <wp:extent cx=\"".toList ++ snprintf_i w ++ "\" cy=\"".toList ++ snprintf_i h ++
        "\"/>\n".toList,
      "            <wp:effectExtent l=\"381000\" t=\"723900\" r=\"371475\" b=\"723900\"/>\n".toList,
      "            <wp:wrapNone/>\n".toList,
      "            <wp:docPr id=\"".toList ++ snprintf_i text_box_id ++
        "\" name=\"Text Box ".toList ++ snprintf_i text_box_id ++ "\"/>\n".toList,
      "            <wp:cNvGraphicFramePr/>\n".toList,
      ("            <a:graphic xmlns:a=\"http://schemas.openxmlformats.org/drawingml/2006/ma" ++
        "in\">\n").toList,
      ("              <a:graphicData uri=\"http://schemas.microsoft.com/office/word/2010/wor" ++
        "dprocessingShape\">\n").toList,
      "                <wps:wsp>\n".toList,
      "                  <wps:cNvSpPr txBox=\"1\"/>\n".toList,
      "                  <wps:spPr>\n".toList,
      "                    <a:xfrm rot=\"".toList ++ snprintf_i rot ++ "\">\n".toList,
      "                      <a:off x=\"0\" y=\"0\"/>\n".toList,
      "                      <a:ext cx=\"3228975\" cy=\"2286000\"/>\n".toList,
      "                    </a:xfrm>\n".toList,
      "                    <a:prstGeom prst=\"rect\">\n".toList,
      "                      <a:avLst/>\n".toList,
      "                    </a:prstGeom>\n".toList,
      "                  </wps:spPr>\n".toList,
      "                  <wps:txbx>\n".toList,
      "                    <w:txbxContent>".toList
  ]

/-- The texts appended between the two copies of the paragraphs of a text box. -/
def docx_text_box_middle (text_box_id : Int) : List (List Char) :=
  [
      "\n".toList,
      "                    </w:txbxContent>\n".toList,
      "                  </wps:txbx>\n".toList,
      ("                  <wps:bodyPr rot=\"0\" spcFirstLastPara=\"0\" vertOverflow=\"overfl" ++
        "ow\" horzOverflow=\"overflow\" vert=\"horz\" wrap=\"square\" lIns=\"91440\" tIns=\"4" ++
        "5720\" rIns=\"91440\" bIns=\"45720\" numCol=\"1\" spcCol=\"0\" rtlCol=\"0\" fromWord" ++
        "Art=\"0\" anchor=\"t\" anchorCtr=\"0\" forceAA=\"0\" compatLnSpc=\"1\">\n").toList,
      "                    <a:prstTxWarp prst=\"textNoShape\">\n".toList,
      "                      <a:avLst/>\n".toList,
      "                    </a:prstTxWarp>\n".toList,
      "                    <a:noAutofit/>\n".toList,
      "                  </wps:bodyPr>\n".toList,
      "                </wps:wsp>\n".toList,
      "              </a:graphicData>\n".toList,
      "            </a:graphic>\n".toList,
      "          </wp:anchor>\n".toList,
      "        </w:drawing>\n".toList,
      "      </mc:Choice>\n".toList,
      "      <mc:Fallback>\n".toList,
      "        <w:pict>\n".toList,
      ("          <v:shapetype w14:anchorId=\"53A210D1\" id=\"_x0000_t202\" coordsize=\"2160" ++
        "0,21600\" o:spt=\"202\" path=\"m,l,21600r21600,l21600,xe\">\n").toList,
      "            <v:stroke joinstyle=\"miter\"/>\n".toList,
      "            <v:path gradientshapeok=\"t\" o:connecttype=\"rect\"/>\n".toList,
      "          </v:shapetype>\n".toList,
      "          <v:shape id=\"Text Box ".toList ++ snprintf_i text_box_id ++
        ("\" o:spid=\"_x0000_s1026\" type=\"#_x0000_t202\" style=\"position:absolute;margin-le" ++
        "ft:71.25pt;margin-top:48.75pt;width:254.25pt;height:180pt;rotation:-2241476fd;z-inde" ++
        "x:251659264;visibility:visible;mso-wrap-style:square;mso-wrap-distance-left:9pt;mso-" ++
        "wrap-distance-top:0;mso-wrap-distance-right:9pt;mso-wrap-distance-bottom:0;mso-posit" ++
        "ion-horizontal:absolute;mso-position-horizontal-relative:text;mso-position-vertical:" ++
        "absolute;mso-position-vertical-relative:text;v-text-anchor:top\" o:gfxdata=\"UEsDBBQ" ++
        "ABgAIAAAAIQC2gziS/gAAAOEBAAATAAAAW0NvbnRlbnRfVHlwZXNdLnhtbJSRQU7DMBBF&#10;90jcwfIWJU" ++
        "67QAgl6YK0S0CoHGBkTxKLZGx5TGhvj5O2G0SRWNoz/78nu9wcxkFMGNg6quQqL6RA&#10;0s5Y6ir5vt9lD" ++
        "1JwBDIwOMJKHpHlpr69KfdHjyxSmriSfYz+USnWPY7AufNIadK6MEJMx9ApD/oD&#10;OlTrorhX2lFEilmc" ++
        "O2RdNtjC5xDF9pCuTyYBB5bi6bQ4syoJ3g9WQ0ymaiLzg5KdCXlKLjvcW893&#10;SUOqXwnz5DrgnHtJTxO" ++
        "sQfEKIT7DmDSUCaxw7Rqn8787ZsmRM9e2VmPeBN4uqYvTtW7jvijg9N/y&#10;JsXecLq0q+WD6m8AAAD//w" ++
        "MAUEsDBBQABgAIAAAAIQA4/SH/1gAAAJQBAAALAAAAX3JlbHMvLnJl&#10;bHOkkMFqwzAMhu+DvYPRfXGaw" ++
        "xijTi+j0GvpHsDYimMaW0Yy2fr2M4PBMnrbUb/Q94l/f/hMi1qR&#10;JVI2sOt6UJgd+ZiDgffL8ekFlFSb" ++
        "vV0oo4EbChzGx4f9GRdb25HMsYhqlCwG5lrLq9biZkxWOiqY&#10;22YiTra2kYMu1l1tQD30/bPm3wwYN0x" ++
        "18gb45AdQl1tp5j/sFB2T0FQ7R0nTNEV3j6o9feQzro1i&#10;OWA14Fm+Q8a1a8+Bvu/d/dMb2JY5uiPbhG" ++
        "/ktn4cqGU/er3pcvwCAAD//wMAUEsDBBQABgAIAAAA&#10;IQDQg5pQVgIAALEEAAAOAAAAZHJzL2Uyb0RvY" ++
        "y54bWysVE1v2zAMvQ/YfxB0X+2k+WiDOEXWosOA&#10;oi3QDj0rstwYk0VNUmJ3v35PipMl3U7DLgJFPj+R" ++
        "j6TnV12j2VY5X5Mp+OAs50wZSWVtXgv+7fn2&#10;0wVnPghTCk1GFfxNeX61+Phh3tqZGtKadKkcA4nxs9Y" ++
        "WfB2CnWWZl2vVCH9GVhkEK3KNCLi616x0&#10;ogV7o7Nhnk+yllxpHUnlPbw3uyBfJP6qUjI8VJVXgemCI7" ++
        "eQTpfOVTyzxVzMXp2w61r2aYh/yKIR&#10;tcGjB6obEQTbuPoPqqaWjjxV4UxSk1FV1VKlGlDNIH9XzdNaW" ++
        "JVqgTjeHmTy/49W3m8fHatL9I4z&#10;Ixq06Fl1gX2mjg2iOq31M4CeLGChgzsie7+HMxbdVa5hjiDu4HI8" ++
        "ml5MpkkLVMcAh+xvB6kjt4Tz&#10;fDi8uJyOOZOIwZ7keWpGtmOLrNb58EVRw6JRcIdeJlqxvfMBGQC6h0S" ++
        "4J12Xt7XW6RLnR11rx7YC&#10;ndch5YwvTlDasLbgk/NxnohPYpH68P1KC/k9Vn3KgJs2cEaNdlpEK3Srrh" ++
        "doReUbdEvSQAZv5W0N&#10;3jvhw6NwGDQ4sTzhAUelCclQb3G2Jvfzb/6IR/8R5azF4Bbc/9gIpzjTXw0m4" ++
        "3IwGsVJT5fReDrE&#10;xR1HVscRs2muCQqh+8gumREf9N6sHDUv2LFlfBUhYSTeLnjYm9dht07YUamWywTC" ++
        "bFsR7syTlZF6&#10;383n7kU42/czYBTuaT/iYvaurTts/NLQchOoqlPPo8A7VXvdsRepLf0Ox8U7vifU7z/" ++
        "N4hcAAAD/&#10;/wMAUEsDBBQABgAIAAAAIQBh17L63wAAAAoBAAAPAAAAZHJzL2Rvd25yZXYueG1sTI9BT4" ++
        "NAEIXv&#10;Jv6HzZh4s0ubgpayNIboSW3Syg9Y2BGI7CyyS0v99Y4nPU3ezMub72W72fbihKPvHClYLiIQS" ++
        "LUz&#10;HTUKyvfnuwcQPmgyuneECi7oYZdfX2U6Ne5MBzwdQyM4hHyqFbQhDKmUvm7Rar9wAxLfPtxodWA5" ++
        "&#10;NtKM+szhtperKEqk1R3xh1YPWLRYfx4nq8APVfz9VQxPb+WUNC+vZbGPDhelbm/mxy2IgHP4M8Mv&#1" ++
        "0;PqNDzkyVm8h40bNer2K2Ktjc82RDEi+5XKVgHfNG5pn8XyH/AQAA//8DAFBLAQItABQABgAIAAAA&#10;I" ++
        "QC2gziS/gAAAOEBAAATAAAAAAAAAAAAAAAAAAAAAABbQ29udGVudF9UeXBlc10ueG1sUEsBAi0A&#10;FAAG" ++
        "AAgAAAAhADj9If/WAAAAlAEAAAsAAAAAAAAAAAAAAAAALwEAAF9yZWxzLy5yZWxzUEsBAi0A&#10;FAAGAAg" ++
        "AAAAhANCDmlBWAgAAsQQAAA4AAAAAAAAAAAAAAAAALgIAAGRycy9lMm9Eb2MueG1sUEsB&#10;Ai0AFAAGAA" ++
        "gAAAAhAGHXsvrfAAAACgEAAA8AAAAAAAAAAAAAAAAAsAQAAGRycy9kb3ducmV2Lnht&#10;bFBLBQYAAAAAB" ++
        "AAEAPMAAAC8BQAAAAA=&#10;\" fillcolor=\"white [3201]\" strokeweight=\".5pt\">\n").toList,
      "            <v:textbox>\n".toList,
      "              <w:txbxContent>".toList
  ]

/-- The texts appended after the paragraphs of a text box. -/
def docx_text_box_tail : List (List Char) :=
  [
      "\n".toList,
      "\n".toList,
      "              </w:txbxContent>\n".toList,
      "            </v:textbox>\n".toList,
      "          </v:shape>\n".toList,
      "        </w:pict>\n".toList,
      "      </mc:Fallback>\n".toList,
      "    </mc:AlternateContent>\n".toList,
      "  </w:r>\n".toList,
      "</w:p>".toList
  ]

/-- Successive calls of `extract_docx_char_append_string` and
`extract_docx_char_append_stringf`. -/
def docx_append_texts (content : List docx_item) (texts : List (List Char)) :
    List docx_item :=
  texts.foldl (fun content text => extract_docx_char_append_string content (docx_text text))
    content

/-- The branch `if (rotate)` of `extract_document_to_docx_content_rotation`, for the
paragraph `p0` with first span `span` and rotation `rotate`: the index of the first
paragraph after the text box, the state, the id of the text box and the content. -/
def docx_content_text_box (m : Libm) (page : page_t) (p0 : Nat) (span : span_t) (rotate : ℚ)
    (state : content_state_t) (text_box_id : Int) (content : List docx_item) :
    Except Fault (Nat × content_state_t × Int × List docx_item) :=
  match span.chars with
  | [] => .error .bad_pointer
  | char_ :: _ =>
    let ctm := span.ctm
    let origin : point_t := { x := char_.x, y := char_.y }
    let ctm_det := ctm.a * ctm.d - ctm.b * ctm.c
    let ctm_inverse : matrix_t :=
      if ctm_det ≠ 0 then
        { a := ctm.d / ctm_det, b := -ctm.b / ctm_det, c := -ctm.c / ctm_det
          d := ctm.a / ctm_det, e := 0, f := 0 }
      else { a := 1, b := 0, c := 0, d := 1, e := 0, f := 0 }
    match docx_extent_paragraphs m page.spans page.lines rotate origin ctm_inverse
        (page.paragraphs.drop p0) p0 { x := 0, y := 0 } with
    | .error err => .error err
    | .ok (p1, extent) =>
      let text_box_id1 := text_box_id + 1
      let rot := float_to_int (rotate * 180 / g_pi * 60000)
      let x0 := float_to_int (ctm.e * 12700)
      let y0 := float_to_int (ctm.f * 12700)
      let w := float_to_int (extent.x * 12700)
      let h := int_wrap (float_to_int (extent.y * 12700) * 2)
      let dx := float_to_int
        (((Int.tdiv w 2 : Int) : ℚ) * (1 - m.cos rotate)
          + ((Int.tdiv h 2 : Int) : ℚ) * m.sin rotate)
      let dy := float_to_int
        (((Int.tdiv h 2 : Int) : ℚ) * (m.cos rotate - 1)
          + ((Int.tdiv w 2 : Int) : ℚ) * m.sin rotate)
      let x := int_wrap (x0 - dx)
      let y := int_wrap (y0 - int_wrap (-dy))
      let box := (page.paragraphs.drop p0).take (p1 - p0)
      match docx_content_paragraphs m page.spans page.lines box state
          (docx_append_texts content (docx_text_box_head x y w h text_box_id1 rot)) with
      | .error err => .error err
      | .ok (state1, content1) =>
        match docx_content_paragraphs m page.spans page.lines box state1
            (docx_append_texts content1 (docx_text_box_middle text_box_id1)) with
        | .error err => .error err
        | .ok (state2, content2) =>
          .ok (p1, state2, text_box_id1, docx_append_texts content2 docx_text_box_tail)

/-- The loop over the paragraphs of a page in `extract_document_to_docx_content_rotation`,
from the paragraph `p` on, on a budget of steps. -/
def docx_content_rotation_page (m : Libm) (page : page_t) (spacing : Int) :
    Nat → Nat → content_state_t → Int → List docx_item →
      Except Halt (content_state_t × Int × List docx_item)
  | 0, _, _, _, _ => .error .out_of_fuel
  | fuel + 1, p, state, text_box_id, content =>
    match page.paragraphs[p]? with
    | none => .ok (state, text_box_id, content)
    | some paragraph =>
      match docx_content_spacing page.spans page.lines spacing state paragraph content with
      | .error err => .error (.fault err)
      | .ok content1 =>
        match docx_paragraph_span page.spans page.lines paragraph with
        | .error err => .error (.fault err)
        | .ok span =>
          let rotate := m.atan2 span.ctm.b span.ctm.a
          if rotate ≠ 0 then
            match docx_content_text_box m page p span rotate state text_box_id content1 with
            | .error err => .error (.fault err)
            | .ok (p1, state1, text_box_id1, content2) =>
              docx_content_rotation_page m page spacing fuel p1 state1 text_box_id1 content2
          else
            match extract_document_to_docx_content_paragraph m page.spans page.lines state
                paragraph content1 with
            | .error err => .error (.fault err)
            | .ok (state1, content2) =>
              docx_content_rotation_page m page spacing fuel (p + 1) state1 text_box_id
                content2

/-- The loop over the pages of a document in `extract_document_to_docx_content_rotation`;
each page has a budget of one step for each of its paragraphs and one more. -/
def docx_content_rotation_pages (m : Libm) (spacing : Int) :
    List page_t → Int → List docx_item → Except Halt (List docx_item)
  | [], _, content => .ok content
  | page :: rest, text_box_id, content =>
    match docx_content_rotation_page m page spacing (page.paragraphs.length + 1) 0
        content_state_init text_box_id content with
    | .error err => .error err
    | .ok (_, text_box_id1, content1) =>
      docx_content_rotation_pages m spacing rest text_box_id1 content1

/-- `extract_document_to_docx_content_rotation`: the content on return `0`. -/
def extract_document_to_docx_content_rotation (m : Libm) (document : extract_document_t)
    (spacing : Int) : Except Halt (List docx_item) :=
  docx_content_rotation_pages m spacing document.pages 0 []

/-- `extract_document_to_docx_content`: the content on return `0`. -/
def extract_document_to_docx_content (m : Libm) (document : extract_document_t)
    (spacing rotation : Int) : Except Halt (List docx_item) :=
  if rotation ≠ 0 then extract_document_to_docx_content_rotation m document spacing
  else
    match extract_document_to_docx_content_norotation m document spacing with
    | .error err => .error (.fault err)
    | .ok content => .ok content


/-! ## Notions for the properties of the emitter -/

/-- The spans that the span pointers of a line point to, in order; `none` when one of them
does not point to a span. -/
def line_spans (spans : List span_t) : List Nat → Option (List span_t)
  | [] => some []
  | s :: rest =>
    match spans[s]?, line_spans spans rest with
    | some span, some ss => some (span :: ss)
    | _, _ => none

/-- The spans of the lines that the line pointers of a paragraph point to, in order; `none`
when a pointer does not point to a line or to a span. -/
def paragraph_spans (spans : List span_t) (lines : List line_t) : List Nat → Option (List span_t)
  | [] => some []
  | l :: rest =>
    match lines[l]? with
    | none => none
    | some line =>
      match line_spans spans line.spans, paragraph_spans spans lines rest with
      | some ss, some tt => some (ss ++ tt)
      | _, _ => none

/-- The body of the loop over the spans of a line, for each span of a list in turn. -/
def docx_content_spans (m : Libm) :
    List span_t → content_state_t → List docx_item → content_state_t × List docx_item
  | [], state, content => (state, content)
  | span :: rest, state, content =>
    docx_content_spans m rest (docx_content_span m state span content).1
      (docx_content_span m state span content).2

/-- The four properties of a span that the emitter compares with its state. -/
def run_key (m : Libm) (span : span_t) : String × Bool × Bool × ℚ :=
  (span.font_name, span.font_bold, span.font_italic,
    matrices_to_font_size m span.ctm span.trm)

/-- The item that opens a run with the properties of a span. -/
def run_start_of (m : Libm) (span : span_t) : docx_item :=
  .run_start span.font_name (matrices_to_font_size m span.ctm span.trm) span.font_bold
    span.font_italic

/-- The state in which the emitter leaves a span. -/
def state_after (m : Libm) (span : span_t) : content_state_t :=
  { font_name := some span.font_name
    font_size := matrices_to_font_size m span.ctm span.trm
    font_bold := span.font_bold, font_italic := span.font_italic
    ctm_prev := some span.ctm }

/-- The items that open and close runs, as the emitter is to produce them for the spans of a
paragraph after the span `earlier`: a run is opened at the first span, and at every later
span whose four properties differ from those of the span before it, after the run before is
closed. -/
def run_items (m : Libm) : Option span_t → List span_t → List docx_item
  | _, [] => []
  | none, span :: rest => run_start_of m span :: run_items m (some span) rest
  | some earlier, span :: rest =>
    (if run_key m span = run_key m earlier then [] else [.run_finish, run_start_of m span])
      ++ run_items m (some span) rest

/-- The items that the emitter appends for a paragraph when no run is open. -/
def paragraph_items (m : Libm) (spans : List span_t) (lines : List line_t)
    (paragraph : paragraph_t) : List docx_item :=
  match extract_document_to_docx_content_paragraph m spans lines content_state_init paragraph
      [] with
  | .ok r => r.2
  | .error _ => []

/-- Whether an item opens, closes or is a paragraph. -/
def is_paragraph_item : docx_item → Bool
  | .paragraph_start => true
  | .paragraph_finish => true
  | .paragraph_empty => true
  | _ => false

/-- The number of empty paragraphs that the emitter puts before a paragraph, given the CTM
of the span that it emitted last on the page. -/
def empty_paragraphs (spans : List span_t) (lines : List line_t) (spacing : Int)
    (ctm_prev : Option matrix_t) (paragraph : paragraph_t) : Nat :=
  if spacing = 0 then 0
  else
    match ctm_prev, paragraph_first_span spans lines paragraph with
    | some M, some span => if matrix_cmp4 M span.ctm ≠ 0 then 2 else 1
    | _, _ => 1

/-- The CTM of the span emitted last once a paragraph is emitted: that of its last span,
or the one before when it has no span. -/
def paragraph_last_ctm (spans : List span_t) (lines : List line_t)
    (ctm_prev : Option matrix_t) (paragraph : paragraph_t) : Option matrix_t :=
  match (paragraph_spans spans lines paragraph.lines).bind List.getLast? with
  | some span => some span.ctm
  | none => ctm_prev

/-- The items of a page without rotation: before each paragraph the empty paragraphs
counted by `empty_paragraphs`. -/
def norotation_trace (m : Libm) (spans : List span_t) (lines : List line_t) (spacing : Int) :
    Option matrix_t → List paragraph_t → List docx_item
  | _, [] => []
  | ctm_prev, paragraph :: rest =>
    List.replicate (empty_paragraphs spans lines spacing ctm_prev paragraph) .paragraph_empty
      ++ paragraph_items m spans lines paragraph
      ++ norotation_trace m spans lines spacing
          (paragraph_last_ctm spans lines ctm_prev paragraph) rest

/-- The number of empty paragraphs before a paragraph as a function of the paragraph
emitted before it on the page, if any: none when spacing is off; else one, and one more
when the CTM of the earlier paragraph differs in `a`, `b`, `c` or `d`. The CTM of a
paragraph is that of its first span. -/
def empty_paragraphs_before (spans : List span_t) (lines : List line_t) (spacing : Int)
    (earlier : Option paragraph_t) (paragraph : paragraph_t) : Nat :=
  if spacing = 0 then 0
  else
    match earlier.bind (paragraph_first_span spans lines),
        paragraph_first_span spans lines paragraph with
    | some earlier_span, some span =>
      if matrix_cmp4 earlier_span.ctm span.ctm ≠ 0 then 2 else 1
    | _, _ => 1

/-- The items of a page without rotation, with the empty paragraphs counted by
`empty_paragraphs_before`. -/
def norotation_items (m : Libm) (spans : List span_t) (lines : List line_t) (spacing : Int) :
    Option paragraph_t → List paragraph_t → List docx_item
  | _, [] => []
  | earlier, paragraph :: rest =>
    List.replicate (empty_paragraphs_before spans lines spacing earlier paragraph)
        .paragraph_empty
      ++ paragraph_items m spans lines paragraph
      ++ norotation_items m spans lines spacing (some paragraph) rest

/-- A paragraph whose pointers all point into the page, that has a first span, and whose
spans share `a`, `b`, `c` and `d` of the CTM. -/
def paragraph_uniform (spans : List span_t) (lines : List line_t) (paragraph : paragraph_t) :
    Prop :=
  ∃ ss, paragraph_spans spans lines paragraph.lines = some ss ∧
    (paragraph_first_span spans lines paragraph).isSome ∧
    ∀ s ∈ ss, ∀ t ∈ ss, matrix_cmp4 s.ctm t.ctm = 0

/-- The spans `a`, `b` and a bold `c`, all in font `F` at size 1. -/
def sample_run_spans : List span_t :=
  [sample_span [sample_char 97 0 0 1], sample_span [sample_char 98 1 0 1],
    { sample_span [sample_char 99 2 0 1] with font_bold := true }]

/-- The spans `a-` and `b`. -/
def sample_hyphen_spans : List span_t :=
  [sample_span [sample_char 97 0 0 1, sample_char 45 1 0 1], sample_span [sample_char 98 2 0 1]]

/-- A page of three paragraphs of one span each: `a` with the identity as CTM, then `b`
and `c` with `sample_ctm`. -/
def sample_spacing_page : page_t :=
  { spans := [sample_span [sample_char 97 0 0 1],
      { sample_span [sample_char 98 0 0 1] with ctm := sample_ctm },
      { sample_span [sample_char 99 0 0 1] with ctm := sample_ctm }]
    lines := [{ spans := [0] }, { spans := [1] }, { spans := [2] }]
    paragraphs := [{ lines := [0] }, { lines := [1] }, { lines := [2] }] }

/-! ## Notions for the joins of `make_lines` -/

/-- Line `b` can be joined onto line `a`, at the distance `adv`: its slot is not `NULL`, it
is not `a`, it is compatible with `a`, and the direction from the last glyph of `span_a` to
its first glyph is within one degree of `angle_a`; `adv` is `spans_adv` of these two
glyphs. -/
def lines_joinable (m : Libm) (st : lines_state) (a : Nat) (line_a : line_t) (span_a : span_t)
    (angle_a : ℚ) (b : Nat) (adv : ℚ) : Prop :=
  ∃ (line_b : line_t) (ib : Nat) (span_b : span_t) (bfirst alast : char_t),
    st.lines[b]? = some (some line_b) ∧ b ≠ a ∧
    lines_are_compatible m st.spans a b line_a line_b angle_a = .ok true ∧
    line_b.spans.head? = some ib ∧ st.spans[ib]? = some span_b ∧
    span_b.chars.head? = some bfirst ∧ span_a.chars.getLast? = some alast ∧
    |m.atan2 (-(bfirst.y - alast.y)) (bfirst.x - alast.x) - angle_a| * 180 / g_pi ≤ 1 ∧
    adv = spans_adv m span_a alast bfirst


/-- The state in which the outer loop of `make_lines` starts: one line for each span. -/
def lines_state_init (spans : List span_t) : lines_state :=
  { spans := spans, lines := (List.range spans.length).map fun a => some { spans := [a] } }

/-- The span `abc` on the baseline, its glyphs one unit apart from `x = 0`. -/
def sample_abc : span_t :=
  sample_span [sample_char 97 0 0 1, sample_char 98 1 0 1, sample_char 99 2 0 1]

/-- The span `def` on the baseline, its glyphs one unit apart from `x`. -/
def sample_def (x : ℚ) : span_t :=
  sample_span [sample_char 100 x 0 1, sample_char 101 (x + 1) 0 1, sample_char 102 (x + 2) 0 1]

/-- Three single-glyph spans on one baseline, at `x = 0`, `x = 3` and `x = 3/2`. -/
def sample_gap_spans : List span_t :=
  [sample_span [sample_char 97 0 0 1], sample_span [sample_char 98 3 0 1],
    sample_span [sample_char 99 (3 / 2) 0 1]]

/-! ## Notions for `line_font_size_max` and `page_span_end_clean` -/

/-- A horizontal one-glyph span whose TRM is the identity scaled by `size`. -/
def sample_sized_span (size : ℚ) (c : char_t) : span_t :=
  { sample_span [c] with trm := { a := size, b := 0, c := 0, d := size, e := 0, f := 0 } }

/-- The `font_size` of `page_span_end_clean`. -/
def span_end_font_size (m : Libm) (span : span_t) : ℚ :=
  matrix_expansion m span.trm * matrix_expansion m span.ctm

/-- The `dir` of `page_span_end_clean`: the unit vector of the writing mode under the TRM. -/
def span_end_dir (span : span_t) : point_t :=
  multiply_matrix_point span.trm (if span.wmode then { x := 0, y := 1 } else { x := 1, y := 0 })

/-- The `err_x` of `page_span_end_clean` for the last two glyphs `prev` and `cur`. -/
def span_end_err_x (m : Libm) (span : span_t) (prev cur : char_t) : float_quot :=
  float_div (cur.pre_x - (prev.pre_x + prev.adv * (span_end_dir span).x))
    (span_end_font_size m span)

/-- The `err_y` of `page_span_end_clean` for the last two glyphs `prev` and `cur`. -/
def span_end_err_y (m : Libm) (span : span_t) (prev cur : char_t) : float_quot :=
  float_div (cur.pre_y - (prev.pre_y + prev.adv * (span_end_dir span).y))
    (span_end_font_size m span)

/-- The two tests of `page_span_end_clean` that set `remove_penultimate_space`; at
`font_size == 0` the quotients are infinities or NaNs. -/
def span_end_overlap (m : Libm) (span : span_t) (prev cur : char_t) : Prop :=
  (float_lt (span_end_err_x m span prev cur) (-prev.adv / 2)
      ∧ float_gt (span_end_err_x m span prev cur) (-prev.adv)) ∨
    float_lt (float_div (cur.pre_x - prev.pre_x) (span_end_font_size m span)) (cur.adv / 10)

instance (m : Libm) (span : span_t) (prev cur : char_t) :
    Decidable (span_end_overlap m span prev cur) := by
  unfold span_end_overlap
  infer_instance

/-- The test of `page_span_end_clean` that splits the span. -/
def span_end_apart (m : Libm) (span : span_t) (prev cur : char_t) : Prop :=
  float_fabs_gt (span_end_err_x m span prev cur) (1 / 100)
    ∨ float_fabs_gt (span_end_err_y m span prev cur) (1 / 100)

instance (m : Libm) (span : span_t) (prev cur : char_t) :
    Decidable (span_end_apart m span prev cur) := by
  unfold span_end_apart
  infer_instance

/-! ## Notions for the emitter with rotation -/

/-- Whether a span pointer points to a span that holds a glyph. -/
def span_boxable (spans : List span_t) (s : Nat) : Bool :=
  match spans[s]? with
  | some span => !span.chars.isEmpty
  | none => false

/-- Whether a line pointer points to a line that has a span, all of whose span pointers
point to spans that hold a glyph. -/
def line_boxable (spans : List span_t) (lines : List line_t) (l : Nat) : Bool :=
  match lines[l]? with
  | some line => !line.spans.isEmpty && line.spans.all (span_boxable spans)
  | none => false

/-- Whether the emitter with rotation can read a paragraph: it has a line, its lines have
spans and its spans have glyphs, and all its pointers point into the page. -/
def paragraph_boxable (spans : List span_t) (lines : List line_t) (paragraph : paragraph_t) :
    Bool :=
  !paragraph.lines.isEmpty && paragraph.lines.all (line_boxable spans lines)

/-- The rotation of a paragraph: `atan2(ctm->b, ctm->a)` for the CTM of the first span of
its first line; `0` when it has none. -/
def paragraph_rotation (m : Libm) (spans : List span_t) (lines : List line_t)
    (paragraph : paragraph_t) : ℚ :=
  match docx_paragraph_span spans lines paragraph with
  | .ok span => m.atan2 span.ctm.b span.ctm.a
  | .error _ => 0

/-- The `rot` of a text box for the rotation `rotate`, in radians. -/
def text_box_rot (rotate : ℚ) : Int :=
  float_to_int (rotate * 180 / g_pi * 60000)

/-- The items of a text box that holds the paragraphs `run`: the texts before, the
paragraphs, the texts between, the paragraphs once more, and the texts after. -/
def text_box_items (m : Libm) (spans : List span_t) (lines : List line_t)
    (x y w h text_box_id rot : Int) (run : List paragraph_t) : List docx_item :=
  docx_text (docx_text_box_head x y w h text_box_id rot).flatten
    ++ run.flatMap (paragraph_items m spans lines)
    ++ docx_text (docx_text_box_middle text_box_id).flatten
    ++ run.flatMap (paragraph_items m spans lines)
    ++ docx_text docx_text_box_tail.flatten

/-- The items of the paragraphs of a page as the emitter with rotation is to produce them,
empty paragraphs apart: a paragraph without rotation gives its own items; a paragraph with
rotation gives one text box, which holds it and the paragraphs that follow it up to the
first one with another rotation, and the items go on with that one. -/
inductive rotation_emits (m : Libm) (spans : List span_t) (lines : List line_t) :
    List paragraph_t → List docx_item → Prop where
  | done : rotation_emits m spans lines [] []
  | plain (p : paragraph_t) (rest : List paragraph_t) (items : List docx_item) :
      paragraph_rotation m spans lines p = 0 →
      rotation_emits m spans lines rest items →
      rotation_emits m spans lines (p :: rest) (paragraph_items m spans lines p ++ items)
  | box (p : paragraph_t) (rest : List paragraph_t) (items : List docx_item)
      (x y w h text_box_id : Int) :
      paragraph_rotation m spans lines p ≠ 0 →
      rotation_emits m spans lines
        (rest.dropWhile fun q =>
          decide (paragraph_rotation m spans lines q = paragraph_rotation m spans lines p))
        items →
      rotation_emits m spans lines (p :: rest)
        (text_box_items m spans lines x y w h text_box_id
            (text_box_rot (paragraph_rotation m spans lines p))
            (p :: rest.takeWhile fun q =>
              decide (paragraph_rotation m spans lines q = paragraph_rotation m spans lines p))
          ++ items)

/-- The items of the pages of a document as the emitter with rotation is to produce them,
empty paragraphs apart. -/
inductive rotation_emits_pages (m : Libm) : List page_t → List docx_item → Prop where
  | done : rotation_emits_pages m [] []
  | page (page : page_t) (rest : List page_t) (items items1 : List docx_item) :
      rotation_emits m page.spans page.lines page.paragraphs items →
      rotation_emits_pages m rest items1 →
      rotation_emits_pages m (page :: rest) (items ++ items1)

/-- A page of three one-glyph paragraphs: `a` and a bold `b` turned by a quarter, then an
italic `c` upright. -/
def sample_rotated_page : page_t :=
  { spans :=
      [{ sample_span [sample_char 97 5 7 1] with
          ctm := { a := 0, b := 1, c := -1, d := 0, e := 5, f := 7 } },
        { sample_span [sample_char 98 6 7 1] with
          ctm := { a := 0, b := 1, c := -1, d := 0, e := 6, f := 7 }, font_bold := true },
        { sample_span [sample_char 99 0 0 1] with font_italic := true }]
    lines := [{ spans := [0] }, { spans := [1] }, { spans := [2] }]
    paragraphs := [{ lines := [0] }, { lines := [1] }, { lines := [2] }] }

/-! ## Notions for the last claims: inverse CTM, XML safety, runs, glyph places -/

/-- The `ctm_inverse` that the emitter with rotation computes for a text box from the CTM
of its first span. -/
def text_box_ctm_inverse (ctm : matrix_t) : matrix_t :=
  let ctm_det := ctm.a * ctm.d - ctm.b * ctm.c
  if ctm_det ≠ 0 then
    { a := ctm.d / ctm_det, b := -ctm.b / ctm_det, c := -ctm.c / ctm_det
      d := ctm.a / ctm_det, e := 0, f := 0 }
  else { a := 1, b := 0, c := 0, d := 1, e := 0, f := 0 }

/-- A piece of text that can stand in XML character data: one character other than
`<`, `>`, `&`, the double quote and the apostrophe; one of the five named entities; or
`&#x`, one or more hexadecimal digits, and `;`. -/
def xml_safe_piece (piece : List Char) : Prop :=
  (∃ c : Char, piece = [c] ∧ c ≠ '<' ∧ c ≠ '>' ∧ c ≠ '&' ∧ c ≠ Char.ofNat 34
      ∧ c ≠ Char.ofNat 39) ∨
    piece ∈ ["&lt;".toList, "&gt;".toList, "&amp;".toList, "&quot;".toList, "&apos;".toList] ∨
    ∃ digits : List Char, digits ≠ [] ∧ (∀ d ∈ digits, (hex_digit_value d).isSome = true) ∧
      piece = "&#x".toList ++ digits ++ ";".toList

/-- A text made of pieces that can stand in XML character data. -/
def xml_safe_text (text : List Char) : Prop :=
  ∃ pieces : List (List Char), text = pieces.flatten ∧ ∀ piece ∈ pieces, xml_safe_piece piece

/-- Whether an item opens a run. -/
def is_run_start : docx_item → Bool
  | .run_start _ _ _ _ => true
  | _ => false

/-- A run as the emitter writes it: the item that opens it, the characters of its text,
and the item that closes it. -/
def run_group (group : docx_item × List Char) : List docx_item :=
  group.1 :: docx_text group.2 ++ [.run_finish]

/-- The items of a well bracketed paragraph: the opening of the paragraph, runs one after
the other, each opened by a `run_start` item, and the closing of the paragraph. -/
def well_bracketed (items : List docx_item) : Prop :=
  ∃ groups : List (docx_item × List Char),
    (∀ group ∈ groups, is_run_start group.1 = true) ∧
    items = .paragraph_start :: groups.flatMap run_group ++ [.paragraph_finish]

/-- What is compared of a glyph between two loads of one input: its position after the
transformation, its code point and its advance. -/
def char_place (g : char_t) : ℚ × ℚ × Nat × ℚ := (g.x, g.y, g.ucs, g.adv)

/-- The glyphs of the spans of a page, span after span. -/
def spans_glyphs (spans : List span_t) : List (ℚ × ℚ × Nat × ℚ) :=
  spans.flatMap fun s => s.chars.map char_place

/-- The glyphs of a document, page after page. -/
def document_glyphs (doc : extract_document_t) : List (ℚ × ℚ × Nat × ℚ) :=
  doc.pages.flatMap fun page => spans_glyphs page.spans

/-- The glyph of a `char` tag under the matrix `M` of its `span` tag: the attributes `x`
and `y` transformed by `M`, with `ucs` and `adv`. -/
def tag_glyph (M : matrix_t) (tag : extract_xml_tag_t) : Option (ℚ × ℚ × Nat × ℚ) :=
  match extract_xml_tag_attributes_find_float tag "x",
      extract_xml_tag_attributes_find_float tag "y",
      extract_xml_tag_attributes_find_float tag "adv",
      extract_xml_tag_attributes_find_uint tag "ucs" with
  | .ok x, .ok y, .ok adv, .ok ucs =>
    some (M.a * x + M.b * y + M.e, M.c * x + M.d * y + M.f, ucs, adv)
  | _, _, _, _ => none

/-- The glyphs of the `char` tags of the input in their order, each under the `ctm` of the
last `span` tag before it; `cur` is that matrix at the start. No setting of the loader
enters here. -/
def events_glyphs : Option matrix_t → List xml_event → List (ℚ × ℚ × Nat × ℚ)
  | _, [] => []
  | cur, .failure :: rest => events_glyphs cur rest
  | cur, .tag tag :: rest =>
    if tag.name = "span" then
      match s_matrix_read (extract_xml_tag_attributes_find tag "ctm") with
      | .ok M => events_glyphs (some M) rest
      | .error _ => events_glyphs cur rest
    else if tag.name = "char" then
      match cur with
      | some M => (tag_glyph M tag).toList ++ events_glyphs cur rest
      | none => events_glyphs cur rest
    else events_glyphs cur rest

/-- What the loader keeps while it reads the glyphs of a span whose tag has the matrix `M`:
the CTM of the last span of the page is `M` moved by the offset. -/
def span_ctm_shifted (M : matrix_t) (offset_x offset_y : ℚ) (spans : List span_t) : Prop :=
  ∃ last, spans.getLast? = some last ∧
    last.ctm.a = M.a ∧ last.ctm.b = M.b ∧ last.ctm.c = M.c ∧ last.ctm.d = M.d ∧
    last.ctm.e = M.e + M.a * offset_x + M.b * offset_y ∧
    last.ctm.f = M.f + M.c * offset_x + M.d * offset_y

/-- The glyphs of pages, page after page. -/
def pages_glyphs (pages : List page_t) : List (ℚ × ℚ × Nat × ℚ) :=
  pages.flatMap fun page => spans_glyphs page.spans

/-- What the loader keeps between two reads: inside a span, the CTM of the last span of
the page is the matrix `cur` of the `span` tag moved by the offset. -/
def load_mode_shifted (cur : Option matrix_t) : load_mode → List span_t → Prop
  | .span offset_x offset_y, spans => ∃ M, cur = some M ∧ span_ctm_shifted M offset_x offset_y spans
  | _, _ => True

/-- A page with one span, whose CTM is `sample_ctm`: `a` at `(0, 0)`, a space at `(1, 0)`
and a wide `b` at `(1, 5)`. -/
def sample_autosplit_events : List xml_event :=
  [.tag (sample_tag "page"), .tag (sample_span_tag_of sample_ctm "F"),
    .tag (sample_char_tag 97 0 0 1), .tag (sample_char_tag 32 1 0 1),
    .tag (sample_char_tag 98 1 5 20), .tag (sample_tag "/span"), .tag (sample_tag "/page")]

/-- The document that `sample_autosplit_events` is loaded as with autosplit on. -/
def sample_autosplit_document : extract_document_t :=
  { pages := [{ spans := [
                  { sample_span
                      [{ pre_x := 0, pre_y := 0, x := 10, y := 20, gid := 0, ucs := 97, adv := 1 },
                        { pre_x := 1, pre_y := 0, x := 12, y := 20, gid := 0, ucs := 32, adv := 1 }]
                    with ctm := sample_ctm },
                  { sample_span
                      [{ pre_x := 0, pre_y := 0, x := 12, y := 30, gid := 0, ucs := 98, adv := 20 }]
                    with ctm := { a := 2, b := 0, c := 0, d := 2, e := 12, f := 30 } }]
                lines := [], paragraphs := [] }] }

/-- Two spans of one line each: `a` at `(0, 1)` and `b` at `(1, 0)`, then `c` at
`(0, 1/2)`, which is below `b` and above `a`. -/
def sample_fold_spans : List span_t :=
  [sample_span [sample_char 97 0 1 1, sample_char 98 1 0 1],
    sample_span [sample_char 99 0 (1 / 2) 1]]

/-- The state of `make_paragraphs` at the start, for the two lines of `sample_fold_spans`. -/
def sample_fold_start : paragraphs_state :=
  { spans := sample_fold_spans
    paragraphs := [some { lines := [0] }, some { lines := [1] }] }

/-- The state after the second line is joined onto the first. -/
def sample_fold_joined : paragraphs_state :=
  { spans := [sample_span [sample_char 97 0 1 1, sample_char 98 1 0 1,
                { char_init with ucs := 32, x := 2 }],
              sample_span [sample_char 99 0 (1 / 2) 1]]
    paragraphs := [some { lines := [0, 1] }, none] }

/-- The state after the paragraph of both lines is joined onto itself. -/
def sample_fold_emptied : paragraphs_state :=
  { spans := [sample_span [sample_char 97 0 1 1, sample_char 98 1 0 1,
                { char_init with ucs := 32, x := 2 }],
              sample_span [sample_char 99 0 (1 / 2) 1,
                { char_init with ucs := 32, x := 1, y := 1 / 2 }]]
    paragraphs := [none, none] }

/-- The glyph that the loader makes, with autosplit off, of a `char` tag inside a span whose
tag has the matrix `M`: `pre_x` and `pre_y` are the attributes `x` and `y`, the position is
`(a * x + b * y + e, c * x + d * y + f)` for the members of `M`, and `ucs` and `adv` are
those of the tag. -/
def tag_char (M : matrix_t) (tag : extract_xml_tag_t) : Option char_t :=
  match extract_xml_tag_attributes_find_float tag "x",
      extract_xml_tag_attributes_find_float tag "y",
      extract_xml_tag_attributes_find_float tag "adv",
      extract_xml_tag_attributes_find_uint tag "ucs" with
  | .ok x, .ok y, .ok adv, .ok ucs =>
    some { pre_x := x, pre_y := y
           x := M.a * x + M.b * y + M.e
           y := M.c * x + M.d * y + M.f
           gid := 0, ucs := ucs, adv := adv }
  | _, _, _, _ => none

/-- The glyphs of the `char` tags of the input in their order, each with the `ctm` of the
`span` tag that encloses it: `cur` is that matrix inside a span, it is set at a `span` tag
and dropped at `/span`, and a `char` tag outside a span gives nothing. -/
def events_chars : Option matrix_t → List xml_event → List (matrix_t × char_t)
  | _, [] => []
  | cur, .failure :: rest => events_chars cur rest
  | cur, .tag tag :: rest =>
    if tag.name = "span" then
      match s_matrix_read (extract_xml_tag_attributes_find tag "ctm") with
      | .ok M => events_chars (some M) rest
      | .error _ => events_chars cur rest
    else if tag.name = "/span" then events_chars none rest
    else if tag.name = "char" then
      match cur with
      | some M => ((tag_char M tag).map fun g => (M, g)).toList ++ events_chars cur rest
      | none => events_chars cur rest
    else events_chars cur rest

/-- The glyphs of the spans of a page, span after span, each with the CTM of the span that
holds it. -/
def spans_chars (spans : List span_t) : List (matrix_t × char_t) :=
  spans.flatMap fun s => s.chars.map fun g => (s.ctm, g)

/-- The glyphs of pages, page after page, each with the CTM of the span that holds it. -/
def pages_chars (pages : List page_t) : List (matrix_t × char_t) :=
  pages.flatMap fun page => spans_chars page.spans

/-- What the loader keeps, with autosplit off, while it reads the glyphs of a span whose tag
has the matrix `cur`: the offset is zero and the CTM of the last span of the page is that
matrix. -/
def load_mode_enclosed (cur : Option matrix_t) : load_mode → List span_t → Prop
  | .span offset_x offset_y, spans =>
    offset_x = 0 ∧ offset_y = 0 ∧
      ∃ M last, cur = some M ∧ spans.getLast? = some last ∧ last.ctm = M
  | _, _ => True

/-- A page with two spans of one glyph each, the first with the CTM `sample_ctm` and the
second with the identity: `a` at `(3, 4)` and `b` at `(5, 6)`. -/
def sample_two_ctm_events : List xml_event :=
  [.tag (sample_tag "page"), .tag (sample_span_tag_of sample_ctm "F"),
    .tag (sample_char_tag 97 3 4 1), .tag (sample_tag "/span"),
    .tag (sample_span_tag_of matrix_identity "F"),
    .tag (sample_char_tag 98 5 6 1), .tag (sample_tag "/span"), .tag (sample_tag "/page")]

/-- The document that `sample_two_ctm_events` is loaded as. -/
def sample_two_ctm_document : extract_document_t :=
  { pages := [{ spans := [
                  { sample_span
                      [{ pre_x := 3, pre_y := 4, x := 16, y := 28, gid := 0, ucs := 97, adv := 1 }]
                    with ctm := sample_ctm },
                  sample_span
                    [{ pre_x := 5, pre_y := 6, x := 5, y := 6, gid := 0, ucs := 98, adv := 1 }]]
                lines := [], paragraphs := [] }] }


/-! ## Facts about the text of a glyph -/

theorem unsigned_to_int_eq_iff (c k : Nat) (hc : c < 4294967296) (hk : k < 2147483648) :
    unsigned_to_int c = (k : Int) ↔ c = k := by
  unfold unsigned_to_int
  rw [Nat.mod_eq_of_lt hc]
  split <;> omega

theorem unsigned_to_int_range (c : Nat) (hc : c < 4294967296) :
    (unsigned_to_int c ≥ 32 ∧ unsigned_to_int c ≤ 127) ↔ (32 ≤ c ∧ c ≤ 127) := by
  unfold unsigned_to_int
  rw [Nat.mod_eq_of_lt hc]
  split <;> omega

theorem unsigned_to_int_toNat (c : Nat) (hc : c ≤ 127) : (unsigned_to_int c).toNat = c := by
  unfold unsigned_to_int
  rw [Nat.mod_eq_of_lt (by omega)]
  split <;> omega

theorem snprintf_x_unsigned (c : Nat) (hc : c < 4294967296) :
    snprintf_x (unsigned_to_int c) = Nat.toDigits 16 c := by
  unfold snprintf_x unsigned_to_int
  rw [Nat.mod_eq_of_lt hc]
  congr 1
  split <;> omega

/-- The text appended for a glyph, as a function of its code point. -/
theorem docx_content_char_eq (content : List Char) (c : Nat) (hc : c < 4294967296) :
    docx_content_char content c = content ++ glyph_text c := by
  have e := fun k hk => unsigned_to_int_eq_iff c k hc hk
  have e60 := e 60 (by norm_num)
  have e62 := e 62 (by norm_num)
  have e38 := e 38 (by norm_num)
  have e34 := e 34 (by norm_num)
  have e39 := e 39 (by norm_num)
  have e0 := e 0xFB00 (by norm_num)
  have e1 := e 0xFB01 (by norm_num)
  have e2 := e 0xFB02 (by norm_num)
  have e3 := e 0xFB03 (by norm_num)
  have e4 := e 0xFB04 (by norm_num)
  have er := unsigned_to_int_range c hc
  have ex := snprintf_x_unsigned c hc
  unfold docx_content_char extract_docx_char_append_string extract_docx_char_append_char
    glyph_text
  simp only [Nat.cast_ofNat] at e60 e62 e38 e34 e39 e0 e1 e2 e3 e4
  simp only [e60, e62, e38, e34, e39, e0, e1, e2, e3, e4, er, ex]
  by_cases h1 : c = 60
  · rw [if_pos h1, if_pos h1]
  rw [if_neg h1, if_neg h1]
  by_cases h2 : c = 62
  · rw [if_pos h2, if_pos h2]
  rw [if_neg h2, if_neg h2]
  by_cases h3 : c = 38
  · rw [if_pos h3, if_pos h3]
  rw [if_neg h3, if_neg h3]
  by_cases h4 : c = 34
  · rw [if_pos h4, if_pos h4]
  rw [if_neg h4, if_neg h4]
  by_cases h5 : c = 39
  · rw [if_pos h5, if_pos h5]
  rw [if_neg h5, if_neg h5]
  by_cases h6 : c = 64256
  · rw [if_pos h6, if_pos h6]
  rw [if_neg h6, if_neg h6]
  by_cases h7 : c = 64257
  · rw [if_pos h7, if_pos h7]
  rw [if_neg h7, if_neg h7]
  by_cases h8 : c = 64258
  · rw [if_pos h8, if_pos h8]
  rw [if_neg h8, if_neg h8]
  by_cases h9 : c = 64259
  · rw [if_pos h9, if_pos h9]
  rw [if_neg h9, if_neg h9]
  by_cases h10 : c = 64260
  · rw [if_pos h10, if_pos h10]
  rw [if_neg h10, if_neg h10]
  by_cases h11 : 32 ≤ c ∧ c ≤ 127
  · rw [if_pos h11, if_pos h11, unsigned_to_int_toNat c h11.2]
  rw [if_neg h11, if_neg h11]


theorem glyph_text_verbatim (c : Nat) (h1 : 32 ≤ c) (h2 : c ≤ 127) (n60 : c ≠ 60)
    (n62 : c ≠ 62) (n38 : c ≠ 38) (n34 : c ≠ 34) (n39 : c ≠ 39) :
    glyph_text c = [Char.ofNat c] := by
  have l0 : c ≠ 0xFB00 := by omega
  have l1 : c ≠ 0xFB01 := by omega
  have l2 : c ≠ 0xFB02 := by omega
  have l3 : c ≠ 0xFB03 := by omega
  have l4 : c ≠ 0xFB04 := by omega
  unfold glyph_text
  simp only [n60, n62, n38, n34, n39, l0, l1, l2, l3, l4, if_false]
  exact if_pos ⟨h1, h2⟩

theorem glyph_text_escaped (c : Nat) (h1 : c < 32 ∨ 127 < c) (h2 : c < 0xFB00 ∨ 0xFB04 < c) :
    glyph_text c = "&#x".toList ++ Nat.toDigits 16 c ++ ";".toList := by
  have n60 : c ≠ 60 := by omega
  have n62 : c ≠ 62 := by omega
  have n38 : c ≠ 38 := by omega
  have n34 : c ≠ 34 := by omega
  have n39 : c ≠ 39 := by omega
  have l0 : c ≠ 0xFB00 := by omega
  have l1 : c ≠ 0xFB01 := by omega
  have l2 : c ≠ 0xFB02 := by omega
  have l3 : c ≠ 0xFB03 := by omega
  have l4 : c ≠ 0xFB04 := by omega
  have hr : ¬ (32 ≤ c ∧ c ≤ 127) := by omega
  unfold glyph_text
  simp only [n60, n62, n38, n34, n39, l0, l1, l2, l3, l4, if_false]
  exact if_neg hr

theorem docx_content_char_mod (content : List Char) (c : Nat) :
    docx_content_char content c = docx_content_char content (c % 4294967296) := by
  unfold docx_content_char unsigned_to_int
  rw [Nat.mod_mod]

theorem hex_digit_value_digitChar (d : Nat) (hd : d < 16) :
    hex_digit_value (Nat.digitChar d) = some d := by
  interval_cases d <;> decide

theorem digitChar_ascii (d : Nat) (hd : d < 16) :
    32 ≤ (Nat.digitChar d).toNat ∧ (Nat.digitChar d).toNat ≤ 127 := by
  interval_cases d <;> decide

theorem hex_decode_loop_toDigitsCore (fuel : Nat) :
    ∀ (n : Nat) (ds : List Char), n < fuel →
      hex_decode_loop (Nat.toDigitsCore 16 fuel n ds) 0 = hex_decode_loop ds n := by
  induction fuel with
  | zero => intro n ds h; omega
  | succ fuel ih =>
    intro n ds h
    have hd := hex_digit_value_digitChar (n % 16) (Nat.mod_lt _ (by norm_num))
    unfold Nat.toDigitsCore
    by_cases h0 : n / 16 = 0
    · simp only [h0, if_true]
      have : n % 16 = n := by omega
      rw [this] at hd ⊢
      simp only [hex_decode_loop, hd, Nat.zero_mul, Nat.zero_add]
    · simp only [h0, if_false]
      rw [ih (n / 16) _ (by omega)]
      simp only [hex_decode_loop, hd]
      congr 1
      omega

theorem toDigitsCore_ne_nil (fuel : Nat) :
    ∀ (n : Nat) (ds : List Char), 0 < fuel → Nat.toDigitsCore 16 fuel n ds ≠ [] := by
  induction fuel with
  | zero => intro n ds h; omega
  | succ fuel ih =>
    intro n ds _
    unfold Nat.toDigitsCore
    by_cases h0 : n / 16 = 0
    · simp [h0]
    · simp only [h0, if_false]
      cases fuel with
      | zero => simp [Nat.toDigitsCore]
      | succ k => exact ih _ _ (by omega)

theorem hex_decode_toDigits (c : Nat) : hex_decode (Nat.toDigits 16 c) = some c := by
  unfold hex_decode Nat.toDigits
  rw [if_neg (toDigitsCore_ne_nil _ _ _ (by omega))]
  rw [hex_decode_loop_toDigitsCore _ _ _ (by omega)]
  rfl

theorem toDigitsCore_ascii (fuel : Nat) :
    ∀ (n : Nat) (ds : List Char), (∀ ch ∈ ds, 32 ≤ ch.toNat ∧ ch.toNat ≤ 127) →
      ∀ ch ∈ Nat.toDigitsCore 16 fuel n ds, 32 ≤ ch.toNat ∧ ch.toNat ≤ 127 := by
  induction fuel with
  | zero => intro n ds h; simpa [Nat.toDigitsCore] using h
  | succ fuel ih =>
    intro n ds h
    have hd := digitChar_ascii (n % 16) (Nat.mod_lt _ (by norm_num))
    have h1 : ∀ ch ∈ Nat.digitChar (n % 16) :: ds, 32 ≤ ch.toNat ∧ ch.toNat ≤ 127 := by
      intro ch hch
      rcases List.mem_cons.1 hch with rfl | hch
      · exact hd
      · exact h ch hch
    unfold Nat.toDigitsCore
    by_cases h0 : n / 16 = 0
    · simpa only [h0, if_true] using h1
    · simp only [h0, if_false]
      exact ih _ _ h1

theorem docx_content_char_ascii (content : List Char) (c : Nat) :
    ∀ ch ∈ docx_content_char content c, ch ∈ content ∨ (32 ≤ ch.toNat ∧ ch.toNat ≤ 127) := by
  intro ch hch
  rw [docx_content_char_mod, docx_content_char_eq _ _ (Nat.mod_lt _ (by norm_num))] at hch
  rcases List.mem_append.1 hch with h | h
  · exact Or.inl h
  · right
    clear hch
    revert h
    generalize c % 4294967296 = k
    intro h
    unfold glyph_text at h
    by_cases h1 : k = 60
    · rw [if_pos h1] at h; revert ch; decide
    rw [if_neg h1] at h
    by_cases h2 : k = 62
    · rw [if_pos h2] at h; revert ch; decide
    rw [if_neg h2] at h
    by_cases h3 : k = 38
    · rw [if_pos h3] at h; revert ch; decide
    rw [if_neg h3] at h
    by_cases h4 : k = 34
    · rw [if_pos h4] at h; revert ch; decide
    rw [if_neg h4] at h
    by_cases h5 : k = 39
    · rw [if_pos h5] at h; revert ch; decide
    rw [if_neg h5] at h
    by_cases h6 : k = 64256
    · rw [if_pos h6] at h; revert ch; decide
    rw [if_neg h6] at h
    by_cases h7 : k = 64257
    · rw [if_pos h7] at h; revert ch; decide
    rw [if_neg h7] at h
    by_cases h8 : k = 64258
    · rw [if_pos h8] at h; revert ch; decide
    rw [if_neg h8] at h
    by_cases h9 : k = 64259
    · rw [if_pos h9] at h; revert ch; decide
    rw [if_neg h9] at h
    by_cases h10 : k = 64260
    · rw [if_pos h10] at h; revert ch; decide
    rw [if_neg h10] at h
    by_cases h11 : 32 ≤ k ∧ k ≤ 127
    · rw [if_pos h11, List.mem_singleton] at h
      subst h
      have hv : k.isValidChar := by
        unfold Nat.isValidChar
        omega
      have : (Char.ofNat k).toNat = k := by
        simp [Char.ofNat, hv, Char.toNat, Char.ofNatAux]
        rfl
      omega
    · rw [if_neg h11] at h
      rcases List.mem_append.1 h with h12 | h12
      · rcases List.mem_append.1 h12 with h13 | h13
        · clear h h12; revert ch; decide
        · exact toDigitsCore_ascii _ _ _ (by simp) ch h13
      · clear h; revert ch; decide

/-- C5: for every 32-bit code point `c`, the text appended for a glyph with `ucs == c` is
the named entity for `< > & " '`, `ff fi fl ffi ffl` for U+FB00..U+FB04, the character
itself for the other code points of 32..127, and otherwise `&#x`, the lowercase
hexadecimal digits of `c`, and `;`. -/
theorem glyph_text_by_code_point (content : List Char) (c : Nat) (hc : c < 4294967296) :
    (c = 60 → docx_content_char content c = content ++ "&lt;".toList) ∧
    (c = 62 → docx_content_char content c = content ++ "&gt;".toList) ∧
    (c = 38 → docx_content_char content c = content ++ "&amp;".toList) ∧
    (c = 34 → docx_content_char content c = content ++ "&quot;".toList) ∧
    (c = 39 → docx_content_char content c = content ++ "&apos;".toList) ∧
    (c = 0xFB00 → docx_content_char content c = content ++ "ff".toList) ∧
    (c = 0xFB01 → docx_content_char content c = content ++ "fi".toList) ∧
    (c = 0xFB02 → docx_content_char content c = content ++ "fl".toList) ∧
    (c = 0xFB03 → docx_content_char content c = content ++ "ffi".toList) ∧
    (c = 0xFB04 → docx_content_char content c = content ++ "ffl".toList) ∧
    (32 ≤ c → c ≤ 127 → c ≠ 60 → c ≠ 62 → c ≠ 38 → c ≠ 34 → c ≠ 39 →
      docx_content_char content c = content ++ [Char.ofNat c]) ∧
    ((c < 32 ∨ 127 < c) → (c < 0xFB00 ∨ 0xFB04 < c) →
      docx_content_char content c
        = content ++ ("&#x".toList ++ Nat.toDigits 16 c ++ ";".toList)) := by
  rw [docx_content_char_eq content c hc]
  refine ⟨?_, ?_, ?_, ?_, ?_, ?_, ?_, ?_, ?_, ?_, ?_, ?_⟩
  any_goals (intro h; subst h; rfl)
  · intro h1 h2 h3 h4 h5 h6 h7
    rw [glyph_text_verbatim c h1 h2 h3 h4 h5 h6 h7]
  · intro h1 h2
    rw [glyph_text_escaped c h1 h2]

/-- Witness of C5 at the em dash U+2014. -/
theorem glyph_text_by_code_point_witness :
    docx_content_char [] 0x2014 = "&#x2014;".toList :=
  ((glyph_text_by_code_point [] 0x2014 (by decide)).2.2.2.2.2.2.2.2.2.2.2
    (by decide) (by decide)).trans (by decide)

/-- C6, as stated, fails: the text emitted for U+FB01 is `fi`, which is neither the code
point itself, nor a named entity, nor a numeric reference. -/
theorem escaping_round_trip_fails_on_ligature :
    ¬ ((32 ≤ 0xFB01 ∧ 0xFB01 ≤ 127 ∧ docx_content_char [] 0xFB01 = [Char.ofNat 0xFB01]) ∨
       docx_content_char [] 0xFB01 ∈
         ["&lt;".toList, "&gt;".toList, "&amp;".toList, "&quot;".toList, "&apos;".toList] ∨
       ∃ digits, docx_content_char [] 0xFB01 = "&#x".toList ++ digits ++ ";".toList ∧
         hex_decode digits = some 0xFB01) := by
  have h : docx_content_char [] 0xFB01 = "fi".toList := by decide
  rw [h]
  rintro (h1 | h1 | ⟨digits, h1, -⟩)
  · omega
  · revert h1; decide
  · simp at h1

/-- C6, amended: a code point of 32..127 other than `< > & " '` is emitted as itself; each
of `< > & " '` is emitted as a named entity; U+FB00..U+FB04 are emitted as their ASCII
expansions; every other code point is emitted as `&#xHEX;` and `HEX` decodes to the code
point. -/
theorem escaping_round_trip (c : Nat) (hc : c < 4294967296) :
    (32 ≤ c → c ≤ 127 → c ≠ 60 → c ≠ 62 → c ≠ 38 → c ≠ 34 → c ≠ 39 →
      docx_content_char [] c = [Char.ofNat c]) ∧
    (c = 60 ∨ c = 62 ∨ c = 38 ∨ c = 34 ∨ c = 39 →
      docx_content_char [] c ∈
        ["&lt;".toList, "&gt;".toList, "&amp;".toList, "&quot;".toList, "&apos;".toList]) ∧
    (0xFB00 ≤ c ∧ c ≤ 0xFB04 →
      docx_content_char [] c ∈
        ["ff".toList, "fi".toList, "fl".toList, "ffi".toList, "ffl".toList]) ∧
    ((c < 32 ∨ 127 < c) → (c < 0xFB00 ∨ 0xFB04 < c) →
      ∃ digits, docx_content_char [] c = "&#x".toList ++ digits ++ ";".toList ∧
        hex_decode digits = some c) := by
  refine ⟨?_, ?_, ?_, ?_⟩
  · intro h1 h2 h3 h4 h5 h6 h7
    rw [docx_content_char_eq [] c hc, glyph_text_verbatim c h1 h2 h3 h4 h5 h6 h7]
    rfl
  · rintro (h | h | h | h | h) <;> subst h <;> decide
  · rintro ⟨h1, h2⟩
    interval_cases c <;> decide
  · intro h1 h2
    refine ⟨Nat.toDigits 16 c, ?_, hex_decode_toDigits c⟩
    rw [docx_content_char_eq [] c hc, glyph_text_escaped c h1 h2]
    rfl

/-- Witness of the amended C6 at U+00E9. -/
theorem escaping_round_trip_witness :
    ∃ digits, docx_content_char [] 0xE9 = "&#x".toList ++ digits ++ ";".toList ∧
      hex_decode digits = some 0xE9 :=
  (escaping_round_trip 0xE9 (by decide)).2.2.2 (by decide) (by decide)

theorem docx_content_chars_ascii (chars : List char_t) :
    ∀ (content : List Char) (ch : Char), ch ∈ docx_content_chars content chars →
      ch ∈ content ∨ (32 ≤ ch.toNat ∧ ch.toNat ≤ 127) := by
  induction chars with
  | nil => intro content ch h; exact Or.inl h
  | cons g gs ih =>
    intro content ch h
    have h1 : ch ∈ docx_content_chars (docx_content_char content g.ucs) gs := h
    rcases ih _ _ h1 with h2 | h2
    · exact docx_content_char_ascii content g.ucs ch h2
    · exact Or.inr h2

/-- C7: every character that the emitter appends for a sequence of glyphs is an ASCII
character in 32..127; so the text holds no code point of U+FB00..U+FB04 and none above
127. -/
theorem emitted_text_is_ascii (chars : List char_t) :
    ∀ ch ∈ docx_content_chars [] chars,
      (32 ≤ ch.toNat ∧ ch.toNat ≤ 127) ∧ ¬ (0xFB00 ≤ ch.toNat ∧ ch.toNat ≤ 0xFB04) := by
  intro ch h
  rcases docx_content_chars_ascii chars [] ch h with h1 | h1
  · simp at h1
  · exact ⟨h1, by omega⟩

/-- Witness of C7: the first character emitted for the ligature U+FB01 is `f`. -/
theorem emitted_text_is_ascii_witness :
    (32 ≤ 'f'.toNat ∧ 'f'.toNat ≤ 127) ∧ ¬ (0xFB00 ≤ 'f'.toNat ∧ 'f'.toNat ≤ 0xFB04) :=
  emitted_text_is_ascii [sample_char 0xFB01 0 0 0] 'f' (by decide!)


/-! ## The join of `make_paragraphs` -/

theorem two_last_of_append (init : List char_t) (prev sp c1 : char_t) :
    (init ++ [prev] ++ [sp])[(init ++ [prev] ++ [sp]).length - 2]? = some prev ∧
    (init ++ [prev] ++ [sp])[(init ++ [prev] ++ [sp]).length - 1]? = some sp ∧
    (init ++ [prev] ++ [sp]).set ((init ++ [prev] ++ [sp]).length - 1) c1
      = init ++ [prev] ++ [c1] := by
  have hl2 : (init ++ [prev] ++ [sp]).length - 2 = init.length := by simp
  have hl1 : (init ++ [prev] ++ [sp]).length - 1 = (init ++ [prev]).length := by simp
  refine ⟨?_, ?_, ?_⟩
  · rw [hl2, List.append_assoc, List.getElem?_append_right (le_refl _)]
    simp
  · rw [hl1, List.getElem?_concat_length]
  · rw [hl1, List.set_append_right _ _ (le_refl _)]
    simp

theorem make_paragraphs_join_span_eq (a_span : span_t) (prev : char_t)
    (h : a_span.chars.getLast? = some prev) :
    make_paragraphs_join_span a_span = .ok
      { a_span with chars :=
          if prev.ucs = 45 then a_span.chars.dropLast
          else a_span.chars ++
            [{ char_init with ucs := 32, x := prev.x + prev.adv * a_span.ctm.a
                              y := prev.y + prev.adv * a_span.ctm.c }] } := by
  obtain ⟨init, hinit⟩ := List.getLast?_eq_some_iff.1 h
  unfold make_paragraphs_join_span span_char_last
  simp only [h]
  by_cases hu : prev.ucs = 45
  · simp only [hu, if_true]
  · simp only [hu, if_false, span_append_c, hinit]
    obtain ⟨h2, h1, h3⟩ := two_last_of_append init prev { char_init with ucs := 32 }
      { char_init with ucs := 32, x := prev.x + prev.adv * a_span.ctm.a
                       y := prev.y + prev.adv * a_span.ctm.c }
    simp only [h2, h1]
    congr 2



/-! ## Arrays with `NULL` slots -/

theorem reduceOption_length_set_none {α : Type} (l : List (Option α)) :
    ∀ (b : Nat) (x : α), l[b]? = some (some x) →
      (l.set b none).reduceOption.length + 1 = l.reduceOption.length := by
  induction l with
  | nil => intro b x h; simp at h
  | cons y ys ih =>
    intro b x h
    cases b with
    | zero =>
      simp only [List.getElem?_cons_zero, Option.some.injEq] at h
      subst h
      simp [List.reduceOption_cons_of_some, List.reduceOption_cons_of_none]
    | succ b =>
      rw [List.getElem?_cons_succ] at h
      have := ih b x h
      cases y with
      | none => simpa [List.reduceOption_cons_of_none] using this
      | some z =>
        simp only [List.set_cons_succ, List.reduceOption_cons_of_some, List.length_cons]
        omega

theorem reduceOption_length_set_some {α : Type} (l : List (Option α)) :
    ∀ (a : Nat) (x y : α), l[a]? = some (some x) →
      (l.set a (some y)).reduceOption.length = l.reduceOption.length := by
  induction l with
  | nil => intro a x y h; simp at h
  | cons z zs ih =>
    intro a x y h
    cases a with
    | zero =>
      simp only [List.getElem?_cons_zero, Option.some.injEq] at h
      subst h
      simp [List.reduceOption_cons_of_some]
    | succ a =>
      rw [List.getElem?_cons_succ] at h
      have := ih a x y h
      cases z with
      | none => simpa [List.reduceOption_cons_of_none] using this
      | some w =>
        simp only [List.set_cons_succ, List.reduceOption_cons_of_some, List.length_cons]
        omega

theorem slot_items_set_none {α : Type} (f : α → List Nat) (l : List (Option α)) :
    ∀ (b : Nat) (x : α), l[b]? = some (some x) →
      slot_items f (l.set b none) + ((f x : List Nat) : Multiset Nat) = slot_items f l := by
  induction l with
  | nil => intro b x h; simp at h
  | cons y ys ih =>
    intro b x h
    cases b with
    | zero =>
      simp only [List.getElem?_cons_zero, Option.some.injEq] at h
      subst h
      simp only [slot_items, List.set_cons_zero, List.reduceOption_cons_of_none,
        List.reduceOption_cons_of_some, List.flatMap_cons, ← Multiset.coe_add]
      exact add_comm _ _
    | succ b =>
      rw [List.getElem?_cons_succ] at h
      have := ih b x h
      cases y with
      | none =>
        simpa only [slot_items, List.set_cons_succ, List.reduceOption_cons_of_none] using this
      | some z =>
        simp only [slot_items, List.set_cons_succ, List.reduceOption_cons_of_some,
          List.flatMap_cons, ← Multiset.coe_add] at this ⊢
        rw [add_assoc, this]

theorem slot_items_set_some {α : Type} (f : α → List Nat) (l : List (Option α)) :
    ∀ (a : Nat) (x y : α), l[a]? = some (some x) →
      slot_items f (l.set a (some y)) + ((f x : List Nat) : Multiset Nat)
        = slot_items f l + ((f y : List Nat) : Multiset Nat) := by
  induction l with
  | nil => intro a x y h; simp at h
  | cons z zs ih =>
    intro a x y h
    cases a with
    | zero =>
      simp only [List.getElem?_cons_zero, Option.some.injEq] at h
      subst h
      simp only [slot_items, List.set_cons_zero, List.reduceOption_cons_of_some,
        List.flatMap_cons, ← Multiset.coe_add]
      abel
    | succ a =>
      rw [List.getElem?_cons_succ] at h
      have := ih a x y h
      cases z with
      | none =>
        simpa only [slot_items, List.set_cons_succ, List.reduceOption_cons_of_none] using this
      | some w =>
        simp only [slot_items, List.set_cons_succ, List.reduceOption_cons_of_some,
          List.flatMap_cons, ← Multiset.coe_add] at this ⊢
        rw [add_assoc, this, add_assoc]

/-- Moving the entries of slot `b` to the end of slot `a` keeps the entries held. -/
theorem slot_items_join {α : Type} (f : α → List Nat) (l : List (Option α)) (a b : Nat)
    (x y z : α) (hab : a ≠ b) (ha : l[a]? = some (some x)) (hb : l[b]? = some (some y))
    (hz : f z = f x ++ f y) :
    slot_items f ((l.set a (some z)).set b none) = slot_items f l := by
  have hb' : (l.set a (some z))[b]? = some (some y) := by
    rw [List.getElem?_set_ne hab]; exact hb
  have h1 := slot_items_set_none f (l.set a (some z)) b y hb'
  have h2 := slot_items_set_some f l a x z ha
  rw [hz, ← Multiset.coe_add] at h2
  have h3 : slot_items f ((l.set a (some z)).set b none) + (↑(f y) + ↑(f x))
      = slot_items f l + (↑(f x) + ↑(f y)) := by
    rw [← add_assoc, h1, h2]
  rw [add_comm (↑(f y) : Multiset Nat)] at h3
  exact add_right_cancel h3

theorem slot_items_init (n : Nat) :
    slot_items line_t.spans ((List.range n).map fun a => some ({ spans := [a] } : line_t))
      = Multiset.range n := by
  unfold slot_items
  rw [← Multiset.coe_range]
  congr 1
  induction n with
  | zero => rfl
  | succ n ih =>
    rw [List.range_succ, List.map_append, List.reduceOption_append, List.flatMap_append, ih]
    rfl


/-! ## Elementary facts about the accessors -/

theorem span_at_eq_ok {spans : List span_t} {i : Nat} {s : span_t} (h : spans[i]? = some s) :
    span_at spans i = .ok s := by
  simp only [span_at, h]

theorem line_at_eq_ok {lines : List line_t} {i : Nat} {l : line_t} (h : lines[i]? = some l) :
    line_at lines i = .ok l := by
  simp only [line_at, h]

theorem line_span_first_eq_ok {l : line_t} {i : Nat} (h : l.spans.head? = some i) :
    line_span_first l = .ok i := by
  simp only [line_span_first, h]

theorem line_span_last_eq_ok {l : line_t} {i : Nat} (h : l.spans.getLast? = some i) :
    line_span_last l = .ok i := by
  simp only [line_span_last, h]

theorem span_char_first_eq_ok {s : span_t} {c : char_t} (h : s.chars.head? = some c) :
    span_char_first s = .ok c := by
  simp only [span_char_first, h]

theorem span_char_last_eq_ok {s : span_t} {c : char_t} (h : s.chars.getLast? = some c) :
    span_char_last s = .ok c := by
  simp only [span_char_last, h]

theorem exists_head_of_ne_nil {α : Type} {l : List α} (h : l ≠ []) : ∃ x, l.head? = some x := by
  cases l with
  | nil => exact absurd rfl h
  | cons x xs => exact ⟨x, rfl⟩

theorem exists_getLast_of_ne_nil {α : Type} {l : List α} (h : l ≠ []) :
    ∃ x, l.getLast? = some x := by
  cases hl : l.getLast? with
  | none => exact absurd (List.getLast?_eq_none_iff.1 hl) h
  | some x => exact ⟨x, rfl⟩

theorem s_sign_eq_zero_iff (x : ℚ) : s_sign x = 0 ↔ x = 0 := by
  unfold s_sign
  split_ifs with h1 h2
  · constructor
    · intro h; exact absurd h (by decide)
    · intro h; linarith
  · constructor
    · intro h; exact absurd h (by decide)
    · intro h; linarith
  · constructor
    · intro _; linarith
    · intro _; rfl

theorem matrix_cmp4_eq_zero_iff (x y : matrix_t) :
    matrix_cmp4 x y = 0 ↔ x.a = y.a ∧ x.b = y.b ∧ x.c = y.c ∧ x.d = y.d := by
  unfold matrix_cmp4
  have ha := s_sign_eq_zero_iff (x.a - y.a)
  have hb := s_sign_eq_zero_iff (x.b - y.b)
  have hc := s_sign_eq_zero_iff (x.c - y.c)
  have hd := s_sign_eq_zero_iff (x.d - y.d)
  rw [sub_eq_zero] at ha hb hc hd
  split_ifs with h1 h2 h3 h4
  · constructor
    · intro h; exact absurd h h1
    · intro h; exact absurd (ha.2 h.1) h1
  · constructor
    · intro h; exact absurd h h2
    · intro h; exact absurd (hb.2 h.2.1) h2
  · constructor
    · intro h; exact absurd h h3
    · intro h; exact absurd (hc.2 h.2.2.1) h3
  · constructor
    · intro h; exact absurd h h4
    · intro h; exact absurd (hd.2 h.2.2.2) h4
  · simp only [true_iff]
    exact ⟨ha.1 (not_not.1 h1), hb.1 (not_not.1 h2), hc.1 (not_not.1 h3), hd.1 (not_not.1 h4)⟩

theorem span_angle_of_key (m : Libm) {s t : span_t} (h : span_key s = span_key t) :
    span_angle m s = span_angle m t := by
  unfold span_key at h
  simp only [Prod.mk.injEq] at h
  unfold span_angle
  rw [h.2.1, h.2.2.2.1]

theorem span_key_eq_iff (s t : span_t) :
    span_key s = span_key t ↔ s.wmode = t.wmode ∧ matrix_cmp4 s.ctm t.ctm = 0 := by
  rw [matrix_cmp4_eq_zero_iff]
  unfold span_key
  simp only [Prod.mk.injEq]

/-- What `lines_are_compatible` returns for two lines at different addresses whose first
spans are `sa` and `sb`. -/
theorem lines_are_compatible_eq (m : Libm) (spans : List span_t) (a_ptr b_ptr : Nat)
    (a b : line_t) (angle_a : ℚ) (ia ib : Nat) (sa sb : span_t) (hne : a_ptr ≠ b_ptr)
    (hia : a.spans.head? = some ia) (hsa : spans[ia]? = some sa)
    (hib : b.spans.head? = some ib) (hsb : spans[ib]? = some sb) :
    lines_are_compatible m spans a_ptr b_ptr a b angle_a
      = .ok (decide (span_key sa = span_key sb ∧ span_angle m sb = angle_a)) := by
  unfold lines_are_compatible
  rw [if_neg hne, line_span_first_eq_ok hia, line_span_first_eq_ok hib]
  simp only [bind, Except.bind, span_at_eq_ok hsa, span_at_eq_ok hsb, span_key_eq_iff]
  by_cases h1 : sa.wmode = sb.wmode
  · by_cases h2 : matrix_cmp4 sa.ctm sb.ctm = 0
    · by_cases h3 : span_angle m sb = angle_a
      · simp [h1, h2, h3, pure, Except.pure]
      · simp [h1, h2, h3, pure, Except.pure]
    · simp [h1, h2, pure, Except.pure]
  · simp [h1, pure, Except.pure]

theorem forall2_getElem? {α β : Type} {R : α → β → Prop} {l1 : List α} {l2 : List β}
    (h : List.Forall₂ R l1 l2) :
    ∀ (i : Nat) (o : α), l1[i]? = some o → ∃ s, l2[i]? = some s ∧ R o s := by
  induction h with
  | nil => intro i o h; simp at h
  | cons hr _ ih =>
    intro i o h
    cases i with
    | zero =>
      simp only [List.getElem?_cons_zero, Option.some.injEq] at h
      subst h
      exact ⟨_, List.getElem?_cons_zero, hr⟩
    | succ i =>
      rw [List.getElem?_cons_succ] at h ⊢
      exact ih i o h

theorem forall2_set {α β : Type} {R : α → β → Prop} {l1 : List α} {l2 : List β}
    (h : List.Forall₂ R l1 l2) :
    ∀ (i : Nat) (s1 : β), (∀ o, l1[i]? = some o → R o s1) →
      List.Forall₂ R l1 (l2.set i s1) := by
  induction h with
  | nil => intro i s1 _; exact List.Forall₂.nil
  | cons hr ht ih =>
    intro i s1 hs
    cases i with
    | zero => exact List.Forall₂.cons (hs _ List.getElem?_cons_zero) ht
    | succ i =>
      exact List.Forall₂.cons hr (ih i s1 (fun o ho => hs o (by simpa using ho)))

theorem span_extends_refl (s : span_t) : span_extends s s :=
  ⟨[], by simp, by simp⟩

theorem span_extends_key {o s : span_t} (h : span_extends o s) : span_key s = span_key o := by
  obtain ⟨extra, rfl, -⟩ := h
  rfl

theorem span_extends_ne_nil {o s : span_t} (h : span_extends o s) (ho : o.chars ≠ []) :
    s.chars ≠ [] := by
  obtain ⟨extra, rfl, -⟩ := h
  simp [ho]

theorem span_extends_space {o s : span_t} (h : span_extends o s) (adv : ℚ) :
    span_extends o { s with chars := s.chars ++ [line_space adv] } := by
  obtain ⟨extra, rfl, hx⟩ := h
  refine ⟨extra ++ [line_space adv], by simp, ?_⟩
  intro c hc
  rcases List.mem_append.1 hc with h | h
  · exact hx c h
  · rw [List.mem_singleton] at h
    subst h
    rfl

/-- Under the invariant every span pointer below the number of spans is valid, and the span
has glyphs and the key it had at the start. -/
theorem lines_inv_span {orig : List span_t} {st : lines_state} (hinv : lines_inv orig st)
    (hne : ∀ s ∈ orig, s.chars ≠ []) (i : Nat) (hi : i < orig.length) :
    ∃ o s, orig[i]? = some o ∧ st.spans[i]? = some s ∧ span_extends o s ∧
      span_key s = span_key o ∧ s.chars ≠ [] := by
  have ho : orig[i]? = some orig[i] := List.getElem?_eq_getElem hi
  obtain ⟨s, hs, hr⟩ := forall2_getElem? hinv.ext i _ ho
  exact ⟨_, s, ho, hs, hr, span_extends_key hr,
    span_extends_ne_nil hr (hne _ (List.getElem_mem hi))⟩


/-! ## The loop of `make_lines` keeps its invariant -/

theorem make_lines_scan_ok (m : Libm) {orig : List span_t} {st : lines_state}
    (hinv : lines_inv orig st) (hne : ∀ s ∈ orig, s.chars ≠ []) (a : Nat) (line_a : line_t)
    (ha : st.lines[a]? = some (some line_a)) (span_a : span_t) (hspan_a : span_a.chars ≠ [])
    (angle_a : ℚ) :
    ∀ (bs : List Nat) (nearest : Option (Nat × ℚ)), lines_candidate st a line_a nearest →
      ∃ r, make_lines_scan m st a line_a span_a angle_a bs nearest = .ok r ∧
        lines_candidate st a line_a r := by
  obtain ⟨hia, hla⟩ := hinv.wf a line_a ha
  obtain ⟨oa, sa, -, hsa, -, -, -⟩ :=
    lines_inv_span hinv hne a (hla a (List.mem_of_mem_head? hia))
  obtain ⟨alast, halast⟩ := exists_getLast_of_ne_nil hspan_a
  intro bs
  induction bs with
  | nil => intro nearest hn; exact ⟨nearest, rfl, hn⟩
  | cons b bs ih =>
    intro nearest hn
    rw [make_lines_scan]
    cases hb : st.lines[b]? with
    | none => exact ih nearest hn
    | some o =>
      cases o with
      | none => exact ih nearest hn
      | some lb =>
        simp only []
        by_cases hba : b = a
        · rw [if_pos hba]; exact ih nearest hn
        rw [if_neg hba]
        obtain ⟨hib, hlb⟩ := hinv.wf b lb hb
        obtain ⟨ob, sb, -, hsb, -, -, hsbne⟩ :=
          lines_inv_span hinv hne b (hlb b (List.mem_of_mem_head? hib))
        obtain ⟨bfirst, hbfirst⟩ := exists_head_of_ne_nil hsbne
        rw [lines_are_compatible_eq m st.spans a b line_a lb angle_a a b sa sb
          (fun h => hba h.symm) hia hsa hib hsb]
        by_cases hc : span_key sa = span_key sb ∧ span_angle m sb = angle_a
        · rw [decide_eq_true hc]
          simp only [line_span_first_eq_ok hib, span_at_eq_ok hsb,
            span_char_first_eq_ok hbfirst, span_char_last_eq_ok halast]
          have hgood : ∀ adv, lines_candidate st a line_a (some (b, adv)) := by
            intro adv b' adv' h
            simp only [Option.some.injEq, Prod.mk.injEq] at h
            obtain ⟨rfl, -⟩ := h
            exact ⟨hba, lb, a, b, sa, sb, hb, hia, hsa, hib, hsb, hc.1⟩
          split_ifs with h1
          · cases nearest with
            | none => exact ih _ (hgood _)
            | some p =>
              obtain ⟨nb, nadv⟩ := p
              simp only []
              split_ifs with h2
              · exact ih _ (hgood _)
              · exact ih _ hn
          · exact ih nearest hn
        · rw [decide_eq_false hc]
          exact ih nearest hn


theorem span_adv_total_ok (m : Libm) (s : span_t) (h : s.chars ≠ []) :
    ∃ q, span_adv_total m s = .ok q := by
  obtain ⟨f, hf⟩ := exists_head_of_ne_nil h
  obtain ⟨l, hl⟩ := exists_getLast_of_ne_nil h
  unfold span_adv_total
  rw [span_char_first_eq_ok hf, span_char_last_eq_ok hl]
  exact ⟨_, rfl⟩

theorem make_lines_space_ok (m : Libm) (spans : List span_t) (ia : Nat) (span_a span_b : span_t)
    (adv : ℚ) (ha : span_a.chars ≠ []) (hb : span_b.chars ≠ []) :
    ∃ spans1, make_lines_space m spans ia span_a span_b adv = .ok spans1 ∧
      (spans1 = spans ∨
        spans1 = spans.set ia { span_a with chars := span_a.chars ++ [line_space adv] }) := by
  obtain ⟨l, hl⟩ := exists_getLast_of_ne_nil ha
  obtain ⟨f, hf⟩ := exists_head_of_ne_nil hb
  obtain ⟨ta, hta⟩ := span_adv_total_ok m span_a ha
  obtain ⟨tb, htb⟩ := span_adv_total_ok m span_b hb
  unfold make_lines_space
  simp only [span_char_last_eq_ok hl, span_char_first_eq_ok hf, hta, htb]
  split_ifs
  · exact ⟨_, rfl, Or.inr rfl⟩
  · exact ⟨_, rfl, Or.inl rfl⟩
  · exact ⟨_, rfl, Or.inl rfl⟩

/-- The slots of the array after slot `b` was moved onto slot `a`. -/
theorem getElem?_join_slots {α : Type} (l : List (Option α)) (a b c : Nat) (z v : α)
    (h : ((l.set a (some z)).set b none)[c]? = some (some v)) :
    (c = a ∧ v = z ∧ c ≠ b) ∨ (c ≠ a ∧ c ≠ b ∧ l[c]? = some (some v)) := by
  rw [List.getElem?_set] at h
  by_cases hbc : b = c
  · rw [if_pos hbc] at h
    split_ifs at h
    simp at h
  · rw [if_neg hbc, List.getElem?_set] at h
    by_cases hac : a = c
    · rw [if_pos hac] at h
      split_ifs at h
      simp only [Option.some.injEq] at h
      exact Or.inl ⟨hac.symm, h.symm, fun h => hbc h.symm⟩
    · rw [if_neg hac] at h
      exact Or.inr ⟨fun h => hac h.symm, fun h => hbc h.symm, h⟩

theorem make_lines_join_ok (m : Libm) {orig : List span_t} {st : lines_state}
    (hinv : lines_inv orig st) (hne : ∀ s ∈ orig, s.chars ≠ []) (a b : Nat) (line_a : line_t)
    (ha : st.lines[a]? = some (some line_a)) (ia : Nat)
    (hia : line_a.spans.getLast? = some ia) (adv : ℚ)
    (hcand : lines_candidate st a line_a (some (b, adv))) :
    ∃ st1, make_lines_join m st a b line_a ia adv = .ok st1 ∧ lines_inv orig st1 ∧
      st1.lines.reduceOption.length + 1 = st.lines.reduceOption.length := by
  obtain ⟨hba, lb, ia0, ib, sa0, sb, hb, hia0, hsa0, hib, hsb, hkey⟩ := hcand b adv rfl
  obtain ⟨hhead_a, hmem_a⟩ := hinv.wf a line_a ha
  obtain ⟨hhead_b, hmem_b⟩ := hinv.wf b lb hb
  have hia0a : ia0 = a := by rw [hhead_a] at hia0; exact (Option.some.inj hia0).symm
  have hibb : ib = b := by rw [hhead_b] at hib; exact (Option.some.inj hib).symm
  subst hia0a hibb
  obtain ⟨oia, span_a, hoia, hspan_a, hext_a, -, hane⟩ :=
    lines_inv_span hinv hne ia (hmem_a ia (List.mem_of_mem_getLast? hia))
  obtain ⟨ob, sb', hob, hsb', -, hkb, hbne⟩ :=
    lines_inv_span hinv hne ib (hmem_b ib (List.mem_of_mem_head? hib))
  obtain ⟨oa, sa', hoa, hsa', -, hka, -⟩ :=
    lines_inv_span hinv hne ia0 (hmem_a ia0 (List.mem_of_mem_head? hia0))
  rw [hsb] at hsb'
  rw [hsa0] at hsa'
  cases hsb'
  cases hsa'
  obtain ⟨spans1, hspace, hspans1⟩ := make_lines_space_ok m st.spans ia span_a sb adv hane hbne
  refine ⟨{ spans := spans1
            lines := (st.lines.set ia0 (some { spans := line_a.spans ++ lb.spans })).set
              ib none }, ?_, ?_, ?_⟩
  · unfold make_lines_join
    simp only [hb, line_span_first_eq_ok hib, span_at_eq_ok hspan_a, span_at_eq_ok hsb, hspace]
  · constructor
    · show List.Forall₂ span_extends orig spans1
      rcases hspans1 with h | h
      · rw [h]; exact hinv.ext
      · rw [h]
        refine forall2_set hinv.ext ia _ ?_
        intro o ho
        rw [hoia] at ho
        cases ho
        exact span_extends_space hext_a adv
    · show ((st.lines.set ia0 _).set ib none).length = orig.length
      rw [List.length_set, List.length_set]
      exact hinv.len
    · intro c l hc
      rcases getElem?_join_slots _ _ _ _ _ _ hc with ⟨rfl, rfl, -⟩ | ⟨-, -, h⟩
      · constructor
        · show (line_a.spans ++ lb.spans).head? = some c
          rw [List.head?_append, hhead_a]
          rfl
        · intro i hi
          rcases List.mem_append.1 hi with h | h
          · exact hmem_a i h
          · exact hmem_b i h
      · exact hinv.wf c l h
    · show slot_items line_t.spans ((st.lines.set ia0 _).set ib none) = _
      rw [slot_items_join line_t.spans st.lines ia0 ib line_a lb _ (fun h => hba h.symm) ha hb rfl]
      exact hinv.part
    · intro c l hc
      rcases getElem?_join_slots _ _ _ _ _ _ hc with ⟨rfl, rfl, -⟩ | ⟨-, -, h⟩
      · obtain ⟨ka, hka'⟩ := hinv.same c line_a ha
        obtain ⟨kb, hkb'⟩ := hinv.same ib lb hb
        have e1 : span_key oa = ka := hka' c (List.mem_of_mem_head? hia0) oa hoa
        have e2 : span_key ob = kb := hkb' ib (List.mem_of_mem_head? hib) ob hob
        have e3 : ka = kb := by rw [← e1, ← e2, ← hka, ← hkb, hkey]
        refine ⟨ka, ?_⟩
        intro i hi o ho
        rcases List.mem_append.1 hi with h | h
        · exact hka' i h o ho
        · rw [e3]; exact hkb' i h o ho
      · exact hinv.same c l h
  · show ((st.lines.set ia0 _).set ib none).reduceOption.length + 1 = _
    have hb' : (st.lines.set ia0 (some ({ spans := line_a.spans ++ lb.spans } : line_t)))[ib]?
        = some (some lb) := by
      rw [List.getElem?_set_ne (fun h => hba h.symm)]; exact hb
    rw [reduceOption_length_set_none _ ib lb hb', reduceOption_length_set_some _ ia0 line_a _ ha]

theorem make_lines_step_ok (m : Libm) {orig : List span_t} {st : lines_state}
    (hinv : lines_inv orig st) (hne : ∀ s ∈ orig, s.chars ≠ []) (a : Nat)
    (ha : a < st.lines.length) :
    ∃ a1 st1, make_lines_step m a st = .ok (a1, st1) ∧ lines_inv orig st1 ∧
      st1.lines.reduceOption.length + (orig.length - a1)
        < st.lines.reduceOption.length + (orig.length - a) := by
  have hlen := hinv.len
  have hstay : st.lines.reduceOption.length + (orig.length - (a + 1))
      < st.lines.reduceOption.length + (orig.length - a) := by omega
  unfold make_lines_step
  cases hla : st.lines[a]? with
  | none => exact ⟨a + 1, st, rfl, hinv, hstay⟩
  | some o =>
    cases o with
    | none => exact ⟨a + 1, st, rfl, hinv, hstay⟩
    | some line_a =>
      simp only []
      obtain ⟨hhead, hmem⟩ := hinv.wf a line_a hla
      have hne_a : line_a.spans ≠ [] := by
        intro h; rw [h] at hhead; cases hhead
      obtain ⟨ia, hia⟩ := exists_getLast_of_ne_nil hne_a
      obtain ⟨oia, span_a, -, hspan_a, -, -, hane⟩ :=
        lines_inv_span hinv hne ia (hmem ia (List.mem_of_mem_getLast? hia))
      obtain ⟨r, hr, hcand⟩ := make_lines_scan_ok m hinv hne a line_a hla span_a hane
        (span_angle m span_a) (List.range st.lines.length) none
        (by intro b adv h; cases h)
      rw [line_span_last_eq_ok hia]
      simp only [span_at_eq_ok hspan_a, hr]
      cases r with
      | none => exact ⟨a + 1, st, rfl, hinv, hstay⟩
      | some p =>
        obtain ⟨b, adv⟩ := p
        obtain ⟨st1, hjoin, hinv1, hlive⟩ :=
          make_lines_join_ok m hinv hne a b line_a hla ia hia adv hcand
        simp only [hjoin]
        refine ⟨_, st1, rfl, hinv1, ?_⟩
        split_ifs <;> omega

theorem make_lines_loop_ok (m : Libm) {orig : List span_t} (hne : ∀ s ∈ orig, s.chars ≠ []) :
    ∀ (fuel a : Nat) (st : lines_state), lines_inv orig st →
      st.lines.reduceOption.length + (orig.length - a) ≤ fuel →
      ∃ st1, make_lines_loop m fuel a st = .ok st1 ∧ lines_inv orig st1 := by
  intro fuel
  induction fuel with
  | zero =>
    intro a st hinv hfuel
    have := hinv.len
    unfold make_lines_loop
    rw [if_neg (by omega)]
    exact ⟨st, rfl, hinv⟩
  | succ fuel ih =>
    intro a st hinv hfuel
    unfold make_lines_loop
    by_cases ha : a < st.lines.length
    · rw [if_pos ha]
      obtain ⟨a1, st1, hstep, hinv1, hlt⟩ := make_lines_step_ok m hinv hne a ha
      simp only [hstep]
      exact ih a1 st1 hinv1 (by omega)
    · rw [if_neg ha]
      exact ⟨st, rfl, hinv⟩

theorem forall2_span_extends_refl (l : List span_t) : List.Forall₂ span_extends l l := by
  induction l with
  | nil => exact List.Forall₂.nil
  | cons x xs ih => exact List.Forall₂.cons (span_extends_refl x) ih

theorem getElem?_init_slots {α : Type} (f : Nat → α) (n b : Nat) (v : α)
    (h : ((List.range n).map fun a => some (f a))[b]? = some (some v)) : b < n ∧ v = f b := by
  rw [List.getElem?_map] at h
  by_cases hb : b < n
  · rw [List.getElem?_range hb] at h
    simp only [Option.map_some', Option.some.injEq] at h
    exact ⟨hb, h.symm⟩
  · rw [List.getElem?_eq_none (by simpa using hb)] at h
    cases h

theorem reduceOption_init_slots {α : Type} (f : Nat → α) (n : Nat) :
    ((List.range n).map fun a => some (f a)).reduceOption = (List.range n).map f := by
  induction n with
  | zero => rfl
  | succ n ih =>
    rw [List.range_succ, List.map_append, List.reduceOption_append, ih, List.map_append]
    rfl

theorem lines_inv_init (orig : List span_t) :
    lines_inv orig
      { spans := orig
        lines := (List.range orig.length).map fun a => some { spans := [a] } } := by
  constructor
  · exact forall2_span_extends_refl orig
  · simp
  · intro b l h
    obtain ⟨hb, rfl⟩ := getElem?_init_slots (fun a => ({ spans := [a] } : line_t)) _ _ _ h
    refine ⟨rfl, ?_⟩
    intro i hi
    rw [List.mem_singleton] at hi
    omega
  · exact slot_items_init orig.length
  · intro b l h
    obtain ⟨hb, rfl⟩ := getElem?_init_slots (fun a => ({ spans := [a] } : line_t)) _ _ _ h
    refine ⟨span_key orig[b], ?_⟩
    intro i hi o ho
    rw [List.mem_singleton] at hi
    subst hi
    rw [List.getElem?_eq_getElem hb] at ho
    cases ho
    rfl

/-- Under the invariant of the loop of `make_lines` a line is left when there is a span. -/
theorem lines_inv_live {orig : List span_t} {st : lines_state} (hinv : lines_inv orig st)
    (horig : orig ≠ []) : st.lines.reduceOption ≠ [] := by
  intro h
  have hpart := hinv.part
  unfold slot_items at hpart
  rw [h] at hpart
  have hcard := congrArg Multiset.card hpart
  simp only [List.flatMap_nil, Multiset.coe_nil, Multiset.card_zero,
    Multiset.card_range] at hcard
  exact horig (List.length_eq_zero.1 hcard.symm)

/-- `make_lines` returns for every list of non-empty spans that is not empty, in a state
that satisfies the invariant of its loop. -/
theorem make_lines_ok (m : Libm) (spans : List span_t) (hspans : spans ≠ [])
    (hne : ∀ s ∈ spans, s.chars ≠ []) :
    ∃ st, lines_inv spans st ∧ make_lines m spans = .ok (st.spans, st.lines.reduceOption) := by
  obtain ⟨st, hloop, hinv⟩ := make_lines_loop_ok m hne (2 * spans.length) 0 _
    (lines_inv_init spans) (by
      show ((List.range spans.length).map fun a =>
        some ({ spans := [a] } : line_t)).reduceOption.length + _ ≤ _
      rw [reduceOption_init_slots]
      simp
      omega)
  refine ⟨st, hinv, ?_⟩
  unfold make_lines
  simp only [hloop, if_neg (lines_inv_live hinv hspans)]

/-- On the empty list of spans `make_lines` ends at `assert(l)`. -/
theorem make_lines_nil (m : Libm) :
    make_lines m [] = .error (.fault .assert_failed) := rfl


/-! ## What `make_lines` returns -/

theorem map_getElem?_range {α : Type} (l : List α) :
    (List.range l.length).map (fun i => l[i]?) = l.map some := by
  apply List.ext_getElem?
  intro n
  simp only [List.getElem?_map]
  by_cases h : n < l.length
  · simp [List.getElem?_range h, h]
  · have h1 : l.length ≤ n := Nat.le_of_not_lt h
    rw [List.getElem?_eq_none (l := l) h1, List.getElem?_eq_none (by simpa using h1)]
    rfl

theorem flatMap_ucs_at_range (spans : List span_t) :
    (List.range spans.length).flatMap (ucs_at spans) = spans_ucs spans := by
  have h := List.flatMap_map (fun i => spans[i]?) (fun o : Option span_t =>
      (o.map fun s => s.chars.map fun c => c.ucs).getD []) (List.range spans.length)
  rw [map_getElem?_range, List.flatMap_map] at h
  exact h.symm

theorem coe_reduceOption_flatMap (lines : List (Option line_t)) :
    ((lines.reduceOption.flatMap line_t.spans : List Nat) : Multiset Nat)
      = slot_items line_t.spans lines := rfl

theorem lines_ucs_eq (spans : List span_t) (lines : List line_t) :
    lines_ucs spans lines = (lines.flatMap line_t.spans).flatMap (ucs_at spans) := by
  unfold lines_ucs
  rw [List.flatMap_assoc]

/-- The code points of spans that were extended by spaces. -/
theorem spans_ucs_of_extends {orig spans : List span_t}
    (h : List.Forall₂ span_extends orig spans) :
    ∃ k, ((spans_ucs spans : List Nat) : Multiset Nat)
      = ((spans_ucs orig : List Nat) : Multiset Nat) + Multiset.replicate k 32 := by
  induction h with
  | nil => exact ⟨0, by simp [spans_ucs]⟩
  | cons hr _ ih =>
    rename_i o s os ss
    obtain ⟨k, hk⟩ := ih
    obtain ⟨extra, rfl, hx⟩ := hr
    refine ⟨extra.length + k, ?_⟩
    have he : extra.map (fun c => c.ucs) = List.replicate extra.length 32 := by
      rw [List.eq_replicate_iff]
      refine ⟨by simp, ?_⟩
      intro b hb
      obtain ⟨c, hc, rfl⟩ := List.mem_map.1 hb
      exact hx c hc
    unfold spans_ucs at hk ⊢
    simp only [List.flatMap_cons, List.map_append, he, ← Multiset.coe_add, hk,
      Multiset.replicate_add, Multiset.coe_replicate]
    abel

/-- C1: for every list of non-empty spans that holds a span `make_lines` returns (on the
empty list the program ends at `assert(l)`); the code points of the glyphs that the returned
lines hold are, as a multiset, those of the input glyphs plus some number of added `0x20`;
and every span holds its input glyphs, unaltered and in order, followed by added glyphs that
all have `ucs == 0x20`. -/
theorem make_lines_conserves_glyphs (m : Libm) (spans : List span_t) (hspans : spans ≠ [])
    (hne : ∀ s ∈ spans, s.chars ≠ []) :
    ∃ spans1 lines k, make_lines m spans = .ok (spans1, lines) ∧
      ((lines_ucs spans1 lines : List Nat) : Multiset Nat)
        = ((spans_ucs spans : List Nat) : Multiset Nat) + Multiset.replicate k 32 ∧
      List.Forall₂ (fun o s => ∃ extra : List char_t,
        s = { o with chars := o.chars ++ extra } ∧ ∀ c ∈ extra, c.ucs = 32) spans spans1 := by
  obtain ⟨st, hinv, hres⟩ := make_lines_ok m spans hspans hne
  obtain ⟨k, hk⟩ := spans_ucs_of_extends hinv.ext
  refine ⟨st.spans, st.lines.reduceOption, k, hres, ?_, hinv.ext⟩
  rw [← hk, lines_ucs_eq]
  have hperm : (st.lines.reduceOption.flatMap line_t.spans).Perm (List.range st.spans.length) := by
    rw [← Multiset.coe_eq_coe, coe_reduceOption_flatMap, hinv.part, ← hinv.ext.length_eq,
      Multiset.coe_range]
  have h2 := hperm.flatMap_right (ucs_at st.spans)
  rw [flatMap_ucs_at_range] at h2
  exact Multiset.coe_eq_coe.2 h2

/-- Witness of C1: two spans `a` and `b` far apart on one baseline. -/
theorem make_lines_conserves_glyphs_witness :
    ∃ spans1 lines k,
      make_lines sample_libm [sample_span [sample_char 97 0 0 1], sample_span [sample_char 98 2 0 1]]
        = .ok (spans1, lines) ∧
      ((lines_ucs spans1 lines : List Nat) : Multiset Nat)
        = ((spans_ucs [sample_span [sample_char 97 0 0 1], sample_span [sample_char 98 2 0 1]]
            : List Nat) : Multiset Nat) + Multiset.replicate k 32 ∧
      List.Forall₂ (fun o s => ∃ extra : List char_t,
        s = { o with chars := o.chars ++ extra } ∧ ∀ c ∈ extra, c.ucs = 32)
        [sample_span [sample_char 97 0 0 1], sample_span [sample_char 98 2 0 1]] spans1 :=
  make_lines_conserves_glyphs sample_libm
    [sample_span [sample_char 97 0 0 1], sample_span [sample_char 98 2 0 1]]
    (List.cons_ne_nil _ _) (by decide)

/-- C2: for every list of non-empty spans that holds a span `make_lines` returns (on the
empty list the program ends at `assert(l)`), and all spans of a returned line have the same
writing mode, the same CTM under `matrix_cmp4` and the same `span_angle`. -/
theorem make_lines_line_invariants (m : Libm) (spans : List span_t) (hspans : spans ≠ [])
    (hne : ∀ s ∈ spans, s.chars ≠ []) :
    ∃ spans1 lines, make_lines m spans = .ok (spans1, lines) ∧
      ∀ l ∈ lines, ∀ i ∈ l.spans, ∀ j ∈ l.spans, ∀ si sj : span_t,
        spans1[i]? = some si → spans1[j]? = some sj →
        si.wmode = sj.wmode ∧ matrix_cmp4 si.ctm sj.ctm = 0 ∧
          span_angle m si = span_angle m sj := by
  obtain ⟨st, hinv, hres⟩ := make_lines_ok m spans hspans hne
  refine ⟨st.spans, st.lines.reduceOption, hres, ?_⟩
  intro l hl i hi j hj si sj hsi hsj
  rw [List.reduceOption_mem_iff] at hl
  obtain ⟨b, hb⟩ := List.mem_iff_getElem?.1 hl
  obtain ⟨k, hk⟩ := hinv.same b l hb
  obtain ⟨-, hmem⟩ := hinv.wf b l hb
  obtain ⟨oi, si', hoi, hsi', -, hki, -⟩ := lines_inv_span hinv hne i (hmem i hi)
  obtain ⟨oj, sj', hoj, hsj', -, hkj, -⟩ := lines_inv_span hinv hne j (hmem j hj)
  rw [hsi] at hsi'
  rw [hsj] at hsj'
  cases hsi'
  cases hsj'
  have hkey : span_key si = span_key sj := by
    rw [hki, hkj, hk i hi oi hoi, hk j hj oj hoj]
  exact ⟨((span_key_eq_iff si sj).1 hkey).1, ((span_key_eq_iff si sj).1 hkey).2,
    span_angle_of_key m hkey⟩

/-- Witness of C2: two spans `a` and `b` side by side on one baseline. -/
theorem make_lines_line_invariants_witness :
    ∃ spans1 lines,
      make_lines sample_libm [sample_span [sample_char 97 0 0 1], sample_span [sample_char 98 1 0 1]]
        = .ok (spans1, lines) ∧
      ∀ l ∈ lines, ∀ i ∈ l.spans, ∀ j ∈ l.spans, ∀ si sj : span_t,
        spans1[i]? = some si → spans1[j]? = some sj →
        si.wmode = sj.wmode ∧ matrix_cmp4 si.ctm sj.ctm = 0 ∧
          span_angle sample_libm si = span_angle sample_libm sj :=
  make_lines_line_invariants sample_libm
    [sample_span [sample_char 97 0 0 1], sample_span [sample_char 98 1 0 1]]
    (List.cons_ne_nil _ _) (by decide)


/-! ## The loop of `make_paragraphs` -/

theorem span_at_inv {spans : List span_t} {i : Nat} {s : span_t}
    (h : span_at spans i = .ok s) : spans[i]? = some s := by
  unfold span_at at h
  split at h
  · cases h; assumption
  · cases h

theorem line_at_inv {lines : List line_t} {i : Nat} {l : line_t}
    (h : line_at lines i = .ok l) : lines[i]? = some l := by
  unfold line_at at h
  split at h
  · cases h; assumption
  · cases h

theorem line_span_first_inv {l : line_t} {i : Nat} (h : line_span_first l = .ok i) :
    l.spans.head? = some i := by
  unfold line_span_first at h
  split at h
  · cases h; assumption
  · cases h

theorem line_span_last_inv {l : line_t} {i : Nat} (h : line_span_last l = .ok i) :
    l.spans.getLast? = some i := by
  unfold line_span_last at h
  split at h
  · cases h; assumption
  · cases h

theorem paragraph_line_first_inv {p : paragraph_t} {i : Nat}
    (h : paragraph_line_first p = .ok i) : p.lines.head? = some i := by
  unfold paragraph_line_first at h
  split at h
  · cases h; assumption
  · cases h

theorem paragraph_line_last_inv {p : paragraph_t} {i : Nat}
    (h : paragraph_line_last p = .ok i) : p.lines.getLast? = some i := by
  unfold paragraph_line_last at h
  split at h
  · cases h; assumption
  · cases h

theorem span_char_last_inv {s : span_t} {c : char_t} (h : span_char_last s = .ok c) :
    s.chars.getLast? = some c := by
  unfold span_char_last at h
  split at h
  · cases h; assumption
  · cases h

theorem span_char_first_inv {s : span_t} {c : char_t} (h : span_char_first s = .ok c) :
    s.chars.head? = some c := by
  unfold span_char_first at h
  split at h
  · cases h; assumption
  · cases h

theorem lines_are_compatible_true (m : Libm) (spans : List span_t) (a_ptr b_ptr : Nat)
    (a b : line_t) (angle_a : ℚ)
    (h : lines_are_compatible m spans a_ptr b_ptr a b angle_a = .ok true) :
    a_ptr ≠ b_ptr ∧ ∃ ia ib sa sb, a.spans.head? = some ia ∧ spans[ia]? = some sa ∧
      b.spans.head? = some ib ∧ spans[ib]? = some sb ∧ span_key sa = span_key sb ∧
      span_angle m sb = angle_a := by
  have h0 := h
  unfold lines_are_compatible at h
  by_cases hne : a_ptr = b_ptr
  · rw [if_pos hne] at h; cases h
  rw [if_neg hne] at h
  refine ⟨hne, ?_⟩
  cases h1 : line_span_first a with
  | error e => rw [h1] at h; cases h
  | ok ia =>
    cases h2 : span_at spans ia with
    | error e => rw [h1] at h; simp only [bind, Except.bind, h2] at h; cases h
    | ok sa =>
      cases h3 : line_span_first b with
      | error e => rw [h1] at h; simp only [bind, Except.bind, h2, h3] at h; cases h
      | ok ib =>
        cases h4 : span_at spans ib with
        | error e => rw [h1] at h; simp only [bind, Except.bind, h2, h3, h4] at h; cases h
        | ok sb =>
          rw [lines_are_compatible_eq m spans a_ptr b_ptr a b angle_a ia ib sa sb hne
            (line_span_first_inv h1) (span_at_inv h2) (line_span_first_inv h3)
            (span_at_inv h4)] at h0
          have h5 := of_decide_eq_true (Except.ok.inj h0)
          exact ⟨ia, ib, sa, sb, line_span_first_inv h1, span_at_inv h2,
            line_span_first_inv h3, span_at_inv h4, h5.1, h5.2⟩

theorem make_paragraphs_scan_inv (m : Libm) (spans : List span_t) (lines : List line_t)
    (paragraphs : List (Option paragraph_t)) (a_ptr : Nat) (line_a : line_t) (angle_a : ℚ) :
    ∀ (bs : List Nat) (nearest r : Option Nat × ℚ),
      paragraphs_candidate m spans lines paragraphs a_ptr line_a angle_a nearest →
      make_paragraphs_scan m spans lines paragraphs a_ptr line_a angle_a bs nearest = .ok r →
      paragraphs_candidate m spans lines paragraphs a_ptr line_a angle_a r := by
  intro bs
  induction bs with
  | nil =>
    intro nearest r hn h
    rw [make_paragraphs_scan] at h
    cases h
    exact hn
  | cons b bs ih =>
    intro nearest r hn h
    rw [make_paragraphs_scan] at h
    split at h
    case h_2 => exact ih nearest r hn h
    case h_1 pb hpb =>
      split at h
      · cases h
      rename_i b_ptr hb_ptr
      split at h
      · cases h
      rename_i line_b hline_b
      split at h
      · cases h
      · exact ih nearest r hn h
      rename_i hcompat
      split at h
      case h_2 => cases h
      case h_3 => cases h
      case h_1 =>
        have hgood : ∀ d, paragraphs_candidate m spans lines paragraphs a_ptr line_a angle_a
            (some b, d) := by
          intro d b' hb'
          cases hb'
          exact ⟨pb, b_ptr, line_b, hpb, paragraph_line_first_inv hb_ptr, line_at_inv hline_b,
            hcompat⟩
        split at h
        · split at h
          · exact ih _ r (hgood _) h
          · exact ih nearest r hn h
        · exact ih nearest r hn h

/-- What a pass of the loop of `make_paragraphs` does when it returns: nothing, or the join
of a paragraph `b`, whose first line is compatible with the last line of `a`, onto `a`. -/
theorem make_paragraphs_step_inv (m : Libm) (lines : List line_t) (a a1 : Nat)
    (st st1 : paragraphs_state) (h : make_paragraphs_step m lines a st = .ok (a1, st1)) :
    (st1 = st ∧ a1 = a + 1) ∨
    ∃ (b : Nat) (pa pb : paragraph_t) (la lb ia : Nat) (line_a line_b : line_t)
      (a_span : span_t) (prev : char_t) (angle_a : ℚ),
      st.paragraphs[a]? = some (some pa) ∧ st.paragraphs[b]? = some (some pb) ∧
      pa.lines.getLast? = some la ∧ lines[la]? = some line_a ∧
      pb.lines.head? = some lb ∧ lines[lb]? = some line_b ∧
      lines_are_compatible m st.spans la lb line_a line_b angle_a = .ok true ∧
      line_a.spans.getLast? = some ia ∧ st.spans[ia]? = some a_span ∧
      a_span.chars.getLast? = some prev ∧
      st1.paragraphs = (st.paragraphs.set a (some { lines := pa.lines ++ pb.lines })).set b none ∧
      st1.spans = st.spans.set ia
        { a_span with chars :=
            if prev.ucs = 45 then a_span.chars.dropLast
            else a_span.chars ++
              [{ char_init with ucs := 32, x := prev.x + prev.adv * a_span.ctm.a
                                y := prev.y + prev.adv * a_span.ctm.c }] } ∧
      a1 = (if b > a then a else a + 1) := by
  unfold make_paragraphs_step at h
  split at h
  case h_2 => left; cases h; exact ⟨rfl, rfl⟩
  case h_1 pa hpa =>
    split at h
    · cases h
    rename_i la hla
    split at h
    · cases h
    rename_i line_a hline_a
    split at h
    · cases h
    rename_i angle_a hangle
    split at h
    · cases h
    · left; cases h; exact ⟨rfl, rfl⟩
    rename_i b dist hscan
    have hcand := make_paragraphs_scan_inv m st.spans lines st.paragraphs la line_a angle_a
      _ _ _ (by intro b hb; cases hb) hscan
    obtain ⟨pb, lb, line_b, hpb, hlb, hline_b, hcompat⟩ := hcand b rfl
    simp only [hpb] at h
    split at h
    · cases h
    split at h
    · cases h
    split at h
    · cases h
    split at h
    case isFalse => left; cases h; exact ⟨rfl, rfl⟩
    case isTrue =>
      split at h
      · cases h
      rename_i st2 hjoin
      right
      cases h
      unfold make_paragraphs_join at hjoin
      simp only [hpb] at hjoin
      split at hjoin
      · cases hjoin
      rename_i ia hia
      split at hjoin
      · cases hjoin
      rename_i a_span ha_span
      split at hjoin
      · cases hjoin
      rename_i a_span1 hspan1
      cases hjoin
      have hprev : ∃ prev, a_span.chars.getLast? = some prev := by
        cases hc : a_span.chars.getLast? with
        | some p => exact ⟨p, rfl⟩
        | none =>
          unfold make_paragraphs_join_span span_char_last at hspan1
          simp only [hc] at hspan1
          cases hspan1
      obtain ⟨prev, hprev⟩ := hprev
      rw [make_paragraphs_join_span_eq a_span prev hprev] at hspan1
      cases hspan1
      exact ⟨b, pa, pb, la, lb, ia, line_a, line_b, a_span, prev, angle_a, hpa, hpb,
        paragraph_line_last_inv hla, line_at_inv hline_a, hlb, hline_b, hcompat,
        line_span_last_inv hia, span_at_inv ha_span, hprev, rfl, rfl, rfl⟩


theorem make_paragraphs_step_measure (m : Libm) (lines : List line_t) (a a1 : Nat)
    (st st1 : paragraphs_state) (ha : a < st.paragraphs.length)
    (h : make_paragraphs_step m lines a st = .ok (a1, st1)) :
    st1.paragraphs.length = st.paragraphs.length ∧
    st1.paragraphs.reduceOption.length + (st1.paragraphs.length - a1)
      < st.paragraphs.reduceOption.length + (st.paragraphs.length - a) := by
  rcases make_paragraphs_step_inv m lines a a1 st st1 h with ⟨rfl, rfl⟩ |
    ⟨b, pa, pb, la, lb, ia, line_a, line_b, a_span, prev, angle_a, hpa, hpb, -, -, -, -, -, -,
      -, -, hpar, -, ha1⟩
  · exact ⟨rfl, by omega⟩
  · have hlen : st1.paragraphs.length = st.paragraphs.length := by
      rw [hpar, List.length_set, List.length_set]
    have hb' : ∃ v, (st.paragraphs.set a
        (some ({ lines := pa.lines ++ pb.lines } : paragraph_t)))[b]? = some (some v) := by
      by_cases hab : a = b
      · subst hab
        exact ⟨_, List.getElem?_set_self ha⟩
      · exact ⟨pb, by rw [List.getElem?_set_ne hab]; exact hpb⟩
    obtain ⟨v, hv⟩ := hb'
    have hlive : st1.paragraphs.reduceOption.length + 1
        = st.paragraphs.reduceOption.length := by
      rw [hpar, reduceOption_length_set_none _ b v hv,
        reduceOption_length_set_some _ a pa _ hpa]
    refine ⟨hlen, ?_⟩
    rw [hlen, ha1]
    split_ifs <;> omega

/-- The step budget of the loop of `make_paragraphs` is never used up when it is at least
the number of paragraphs left plus the number of indices still to visit. -/
theorem make_paragraphs_loop_fuel (m : Libm) (lines : List line_t) :
    ∀ (fuel a : Nat) (st : paragraphs_state),
      st.paragraphs.reduceOption.length + (st.paragraphs.length - a) ≤ fuel →
      make_paragraphs_loop m lines fuel a st ≠ .error .out_of_fuel := by
  intro fuel
  induction fuel with
  | zero =>
    intro a st hfuel
    unfold make_paragraphs_loop
    rw [if_neg (by omega)]
    intro h; cases h
  | succ fuel ih =>
    intro a st hfuel
    unfold make_paragraphs_loop
    by_cases ha : a < st.paragraphs.length
    · rw [if_pos ha]
      cases hstep : make_paragraphs_step m lines a st with
      | error e => simp only []; intro h; cases h
      | ok r =>
        obtain ⟨a1, st1⟩ := r
        simp only []
        obtain ⟨_, hlt⟩ := make_paragraphs_step_measure m lines a a1 st st1 ha hstep
        exact ih a1 st1 (by omega)
    · rw [if_neg ha]
      intro h; cases h

/-- A property of the state that every pass of the loop of `make_paragraphs` keeps holds
when the loop returns. -/
theorem make_paragraphs_loop_keeps (m : Libm) (lines : List line_t)
    (P : paragraphs_state → Prop)
    (hstep : ∀ a a1 st st1, P st → make_paragraphs_step m lines a st = .ok (a1, st1) → P st1) :
    ∀ (fuel a : Nat) (st st1 : paragraphs_state), P st →
      make_paragraphs_loop m lines fuel a st = .ok st1 → P st1 := by
  intro fuel
  induction fuel with
  | zero =>
    intro a st st1 hP h
    unfold make_paragraphs_loop at h
    split_ifs at h
    cases h
    exact hP
  | succ fuel ih =>
    intro a st st1 hP h
    unfold make_paragraphs_loop at h
    split_ifs at h
    · split at h
      · cases h
      · rename_i a2 st2 hs
        exact ih a2 st2 st1 (hstep a a2 st st2 hP hs) h
    · cases h
      exact hP

theorem forall2_getElem?_right {α β : Type} {R : α → β → Prop} {l1 : List α} {l2 : List β}
    (h : List.Forall₂ R l1 l2) :
    ∀ (i : Nat) (s : β), l2[i]? = some s → ∃ o, l1[i]? = some o ∧ R o s := by
  induction h with
  | nil => intro i o h; simp at h
  | cons hr _ ih =>
    intro i o h
    cases i with
    | zero =>
      simp only [List.getElem?_cons_zero, Option.some.injEq] at h
      subst h
      exact ⟨_, List.getElem?_cons_zero, hr⟩
    | succ i =>
      rw [List.getElem?_cons_succ] at h ⊢
      exact ih i o h

theorem make_paragraphs_step_keeps_inv (m : Libm) (orig : List span_t) (lines : List line_t)
    (a a1 : Nat) (st st1 : paragraphs_state) (hinv : paragraphs_inv orig lines st)
    (h : make_paragraphs_step m lines a st = .ok (a1, st1)) : paragraphs_inv orig lines st1 := by
  rcases make_paragraphs_step_inv m lines a a1 st st1 h with ⟨rfl, -⟩ |
    ⟨b, pa, pb, la, lb, ia, line_a, line_b, a_span, prev, angle_a, hpa, hpb, -, -, -, -, -, -,
      hspan, -, hpar, hspans, -⟩
  · exact hinv
  · constructor
    · rw [hspans]
      refine forall2_set hinv.keys ia _ ?_
      intro o ho
      obtain ⟨s, hs, hk⟩ := forall2_getElem? hinv.keys ia o ho
      rw [hspan] at hs
      cases hs
      exact hk
    · intro c p hc
      rw [hpar] at hc
      rcases getElem?_join_slots _ _ _ _ _ _ hc with ⟨-, rfl, -⟩ | ⟨-, -, h1⟩
      · obtain ⟨ha1, ha2⟩ := hinv.wf a pa hpa
        obtain ⟨-, hb2⟩ := hinv.wf b pb hpb
        constructor
        · show pa.lines ++ pb.lines ≠ []
          simp [ha1]
        · intro li hli
          rcases List.mem_append.1 hli with h2 | h2
          · exact ha2 li h2
          · exact hb2 li h2
      · exact hinv.wf c p h1

theorem make_paragraphs_step_keeps_same (m : Libm) (orig : List span_t) (lines : List line_t)
    (a a1 : Nat) (st st1 : paragraphs_state)
    (hinv : paragraphs_inv orig lines st ∧
      ∀ (b : Nat) (p : paragraph_t), st.paragraphs[b]? = some (some p) →
        paragraph_same orig lines p)
    (h : make_paragraphs_step m lines a st = .ok (a1, st1)) :
    paragraphs_inv orig lines st1 ∧
      ∀ (b : Nat) (p : paragraph_t), st1.paragraphs[b]? = some (some p) →
        paragraph_same orig lines p := by
  refine ⟨make_paragraphs_step_keeps_inv m orig lines a a1 st st1 hinv.1 h, ?_⟩
  obtain ⟨hinv, hsame⟩ := hinv
  rcases make_paragraphs_step_inv m lines a a1 st st1 h with ⟨rfl, -⟩ |
    ⟨b, pa, pb, la, lb, ia, line_a, line_b, a_span, prev, angle_a, hpa, hpb, hla, hline_a, hlb,
      hline_b, hcompat, -, -, -, hpar, -, -⟩
  · exact hsame
  · intro c p hc
    rw [hpar] at hc
    rcases getElem?_join_slots _ _ _ _ _ _ hc with ⟨-, rfl, -⟩ | ⟨-, -, h1⟩
    · obtain ⟨ka, hka⟩ := hsame a pa hpa
      obtain ⟨kb, hkb⟩ := hsame b pb hpb
      obtain ⟨-, ia0, ib0, sa, sb, hia0, hsa, hib0, hsb, hkey, -⟩ :=
        lines_are_compatible_true m st.spans la lb line_a line_b angle_a hcompat
      obtain ⟨oa, hoa, hkoa⟩ := forall2_getElem?_right hinv.keys ia0 sa hsa
      obtain ⟨ob, hob, hkob⟩ := forall2_getElem?_right hinv.keys ib0 sb hsb
      have e1 : span_key oa = ka :=
        hka la (List.mem_of_mem_getLast? hla) line_a hline_a ia0 (List.mem_of_mem_head? hia0)
          oa hoa
      have e2 : span_key ob = kb :=
        hkb lb (List.mem_of_mem_head? hlb) line_b hline_b ib0 (List.mem_of_mem_head? hib0)
          ob hob
      have e3 : ka = kb := by rw [← e1, ← e2, ← hkoa, ← hkob, hkey]
      refine ⟨ka, ?_⟩
      intro li hli l hl i hi o ho
      rcases List.mem_append.1 hli with h2 | h2
      · exact hka li h2 l hl i hi o ho
      · rw [e3]; exact hkb li h2 l hl i hi o ho
    · exact hsame c p h1


/-! ## The join of two paragraphs, and spans without glyphs -/

/-- C8: a pass of the loop of `make_paragraphs` either leaves the state unchanged or joins
some paragraph `b` onto paragraph `a`, and then the only span that changes is the last
span of the last line of `a`: when its last glyph `prev` is `-` that glyph is removed and
nothing is added, otherwise one glyph with `ucs == 0x20` is appended at
`(prev.x + prev.adv * ctm.a, prev.y + prev.adv * ctm.c)`. -/
theorem hyphen_folding (m : Libm) (lines : List line_t) (a a1 : Nat)
    (st st1 : paragraphs_state) (h : make_paragraphs_step m lines a st = .ok (a1, st1)) :
    st1 = st ∨
    ∃ (b : Nat) (pa pb : paragraph_t) (la ia : Nat) (line_a : line_t) (a_span : span_t)
      (prev : char_t),
      st.paragraphs[a]? = some (some pa) ∧ st.paragraphs[b]? = some (some pb) ∧
      pa.lines.getLast? = some la ∧ lines[la]? = some line_a ∧
      line_a.spans.getLast? = some ia ∧ st.spans[ia]? = some a_span ∧
      a_span.chars.getLast? = some prev ∧
      st1.paragraphs = (st.paragraphs.set a (some { lines := pa.lines ++ pb.lines })).set b none ∧
      st1.spans = st.spans.set ia
        { a_span with chars :=
            if prev.ucs = 45 then a_span.chars.dropLast
            else a_span.chars ++
              [{ char_init with ucs := 32, x := prev.x + prev.adv * a_span.ctm.a
                                y := prev.y + prev.adv * a_span.ctm.c }] } := by
  rcases make_paragraphs_step_inv m lines a a1 st st1 h with ⟨h1, -⟩ |
    ⟨b, pa, pb, la, lb, ia, line_a, line_b, a_span, prev, angle_a, h1, h2, h3, h4, -, -, -, h5,
      h6, h7, h8, h9, -⟩
  · exact Or.inl h1
  · exact Or.inr ⟨b, pa, pb, la, ia, line_a, a_span, prev, h1, h2, h3, h4, h5, h6, h7, h8, h9⟩

theorem sample_paragraphs_step :
    make_paragraphs_step sample_libm [{ spans := [0] }, { spans := [1] }] 0
      sample_paragraphs_before = .ok (0, sample_paragraphs_after) := by
  decide!

/-- Witness of C8: the line `xy` is joined below the line `ab`, and a space is appended. -/
theorem hyphen_folding_witness :
    sample_paragraphs_after = sample_paragraphs_before ∨
    ∃ (b : Nat) (pa pb : paragraph_t) (la ia : Nat) (line_a : line_t) (a_span : span_t)
      (prev : char_t),
      sample_paragraphs_before.paragraphs[0]? = some (some pa) ∧
      sample_paragraphs_before.paragraphs[b]? = some (some pb) ∧
      pa.lines.getLast? = some la ∧
      ([{ spans := [0] }, { spans := [1] }] : List line_t)[la]? = some line_a ∧
      line_a.spans.getLast? = some ia ∧ sample_paragraphs_before.spans[ia]? = some a_span ∧
      a_span.chars.getLast? = some prev ∧
      sample_paragraphs_after.paragraphs
        = (sample_paragraphs_before.paragraphs.set 0
            (some { lines := pa.lines ++ pb.lines })).set b none ∧
      sample_paragraphs_after.spans = sample_paragraphs_before.spans.set ia
        { a_span with chars :=
            if prev.ucs = 45 then a_span.chars.dropLast
            else a_span.chars ++
              [{ char_init with ucs := 32, x := prev.x + prev.adv * a_span.ctm.a
                                y := prev.y + prev.adv * a_span.ctm.c }] } :=
  hyphen_folding sample_libm [{ spans := [0] }, { spans := [1] }] 0 0
    sample_paragraphs_before sample_paragraphs_after sample_paragraphs_step

/-! ## Spans that become or stay empty -/

/-- C9 fails on the code: a span that holds the single glyph `-` is emptied by the join of
`make_paragraphs`. On the page of the spans `-` and `x`, one below the other, the next pass
of the loop then violates the assertion of `span_char_first`; with the two spans in the
other order the page is joined without a fault and keeps a span without glyphs. -/
theorem join_empties_hyphen_span :
    page_join sample_libm
        [sample_span [sample_char 45 0 0 1], sample_span [sample_char 120 0 1 1]]
      = .error (.fault .assert_failed) ∧
    page_join sample_libm
        [sample_span [sample_char 120 0 1 1], sample_span [sample_char 45 0 0 1]]
      = .ok ([sample_span [sample_char 120 0 1 1], sample_span []],
          [{ spans := [0] }, { spans := [1] }], [{ lines := [1, 0] }]) := by
  decide!

/-- C10 fails on the code: a `span` tag without `char` children is loaded, with either
autosplit setting, as a span without glyphs; when a second span follows it, `make_lines`
violates the assertion of `span_char_last` on the loaded page. -/
theorem loader_keeps_empty_span :
    extract_intermediate_to_document sample_libm
        [.tag (sample_tag "page"), .tag sample_span_tag, .tag (sample_tag "/span"),
          .tag (sample_tag "/page")] false
      = .ok { pages := [{ spans := [sample_span []], lines := [], paragraphs := [] }] } ∧
    extract_intermediate_to_document sample_libm
        [.tag (sample_tag "page"), .tag sample_span_tag, .tag (sample_tag "/span"),
          .tag (sample_tag "/page")] true
      = .ok { pages := [{ spans := [sample_span []], lines := [], paragraphs := [] }] } ∧
    extract_intermediate_to_document sample_libm
        [.tag (sample_tag "page"), .tag sample_span_tag, .tag (sample_tag "/span"),
          .tag sample_span_tag, .tag (sample_char_tag 97 0 0 1), .tag (sample_tag "/span"),
          .tag (sample_tag "/page")] false
      = .ok { pages := [{ spans := [sample_span [], sample_span [sample_char 97 0 0 1]],
                          lines := [], paragraphs := [] }] } ∧
    make_lines sample_libm [sample_span [], sample_span [sample_char 97 0 0 1]]
      = .error (.fault .assert_failed) := by
  decide!


/-! ## Sorting by `paragraphs_cmp` -/

theorem qsort_insert_spec {α : Type} (cmp : α → α → Except Fault Int) (R : α → α → Prop)
    (htot : ∀ x y, R x y ∨ R y x) (htrans : ∀ x y z, R x y → R y z → R x z) (x : α) :
    ∀ (ys r : List α), (∀ y ∈ ys, ∀ d, cmp x y = .ok d → (d ≤ 0 ↔ R x y)) →
      ys.Pairwise R → qsort_insert cmp x ys = .ok r → r.Pairwise R ∧ r.Perm (x :: ys) := by
  intro ys
  induction ys with
  | nil =>
    intro r _ _ h
    rw [qsort_insert] at h
    cases h
    exact ⟨List.pairwise_singleton R x, List.Perm.refl _⟩
  | cons y ys ih =>
    intro r hcmp hsorted h
    rw [qsort_insert] at h
    split at h
    · cases h
    rename_i d hd
    have hiff := hcmp y (List.mem_cons_self y ys) d hd
    rw [List.pairwise_cons] at hsorted
    split_ifs at h with hle
    · cases h
      refine ⟨?_, List.Perm.refl _⟩
      rw [List.pairwise_cons]
      refine ⟨?_, List.pairwise_cons.2 hsorted⟩
      intro z hz
      rcases List.mem_cons.1 hz with rfl | hz
      · exact hiff.1 hle
      · exact htrans x y z (hiff.1 hle) (hsorted.1 z hz)
    · split at h
      · cases h
      rename_i r1 hr1
      cases h
      obtain ⟨hp1, hperm1⟩ := ih r1 (fun z hz => hcmp z (List.mem_cons_of_mem y hz))
        hsorted.2 hr1
      have hyx : R y x := by
        rcases htot x y with h1 | h1
        · exact absurd (hiff.2 h1) hle
        · exact h1
      refine ⟨?_, ?_⟩
      · rw [List.pairwise_cons]
        refine ⟨?_, hp1⟩
        intro z hz
        rcases List.mem_cons.1 (hperm1.mem_iff.1 hz) with rfl | hz
        · exact hyx
        · exact hsorted.1 z hz
      · exact (List.Perm.cons y hperm1).trans (List.Perm.swap x y ys)

/-- When `qsort` returns, the array is a permutation of what it was and is in order, for
every total and transitive relation that agrees with the comparison function. -/
theorem qsort_spec {α : Type} (cmp : α → α → Except Fault Int) (R : α → α → Prop)
    (htot : ∀ x y, R x y ∨ R y x) (htrans : ∀ x y z, R x y → R y z → R x z)
    (hcmp : ∀ x y d, cmp x y = .ok d → (d ≤ 0 ↔ R x y)) :
    ∀ (l r : List α), qsort cmp l = .ok r → r.Pairwise R ∧ r.Perm l := by
  intro l
  induction l with
  | nil =>
    intro r h
    rw [qsort] at h
    cases h
    exact ⟨List.Pairwise.nil, List.Perm.refl _⟩
  | cons x xs ih =>
    intro r h
    rw [qsort] at h
    split at h
    · cases h
    rename_i r1 hr1
    obtain ⟨hp1, hperm1⟩ := ih r1 hr1
    obtain ⟨hp, hperm⟩ := qsort_insert_spec cmp R htot htrans x r1 r
      (fun y _ d hd => hcmp x y d hd) hp1 h
    exact ⟨hp, hperm.trans (List.Perm.cons x hperm1)⟩

theorem s_sign_neg_iff (x : ℚ) : s_sign x < 0 ↔ x < 0 := by
  unfold s_sign
  split_ifs with h1 h2
  · exact ⟨fun _ => h1, fun _ => by decide⟩
  · exact ⟨fun h => absurd h (by decide), fun h => absurd h h1⟩
  · exact ⟨fun h => absurd h (by decide), fun h => absurd h h1⟩

theorem matrix_cmp4_neg_iff (x y : matrix_t) : matrix_cmp4 x y < 0 ↔ lex4 x < lex4 y := by
  have ha := s_sign_neg_iff (x.a - y.a)
  have hb := s_sign_neg_iff (x.b - y.b)
  have hc := s_sign_neg_iff (x.c - y.c)
  have hd := s_sign_neg_iff (x.d - y.d)
  have za := s_sign_eq_zero_iff (x.a - y.a)
  have zb := s_sign_eq_zero_iff (x.b - y.b)
  have zc := s_sign_eq_zero_iff (x.c - y.c)
  have zd := s_sign_eq_zero_iff (x.d - y.d)
  rw [sub_neg] at ha hb hc hd
  rw [sub_eq_zero] at za zb zc zd
  unfold lex4
  rw [Prod.Lex.lt_iff, Prod.Lex.lt_iff, Prod.Lex.lt_iff]
  simp only [EmbeddingLike.apply_eq_iff_eq]
  unfold matrix_cmp4
  split_ifs with h1 h2 h3 h4
  · rw [ha]
    constructor
    · intro h; exact Or.inl h
    · rintro (h | ⟨h, -⟩)
      · exact h
      · exact absurd (za.2 h) h1
  · rw [not_not, za] at h1
    rw [hb]
    constructor
    · intro h; exact Or.inr ⟨h1, Or.inl h⟩
    · rintro (h | ⟨-, h | ⟨h, -⟩⟩)
      · exact absurd h1 (ne_of_lt h)
      · exact h
      · exact absurd (zb.2 h) h2
  · rw [not_not, za] at h1
    rw [not_not, zb] at h2
    rw [hc]
    constructor
    · intro h; exact Or.inr ⟨h1, Or.inr ⟨h2, Or.inl h⟩⟩
    · rintro (h | ⟨-, h | ⟨-, h | ⟨h, -⟩⟩⟩)
      · exact absurd h1 (ne_of_lt h)
      · exact absurd h2 (ne_of_lt h)
      · exact h
      · exact absurd (zc.2 h) h3
  · rw [not_not, za] at h1
    rw [not_not, zb] at h2
    rw [not_not, zc] at h3
    rw [hd]
    constructor
    · intro h; exact Or.inr ⟨h1, Or.inr ⟨h2, Or.inr ⟨h3, h⟩⟩⟩
    · rintro (h | ⟨-, h | ⟨-, h | ⟨-, h⟩⟩⟩)
      · exact absurd h1 (ne_of_lt h)
      · exact absurd h2 (ne_of_lt h)
      · exact absurd h3 (ne_of_lt h)
      · exact h
  · rw [not_not, za] at h1
    rw [not_not, zb] at h2
    rw [not_not, zc] at h3
    rw [not_not, zd] at h4
    constructor
    · intro h; exact absurd h (by decide)
    · rintro (h | ⟨-, h | ⟨-, h | ⟨-, h⟩⟩⟩)
      · exact absurd h1 (ne_of_lt h)
      · exact absurd h2 (ne_of_lt h)
      · exact absurd h3 (ne_of_lt h)
      · exact absurd h4 (ne_of_lt h)

theorem matrix_cmp4_eq_zero_iff_lex4 (x y : matrix_t) : matrix_cmp4 x y = 0 ↔ lex4 x = lex4 y := by
  rw [matrix_cmp4_eq_zero_iff]
  unfold lex4
  simp only [EmbeddingLike.apply_eq_iff_eq, Prod.mk.injEq]


theorem line_angle_eq (m : Libm) {spans : List span_t} {l : line_t} {i : Nat} {s : span_t}
    (hi : l.spans.head? = some i) (hs : spans[i]? = some s) :
    line_angle m spans l = .ok (span_angle m s) := by
  unfold line_angle
  simp only [hi, span_at_eq_ok hs, bind, Except.bind, pure, Except.pure]

theorem line_item_first_eq {spans : List span_t} {l : line_t} {i : Nat} {s : span_t}
    (hi : l.spans.head? = some i) (hs : spans[i]? = some s) :
    line_item_first spans l = span_char_first s := by
  unfold line_item_first
  simp only [line_span_first_eq_ok hi, span_at_eq_ok hs, bind, Except.bind]

theorem paragraph_first_span_eq {spans : List span_t} {lines : List line_t} {p : paragraph_t}
    {li i : Nat} {l : line_t} {s : span_t} (h1 : p.lines.head? = some li)
    (h2 : lines[li]? = some l) (h3 : l.spans.head? = some i) (h4 : spans[i]? = some s) :
    paragraph_first_span spans lines p = some s := by
  unfold paragraph_first_span
  simp only [h1, h2, h3, h4, Option.bind]

/-- What `paragraphs_cmp` returns, in terms of the first spans `sa` and `sb` of the two
paragraphs. -/
theorem paragraphs_cmp_inv (m : Libm) (spans : List span_t) (lines : List line_t)
    (p q : paragraph_t) (d : Int) (h : paragraphs_cmp m spans lines p q = .ok d) :
    ∃ sa sb, paragraph_first_span spans lines p = some sa ∧
      paragraph_first_span spans lines q = some sb ∧
      ((matrix_cmp4 sa.ctm sb.ctm ≠ 0 ∧ d = matrix_cmp4 sa.ctm sb.ctm) ∨
       (matrix_cmp4 sa.ctm sb.ctm = 0 ∧ ∃ ga gb, sa.chars.head? = some ga ∧
          sb.chars.head? = some gb ∧
          d = (if |span_angle m sa - span_angle m sb| > (314 / 100) / 2 then 0
            else if line_distance m ga.x ga.y gb.x gb.y
                ((span_angle m sa + span_angle m sb) / 2) > 0 then -1
            else if line_distance m ga.x ga.y gb.x gb.y
                ((span_angle m sa + span_angle m sb) / 2) < 0 then 1
            else 0))) := by
  unfold paragraphs_cmp at h
  split at h
  case h_2 => cases h
  case h_3 => cases h
  rename_i a_ptr b_ptr h1a h1b
  split at h
  case h_2 => cases h
  case h_3 => cases h
  rename_i a_line b_line h2a h2b
  split at h
  case h_2 => cases h
  case h_3 => cases h
  rename_i ia ib h3a h3b
  split at h
  case h_2 => cases h
  case h_3 => cases h
  rename_i sa sb h4a h4b
  have h3a' := line_span_first_inv h3a
  have h3b' := line_span_first_inv h3b
  have h4a' := span_at_inv h4a
  have h4b' := span_at_inv h4b
  refine ⟨sa, sb,
    paragraph_first_span_eq (paragraph_line_first_inv h1a) (line_at_inv h2a) h3a' h4a',
    paragraph_first_span_eq (paragraph_line_first_inv h1b) (line_at_inv h2b) h3b' h4b', ?_⟩
  by_cases hc : matrix_cmp4 sa.ctm sb.ctm = 0
  · right
    refine ⟨hc, ?_⟩
    rw [if_neg (not_not.2 hc), line_angle_eq m h3a' h4a', line_angle_eq m h3b' h4b'] at h
    simp only [] at h
    have hang : span_angle m sa = span_angle m sb := by
      have := (matrix_cmp4_eq_zero_iff sa.ctm sb.ctm).1 hc
      unfold span_angle
      rw [this.1, this.2.2.1]
    have hg : ¬ |span_angle m sa - span_angle m sb| > (314 / 100) / 2 := by
      rw [hang, sub_self, abs_zero]
      norm_num
    · rw [if_neg hg, line_item_first_eq h3a' h4a', line_item_first_eq h3b' h4b'] at h
      split at h
      rotate_left
      · cases h
      · cases h
      rename_i ga gb h5a h5b
      refine ⟨ga, gb, span_char_first_inv h5a, span_char_first_inv h5b, ?_⟩
      rw [if_neg hg]
      split_ifs at h ⊢ <;> cases h <;> rfl
  · left
    rw [if_pos hc] at h
    cases h
    exact ⟨hc, rfl⟩

theorem sort_key_eq (m : Libm) {spans : List span_t} {lines : List line_t} {p : paragraph_t}
    {s : span_t} (h : paragraph_first_span spans lines p = some s) :
    sort_key m spans lines p
      = toLex (lex4 s.ctm, (s.chars.head?.map (glyph_offset m s)).getD 0) := by
  unfold sort_key
  rw [h]

theorem line_distance_eq_offsets (m : Libm) (sa sb : span_t) (ga gb : char_t)
    (hang : span_angle m sa = span_angle m sb) :
    line_distance m ga.x ga.y gb.x gb.y ((span_angle m sa + span_angle m sb) / 2)
      = glyph_offset m sb gb - glyph_offset m sa ga := by
  unfold line_distance glyph_offset
  rw [hang]
  have : (span_angle m sb + span_angle m sb) / 2 = span_angle m sb := by ring
  rw [this]
  ring

/-- `paragraphs_cmp` orders by `sort_key`. -/
theorem paragraphs_cmp_le_iff (m : Libm) (spans : List span_t) (lines : List line_t)
    (p q : paragraph_t) (d : Int) (h : paragraphs_cmp m spans lines p q = .ok d) :
    d ≤ 0 ↔ sort_key m spans lines p ≤ sort_key m spans lines q := by
  obtain ⟨sa, sb, hsa, hsb, hd⟩ := paragraphs_cmp_inv m spans lines p q d h
  rw [sort_key_eq m hsa, sort_key_eq m hsb, Prod.Lex.le_iff]
  simp only []
  rcases hd with ⟨hne, rfl⟩ | ⟨hz, ga, gb, hga, hgb, rfl⟩
  · have hne' : lex4 sa.ctm ≠ lex4 sb.ctm :=
      fun h => hne ((matrix_cmp4_eq_zero_iff_lex4 _ _).2 h)
    rw [← matrix_cmp4_neg_iff]
    constructor
    · intro h
      exact Or.inl (lt_of_le_of_ne h hne)
    · rintro (h | ⟨h, -⟩)
      · exact le_of_lt h
      · exact absurd h hne'
  · have hlex := (matrix_cmp4_eq_zero_iff_lex4 _ _).1 hz
    have hang : span_angle m sa = span_angle m sb := by
      have := (matrix_cmp4_eq_zero_iff sa.ctm sb.ctm).1 hz
      unfold span_angle
      rw [this.1, this.2.2.1]
    have hg : ¬ |span_angle m sa - span_angle m sb| > (314 / 100) / 2 := by
      rw [hang, sub_self, abs_zero]
      norm_num
    rw [if_neg hg, line_distance_eq_offsets m sa sb ga gb hang, hga, hgb]
    simp only [Option.map_some', Option.getD_some]
    constructor
    · intro h
      right
      refine ⟨hlex, ?_⟩
      by_contra hcon
      rw [not_le] at hcon
      rw [if_neg (by linarith), if_pos (by linarith)] at h
      exact absurd h (by decide)
    · rintro (h | ⟨-, h⟩)
      · exact absurd hlex (ne_of_lt h)
      · split_ifs with h1 h2
        · decide
        · linarith
        · decide

/-- When `qsort` returns in `make_paragraphs`, the paragraphs are those that were left in
the array, ordered by `sort_key`. -/
theorem make_paragraphs_sorted (m : Libm) (spans : List span_t) (lines : List line_t)
    (l r : List paragraph_t) (h : qsort (paragraphs_cmp m spans lines) l = .ok r) :
    r.Pairwise (fun p q => sort_key m spans lines p ≤ sort_key m spans lines q) ∧ r.Perm l :=
  qsort_spec (paragraphs_cmp m spans lines)
    (fun p q => sort_key m spans lines p ≤ sort_key m spans lines q)
    (fun p q => le_total _ _) (fun _ _ _ h1 h2 => le_trans h1 h2)
    (fun p q d hd => paragraphs_cmp_le_iff m spans lines p q d hd) l r h

/-- What `make_paragraphs` returns, in terms of the state in which its loop ends. -/
theorem make_paragraphs_inv (m : Libm) (spans : List span_t) (lines : List line_t)
    (spans1 : List span_t) (paragraphs : List paragraph_t)
    (h : make_paragraphs m spans lines = .ok (spans1, paragraphs)) :
    ∃ st, make_paragraphs_loop m lines (2 * lines.length) 0
        { spans := spans
          paragraphs := (List.range lines.length).map fun a => some { lines := [a] } }
        = .ok st ∧ st.spans = spans1 ∧
      qsort (paragraphs_cmp m spans1 lines) st.paragraphs.reduceOption = .ok paragraphs := by
  unfold make_paragraphs at h
  simp only [] at h
  split at h
  · cases h
  rename_i st hst
  split_ifs at h
  split at h
  · cases h
  rename_i sorted hsorted
  cases h
  exact ⟨st, hst, rfl, hsorted⟩

theorem make_paragraphs_fuel (m : Libm) (spans : List span_t) (lines : List line_t) :
    make_paragraphs m spans lines ≠ .error .out_of_fuel := by
  have hloop := make_paragraphs_loop_fuel m lines (2 * lines.length) 0
    { spans := spans
      paragraphs := (List.range lines.length).map fun a => some { lines := [a] } }
    (by
      show ((List.range lines.length).map fun a =>
        some ({ lines := [a] } : paragraph_t)).reduceOption.length + _ ≤ _
      rw [reduceOption_init_slots]
      simp
      omega)
  unfold make_paragraphs
  simp only []
  split
  · rename_i e he
    intro h
    cases h
    exact hloop he
  · split_ifs
    · intro h; cases h
    · split
      · intro h; cases h
      · intro h; cases h

theorem forall2_key_refl (l : List span_t) :
    List.Forall₂ (fun o s => span_key s = span_key o) l l := by
  induction l with
  | nil => exact List.Forall₂.nil
  | cons x xs ih => exact List.Forall₂.cons rfl ih

theorem paragraphs_inv_init (spans : List span_t) (lines : List line_t) :
    paragraphs_inv spans lines
      { spans := spans
        paragraphs := (List.range lines.length).map fun a => some { lines := [a] } } := by
  constructor
  · exact forall2_key_refl spans
  · intro b p h
    obtain ⟨hb, rfl⟩ := getElem?_init_slots (fun a => ({ lines := [a] } : paragraph_t)) _ _ _ h
    refine ⟨by simp, ?_⟩
    intro li hli
    rw [List.mem_singleton] at hli
    omega


/-! ## What `make_paragraphs` returns -/

theorem line_key_of_invariants (m : Libm) (spans : List span_t) (l : line_t)
    (h : ∀ i ∈ l.spans, ∀ j ∈ l.spans, ∀ si sj : span_t,
      spans[i]? = some si → spans[j]? = some sj →
      si.wmode = sj.wmode ∧ matrix_cmp4 si.ctm sj.ctm = 0 ∧
        span_angle m si = span_angle m sj) :
    ∃ k, ∀ i ∈ l.spans, ∀ o, spans[i]? = some o → span_key o = k := by
  by_cases hex : ∃ i ∈ l.spans, ∃ o, spans[i]? = some o
  · obtain ⟨i, hi, o, ho⟩ := hex
    refine ⟨span_key o, ?_⟩
    intro j hj oj hoj
    have := h j hj i hi oj o hoj ho
    exact (span_key_eq_iff oj o).2 ⟨this.1, this.2.1⟩
  · refine ⟨span_key (sample_span []), ?_⟩
    intro j hj oj hoj
    exact absurd ⟨j, hj, oj, hoj⟩ hex

/-- C3: for every list of lines that satisfy the line invariants, `make_paragraphs` does not
use up its step budget, and when it returns, all spans of all lines of a returned paragraph
have the same writing mode and the same CTM under `matrix_cmp4`. -/
theorem make_paragraphs_paragraph_invariants (m : Libm) (spans : List span_t)
    (lines : List line_t)
    (hline : ∀ l ∈ lines, ∀ i ∈ l.spans, ∀ j ∈ l.spans, ∀ si sj : span_t,
      spans[i]? = some si → spans[j]? = some sj →
      si.wmode = sj.wmode ∧ matrix_cmp4 si.ctm sj.ctm = 0 ∧
        span_angle m si = span_angle m sj) :
    make_paragraphs m spans lines ≠ .error .out_of_fuel ∧
    ∀ spans1 paragraphs, make_paragraphs m spans lines = .ok (spans1, paragraphs) →
      ∀ p ∈ paragraphs, ∀ li ∈ p.lines, ∀ lj ∈ p.lines, ∀ l1 l2 : line_t,
        lines[li]? = some l1 → lines[lj]? = some l2 →
        ∀ i ∈ l1.spans, ∀ j ∈ l2.spans, ∀ si sj : span_t,
          spans1[i]? = some si → spans1[j]? = some sj →
          si.wmode = sj.wmode ∧ matrix_cmp4 si.ctm sj.ctm = 0 := by
  refine ⟨make_paragraphs_fuel m spans lines, ?_⟩
  intro spans1 paragraphs hres p hp li hli lj hlj l1 l2 hl1 hl2 i hi j hj si sj hsi hsj
  obtain ⟨st, hloop, rfl, hsort⟩ := make_paragraphs_inv m spans lines _ paragraphs hres
  have hinit : ∀ (b : Nat) (q : paragraph_t),
      ((List.range lines.length).map fun a => some ({ lines := [a] } : paragraph_t))[b]?
        = some (some q) → paragraph_same spans lines q := by
    intro b q hq
    obtain ⟨hb, rfl⟩ := getElem?_init_slots (fun a => ({ lines := [a] } : paragraph_t)) _ _ _ hq
    obtain ⟨k, hk⟩ := line_key_of_invariants m spans lines[b]
      (hline _ (List.getElem_mem hb))
    refine ⟨k, ?_⟩
    intro li hli l hl
    rw [List.mem_singleton] at hli
    subst hli
    rw [List.getElem?_eq_getElem hb] at hl
    cases hl
    exact hk
  obtain ⟨hinv, hsame⟩ := make_paragraphs_loop_keeps m lines
    (fun st => paragraphs_inv spans lines st ∧
      ∀ (b : Nat) (p : paragraph_t), st.paragraphs[b]? = some (some p) →
        paragraph_same spans lines p)
    (fun a a1 st st1 hP hs => make_paragraphs_step_keeps_same m spans lines a a1 st st1 hP hs)
    _ _ _ st ⟨paragraphs_inv_init spans lines, hinit⟩ hloop
  obtain ⟨-, hperm⟩ := make_paragraphs_sorted m st.spans lines _ _ hsort
  have hp' : some p ∈ st.paragraphs := List.reduceOption_mem_iff.1 (hperm.mem_iff.1 hp)
  obtain ⟨b, hb⟩ := List.mem_iff_getElem?.1 hp'
  obtain ⟨k, hk⟩ := hsame b p hb
  obtain ⟨oi, hoi, hki⟩ := forall2_getElem?_right hinv.keys i si hsi
  obtain ⟨oj, hoj, hkj⟩ := forall2_getElem?_right hinv.keys j sj hsj
  have hkey : span_key si = span_key sj := by
    rw [hki, hkj, hk li hli l1 hl1 i hi oi hoi, hk lj hlj l2 hl2 j hj oj hoj]
  exact (span_key_eq_iff si sj).1 hkey

theorem sample_two_lines_invariants (m : Libm) (s0 s1 : span_t) :
    ∀ l ∈ sample_two_lines, ∀ i ∈ l.spans, ∀ j ∈ l.spans, ∀ si sj : span_t,
      [s0, s1][i]? = some si → [s0, s1][j]? = some sj →
      si.wmode = sj.wmode ∧ matrix_cmp4 si.ctm sj.ctm = 0 ∧
        span_angle m si = span_angle m sj := by
  intro l hl i hi j hj si sj hsi hsj
  have hij : i = j := by
    simp only [sample_two_lines, List.mem_cons, List.mem_singleton, List.not_mem_nil,
      or_false] at hl
    rcases hl with rfl | rfl
    · simp only [List.mem_singleton] at hi hj; rw [hi, hj]
    · simp only [List.mem_singleton] at hi hj; rw [hi, hj]
  subst hij
  rw [hsi] at hsj
  cases hsj
  exact ⟨rfl, (matrix_cmp4_eq_zero_iff _ _).2 ⟨rfl, rfl, rfl, rfl⟩, rfl⟩

/-- Witness of C3: the lines `ab` and `xy`, one below the other, become one paragraph. -/
theorem make_paragraphs_paragraph_invariants_witness :
    make_paragraphs sample_libm sample_paragraphs_before.spans sample_two_lines
        = .ok (sample_paragraphs_after.spans, [{ lines := [0, 1] }]) ∧
    ∀ p ∈ [({ lines := [0, 1] } : paragraph_t)], ∀ li ∈ p.lines, ∀ lj ∈ p.lines,
      ∀ l1 l2 : line_t, sample_two_lines[li]? = some l1 → sample_two_lines[lj]? = some l2 →
      ∀ i ∈ l1.spans, ∀ j ∈ l2.spans, ∀ si sj : span_t,
        sample_paragraphs_after.spans[i]? = some si →
        sample_paragraphs_after.spans[j]? = some sj →
        si.wmode = sj.wmode ∧ matrix_cmp4 si.ctm sj.ctm = 0 :=
  ⟨by decide!,
    (make_paragraphs_paragraph_invariants sample_libm sample_paragraphs_before.spans
      sample_two_lines (sample_two_lines_invariants sample_libm _ _)).2 _ _ (by decide!)⟩

/-- C4: `make_paragraphs` does not use up its step budget, and in the paragraphs it returns,
for `i < j`, when the first spans of paragraphs `i` and `j` have equal CTM under
`matrix_cmp4` and hold the first glyphs `gi` and `gj`, the `line_distance` from `gi` to `gj`
along the mean of the two angles is at least `0`. -/
theorem paragraphs_sorted_by_distance (m : Libm) (spans : List span_t) (lines : List line_t) :
    make_paragraphs m spans lines ≠ .error .out_of_fuel ∧
    ∀ spans1 paragraphs, make_paragraphs m spans lines = .ok (spans1, paragraphs) →
      ∀ (i j : Nat) (pi pj : paragraph_t) (si sj : span_t) (gi gj : char_t), i < j →
        paragraphs[i]? = some pi → paragraphs[j]? = some pj →
        paragraph_first_span spans1 lines pi = some si →
        paragraph_first_span spans1 lines pj = some sj →
        si.chars.head? = some gi → sj.chars.head? = some gj →
        matrix_cmp4 si.ctm sj.ctm = 0 →
        0 ≤ line_distance m gi.x gi.y gj.x gj.y ((span_angle m si + span_angle m sj) / 2) := by
  refine ⟨make_paragraphs_fuel m spans lines, ?_⟩
  intro spans1 paragraphs hres i j pi pj si sj gi gj hij hpi hpj hsi hsj hgi hgj hc
  obtain ⟨st, -, rfl, hsort⟩ := make_paragraphs_inv m spans lines _ paragraphs hres
  obtain ⟨hpw, -⟩ := make_paragraphs_sorted m st.spans lines _ _ hsort
  obtain ⟨hi, rfl⟩ := List.getElem?_eq_some_iff.1 hpi
  obtain ⟨hj, rfl⟩ := List.getElem?_eq_some_iff.1 hpj
  have hle := List.pairwise_iff_getElem.1 hpw i j hi hj hij
  rw [sort_key_eq m hsi, sort_key_eq m hsj, Prod.Lex.le_iff] at hle
  simp only [hgi, hgj, Option.map_some', Option.getD_some] at hle
  have hlex := (matrix_cmp4_eq_zero_iff_lex4 _ _).1 hc
  have hang : span_angle m si = span_angle m sj := by
    have := (matrix_cmp4_eq_zero_iff si.ctm sj.ctm).1 hc
    unfold span_angle
    rw [this.1, this.2.2.1]
  rw [line_distance_eq_offsets m si sj gi gj hang]
  rcases hle with h | ⟨-, h⟩
  · exact absurd hlex (ne_of_lt h)
  · linarith

/-- Witness of C4: of two paragraphs that are given with the upper one first, the sort puts
the one at `y = 0` before the one at `y = 10`. -/
theorem paragraphs_sorted_by_distance_witness :
    make_paragraphs sample_libm sample_far_spans sample_two_lines
        = .ok (sample_far_spans, [{ lines := [1] }, { lines := [0] }]) ∧
    0 ≤ line_distance sample_libm 0 0 0 10
      ((span_angle sample_libm (sample_span [sample_char 97 0 0 1])
        + span_angle sample_libm (sample_span [sample_char 98 0 10 1])) / 2) :=
  ⟨by decide!,
    (paragraphs_sorted_by_distance sample_libm sample_far_spans sample_two_lines).2
      sample_far_spans [{ lines := [1] }, { lines := [0] }] (by decide!) 0 1 { lines := [1] }
      { lines := [0] } (sample_span [sample_char 97 0 0 1])
      (sample_span [sample_char 98 0 10 1]) (sample_char 97 0 0 1) (sample_char 98 0 10 1)
      (by decide) (by decide) (by decide) (by decide!) (by decide!) (by decide!) (by decide!)
      (by decide!)⟩

/-! ## The loader -/

theorem load_events_pages (m : Libm) (autosplit : Bool) (events : List xml_event) :
    ∀ (mode : load_mode) (done : List page_t) (spans : List span_t) (doc : extract_document_t),
      load_events m autosplit mode done spans events = .ok doc →
      doc.pages.length
        = done.length + load_mode_pending mode + (events.filter is_page_tag).length := by
  induction events with
  | nil =>
    intro mode done spans doc h
    cases mode <;> simp [load_events] at h
    subst h
    simp [load_mode_pending]
  | cons ev rest ih =>
    intro mode done spans doc h
    cases ev with
    | failure => cases mode <;> simp [load_events] at h
    | tag tag =>
      cases mode with
      | document =>
        simp only [load_events] at h
        split_ifs at h with h1 h2
        · rw [ih _ _ _ _ h]
          simp [load_mode_pending, is_page_tag, h1]
        · rw [ih _ _ _ _ h]
          have : tag.name = "page" := by simpa using h2
          simp [load_mode_pending, is_page_tag, this]
          omega
      | page =>
        simp only [load_events] at h
        split_ifs at h with h1 h2 h3
        · rw [ih _ _ _ _ h]
          simp [load_mode_pending, is_page_tag, h1]
        · have hn : is_page_tag (.tag tag) = false := by simp [is_page_tag, h2]
          rw [List.filter_cons_of_neg (by simp [hn])]
          revert h
          split
          · intro h; cases h
          · split_ifs
            · split
              · split_ifs
                · intro h; exact (ih _ _ _ _ h).trans (by simp [load_mode_pending])
                · intro h; exact (ih _ _ _ _ h).trans (by simp [load_mode_pending])
              · intro h; cases h
              · intro h; cases h
            · split
              · intro h; cases h
              · split
                · intro h; cases h
                · intro h; exact (ih _ _ _ _ h).trans (by simp [load_mode_pending])
        · have h3 : tag.name = "span" := by simpa using h3
          have hn : is_page_tag (.tag tag) = false := by simp [is_page_tag, h3]
          rw [List.filter_cons_of_neg (by simp [hn])]
          revert h
          split
          · intro h; cases h
          · intro h; exact (ih _ _ _ _ h).trans (by simp [load_mode_pending])
      | span ox oy =>
        simp only [load_events] at h
        split_ifs at h with h1 h2
        · have hn : is_page_tag (.tag tag) = false := by simp [is_page_tag, h1]
          rw [List.filter_cons_of_neg (by simp [hn])]
          exact (ih _ _ _ _ h).trans (by simp [load_mode_pending])
        · have h2 : tag.name = "char" := by simpa using h2
          have hn : is_page_tag (.tag tag) = false := by simp [is_page_tag, h2]
          rw [List.filter_cons_of_neg (by simp [hn])]
          revert h
          split
          · intro h; cases h
          · intro h; exact (ih _ _ _ _ h).trans (by simp [load_mode_pending])
      | pixmap_line y hh =>
        simp only [load_events] at h
        split_ifs at h with h1
        have h1 : tag.name = "line" := by simpa using h1
        have hn : is_page_tag (.tag tag) = false := by simp [is_page_tag, h1]
        rw [List.filter_cons_of_neg (by simp [hn])]
        revert h
        split
        · intro h; cases h
        · split_ifs
          · intro h; cases h
          · intro h; exact (ih _ _ _ _ h).trans (by simp [load_mode_pending])
      | pixmap_line_end y hh =>
        simp only [load_events] at h
        split_ifs at h with h1 h2
        all_goals
          have h1 : tag.name = "/line" := by simpa using h1
          have hn : is_page_tag (.tag tag) = false := by simp [is_page_tag, h1]
          rw [List.filter_cons_of_neg (by simp [hn])]
          exact (ih _ _ _ _ h).trans (by simp [load_mode_pending])
      | image_end =>
        simp only [load_events] at h
        split_ifs at h with h1
        have h1 : tag.name = "/image" := by simpa using h1
        have hn : is_page_tag (.tag tag) = false := by simp [is_page_tag, h1]
        rw [List.filter_cons_of_neg (by simp [hn])]
        exact (ih _ _ _ _ h).trans (by simp [load_mode_pending])

/-- Invariants of the loader: `I` holds for the offset and the spans of the page that is
being read, `D` for the spans of every complete page. -/
theorem load_events_invariant (m : Libm) (autosplit : Bool) (all : List xml_event)
    (I : Option (ℚ × ℚ) → List span_t → Prop) (D : List span_t → Prop)
    (hpage : I none [])
    (hend : ∀ spans, I none spans → D spans)
    (hspan : ∀ tag spans span, xml_event.tag tag ∈ all → tag.name = "span" →
      I none spans → load_span tag = .ok span → I (some (0, 0)) (spans ++ [span]))
    (hchar : ∀ tag offset_x offset_y spans offset_x1 offset_y1 spans1,
      xml_event.tag tag ∈ all → tag.name = "char" → I (some (offset_x, offset_y)) spans →
      load_char m autosplit tag offset_x offset_y spans = .ok (offset_x1, offset_y1, spans1) →
      I (some (offset_x1, offset_y1)) spans1)
    (hclose : ∀ offset spans, I (some offset) spans → I none spans)
    (events : List xml_event) :
    ∀ (mode : load_mode) (done : List page_t) (spans : List span_t) (doc : extract_document_t),
      (∀ ev ∈ events, ev ∈ all) →
      load_events m autosplit mode done spans events = .ok doc →
      (mode = .document ∨ I (load_mode_offset mode) spans) →
      (∀ page ∈ done, D page.spans) →
      ∀ page ∈ doc.pages, D page.spans := by
  induction events with
  | nil =>
    intro mode done spans doc _ h _ hdone
    cases mode <;> simp [load_events] at h
    subst h
    exact hdone
  | cons ev rest ih =>
    intro mode done spans doc hall h hI hdone
    have hrest : ∀ ev ∈ rest, ev ∈ all := fun e he => hall e (List.mem_cons_of_mem _ he)
    cases ev with
    | failure => cases mode <;> simp [load_events] at h
    | tag tag =>
      have htag : xml_event.tag tag ∈ all := hall _ (List.mem_cons_self _ _)
      cases mode with
      | document =>
        simp only [load_events] at h
        split_ifs at h with h1 h2
        · exact ih _ _ _ _ hrest h (Or.inl rfl) hdone
        · exact ih _ _ _ _ hrest h (Or.inr hpage) hdone
      | page =>
        have hI : I none spans := by
          rcases hI with hI | hI
          · cases hI
          · exact hI
        simp only [load_events] at h
        split_ifs at h with h1 h2 h3
        · refine ih _ _ _ _ hrest h (Or.inl rfl) ?_
          intro page hp
          rcases List.mem_append.1 hp with hp | hp
          · exact hdone page hp
          · rw [List.mem_singleton.1 hp]
            exact hend spans hI
        · revert h
          split
          · intro h; cases h
          · split_ifs
            · split
              · split_ifs
                · intro h; exact ih _ _ _ _ hrest h (Or.inr hI) hdone
                · intro h; exact ih _ _ _ _ hrest h (Or.inr hI) hdone
              · intro h; cases h
              · intro h; cases h
            · split
              · intro h; cases h
              · split
                · intro h; cases h
                · intro h; exact ih _ _ _ _ hrest h (Or.inr hI) hdone
        · have h3 : tag.name = "span" := by simpa using h3
          revert h
          split
          · intro h; cases h
          · rename_i span hspan_ok
            intro h
            exact ih _ _ _ _ hrest h (Or.inr (hspan tag spans span htag h3 hI hspan_ok)) hdone
      | span ox oy =>
        have hI : I (some (ox, oy)) spans := by
          rcases hI with hI | hI
          · cases hI
          · exact hI
        simp only [load_events] at h
        split_ifs at h with h1 h2
        · exact ih _ _ _ _ hrest h (Or.inr (hclose _ _ hI)) hdone
        · have h2 : tag.name = "char" := by simpa using h2
          revert h
          split
          · intro h; cases h
          · rename_i ox1 oy1 spans1 hchar_ok
            intro h
            exact ih _ _ _ _ hrest h
              (Or.inr (hchar tag ox oy spans ox1 oy1 spans1 htag h2 hI hchar_ok)) hdone
      | pixmap_line y hh =>
        have hI : I none spans := by
          rcases hI with hI | hI
          · cases hI
          · exact hI
        simp only [load_events] at h
        split_ifs at h with h1
        revert h
        split
        · intro h; cases h
        · split_ifs
          · intro h; cases h
          · intro h; exact ih _ _ _ _ hrest h (Or.inr hI) hdone
      | pixmap_line_end y hh =>
        have hI : I none spans := by
          rcases hI with hI | hI
          · cases hI
          · exact hI
        simp only [load_events] at h
        split_ifs at h with h1 h2
        all_goals exact ih _ _ _ _ hrest h (Or.inr hI) hdone
      | image_end =>
        have hI : I none spans := by
          rcases hI with hI | hI
          · cases hI
          · exact hI
        simp only [load_events] at h
        split_ifs at h with h1
        exact ih _ _ _ _ hrest h (Or.inr hI) hdone

theorem page_span_end_clean_from (m : Libm) (spans spans1 : List span_t)
    (h : page_span_end_clean m spans = .ok spans1) :
    ∀ s1 ∈ spans1, ∃ s ∈ spans, s1.ctm = s.ctm ∧ ∀ g ∈ s1.chars, g ∈ s.chars := by
  have hself : ∀ s1 ∈ spans, ∃ s ∈ spans, s1.ctm = s.ctm ∧ ∀ g ∈ s1.chars, g ∈ s.chars :=
    fun s1 hs1 => ⟨s1, hs1, rfl, fun _ hg => hg⟩
  unfold page_span_end_clean at h
  split at h
  · cases h
  · rename_i span hlast
    have hmem : span ∈ spans := List.mem_of_mem_getLast? hlast
    simp only at h
    split_ifs at h with h0 h1 hw
    · cases h; exact hself
    all_goals
      split at h
      · rename_i c2 c1 hc2 hc1
        have hc1m : c1 ∈ span.chars := List.getElem?_mem hc1
        split_ifs at h with h2 h3 h4
        · cases h
          intro s1 hs1
          rcases List.mem_or_eq_of_mem_set hs1 with hs1 | hs1
          · exact hself s1 hs1
          · subst hs1
            refine ⟨span, hmem, rfl, ?_⟩
            intro g hg
            rcases List.mem_or_eq_of_mem_set (List.mem_of_mem_dropLast hg) with hg | hg
            · exact hg
            · exact hg ▸ hc1m
        · cases h; exact hself
        · cases h
          intro s1 hs1
          rcases List.mem_append.1 hs1 with hs1 | hs1
          · rcases List.mem_or_eq_of_mem_set hs1 with hs1 | hs1
            · exact hself s1 hs1
            · subst hs1
              exact ⟨span, hmem, rfl, fun g hg => List.mem_of_mem_dropLast hg⟩
          · rw [List.mem_singleton.1 hs1]
            refine ⟨span, hmem, rfl, ?_⟩
            intro g hg
            rw [List.mem_singleton.1 hg]
            exact hc1m
        · cases h; exact hself
      · cases h

theorem load_char_no_autosplit (m : Libm) (tag : extract_xml_tag_t) (offset_x offset_y : ℚ)
    (spans spans1 : List span_t) (offset_x1 offset_y1 : ℚ)
    (h : load_char m false tag offset_x offset_y spans = .ok (offset_x1, offset_y1, spans1)) :
    offset_x1 = offset_x ∧ offset_y1 = offset_y ∧
    ∃ x y adv ucs,
      extract_xml_tag_attributes_find_float tag "x" = .ok x ∧
      extract_xml_tag_attributes_find_float tag "y" = .ok y ∧
      extract_xml_tag_attributes_find_float tag "adv" = .ok adv ∧
      extract_xml_tag_attributes_find_uint tag "ucs" = .ok ucs ∧
      ∀ s1 ∈ spans1, ∃ s ∈ spans, s1.ctm = s.ctm ∧ ∀ g ∈ s1.chars, g ∈ s.chars ∨
        g = { pre_x := x - offset_x, pre_y := y - offset_y
              x := s.ctm.a * (x - offset_x) + s.ctm.b * (y - offset_y) + s.ctm.e
              y := s.ctm.c * (x - offset_x) + s.ctm.d * (y - offset_y) + s.ctm.f
              gid := 0, ucs := ucs, adv := adv } := by
  unfold load_char at h
  split at h
  · rename_i x y hx hy
    split at h
    · cases h
    · rename_i span0 hlast
      have hmem : span0 ∈ spans := List.mem_of_mem_getLast? hlast
      simp only [Bool.false_and, Bool.false_eq_true, if_false, false_and] at h
      split at h
      · rename_i adv ucs hadv hucs
        split at h
        · cases h
        · rename_i spans2 hclean
          simp only [Except.ok.injEq, Prod.mk.injEq] at h
          obtain ⟨h1, h2, h3⟩ := h
          subst h3
          refine ⟨h1.symm, h2.symm, x, y, adv, ucs, hx, hy, hadv, hucs, ?_⟩
          intro s1 hs1
          obtain ⟨s, hs, hctm, hchars⟩ := page_span_end_clean_from m _ _ hclean s1 hs1
          rcases List.mem_or_eq_of_mem_set hs with hs | hs
          · exact ⟨s, hs, hctm, fun g hg => Or.inl (hchars g hg)⟩
          · subst hs
            refine ⟨span0, hmem, hctm, ?_⟩
            intro g hg
            rcases List.mem_append.1 (hchars g hg) with hg | hg
            · exact Or.inl hg
            · exact Or.inr (List.mem_singleton.1 hg)
      · cases h
      · cases h
  · cases h
  · cases h

theorem strstr_iff_infix (text pattern : List Char) :
    strstr text pattern = true ↔ pattern <:+: text := by
  induction text with
  | nil => simp [strstr, List.isEmpty_iff]
  | cons c cs ih =>
    simp only [strstr, Bool.or_eq_true, ih, List.infix_cons_iff, List.isPrefixOf_iff_prefix]

theorem font_name_strip_plus (pre post : List Char) (h : '+' ∉ pre) :
    font_name_strip (pre ++ '+' :: post) = post := by
  have : (pre ++ '+' :: post).dropWhile (fun c => decide (c ≠ '+')) = '+' :: post := by
    induction pre with
    | nil => simp [List.dropWhile]
    | cons c cs ih =>
      have hc : c ≠ '+' := fun hc => h (by simp [hc])
      have hcs : '+' ∉ cs := fun hcs => h (by simp [hcs])
      rw [List.cons_append, List.dropWhile_cons_of_pos (by simpa using hc)]
      exact ih hcs
  simp only [font_name_strip, this]

theorem font_name_strip_none (f : List Char) (h : '+' ∉ f) : font_name_strip f = f := by
  have : f.dropWhile (fun c => decide (c ≠ '+')) = [] := by
    rw [List.dropWhile_eq_nil_iff]
    intro c hc
    have : c ≠ '+' := fun e => h (e ▸ hc)
    simpa using this
  simp only [font_name_strip, this]

theorem load_span_inv (tag : extract_xml_tag_t) (span : span_t) (h : load_span tag = .ok span) :
    ∃ (ctm trm : matrix_t) (f : String) (wmode : Int),
      s_matrix_read (extract_xml_tag_attributes_find tag "ctm") = .ok ctm ∧
      s_matrix_read (extract_xml_tag_attributes_find tag "trm") = .ok trm ∧
      extract_xml_tag_attributes_find tag "font_name" = some (.text f) ∧
      extract_xml_tag_attributes_find_int tag "wmode" = .ok wmode ∧
      span = { ctm := ctm, trm := trm, font_name := String.mk (font_name_strip f.toList)
               font_bold := strstr (font_name_strip f.toList) "-Bold".toList
               font_italic := strstr (font_name_strip f.toList) "-Oblique".toList
               wmode := decide (wmode % 2 ≠ 0), chars := [] } := by
  unfold load_span at h
  split at h
  · cases h
  · rename_i ctm hctm
    split at h
    · cases h
    · rename_i trm htrm
      split at h
      · rename_i f hf
        simp only at h
        split at h
        · cases h
        · rename_i wmode hw
          cases h
          exact ⟨ctm, trm, f, wmode, hctm, htrm, hf, hw, rfl⟩
      · cases h


theorem find_float_error (tag : extract_xml_tag_t) (name : String) (err : Fault)
    (h : extract_xml_tag_attributes_find_float tag name = .error err) : err = .attribute := by
  unfold extract_xml_tag_attributes_find_float at h
  split at h <;> cases h
  rfl

theorem find_int_error (tag : extract_xml_tag_t) (name : String) (err : Fault)
    (h : extract_xml_tag_attributes_find_int tag name = .error err) : err = .attribute := by
  unfold extract_xml_tag_attributes_find_int at h
  split at h
  · split_ifs at h
    cases h; rfl
  · cases h; rfl

theorem find_uint_error (tag : extract_xml_tag_t) (name : String) (err : Fault)
    (h : extract_xml_tag_attributes_find_uint tag name = .error err) : err = .attribute := by
  unfold extract_xml_tag_attributes_find_uint at h
  split at h
  · split_ifs at h
    cases h; rfl
  · cases h; rfl

theorem find_size_error (tag : extract_xml_tag_t) (name : String) (err : Fault)
    (h : extract_xml_tag_attributes_find_size tag name = .error err) : err = .attribute := by
  unfold extract_xml_tag_attributes_find_size at h
  split at h
  · split_ifs at h
    cases h; rfl
  · cases h; rfl

theorem s_matrix_read_error (text : Option xml_value) (err : Fault)
    (h : s_matrix_read text = .error err) : err = .einval := by
  unfold s_matrix_read at h
  split at h <;> cases h
  rfl

theorem load_image_data_error (count : Nat) :
    ∀ (text : List Char) (err : Fault), load_image_data count text = .error err →
      err = .einval := by
  induction count with
  | zero => intro text err h; simp [load_image_data] at h
  | succ k ih =>
    intro text err h
    cases text with
    | nil => simp only [load_image_data] at h; cases h; rfl
    | cons cc rest =>
      simp only [load_image_data] at h
      split_ifs at h
      · exact ih _ _ h
      · split at h
        · cases h; rfl
        · split_ifs at h
          · exact ih _ _ h
          · cases h; rfl
      · cases h; rfl

theorem load_span_error (tag : extract_xml_tag_t) (err : Fault)
    (h : load_span tag = .error err) : is_return_fault err = true := by
  unfold load_span at h
  split at h
  · rename_i e he
    cases h
    rw [s_matrix_read_error _ _ he]; rfl
  · split at h
    · rename_i e he
      cases h
      rw [s_matrix_read_error _ _ he]; rfl
    · split at h
      · simp only at h
        split at h
        · rename_i e he
          cases h
          rw [find_int_error _ _ _ he]; rfl
        · cases h
      · cases h; rfl

theorem page_span_end_clean_ok (m : Libm) (spans : List span_t) (span : span_t)
    (hlast : spans.getLast? = some span) (hchars : span.chars ≠ []) :
    ∃ spans1, page_span_end_clean m spans = .ok spans1 ∧ spans1 ≠ [] := by
  have hne : spans ≠ [] := by
    intro e
    rw [e] at hlast
    cases hlast
  have hn : span.chars.length ≠ 0 := fun e => hchars (List.length_eq_zero.1 e)
  unfold page_span_end_clean
  simp only [hlast, if_neg hn]
  by_cases h1 : span.chars.length = 1
  · exact ⟨spans, by rw [if_pos h1], hne⟩
  · rw [if_neg h1]
    obtain ⟨c2, hc2⟩ : ∃ c2, span.chars[span.chars.length - 2]? = some c2 :=
      ⟨_, List.getElem?_eq_getElem (by omega)⟩
    obtain ⟨c1, hc1⟩ : ∃ c1, span.chars[span.chars.length - 1]? = some c1 :=
      ⟨_, List.getElem?_eq_getElem (by omega)⟩
    simp only [hc2, hc1]
    split_ifs <;>
      first
        | exact ⟨_, rfl, hne⟩
        | exact ⟨_, rfl, by simp [hne]⟩

theorem getLast?_set_last {α : Type} (l : List α) (x : α) (h : l ≠ []) :
    (l.set (l.length - 1) x).getLast? = some x := by
  have hlen : 0 < l.length := List.length_pos.2 h
  rw [List.getLast?_eq_getElem?, List.length_set, List.getElem?_set_self (by omega)]

theorem page_span_end_clean_last (m : Libm) (l : List span_t) (x : span_t) (hl : l ≠ [])
    (hx : x.chars ≠ []) :
    (∀ e, page_span_end_clean m (l.set (l.length - 1) x) ≠ .error e) ∧
    ∀ r, page_span_end_clean m (l.set (l.length - 1) x) = .ok r → r ≠ [] := by
  obtain ⟨s1, hs1, hne1⟩ := page_span_end_clean_ok m _ x (getLast?_set_last l x hl) hx
  rw [hs1]
  refine ⟨fun e he => (by cases he), fun r hr => ?_⟩
  cases hr
  exact hne1

theorem load_char_returns (m : Libm) (autosplit : Bool) (tag : extract_xml_tag_t)
    (offset_x offset_y : ℚ) (spans : List span_t) (hne : spans ≠ []) :
    (∀ err, load_char m autosplit tag offset_x offset_y spans = .error err →
      is_return_fault err = true) ∧
    ∀ r, load_char m autosplit tag offset_x offset_y spans = .ok r → r.2.2 ≠ [] := by
  obtain ⟨span0, hlast⟩ : ∃ span0, spans.getLast? = some span0 :=
    ⟨_, List.getLast?_eq_getLast _ hne⟩
  unfold load_char
  split
  · rename_i x y hx hy
    simp only [hlast]
    split
    · rename_i adv ucs hadv hucs
      constructor
      · intro err h
        split at h
        · rename_i e he
          exact absurd he ((page_span_end_clean_last m _ _
            (by split_ifs <;> simp [hne]) (by simp)).1 e)
        · cases h
      · intro r h
        split at h
        · cases h
        · rename_i spans2 he
          cases h
          exact (page_span_end_clean_last m _ _
            (by split_ifs <;> simp [hne]) (by simp)).2 spans2 he
    · rename_i e he
      exact ⟨fun err h => by cases h; rw [find_float_error _ _ _ he]; rfl,
        fun r h => by cases h⟩
    · rename_i e he _
      exact ⟨fun err h => by cases h; rw [find_uint_error _ _ _ he]; rfl,
        fun r h => by cases h⟩
  · rename_i e he
    exact ⟨fun err h => by cases h; rw [find_float_error _ _ _ he]; rfl, fun r h => by cases h⟩
  · rename_i e he _
    exact ⟨fun err h => by cases h; rw [find_float_error _ _ _ he]; rfl, fun r h => by cases h⟩

theorem load_events_error (m : Libm) (autosplit : Bool) (events : List xml_event) :
    ∀ (mode : load_mode) (done : List page_t) (spans : List span_t) (err : Fault),
      load_events m autosplit mode done spans events = .error err →
      ((load_mode_offset mode).isSome → spans ≠ []) →
      is_return_fault err = true := by
  induction events with
  | nil =>
    intro mode done spans err h _
    cases mode <;> simp [load_events] at h <;> subst h <;> rfl
  | cons ev rest ih =>
    intro mode done spans err h hne
    cases ev with
    | failure => cases mode <;> simp [load_events] at h <;> subst h <;> rfl
    | tag tag =>
      cases mode with
      | document =>
        simp only [load_events] at h
        split_ifs at h with h1 h2
        · exact ih _ _ _ _ h (fun hs => by simp [load_mode_offset] at hs)
        · cases h; rfl
        · exact ih _ _ _ _ h (fun hs => by simp [load_mode_offset] at hs)
      | page =>
        simp only [load_events] at h
        split_ifs at h with h1 h2 h3
        · exact ih _ _ _ _ h (fun hs => by simp [load_mode_offset] at hs)
        · revert h
          split
          · intro h; cases h; rfl
          · split_ifs
            · split
              · split_ifs
                · intro h; exact ih _ _ _ _ h (fun hs => by simp [load_mode_offset] at hs)
                · intro h; exact ih _ _ _ _ h (fun hs => by simp [load_mode_offset] at hs)
              · rename_i e he
                intro h; cases h
                rw [find_int_error _ _ _ he]; rfl
              · rename_i e he _
                intro h; cases h
                rw [find_int_error _ _ _ he]; rfl
            · split
              · rename_i e he
                intro h; cases h
                rw [find_size_error _ _ _ he]; rfl
              · split
                · rename_i e he
                  intro h; cases h
                  rw [load_image_data_error _ _ _ he]; rfl
                · intro h; exact ih _ _ _ _ h (fun hs => by simp [load_mode_offset] at hs)
        · cases h; rfl
        · revert h
          split
          · rename_i e he
            intro h; cases h
            exact load_span_error tag _ he
          · intro h
            exact ih _ _ _ _ h (fun _ => by simp)
      | span ox oy =>
        have hne : spans ≠ [] := hne rfl
        simp only [load_events] at h
        split_ifs at h with h1 h2
        · exact ih _ _ _ _ h (fun hs => by simp [load_mode_offset] at hs)
        · cases h; rfl
        · revert h
          split
          · rename_i e he
            intro h; cases h
            exact (load_char_returns m autosplit tag ox oy spans hne).1 _ he
          · rename_i ox1 oy1 spans1 hok
            intro h
            exact ih _ _ _ _ h
              (fun _ => (load_char_returns m autosplit tag ox oy spans hne).2 _ hok)
      | pixmap_line y hh =>
        simp only [load_events] at h
        split_ifs at h with h1
        · cases h; rfl
        · revert h
          split
          · rename_i e he
            intro h; cases h
            rw [find_int_error _ _ _ he]; rfl
          · split_ifs
            · intro h; cases h; rfl
            · intro h; exact ih _ _ _ _ h (fun hs => by simp [load_mode_offset] at hs)
      | pixmap_line_end y hh =>
        simp only [load_events] at h
        split_ifs at h with h1 h2
        · cases h; rfl
        · exact ih _ _ _ _ h (fun hs => by simp [load_mode_offset] at hs)
        · exact ih _ _ _ _ h (fun hs => by simp [load_mode_offset] at hs)
      | image_end =>
        simp only [load_events] at h
        split_ifs at h with h1
        · cases h; rfl
        · exact ih _ _ _ _ h (fun hs => by simp [load_mode_offset] at hs)

/-! ## What the loader returns -/

/-- C11: `extract_intermediate_to_document` either returns `0` and a document, whose number
of pages is the number of `page` tags among the events read, or it returns `-1`, for an
unexpected tag, a missing or malformed attribute, malformed data or a failure of the
reader, and then it returns no document, whether partly built or not. -/
theorem load_returns_document_or_nothing (m : Libm) (events : List xml_event)
    (autosplit : Bool) :
    (∃ doc, extract_intermediate_to_document m events autosplit = .ok doc ∧
      doc.pages.length = (events.filter is_page_tag).length) ∨
    (∃ err, extract_intermediate_to_document m events autosplit = .error err ∧
      is_return_fault err = true) := by
  cases h : extract_intermediate_to_document m events autosplit with
  | error err =>
    exact Or.inr ⟨err, rfl,
      load_events_error m autosplit events .document [] [] err h
        (fun hs => by simp [load_mode_offset] at hs)⟩
  | ok doc =>
    refine Or.inl ⟨doc, rfl, ?_⟩
    have := load_events_pages m autosplit events .document [] [] doc h
    simpa [load_mode_pending] using this

/-- With autosplit off, every glyph of a loaded document has the position
`(ctm.a * pre_x + ctm.b * pre_y + ctm.e, ctm.c * pre_x + ctm.d * pre_y + ctm.f)` for the CTM
of the span that holds it, which is the `ctm` of some `span` tag, and its `pre_x`, `pre_y`,
`adv` and `ucs` are the `x`, `y`, `adv` and `ucs` of some `char` tag. -/
theorem glyph_position_from_tag (m : Libm) (events : List xml_event) (doc : extract_document_t)
    (h : extract_intermediate_to_document m events false = .ok doc) :
    ∀ page ∈ doc.pages, ∀ span ∈ page.spans,
      span_of_span_tag events span ∧
      ∀ g ∈ span.chars, glyph_placed span.ctm g ∧ glyph_of_char_tag events g := by
  have key := load_events_invariant m false events
    (fun o spans => (∀ p, o = some p → p = (0, 0)) ∧ ∀ s ∈ spans, span_of_span_tag events s ∧
      ∀ g ∈ s.chars, glyph_placed s.ctm g ∧ glyph_of_char_tag events g)
    (fun spans => ∀ s ∈ spans, span_of_span_tag events s ∧
      ∀ g ∈ s.chars, glyph_placed s.ctm g ∧ glyph_of_char_tag events g)
    ⟨fun p hp => (by cases hp), fun s hs => (by cases hs)⟩
    (fun spans hI => hI.2)
    (by
      intro tag spans span htag hname hI hspan
      refine ⟨fun p hp => (by cases hp; rfl), ?_⟩
      intro s hs
      rcases List.mem_append.1 hs with hs | hs
      · exact hI.2 s hs
      · rw [List.mem_singleton.1 hs]
        obtain ⟨ctm, trm, f, wmode, hctm, -, -, -, rfl⟩ := load_span_inv tag span hspan
        exact ⟨⟨tag, htag, hname, hctm⟩, fun g hg => (by cases hg)⟩)
    (by
      intro tag ox oy spans ox1 oy1 spans1 htag hname hI hchar
      obtain ⟨h1, h2, x, y, adv, ucs, hx, hy, hadv, hucs, hfrom⟩ :=
        load_char_no_autosplit m tag ox oy spans spans1 ox1 oy1 hchar
      have h0 := hI.1 (ox, oy) rfl
      simp only [Prod.mk.injEq] at h0
      obtain ⟨rfl, rfl⟩ := h0
      subst h1 h2
      refine ⟨fun p hp => (by cases hp; rfl), ?_⟩
      intro s1 hs1
      obtain ⟨s, hs, hctm, hchars⟩ := hfrom s1 hs1
      obtain ⟨hst, hg⟩ := hI.2 s hs
      refine ⟨?_, ?_⟩
      · obtain ⟨t, ht, hn, hc⟩ := hst
        exact ⟨t, ht, hn, hctm ▸ hc⟩
      · intro g hgm
        rcases hchars g hgm with hgs | hgs
        · rw [hctm]; exact hg g hgs
        · subst hgs
          rw [hctm]
          refine ⟨⟨by simp, by simp⟩, tag, htag, hname, ?_, ?_, hadv, hucs⟩
          · simpa using hx
          · simpa using hy)
    (fun offset spans hI => ⟨fun p hp => (by cases hp), hI.2⟩)
    events .document [] [] doc (fun _ hev => hev) h (Or.inl rfl) (fun page hp => (by cases hp))
  exact key

theorem sample_ctm_load :
    extract_intermediate_to_document sample_libm sample_ctm_events false
      = .ok sample_ctm_document := by
  decide!

/-- C13: a `span` tag whose `font_name` attribute is `s` is loaded as a span whose font name
is the part of `s` after its first `+`, or `s` itself when `s` holds no `+`; the span is
bold iff that font name contains `-Bold` and italic iff it contains `-Oblique`. -/
theorem font_name_after_first_plus (tag : extract_xml_tag_t) (s : String) (ctm trm : matrix_t)
    (wmode : Int)
    (hctm : s_matrix_read (extract_xml_tag_attributes_find tag "ctm") = .ok ctm)
    (htrm : s_matrix_read (extract_xml_tag_attributes_find tag "trm") = .ok trm)
    (hs : extract_xml_tag_attributes_find tag "font_name" = some (.text s))
    (hw : extract_xml_tag_attributes_find_int tag "wmode" = .ok wmode) :
    ∃ span, load_span tag = .ok span ∧
      (∀ pre post, s.toList = pre ++ '+' :: post → '+' ∉ pre →
        span.font_name.toList = post) ∧
      ('+' ∉ s.toList → span.font_name = s) ∧
      (span.font_bold = true ↔ "-Bold".toList <:+: span.font_name.toList) ∧
      (span.font_italic = true ↔ "-Oblique".toList <:+: span.font_name.toList) := by
  have hload : load_span tag
      = .ok { ctm := ctm, trm := trm, font_name := String.mk (font_name_strip s.toList)
              font_bold := strstr (font_name_strip s.toList) "-Bold".toList
              font_italic := strstr (font_name_strip s.toList) "-Oblique".toList
              wmode := decide (wmode % 2 ≠ 0), chars := [] } := by
    simp only [load_span, hctm, htrm, hs, hw]
  refine ⟨_, hload, ?_, ?_, ?_, ?_⟩
  · intro pre post hpre hplus
    show font_name_strip s.toList = post
    rw [hpre, font_name_strip_plus pre post hplus]
  · intro hplus
    show String.mk (font_name_strip s.toList) = s
    rw [font_name_strip_none _ hplus]
    rfl
  · exact strstr_iff_infix _ _
  · exact strstr_iff_infix _ _

/-- Witness of C13: the font name `ABCDEF+Times-Bold` is stored as `Times-Bold`, which is
bold and not italic. -/
theorem font_name_after_first_plus_witness :
    ∃ span, load_span (sample_span_tag_of sample_ctm "ABCDEF+Times-Bold") = .ok span ∧
      (∀ pre post, "ABCDEF+Times-Bold".toList = pre ++ '+' :: post → '+' ∉ pre →
        span.font_name.toList = post) ∧
      ('+' ∉ "ABCDEF+Times-Bold".toList → span.font_name = "ABCDEF+Times-Bold") ∧
      (span.font_bold = true ↔ "-Bold".toList <:+: span.font_name.toList) ∧
      (span.font_italic = true ↔ "-Oblique".toList <:+: span.font_name.toList) :=
  font_name_after_first_plus (sample_span_tag_of sample_ctm "ABCDEF+Times-Bold")
    "ABCDEF+Times-Bold" sample_ctm matrix_identity 0 rfl rfl rfl rfl

/-! ## The `?xml` header, image data, and the cleanup of the last span -/

/-- C14 fails on the code: a `?xml` tag between the children of a page, or between the
children of a span, makes a stream that loads without it fail with `ESRCH`. -/
theorem xml_tag_inside_page_fails :
    extract_intermediate_to_document sample_libm
        [.tag (sample_tag "page"), .tag sample_span_tag, .tag (sample_char_tag 97 0 0 1),
          .tag (sample_tag "/span"), .tag (sample_tag "/page")] false
      = .ok { pages := [{ spans := [sample_span [sample_char 97 0 0 1]]
                          lines := [], paragraphs := [] }] } ∧
    extract_intermediate_to_document sample_libm
        [.tag (sample_tag "page"), .tag (sample_tag "?xml"), .tag sample_span_tag,
          .tag (sample_char_tag 97 0 0 1), .tag (sample_tag "/span"),
          .tag (sample_tag "/page")] false
      = .error .esrch ∧
    extract_intermediate_to_document sample_libm
        [.tag (sample_tag "page"), .tag sample_span_tag, .tag (sample_tag "?xml"),
          .tag (sample_char_tag 97 0 0 1), .tag (sample_tag "/span"),
          .tag (sample_tag "/page")] false
      = .error .esrch := by
  decide!

/-- C14, amended: a `?xml` tag is skipped where the loader expects a `page` tag, at the top
of its outer loop, whatever pages are complete and whatever events follow: put before a
stream, or after any events `pre` that bring the loader back to the top of its outer loop,
it leaves the result of the load as it is. Anywhere inside a page it is an unexpected tag
and the load fails with `ESRCH`. -/
theorem xml_tag_skipped_between_pages (m : Libm) (autosplit : Bool) (tag : extract_xml_tag_t)
    (h : tag.name = "?xml") (done : List page_t) (spans : List span_t)
    (rest : List xml_event) :
    load_events m autosplit .document done spans (.tag tag :: rest)
      = load_events m autosplit .document done spans rest ∧
    extract_intermediate_to_document m (.tag tag :: rest) autosplit
      = extract_intermediate_to_document m rest autosplit ∧
    (∀ pre : List xml_event,
      (∀ post, load_events m autosplit .document [] [] (pre ++ post)
        = load_events m autosplit .document done spans post) →
      extract_intermediate_to_document m (pre ++ .tag tag :: rest) autosplit
        = extract_intermediate_to_document m (pre ++ rest) autosplit) ∧
    ∀ mode, load_mode_pending mode = 1 →
      load_events m autosplit mode done spans (.tag tag :: rest) = .error .esrch := by
  have hskip : load_events m autosplit .document done spans (.tag tag :: rest)
      = load_events m autosplit .document done spans rest := by
    simp only [load_events, h, if_true]
  refine ⟨hskip, ?_, ?_, ?_⟩
  · simp only [extract_intermediate_to_document, load_events, h, if_true]
  · intro pre hpre
    simp only [extract_intermediate_to_document]
    rw [hpre, hpre, hskip]
  · intro mode hmode
    cases mode with
    | document => simp [load_mode_pending] at hmode
    | page => simp [load_events, h]
    | span ox oy => simp [load_events, h]
    | pixmap_line y hh => simp [load_events, h]
    | pixmap_line_end y hh => simp [load_events, h]
    | image_end => simp [load_events, h]

/-- Witness of C14, amended: a `?xml` tag between the two pages of a stream. -/
theorem xml_tag_skipped_between_pages_witness :
    (load_events sample_libm false .document
        [{ spans := [], lines := [], paragraphs := [] }] []
        (.tag (sample_tag "?xml") :: [.tag (sample_tag "page"), .tag (sample_tag "/page")])
      = load_events sample_libm false .document
          [{ spans := [], lines := [], paragraphs := [] }] []
          [.tag (sample_tag "page"), .tag (sample_tag "/page")] ∧
    extract_intermediate_to_document sample_libm
        (.tag (sample_tag "?xml") :: [.tag (sample_tag "page"), .tag (sample_tag "/page")])
        false
      = extract_intermediate_to_document sample_libm
          [.tag (sample_tag "page"), .tag (sample_tag "/page")] false ∧
    (∀ pre : List xml_event,
      (∀ post, load_events sample_libm false .document [] [] (pre ++ post)
        = load_events sample_libm false .document
            [{ spans := [], lines := [], paragraphs := [] }] [] post) →
      extract_intermediate_to_document sample_libm
          (pre ++ .tag (sample_tag "?xml")
            :: [.tag (sample_tag "page"), .tag (sample_tag "/page")]) false
        = extract_intermediate_to_document sample_libm
            (pre ++ [.tag (sample_tag "page"), .tag (sample_tag "/page")]) false) ∧
    ∀ mode, load_mode_pending mode = 1 →
      load_events sample_libm false mode [{ spans := [], lines := [], paragraphs := [] }] []
          (.tag (sample_tag "?xml") :: [.tag (sample_tag "page"), .tag (sample_tag "/page")])
        = .error .esrch) ∧
    extract_intermediate_to_document sample_libm
        [.tag (sample_tag "page"), .tag (sample_tag "/page"), .tag (sample_tag "?xml"),
          .tag (sample_tag "page"), .tag (sample_tag "/page")] false
      = .ok { pages := [{ spans := [], lines := [], paragraphs := [] },
                        { spans := [], lines := [], paragraphs := [] }] } :=
  ⟨xml_tag_skipped_between_pages sample_libm false (sample_tag "?xml") rfl
      [{ spans := [], lines := [], paragraphs := [] }] []
      [.tag (sample_tag "page"), .tag (sample_tag "/page")],
    by decide!⟩

/-- C15 fails on the code: once a space or a newline is at the read position of the image
data, the loop counts the remaining bytes without reading on. With `datasize` 2 the text
`ab zz` is accepted, its second byte unread, while `abzz` is rejected with `EINVAL`; so
are, with a page around the image, the streams that hold them. -/
theorem image_data_stops_at_whitespace :
    (∀ count rest, load_image_data count (' ' :: rest) = .ok ()) ∧
    (∀ count rest, load_image_data count ('\n' :: rest) = .ok ()) ∧
    load_image_data 2 "ab zz".toList = .ok () ∧
    load_image_data 2 "abzz".toList = .error .einval ∧
    extract_intermediate_to_document sample_libm
        [.tag (sample_tag "page"), .tag (sample_image_tag 2 "ab zz"),
          .tag (sample_tag "/image"), .tag (sample_tag "/page")] false
      = .ok { pages := [{ spans := [], lines := [], paragraphs := [] }] } ∧
    extract_intermediate_to_document sample_libm
        [.tag (sample_tag "page"), .tag (sample_image_tag 2 "abzz"),
          .tag (sample_tag "/image"), .tag (sample_tag "/page")] false
      = .error .einval := by
  refine ⟨?_, ?_, by decide, by decide, by decide!, by decide!⟩
  · intro count rest
    induction count with
    | zero => rfl
    | succ k ih => simpa [load_image_data] using ih
  · intro count rest
    induction count with
    | zero => rfl
    | succ k ih => simpa [load_image_data] using ih

/-- C16 fails on the code: on a span of two spaces and `x` at one position, the first
cleanup removes one space and a second cleanup removes the other. -/
theorem span_end_clean_twice_differs :
    page_span_end_clean sample_libm
        [sample_span [sample_char 32 0 0 1, sample_char 32 0 0 1, sample_char 120 0 0 1]]
      = .ok [sample_span [sample_char 32 0 0 1, sample_char 120 0 0 1]] ∧
    page_span_end_clean sample_libm
        [sample_span [sample_char 32 0 0 1, sample_char 120 0 0 1]]
      = .ok [sample_span [sample_char 120 0 0 1]] := by
  decide!

/-- C16, amended: a second `page_span_end_clean` yields the page of the first one, unless
the first one removed the space in last-but-one position of the last span. -/
theorem span_end_clean_twice (m : Libm) (spans spans1 : List span_t)
    (h : page_span_end_clean m spans = .ok spans1) :
    page_span_end_clean m spans1 = .ok spans1 ∨
    ∃ span c2 c1, spans.getLast? = some span ∧
      span.chars[span.chars.length - 2]? = some c2 ∧
      span.chars[span.chars.length - 1]? = some c1 ∧ c2.ucs = 32 ∧
      spans1 = spans.set (spans.length - 1)
        { span with chars := (span.chars.set (span.chars.length - 2) c1).dropLast } := by
  have hsame : spans1 = spans → page_span_end_clean m spans1 = .ok spans1 := by
    intro e
    rw [e] at h ⊢
    exact h
  unfold page_span_end_clean at h
  split at h
  · cases h
  · rename_i span hlast
    simp only at h
    split_ifs at h with h0 h1 hw
    · cases h; exact Or.inl (hsame rfl)
    all_goals
      split at h
      · rename_i c2 c1 hc2 hc1
        split_ifs at h with h2 h3 h4
        · cases h
          exact Or.inr ⟨span, c2, c1, hlast, hc2, hc1, h2.2, rfl⟩
        · cases h; exact Or.inl (hsame rfl)
        · cases h
          left
          simp [page_span_end_clean]
        · cases h; exact Or.inl (hsame rfl)
      · cases h

/-- Witness of C16, amended: a glyph far from the end of the glyph before it is moved into
a new span, which a second cleanup leaves alone. -/
theorem span_end_clean_twice_witness :
    page_span_end_clean sample_libm
        [sample_span [sample_char 97 0 0 1], sample_span [sample_char 120 5 0 1]]
      = .ok [sample_span [sample_char 97 0 0 1], sample_span [sample_char 120 5 0 1]] ∨
    ∃ span c2 c1,
      [sample_span [sample_char 97 0 0 1, sample_char 120 5 0 1]].getLast? = some span ∧
      span.chars[span.chars.length - 2]? = some c2 ∧
      span.chars[span.chars.length - 1]? = some c1 ∧ c2.ucs = 32 ∧
      [sample_span [sample_char 97 0 0 1], sample_span [sample_char 120 5 0 1]]
        = [sample_span [sample_char 97 0 0 1, sample_char 120 5 0 1]].set
            ([sample_span [sample_char 97 0 0 1, sample_char 120 5 0 1]].length - 1)
            { span with chars := (span.chars.set (span.chars.length - 2) c1).dropLast } :=
  span_end_clean_twice sample_libm
    [sample_span [sample_char 97 0 0 1, sample_char 120 5 0 1]]
    [sample_span [sample_char 97 0 0 1], sample_span [sample_char 120 5 0 1]] (by decide!)

/-! ## The paragraph emitter: runs, paragraphs and spacing -/

theorem truncate_if_append {α : Type} [DecidableEq α] (pre x : List α) (d : α)
    (h : pre.getLast? ≠ some d) :
    extract_docx_char_truncate_if (pre ++ x) d = pre ++ extract_docx_char_truncate_if x d := by
  unfold extract_docx_char_truncate_if
  rcases List.eq_nil_or_concat x with rfl | ⟨y, a, rfl⟩
  · simp [h]
  · have e : pre ++ y.concat a = (pre ++ y) ++ [a] := by simp
    have e2 : y.concat a = y ++ [a] := by simp
    have g1 : (pre ++ y ++ [a]).getLast? = some a := by simp
    have g2 : (y ++ [a]).getLast? = some a := by simp
    rw [e, e2, g1, g2, List.dropLast_concat, List.dropLast_concat]
    split_ifs <;> simp

theorem docx_content_span_state (m : Libm) (state : content_state_t) (span : span_t)
    (content : List docx_item) :
    (docx_content_span m state span content).1 = state_after m span := by
  unfold docx_content_span state_after
  cases hname : state.font_name with
  | none => simp
  | some name =>
    simp only
    split_ifs with h
    · rfl
    · simp only [Bool.or_eq_true, Bool.not_eq_true', decide_eq_false_iff_not, not_or, not_not,
        decide_eq_true_eq] at h
      obtain ⟨⟨⟨h1, h2⟩, h3⟩, h4⟩ := h
      cases state
      simp_all

theorem docx_content_span_append (m : Libm) (state : content_state_t) (span : span_t)
    (pre content : List docx_item) (h : pre.getLast? ≠ some (.char '-')) :
    (docx_content_span m state span (pre ++ content)).2
      = pre ++ (docx_content_span m state span content).2 := by
  unfold docx_content_span
  simp only [extract_docx_char_append_string, extract_docx_run_start, extract_docx_run_finish]
  split_ifs <;> simp only [List.append_assoc] <;> exact truncate_if_append _ _ _ h

theorem docx_content_spans_append_list (m : Libm) (ss tt : List span_t) :
    ∀ (state : content_state_t) (content : List docx_item),
      docx_content_spans m (ss ++ tt) state content
        = docx_content_spans m tt (docx_content_spans m ss state content).1
            (docx_content_spans m ss state content).2 := by
  induction ss with
  | nil => intro state content; rfl
  | cons s rest ih =>
    intro state content
    simp only [List.cons_append, docx_content_spans]
    exact ih _ _

theorem docx_content_spans_state (m : Libm) (ss : List span_t) :
    ∀ (state : content_state_t) (content : List docx_item),
      (docx_content_spans m ss state content).1
        = (ss.getLast?.map (state_after m)).getD state := by
  induction ss with
  | nil => intro state content; rfl
  | cons s rest ih =>
    intro state content
    simp only [docx_content_spans]
    rw [ih, docx_content_span_state]
    cases rest with
    | nil => rfl
    | cons t rest2 =>
      obtain ⟨z, hz⟩ : ∃ z, (t :: rest2).getLast? = some z :=
        ⟨_, List.getLast?_eq_getLast _ (List.cons_ne_nil _ _)⟩
      rw [List.getLast?_cons_cons, hz]
      rfl

theorem docx_content_spans_append (m : Libm) (pre : List docx_item)
    (h : pre.getLast? ≠ some (.char '-')) (ss : List span_t) :
    ∀ (state : content_state_t) (content : List docx_item),
      (docx_content_spans m ss state (pre ++ content)).2
        = pre ++ (docx_content_spans m ss state content).2 := by
  induction ss with
  | nil => intro state content; rfl
  | cons s rest ih =>
    intro state content
    simp only [docx_content_spans]
    rw [docx_content_span_append m state s pre content h, docx_content_span_state,
      docx_content_span_state]
    exact ih _ _

theorem docx_content_line_eq (m : Libm) (spans : List span_t) (idxs : List Nat) :
    ∀ (ss : List span_t) (state : content_state_t) (content : List docx_item),
      line_spans spans idxs = some ss →
      docx_content_line m spans idxs state content
        = .ok (docx_content_spans m ss state content) := by
  induction idxs with
  | nil =>
    intro ss state content h
    simp only [line_spans, Option.some.injEq] at h
    subst h
    rfl
  | cons i rest ih =>
    intro ss state content h
    simp only [line_spans] at h
    split at h
    · rename_i span tt hspan htt
      simp only [Option.some.injEq] at h
      subst h
      simp only [docx_content_line, span_at, hspan, docx_content_spans]
      exact ih _ _ _ htt
    · cases h

theorem docx_content_lines_eq (m : Libm) (spans : List span_t) (lines : List line_t)
    (ls : List Nat) :
    ∀ (ss : List span_t) (state : content_state_t) (content : List docx_item),
      paragraph_spans spans lines ls = some ss →
      docx_content_lines m spans lines ls state content
        = .ok (docx_content_spans m ss state content) := by
  induction ls with
  | nil =>
    intro ss state content h
    simp only [paragraph_spans, Option.some.injEq] at h
    subst h
    rfl
  | cons l rest ih =>
    intro ss state content h
    simp only [paragraph_spans] at h
    split at h
    · cases h
    · rename_i line hline
      split at h
      · rename_i aa bb haa hbb
        simp only [Option.some.injEq] at h
        subst h
        simp only [docx_content_lines, line_at, hline,
          docx_content_line_eq m spans line.spans aa state content haa]
        rw [ih bb _ _ hbb, docx_content_spans_append_list]
      · cases h

theorem paragraph_content_eq (m : Libm) (spans : List span_t) (lines : List line_t)
    (state : content_state_t) (paragraph : paragraph_t) (content : List docx_item)
    (ss : List span_t) (hss : paragraph_spans spans lines paragraph.lines = some ss) :
    extract_document_to_docx_content_paragraph m spans lines state paragraph content
      = .ok ({ (ss.getLast?.map (state_after m)).getD state with font_name := none },
          content ++ (.paragraph_start :: (docx_content_spans m ss state []).2
            ++ (if ((ss.getLast?.map (state_after m)).getD state).font_name.isSome
                then [.run_finish] else [])
            ++ [.paragraph_finish])) := by
  unfold extract_document_to_docx_content_paragraph
  rw [docx_content_lines_eq m spans lines paragraph.lines ss state _ hss]
  have happ := docx_content_spans_append m (content ++ [.paragraph_start])
    (by simp) ss state []
  have hst := docx_content_spans_state m ss state
    (extract_docx_paragraph_start content)
  rw [List.append_nil] at happ
  rcases hr : docx_content_spans m ss state (extract_docx_paragraph_start content)
    with ⟨state1, content1⟩
  unfold extract_docx_paragraph_start at hr hst
  rw [hr] at happ hst
  simp only at happ hst
  subst happ hst
  simp only [extract_docx_paragraph_finish, extract_docx_run_finish]
  split_ifs <;> simp

theorem docx_content_spans_init (m : Libm) (ss : List span_t) (state : content_state_t)
    (content : List docx_item) (h : state.font_name = none) :
    (docx_content_spans m ss state content).2
      = (docx_content_spans m ss content_state_init content).2 := by
  cases ss with
  | nil => rfl
  | cons s rest =>
    simp only [docx_content_spans]
    rw [docx_content_span_state, docx_content_span_state]
    congr 1
    unfold docx_content_span
    simp only [h, content_state_init]

theorem paragraph_content_items (m : Libm) (spans : List span_t) (lines : List line_t)
    (state : content_state_t) (paragraph : paragraph_t) (content : List docx_item)
    (ss : List span_t) (hss : paragraph_spans spans lines paragraph.lines = some ss)
    (h : state.font_name = none) :
    extract_document_to_docx_content_paragraph m spans lines state paragraph content
      = .ok ({ (ss.getLast?.map (state_after m)).getD state with font_name := none },
          content ++ paragraph_items m spans lines paragraph) := by
  rw [paragraph_content_eq m spans lines state paragraph content ss hss]
  unfold paragraph_items
  rw [paragraph_content_eq m spans lines content_state_init paragraph [] ss hss]
  simp only [List.nil_append]
  rw [docx_content_spans_init m ss state [] h]
  cases hl : ss.getLast? with
  | none => simp [h, content_state_init]
  | some t => simp [state_after]

/-- Where the rounding to `float` changes nothing and the size is that of an `int` of
hundredths, the font size of a run is within 0.005 of the product of the expansions. -/
theorem matrices_to_font_size_exact (m : Libm) (ctm trm : matrix_t)
    (hfl : ∀ x, m.to_float x = x)
    (h : 0 ≤ matrix_expansion m trm * matrix_expansion m ctm)
    (hr : matrix_expansion m trm * matrix_expansion m ctm * 100 + 1 / 2 < 2147483648) :
    |matrices_to_font_size m ctm trm - matrix_expansion m trm * matrix_expansion m ctm|
      ≤ 1 / 200 := by
  have hx : 0 ≤ matrix_expansion m trm * matrix_expansion m ctm * 100 + 1 / 2 := by linarith
  have hv : matrices_to_font_size m ctm trm
      = ((⌊matrix_expansion m trm * matrix_expansion m ctm * 100 + 1 / 2⌋ : Int) : ℚ) / 100 := by
    simp only [matrices_to_font_size, float_to_int, hfl, if_pos hx]
    rw [if_pos ⟨by linarith, hr⟩]
  rw [hv]
  have h1 := Int.floor_le (matrix_expansion m trm * matrix_expansion m ctm * 100 + 1 / 2)
  have h2 := Int.lt_floor_add_one
    (matrix_expansion m trm * matrix_expansion m ctm * 100 + 1 / 2)
  rw [abs_le]
  constructor <;> linarith

theorem mem_truncate_if {α : Type} [DecidableEq α] (content : List α) (d x : α)
    (h : x ∈ extract_docx_char_truncate_if content d) : x ∈ content := by
  unfold extract_docx_char_truncate_if at h
  split_ifs at h
  · exact List.mem_of_mem_dropLast h
  · exact h

theorem docx_content_span_paragraph_items (m : Libm) (state : content_state_t) (span : span_t)
    (content : List docx_item) (x : docx_item) (hx : is_paragraph_item x = true)
    (h : x ∈ (docx_content_span m state span content).2) : x ∈ content := by
  unfold docx_content_span at h
  have h := mem_truncate_if _ _ _ h
  simp only [extract_docx_char_append_string, extract_docx_run_start, extract_docx_run_finish,
    docx_text] at h
  rcases List.mem_append.1 h with h | h
  · split_ifs at h
    · rcases List.mem_append.1 h with h | h
      · rcases List.mem_append.1 h with h | h
        · exact h
        · rw [List.mem_singleton.1 h] at hx; cases hx
      · rw [List.mem_singleton.1 h] at hx; cases hx
    · rcases List.mem_append.1 h with h | h
      · exact h
      · rw [List.mem_singleton.1 h] at hx; cases hx
    · exact h
  · obtain ⟨c, -, rfl⟩ := List.mem_map.1 h
    cases hx

theorem docx_content_spans_paragraph_items (m : Libm) (ss : List span_t) :
    ∀ (state : content_state_t) (content : List docx_item) (x : docx_item),
      is_paragraph_item x = true → x ∈ (docx_content_spans m ss state content).2 →
      x ∈ content := by
  induction ss with
  | nil => intro state content x _ h; exact h
  | cons s rest ih =>
    intro state content x hx h
    simp only [docx_content_spans] at h
    exact docx_content_span_paragraph_items m state s content x hx (ih _ _ x hx h)

theorem paragraph_items_eq (m : Libm) (spans : List span_t) (lines : List line_t)
    (paragraph : paragraph_t) (ss : List span_t)
    (hss : paragraph_spans spans lines paragraph.lines = some ss) :
    paragraph_items m spans lines paragraph
      = docx_item.paragraph_start :: (docx_content_spans m ss content_state_init []).2
          ++ (if ss = [] then [] else [docx_item.run_finish])
          ++ [docx_item.paragraph_finish] := by
  unfold paragraph_items
  rw [paragraph_content_eq m spans lines content_state_init paragraph [] ss hss]
  simp only [List.nil_append]
  rcases List.eq_nil_or_concat ss with rfl | ⟨y, a, rfl⟩
  · simp [content_state_init]
  · have g : (y.concat a).getLast? = some a := by simp
    have hne : y.concat a ≠ [] := by simp
    rw [g, if_neg hne]
    simp [state_after]

theorem paragraph_items_filter (m : Libm) (spans : List span_t) (lines : List line_t)
    (paragraph : paragraph_t) (ss : List span_t)
    (hss : paragraph_spans spans lines paragraph.lines = some ss) :
    (paragraph_items m spans lines paragraph).filter is_paragraph_item
      = [.paragraph_start, .paragraph_finish] := by
  rw [paragraph_items_eq m spans lines paragraph ss hss]
  have hbody : (docx_content_spans m ss content_state_init []).2.filter is_paragraph_item
      = [] := by
    rw [List.filter_eq_nil_iff]
    intro x hx hp
    exact absurd (docx_content_spans_paragraph_items m ss _ _ x hp hx) (List.not_mem_nil _)
  rw [List.filter_append, List.filter_append, List.filter_cons_of_pos (by rfl), hbody]
  split_ifs <;> simp [is_paragraph_item]

theorem docx_content_spacing_eq (spans : List span_t) (lines : List line_t) (spacing : Int)
    (state : content_state_t) (paragraph : paragraph_t) (content : List docx_item)
    (ss : List span_t) (hss : paragraph_spans spans lines paragraph.lines = some ss) :
    docx_content_spacing spans lines spacing state paragraph content
      = .ok (content ++ List.replicate
          (empty_paragraphs spans lines spacing state.ctm_prev paragraph) .paragraph_empty) := by
  unfold docx_content_spacing docx_content_ctm_changed empty_paragraphs paragraph_first_span
  by_cases h0 : spacing = 0
  · simp [h0]
  · simp only [h0, if_false, ne_eq, not_false_eq_true, if_true]
    cases hprev : state.ctm_prev with
    | none => simp [extract_docx_paragraph_empty]
    | some M =>
      cases hl : paragraph.lines with
      | nil => simp [extract_docx_paragraph_empty]
      | cons l rest =>
        rw [hl] at hss
        simp only [paragraph_spans] at hss
        split at hss
        · cases hss
        · rename_i line hline
          simp only [line_at, hline, List.head?_cons, Option.some_bind]
          cases hs : line.spans with
          | nil => simp [extract_docx_paragraph_empty]
          | cons s srest =>
            rw [hs] at hss
            simp only [line_spans] at hss
            split at hss
            · rename_i aa bb haa hbb
              split at haa
              · rename_i span tt hspan htt
                simp only [span_at, hspan, List.head?_cons, Option.some_bind]
                by_cases hc : matrix_cmp4 M span.ctm = 0
                · simp [hc, extract_docx_paragraph_empty]
                · simp [hc, extract_docx_paragraph_empty, List.replicate]
              · cases haa
            · cases hss

theorem docx_content_norotation_page_eq (m : Libm) (spans : List span_t) (lines : List line_t)
    (spacing : Int) (paragraphs : List paragraph_t) :
    ∀ (state : content_state_t) (content : List docx_item),
      (∀ p ∈ paragraphs, (paragraph_spans spans lines p.lines).isSome) →
      state.font_name = none →
      ∃ state1, docx_content_norotation_page m spans lines spacing paragraphs state content
        = .ok (state1,
            content ++ norotation_trace m spans lines spacing state.ctm_prev paragraphs) := by
  induction paragraphs with
  | nil =>
    intro state content _ _
    exact ⟨state, by simp [docx_content_norotation_page, norotation_trace]⟩
  | cons p rest ih =>
    intro state content hall hname
    obtain ⟨ss, hss⟩ := Option.isSome_iff_exists.1 (hall p (List.mem_cons_self _ _))
    simp only [docx_content_norotation_page, norotation_trace,
      docx_content_spacing_eq spans lines spacing state p content ss hss,
      paragraph_content_items m spans lines state p _ ss hss hname]
    obtain ⟨state1, h1⟩ := ih
      { (ss.getLast?.map (state_after m)).getD state with font_name := none }
      (content ++ List.replicate (empty_paragraphs spans lines spacing state.ctm_prev p)
        .paragraph_empty ++ paragraph_items m spans lines p)
      (fun q hq => hall q (List.mem_cons_of_mem _ hq)) rfl
    refine ⟨state1, ?_⟩
    rw [h1]
    have hctm : ({ (ss.getLast?.map (state_after m)).getD state with
        font_name := none } : content_state_t).ctm_prev
          = paragraph_last_ctm spans lines state.ctm_prev p := by
      unfold paragraph_last_ctm
      rw [hss]
      cases hl : ss.getLast? with
      | none => simp [hl]
      | some t => simp [hl, state_after]
    rw [hctm]
    simp only [List.append_assoc]

theorem docx_content_norotation_pages_eq (m : Libm) (spacing : Int) (pages : List page_t) :
    ∀ content : List docx_item,
      (∀ page ∈ pages, ∀ p ∈ page.paragraphs,
        (paragraph_spans page.spans page.lines p.lines).isSome) →
      docx_content_norotation_pages m spacing pages content
        = .ok (content ++ pages.flatMap fun page =>
            norotation_trace m page.spans page.lines spacing none page.paragraphs) := by
  induction pages with
  | nil => intro content _; simp [docx_content_norotation_pages]
  | cons page rest ih =>
    intro content hall
    obtain ⟨state1, h1⟩ := docx_content_norotation_page_eq m page.spans page.lines spacing
      page.paragraphs content_state_init content (hall page (List.mem_cons_self _ _)) rfl
    simp only [docx_content_norotation_pages, h1]
    rw [ih _ fun q hq => hall q (List.mem_cons_of_mem _ hq)]
    simp [content_state_init, List.flatMap_cons]

theorem paragraph_first_span_head (spans : List span_t) (lines : List line_t)
    (paragraph : paragraph_t) (ss : List span_t) (s : span_t)
    (hss : paragraph_spans spans lines paragraph.lines = some ss)
    (hs : paragraph_first_span spans lines paragraph = some s) : ss.head? = some s := by
  unfold paragraph_first_span at hs
  cases hl : paragraph.lines with
  | nil => simp [hl] at hs
  | cons l rest =>
    rw [hl] at hss hs
    simp only [paragraph_spans] at hss
    split at hss
    · cases hss
    · rename_i line hline
      simp only [List.head?_cons, Option.some_bind, hline] at hs
      cases hsp : line.spans with
      | nil => simp [hsp] at hs
      | cons i irest =>
        rw [hsp] at hss hs
        simp only [List.head?_cons, Option.some_bind] at hs
        simp only [line_spans, hs] at hss
        split at hss
        · rename_i aa bb haa hbb
          split at haa
          · rename_i span tt hspan htt
            simp only [Option.some.injEq] at haa hss hspan
            subst haa hss hspan
            rfl
          · cases haa
        · cases hss

theorem matrix_cmp4_congr_left (M N K : matrix_t) (h : matrix_cmp4 M N = 0) :
    matrix_cmp4 M K = matrix_cmp4 N K := by
  obtain ⟨ha, hb, hc, hd⟩ := (matrix_cmp4_eq_zero_iff M N).1 h
  unfold matrix_cmp4
  rw [ha, hb, hc, hd]

theorem norotation_trace_eq_items (m : Libm) (spans : List span_t) (lines : List line_t)
    (spacing : Int) (paragraphs : List paragraph_t) :
    ∀ (ctm_prev : Option matrix_t) (earlier : Option paragraph_t),
      (∀ p ∈ paragraphs, paragraph_uniform spans lines p) →
      ((earlier = none ∧ ctm_prev = none) ∨
        ∃ q s0 M, earlier = some q ∧ paragraph_first_span spans lines q = some s0 ∧
          ctm_prev = some M ∧ matrix_cmp4 M s0.ctm = 0) →
      norotation_trace m spans lines spacing ctm_prev paragraphs
        = norotation_items m spans lines spacing earlier paragraphs := by
  induction paragraphs with
  | nil => intro _ _ _ _; rfl
  | cons p rest ih =>
    intro ctm_prev earlier hall hlink
    obtain ⟨ss, hss, hfirst, hsame⟩ := hall p (List.mem_cons_self _ _)
    obtain ⟨s, hs⟩ := Option.isSome_iff_exists.1 hfirst
    have hhead := paragraph_first_span_head spans lines p ss s hss hs
    have hsmem : s ∈ ss := List.mem_of_mem_head? hhead
    obtain ⟨t, ht⟩ : ∃ t, ss.getLast? = some t :=
      ⟨_, List.getLast?_eq_getLast _ (List.ne_nil_of_mem hsmem)⟩
    have htmem : t ∈ ss := List.mem_of_mem_getLast? ht
    have hcount : empty_paragraphs spans lines spacing ctm_prev p
        = empty_paragraphs_before spans lines spacing earlier p := by
      unfold empty_paragraphs empty_paragraphs_before
      rcases hlink with ⟨rfl, rfl⟩ | ⟨q, s0, M, rfl, hq, rfl, hM⟩
      · rfl
      · simp only [Option.some_bind, hq, hs, matrix_cmp4_congr_left M s0.ctm s.ctm hM]
    have hnext : paragraph_last_ctm spans lines ctm_prev p = some t.ctm := by
      simp [paragraph_last_ctm, hss, ht]
    simp only [norotation_trace, norotation_items, hcount, hnext]
    rw [ih (some t.ctm) (some p) (fun q hq => hall q (List.mem_cons_of_mem _ hq))
      (Or.inr ⟨p, s, t.ctm, rfl, hs, rfl, hsame t htmem s hsmem⟩)]

theorem norotation_trace_filter (m : Libm) (spans : List span_t) (lines : List line_t)
    (spacing : Int) (paragraphs : List paragraph_t) :
    ∀ ctm_prev : Option matrix_t,
      (∀ p ∈ paragraphs, (paragraph_spans spans lines p.lines).isSome) →
      (norotation_trace m spans lines spacing ctm_prev paragraphs).filter
          (fun item => decide (item ≠ .paragraph_empty))
        = paragraphs.flatMap (paragraph_items m spans lines) := by
  induction paragraphs with
  | nil => intro _ _; rfl
  | cons p rest ih =>
    intro ctm_prev hall
    obtain ⟨ss, hss⟩ := Option.isSome_iff_exists.1 (hall p (List.mem_cons_self _ _))
    have hkeep : (paragraph_items m spans lines p).filter
        (fun item => decide (item ≠ .paragraph_empty)) = paragraph_items m spans lines p := by
      rw [List.filter_eq_self]
      intro x hx
      simp only [ne_eq, decide_not, Bool.not_eq_true', decide_eq_false_iff_not]
      intro hxe
      subst hxe
      have hf : docx_item.paragraph_empty
          ∈ (paragraph_items m spans lines p).filter is_paragraph_item :=
        List.mem_filter.2 ⟨hx, rfl⟩
      rw [paragraph_items_filter m spans lines p ss hss] at hf
      simp at hf
    have hdrop : ∀ n : Nat, (List.replicate n docx_item.paragraph_empty).filter
        (fun item => decide (item ≠ .paragraph_empty)) = [] := by
      intro n
      rw [List.filter_eq_nil_iff]
      intro x hx
      simp [List.eq_of_mem_replicate hx]
    simp only [norotation_trace, List.filter_append, hdrop, hkeep, List.nil_append,
      List.flatMap_cons]
    rw [ih _ fun q hq => hall q (List.mem_cons_of_mem _ hq)]


/-! ## What the emitter appends for a paragraph and for a page -/

/-- C17 fails on the code: the `-` that ends the first of the two spans `a-` and `b` of one
line is removed, and the paragraph reads `ab`. The removal is made once for each span,
inside the loop over the spans of a line; the `-` that ends the last span of a line is
removed as well. -/
theorem hyphen_trimmed_after_each_span :
    extract_document_to_docx_content_paragraph sample_libm sample_hyphen_spans
        [{ spans := [0, 1] }] content_state_init { lines := [0] } []
      = .ok ({ content_state_init with font_size := 1, ctm_prev := some matrix_identity },
          [.paragraph_start, .run_start "F" 1 false false, .char 'a', .char 'b', .run_finish,
            .paragraph_finish]) ∧
    extract_document_to_docx_content_paragraph sample_libm
        [sample_span [sample_char 97 0 0 1, sample_char 45 1 0 1]]
        [{ spans := [0] }] content_state_init { lines := [0] } []
      = .ok ({ content_state_init with font_size := 1, ctm_prev := some matrix_identity },
          [.paragraph_start, .run_start "F" 1 false false, .char 'a', .run_finish,
            .paragraph_finish]) := by
  decide!

theorem sample_run_items :
    extract_document_to_docx_content_paragraph sample_libm sample_run_spans
        [{ spans := [0, 1, 2] }] content_state_init { lines := [0] } []
      = .ok ({ content_state_init with
                font_size := 1, font_bold := true, ctm_prev := some matrix_identity },
          [.paragraph_start, .run_start "F" 1 false false, .char 'a', .char 'b', .run_finish,
            .run_start "F" 1 true false, .char 'c', .run_finish, .paragraph_finish]) ∧
    run_items sample_libm none sample_run_spans
      = [.run_start "F" 1 false false, .run_finish, .run_start "F" 1 true false] := by
  decide!

/-- C19: without rotation, and on pages whose paragraphs each have spans that share `a`,
`b`, `c` and `d` of the CTM, the emitter puts before each paragraph of a page no empty
paragraph when spacing is off, and otherwise one empty paragraph, and one more before it
when a paragraph of the page was emitted before and its CTM differs in `a`, `b`, `c` or
`d`; then it emits the paragraph. No other empty paragraph is emitted. -/
theorem empty_paragraphs_follow_ctm (m : Libm) (document : extract_document_t)
    (spacing : Int)
    (h : ∀ page ∈ document.pages, ∀ p ∈ page.paragraphs,
      paragraph_uniform page.spans page.lines p) :
    extract_document_to_docx_content_norotation m document spacing
      = .ok (document.pages.flatMap fun page =>
          norotation_items m page.spans page.lines spacing none page.paragraphs) ∧
    ∀ page ∈ document.pages, ∀ p ∈ page.paragraphs,
      docx_item.paragraph_empty ∉ paragraph_items m page.spans page.lines p := by
  have hsome : ∀ page ∈ document.pages, ∀ p ∈ page.paragraphs,
      (paragraph_spans page.spans page.lines p.lines).isSome := by
    intro page hpage p hp
    obtain ⟨ss, hss, -, -⟩ := h page hpage p hp
    simp [hss]
  constructor
  · unfold extract_document_to_docx_content_norotation
    rw [docx_content_norotation_pages_eq m spacing document.pages [] hsome, List.nil_append]
    congr 1
    apply List.flatMap_congr
    intro page hpage
    exact norotation_trace_eq_items m page.spans page.lines spacing page.paragraphs none none
      (h page hpage) (Or.inl ⟨rfl, rfl⟩)
  · intro page hpage p hp hmem
    obtain ⟨ss, hss, -, -⟩ := h page hpage p hp
    have hf : docx_item.paragraph_empty
        ∈ (paragraph_items m page.spans page.lines p).filter is_paragraph_item :=
      List.mem_filter.2 ⟨hmem, rfl⟩
    rw [paragraph_items_filter m page.spans page.lines p ss hss] at hf
    simp at hf

theorem sample_spacing_page_uniform :
    ∀ page ∈ ({ pages := [sample_spacing_page] } : extract_document_t).pages,
      ∀ p ∈ page.paragraphs, paragraph_uniform page.spans page.lines p := by
  intro page hpage p hp
  rw [List.mem_singleton.1 hpage] at hp ⊢
  simp only [sample_spacing_page, List.mem_cons, List.mem_singleton, List.not_mem_nil,
    or_false] at hp
  rcases hp with rfl | rfl | rfl
  · exact ⟨[sample_span [sample_char 97 0 0 1]], rfl, rfl, by decide!⟩
  · exact ⟨[{ sample_span [sample_char 98 0 0 1] with ctm := sample_ctm }], rfl, rfl,
      by decide!⟩
  · exact ⟨[{ sample_span [sample_char 99 0 0 1] with ctm := sample_ctm }], rfl, rfl,
      by decide!⟩

/-- Witness of C19: a page of three paragraphs, of which the second and the third have a
CTM other than that of the first. -/
theorem empty_paragraphs_follow_ctm_witness :
    extract_document_to_docx_content_norotation sample_libm { pages := [sample_spacing_page] } 1
      = .ok (({ pages := [sample_spacing_page] } : extract_document_t).pages.flatMap
          fun page => norotation_items sample_libm page.spans page.lines 1 none
            page.paragraphs) ∧
    ∀ page ∈ ({ pages := [sample_spacing_page] } : extract_document_t).pages,
      ∀ p ∈ page.paragraphs,
        docx_item.paragraph_empty ∉ paragraph_items sample_libm page.spans page.lines p :=
  empty_paragraphs_follow_ctm sample_libm { pages := [sample_spacing_page] } 1
    sample_spacing_page_uniform

theorem sample_spacing_content :
    extract_document_to_docx_content_norotation sample_libm { pages := [sample_spacing_page] } 1
      = .ok [.paragraph_empty,
          .paragraph_start, .run_start "F" 1 false false, .char 'a', .run_finish,
          .paragraph_finish,
          .paragraph_empty, .paragraph_empty,
          .paragraph_start, .run_start "F" 2 false false, .char 'b', .run_finish,
          .paragraph_finish,
          .paragraph_empty,
          .paragraph_start, .run_start "F" 2 false false, .char 'c', .run_finish,
          .paragraph_finish] ∧
    extract_document_to_docx_content_norotation sample_libm { pages := [sample_spacing_page] } 0
      = .ok [.paragraph_start, .run_start "F" 1 false false, .char 'a', .run_finish,
          .paragraph_finish,
          .paragraph_start, .run_start "F" 2 false false, .char 'b', .run_finish,
          .paragraph_finish,
          .paragraph_start, .run_start "F" 2 false false, .char 'c', .run_finish,
          .paragraph_finish] := by
  decide!

/-- C20: with `rotation == 0`, whatever the CTMs of the spans, `extract_document_to_docx_content`
returns a content that holds, next to empty paragraphs, the items of each paragraph of
each page once, in the order of the pages and of their paragraphs, and nothing else: no
character of a text box. Each paragraph opens once and closes once. -/
theorem no_rotation_emits_paragraphs_in_order (m : Libm) (document : extract_document_t)
    (spacing : Int)
    (h : ∀ page ∈ document.pages, ∀ p ∈ page.paragraphs,
      (paragraph_spans page.spans page.lines p.lines).isSome) :
    ∃ content, extract_document_to_docx_content m document spacing 0 = .ok content ∧
      content.filter (fun item => decide (item ≠ .paragraph_empty))
        = document.pages.flatMap (fun page =>
            page.paragraphs.flatMap (paragraph_items m page.spans page.lines)) ∧
      ∀ page ∈ document.pages, ∀ p ∈ page.paragraphs,
        (paragraph_items m page.spans page.lines p).filter is_paragraph_item
          = [.paragraph_start, .paragraph_finish] := by
  have hrun : extract_document_to_docx_content m document spacing 0
      = .ok (document.pages.flatMap fun page =>
          norotation_trace m page.spans page.lines spacing none page.paragraphs) := by
    unfold extract_document_to_docx_content extract_document_to_docx_content_norotation
    rw [if_neg (by simp), docx_content_norotation_pages_eq m spacing document.pages [] h,
      List.nil_append]
  refine ⟨_, hrun, ?_, ?_⟩
  · rw [List.filter_flatMap]
    apply List.flatMap_congr
    intro page hpage
    exact norotation_trace_filter m page.spans page.lines spacing page.paragraphs none
      (h page hpage)
  · intro page hpage p hp
    obtain ⟨ss, hss⟩ := Option.isSome_iff_exists.1 (h page hpage p hp)
    exact paragraph_items_filter m page.spans page.lines p ss hss

/-- Witness of C20: the page of three paragraphs with two CTMs. -/
theorem no_rotation_emits_paragraphs_in_order_witness :
    ∃ content,
      extract_document_to_docx_content sample_libm { pages := [sample_spacing_page] } 1 0
        = .ok content ∧
      content.filter (fun item => decide (item ≠ .paragraph_empty))
        = ({ pages := [sample_spacing_page] } : extract_document_t).pages.flatMap (fun page =>
            page.paragraphs.flatMap (paragraph_items sample_libm page.spans page.lines)) ∧
      ∀ page ∈ ({ pages := [sample_spacing_page] } : extract_document_t).pages,
        ∀ p ∈ page.paragraphs,
          (paragraph_items sample_libm page.spans page.lines p).filter is_paragraph_item
            = [.paragraph_start, .paragraph_finish] :=
  no_rotation_emits_paragraphs_in_order sample_libm { pages := [sample_spacing_page] } 1
    (by decide)

/-! ## The passes of `make_lines`: which line is joined, and when a space is added -/

theorem lines_joinable_unique (m : Libm) (st : lines_state) (a : Nat) (line_a : line_t)
    (span_a : span_t) (angle_a : ℚ) (b : Nat) (adv adv1 : ℚ)
    (h : lines_joinable m st a line_a span_a angle_a b adv)
    (h1 : lines_joinable m st a line_a span_a angle_a b adv1) : adv = adv1 := by
  obtain ⟨lb, ib, sb, bf, al, hlb, -, -, hib, hsb, hbf, hal, -, rfl⟩ := h
  obtain ⟨lb1, ib1, sb1, bf1, al1, hlb1, -, -, hib1, hsb1, hbf1, hal1, -, rfl⟩ := h1
  rw [hlb] at hlb1
  simp only [Option.some.injEq] at hlb1
  subst hlb1
  rw [hib] at hib1
  simp only [Option.some.injEq] at hib1
  subst hib1
  rw [hsb] at hsb1
  simp only [Option.some.injEq] at hsb1
  subst hsb1
  rw [hbf] at hbf1
  rw [hal] at hal1
  simp only [Option.some.injEq] at hbf1 hal1
  subst hbf1 hal1
  rfl

/-- One pass of the inner loop of `make_lines`: either `b` is not joinable and the
accumulator stays, or it is joinable at `adv` and replaces a farther accumulator. -/
theorem make_lines_scan_cons (m : Libm) (st : lines_state) (a : Nat) (line_a : line_t)
    (span_a : span_t) (angle_a : ℚ) (b : Nat) (bs : List Nat) (nearest r : Option (Nat × ℚ))
    (h : make_lines_scan m st a line_a span_a angle_a (b :: bs) nearest = .ok r) :
    ((∀ adv, ¬ lines_joinable m st a line_a span_a angle_a b adv) ∧
      make_lines_scan m st a line_a span_a angle_a bs nearest = .ok r) ∨
    ∃ adv, lines_joinable m st a line_a span_a angle_a b adv ∧
      make_lines_scan m st a line_a span_a angle_a bs
        (match nearest with
         | none => some (b, adv)
         | some (nb, nadv) => if adv < nadv then some (b, adv) else some (nb, nadv)) = .ok r := by
  rw [make_lines_scan] at h
  cases hb : st.lines[b]? with
  | none =>
    rw [hb] at h
    refine Or.inl ⟨?_, h⟩
    rintro adv ⟨lb, ib, sb, bf, al, hlb, -⟩
    rw [hb] at hlb; cases hlb
  | some o =>
    cases o with
    | none =>
      rw [hb] at h
      refine Or.inl ⟨?_, h⟩
      rintro adv ⟨lb, ib, sb, bf, al, hlb, -⟩
      rw [hb] at hlb; cases hlb
    | some line_b =>
      rw [hb] at h
      simp only at h
      by_cases hba : b = a
      · rw [if_pos hba] at h
        refine Or.inl ⟨?_, h⟩
        rintro adv ⟨lb, ib, sb, bf, al, -, hne, -⟩
        exact hne hba
      rw [if_neg hba] at h
      cases hc : lines_are_compatible m st.spans a b line_a line_b angle_a with
      | error e => rw [hc] at h; cases h
      | ok c =>
        rw [hc] at h
        cases c with
        | false =>
          refine Or.inl ⟨?_, h⟩
          rintro adv ⟨lb, ib, sb, bf, al, hlb, -, hcomp, -⟩
          rw [hb] at hlb
          simp only [Option.some.injEq] at hlb
          subst hlb
          rw [hc] at hcomp
          cases hcomp
        | true =>
          simp only at h
          obtain ⟨ib, hib⟩ : ∃ ib, line_b.spans.head? = some ib := by
            cases hh : line_b.spans.head? with
            | none => simp [line_span_first, hh] at h
            | some ib => exact ⟨ib, rfl⟩
          rw [line_span_first_eq_ok hib] at h
          simp only at h
          obtain ⟨span_b, hsb⟩ : ∃ span_b, st.spans[ib]? = some span_b := by
            cases hh : st.spans[ib]? with
            | none => simp [span_at, hh] at h
            | some s => exact ⟨s, rfl⟩
          rw [span_at_eq_ok hsb] at h
          simp only at h
          obtain ⟨bfirst, hbf⟩ : ∃ c, span_b.chars.head? = some c := by
            cases hh : span_b.chars.head? with
            | none =>
              simp only [span_char_first, hh] at h
              cases h
            | some c => exact ⟨c, rfl⟩
          rw [span_char_first_eq_ok hbf] at h
          obtain ⟨alast, hal⟩ : ∃ c, span_a.chars.getLast? = some c := by
            cases hh : span_a.chars.getLast? with
            | none =>
              simp only [span_char_last, hh] at h
              cases h
            | some c => exact ⟨c, rfl⟩
          rw [span_char_last_eq_ok hal] at h
          simp only at h
          by_cases hang : |m.atan2 (-(bfirst.y - alast.y)) (bfirst.x - alast.x) - angle_a|
              * 180 / g_pi ≤ 1
          · rw [if_pos hang] at h
            refine Or.inr ⟨spans_adv m span_a alast bfirst,
              ⟨line_b, ib, span_b, bfirst, alast, hb, hba, hc, hib, hsb, hbf, hal, hang, rfl⟩,
              ?_⟩
            cases nearest with
            | none => exact h
            | some p =>
              obtain ⟨nb, nadv⟩ := p
              simp only at h ⊢
              split_ifs at h ⊢ <;> exact h
          · rw [if_neg hang] at h
            refine Or.inl ⟨?_, h⟩
            rintro adv ⟨lb, ib1, sb1, bf1, al1, hlb, -, -, hib1, hsb1, hbf1, hal1, hang1, -⟩
            rw [hb] at hlb
            simp only [Option.some.injEq] at hlb
            subst hlb
            rw [hib] at hib1
            simp only [Option.some.injEq] at hib1
            subst hib1
            rw [hsb] at hsb1
            simp only [Option.some.injEq] at hsb1
            subst hsb1
            rw [hbf] at hbf1
            rw [hal] at hal1
            simp only [Option.some.injEq] at hbf1 hal1
            subst hbf1 hal1
            exact hang hang1

/-- What the inner loop of `make_lines` returns: the accumulator it started with or a
joinable line of the list, whichever has the least `adv`; on equal `adv` the accumulator
wins, then the line that comes first. -/
theorem make_lines_scan_best (m : Libm) (st : lines_state) (a : Nat) (line_a : line_t)
    (span_a : span_t) (angle_a : ℚ) (bs : List Nat) :
    ∀ (nearest r : Option (Nat × ℚ)), bs.Pairwise (· < ·) →
      (∀ nb nadv, nearest = some (nb, nadv) → ∀ b ∈ bs, nb < b) →
      make_lines_scan m st a line_a span_a angle_a bs nearest = .ok r →
      (r = none → nearest = none ∧
        ∀ b ∈ bs, ∀ adv, ¬ lines_joinable m st a line_a span_a angle_a b adv) ∧
      ∀ b adv, r = some (b, adv) →
        (nearest = some (b, adv) ∨
          (b ∈ bs ∧ lines_joinable m st a line_a span_a angle_a b adv)) ∧
        (∀ nb nadv, nearest = some (nb, nadv) → adv ≤ nadv ∧ (adv = nadv → b = nb)) ∧
        ∀ b1 ∈ bs, ∀ adv1, lines_joinable m st a line_a span_a angle_a b1 adv1 →
          adv ≤ adv1 ∧ (adv1 = adv → b ≤ b1) := by
  induction bs with
  | nil =>
    intro nearest r _ _ h
    simp only [make_lines_scan, Except.ok.injEq] at h
    subst h
    refine ⟨fun h => ⟨h, fun b hb => (by cases hb)⟩, ?_⟩
    intro b adv hr
    refine ⟨Or.inl hr, ?_, fun b1 hb1 => (by cases hb1)⟩
    intro nb nadv hn
    rw [hr] at hn
    simp only [Option.some.injEq, Prod.mk.injEq] at hn
    exact ⟨le_of_eq hn.2, fun _ => hn.1⟩
  | cons b0 bs ih =>
    intro nearest r hpw hlt h
    have hpw1 : bs.Pairwise (· < ·) := (List.pairwise_cons.1 hpw).2
    have hb0 : ∀ b ∈ bs, b0 < b := (List.pairwise_cons.1 hpw).1
    rcases make_lines_scan_cons m st a line_a span_a angle_a b0 bs nearest r h with
      ⟨hnot, h1⟩ | ⟨adv0, hjoin, h1⟩
    · obtain ⟨i1, i2⟩ := ih nearest r hpw1
        (fun nb nadv hn b hb => hlt nb nadv hn b (List.mem_cons_of_mem _ hb)) h1
      refine ⟨fun hr => ⟨(i1 hr).1, ?_⟩, ?_⟩
      · intro b hb adv
        rcases List.mem_cons.1 hb with rfl | hb
        · exact hnot adv
        · exact (i1 hr).2 b hb adv
      · intro b adv hr
        obtain ⟨j1, j2, j3⟩ := i2 b adv hr
        refine ⟨?_, j2, ?_⟩
        · rcases j1 with j1 | ⟨j1, j1'⟩
          · exact Or.inl j1
          · exact Or.inr ⟨List.mem_cons_of_mem _ j1, j1'⟩
        · intro b1 hb1 adv1 hj1
          rcases List.mem_cons.1 hb1 with rfl | hb1
          · exact absurd hj1 (hnot adv1)
          · exact j3 b1 hb1 adv1 hj1
    · cases nearest with
      | none =>
        simp only at h1
        obtain ⟨i1, i2⟩ := ih (some (b0, adv0)) r hpw1
          (fun nb nadv hnb b hb => by
            simp only [Option.some.injEq, Prod.mk.injEq] at hnb
            rw [← hnb.1]
            exact hb0 b hb) h1
        refine ⟨fun hr => absurd (i1 hr).1 (by simp), ?_⟩
        intro b adv hr
        obtain ⟨j1, j2, j3⟩ := i2 b adv hr
        obtain ⟨k1, k2⟩ := j2 b0 adv0 rfl
        refine ⟨Or.inr ?_, fun nb nadv hnb => (by cases hnb), ?_⟩
        · rcases j1 with j1 | ⟨j1, j1'⟩
          · simp only [Option.some.injEq, Prod.mk.injEq] at j1
            rw [← j1.1, ← j1.2]
            exact ⟨List.mem_cons_self _ _, hjoin⟩
          · exact ⟨List.mem_cons_of_mem _ j1, j1'⟩
        · intro b1 hb1 adv1 hj1
          rcases List.mem_cons.1 hb1 with rfl | hb1
          · have := lines_joinable_unique m st a line_a span_a angle_a _ _ _ hj1 hjoin
            subst this
            exact ⟨k1, fun e => le_of_eq (k2 e.symm)⟩
          · exact j3 b1 hb1 adv1 hj1
      | some p =>
        obtain ⟨nb, nadv⟩ := p
        simp only at h1
        have hnb0 : nb < b0 := hlt nb nadv rfl b0 (List.mem_cons_self _ _)
        by_cases hless : adv0 < nadv
        · rw [if_pos hless] at h1
          obtain ⟨i1, i2⟩ := ih (some (b0, adv0)) r hpw1
            (fun nb1 nadv1 hnb b hb => by
              simp only [Option.some.injEq, Prod.mk.injEq] at hnb
              rw [← hnb.1]
              exact hb0 b hb) h1
          refine ⟨fun hr => absurd (i1 hr).1 (by simp), ?_⟩
          intro b adv hr
          obtain ⟨j1, j2, j3⟩ := i2 b adv hr
          obtain ⟨k1, k2⟩ := j2 b0 adv0 rfl
          refine ⟨Or.inr ?_, ?_, ?_⟩
          · rcases j1 with j1 | ⟨j1, j1'⟩
            · simp only [Option.some.injEq, Prod.mk.injEq] at j1
              rw [← j1.1, ← j1.2]
              exact ⟨List.mem_cons_self _ _, hjoin⟩
            · exact ⟨List.mem_cons_of_mem _ j1, j1'⟩
          · intro nb1 nadv1 hnb
            simp only [Option.some.injEq, Prod.mk.injEq] at hnb
            obtain ⟨rfl, rfl⟩ := hnb
            exact ⟨by linarith, fun e => by linarith⟩
          · intro b1 hb1 adv1 hj1
            rcases List.mem_cons.1 hb1 with rfl | hb1
            · have := lines_joinable_unique m st a line_a span_a angle_a _ _ _ hj1 hjoin
              subst this
              exact ⟨k1, fun e => le_of_eq (k2 e.symm)⟩
            · exact j3 b1 hb1 adv1 hj1
        · rw [if_neg hless] at h1
          obtain ⟨i1, i2⟩ := ih (some (nb, nadv)) r hpw1
            (fun nb1 nadv1 hnb b hb => by
              simp only [Option.some.injEq, Prod.mk.injEq] at hnb
              rw [← hnb.1]
              exact hlt nb nadv rfl b (List.mem_cons_of_mem _ hb)) h1
          refine ⟨fun hr => absurd (i1 hr).1 (by simp), ?_⟩
          intro b adv hr
          obtain ⟨j1, j2, j3⟩ := i2 b adv hr
          obtain ⟨k1, k2⟩ := j2 nb nadv rfl
          refine ⟨?_, ?_, ?_⟩
          · rcases j1 with j1 | ⟨j1, j1'⟩
            · exact Or.inl j1
            · exact Or.inr ⟨List.mem_cons_of_mem _ j1, j1'⟩
          · intro nb1 nadv1 hnb
            simp only [Option.some.injEq, Prod.mk.injEq] at hnb
            obtain ⟨rfl, rfl⟩ := hnb
            exact ⟨k1, k2⟩
          · intro b1 hb1 adv1 hj1
            rcases List.mem_cons.1 hb1 with rfl | hb1
            · have := lines_joinable_unique m st a line_a span_a angle_a _ _ _ hj1 hjoin
              subst this
              refine ⟨by linarith, fun e => ?_⟩
              have : b = nb := k2 (by linarith)
              omega
            · exact j3 b1 hb1 adv1 hj1

/-- One pass of the outer loop of `make_lines` at a live slot `a`: the pass returns; with no
joinable line the state is unchanged, and otherwise the joined line is the joinable line
of least `adv` (the lowest slot among equals) and the space decision is the one of the
`insert_space` test. -/
theorem make_lines_step_spec (m : Libm) {orig : List span_t} {st : lines_state}
    (hinv : lines_inv orig st) (hne : ∀ s ∈ orig, s.chars ≠ []) (a : Nat) (line_a : line_t)
    (hla : st.lines[a]? = some (some line_a)) :
    ∃ ia span_a a1 st1, line_a.spans.getLast? = some ia ∧ st.spans[ia]? = some span_a ∧
      make_lines_step m a st = .ok (a1, st1) ∧
      (((∀ b adv, ¬ lines_joinable m st a line_a span_a (span_angle m span_a) b adv) ∧
          st1 = st) ∨
        ∃ b adv line_b ib span_b alast bfirst ta tb,
          lines_joinable m st a line_a span_a (span_angle m span_a) b adv ∧
          (∀ b1 adv1, lines_joinable m st a line_a span_a (span_angle m span_a) b1 adv1 →
            adv ≤ adv1 ∧ (adv1 = adv → b ≤ b1)) ∧
          st.lines[b]? = some (some line_b) ∧ line_b.spans.head? = some ib ∧
          st.spans[ib]? = some span_b ∧ span_a.chars.getLast? = some alast ∧
          span_b.chars.head? = some bfirst ∧ span_adv_total m span_a = .ok ta ∧
          span_adv_total m span_b = .ok tb ∧
          st1.lines =
            (st.lines.set a (some { spans := line_a.spans ++ line_b.spans })).set b none ∧
          st1.spans =
            if alast.ucs ≠ 32 ∧ bfirst.ucs ≠ 32 ∧
                adv > (1 / 4) * ((ta + tb) /
                  ((span_a.chars.length + span_b.chars.length : Nat) : ℚ)) then
              st.spans.set ia { span_a with chars := span_a.chars ++ [line_space adv] }
            else st.spans) := by
  obtain ⟨hhead, hmem⟩ := hinv.wf a line_a hla
  have hne_a : line_a.spans ≠ [] := by
    intro h; rw [h] at hhead; cases hhead
  obtain ⟨ia, hia⟩ := exists_getLast_of_ne_nil hne_a
  obtain ⟨oia, span_a, -, hspan_a, -, -, hane⟩ :=
    lines_inv_span hinv hne ia (hmem ia (List.mem_of_mem_getLast? hia))
  have halt : a < st.lines.length := by
    by_contra hge
    rw [List.getElem?_eq_none (by omega)] at hla
    cases hla
  obtain ⟨a1, st1, hstep, -, -⟩ := make_lines_step_ok m hinv hne a halt
  refine ⟨ia, span_a, a1, st1, hia, hspan_a, hstep, ?_⟩
  unfold make_lines_step at hstep
  rw [hla] at hstep
  simp only [] at hstep
  rw [line_span_last_eq_ok hia] at hstep
  simp only [span_at_eq_ok hspan_a] at hstep
  obtain ⟨r, hr, -⟩ := make_lines_scan_ok m hinv hne a line_a hla span_a hane
    (span_angle m span_a) (List.range st.lines.length) none
    (by intro b adv h; cases h)
  obtain ⟨hnone, hsome⟩ := make_lines_scan_best m st a line_a span_a (span_angle m span_a)
    (List.range st.lines.length) none r (List.pairwise_lt_range _)
    (fun nb nadv h => by cases h) hr
  have hrange : ∀ b adv, lines_joinable m st a line_a span_a (span_angle m span_a) b adv →
      b ∈ List.range st.lines.length := by
    rintro b adv ⟨lb, ib, sb, bf, al, hlb, -⟩
    rw [List.mem_range]
    by_contra hge
    rw [List.getElem?_eq_none (by omega)] at hlb
    cases hlb
  rw [hr] at hstep
  cases r with
  | none =>
    simp only [Except.ok.injEq, Prod.mk.injEq] at hstep
    refine Or.inl ⟨fun b adv hj => (hnone rfl).2 b (hrange b adv hj) adv hj, hstep.2.symm⟩
  | some p =>
    obtain ⟨b, adv⟩ := p
    obtain ⟨hsel, -, hmin⟩ := hsome b adv rfl
    have hjoin : lines_joinable m st a line_a span_a (span_angle m span_a) b adv := by
      rcases hsel with h | ⟨-, h⟩
      · cases h
      · exact h
    obtain ⟨line_b, ib, span_b, bfirst, alast, hlb, hba, hcompat, hib, hsb, hbf, hal, hang, hadv⟩ :=
      hjoin
    have hbne : span_b.chars ≠ [] := by
      intro h; rw [h] at hbf; cases hbf
    obtain ⟨ta, hta⟩ := span_adv_total_ok m span_a hane
    obtain ⟨tb, htb⟩ := span_adv_total_ok m span_b hbne
    refine Or.inr ⟨b, adv, line_b, ib, span_b, alast, bfirst, ta, tb,
      ⟨line_b, ib, span_b, bfirst, alast, hlb, hba, hcompat, hib, hsb, hbf, hal, hang, hadv⟩,
      fun b1 adv1 hj => hmin b1 (hrange b1 adv1 hj) adv1 hj,
      hlb, hib, hsb, hal, hbf, hta, htb, ?_⟩
    simp only [make_lines_join, hlb, line_span_first_eq_ok hib, span_at_eq_ok hspan_a,
      span_at_eq_ok hsb, make_lines_space, span_char_last_eq_ok hal,
      span_char_first_eq_ok hbf, hta, htb] at hstep
    by_cases h1 : alast.ucs ≠ 32 ∧ bfirst.ucs ≠ 32
    · rw [if_pos h1] at hstep
      by_cases h2 : adv > (1 / 4) * ((ta + tb) /
          ((span_a.chars.length + span_b.chars.length : Nat) : ℚ))
      · rw [if_pos h2] at hstep
        simp only [Except.ok.injEq, Prod.mk.injEq] at hstep
        rw [← hstep.2, if_pos ⟨h1.1, h1.2, h2⟩]
        exact ⟨rfl, rfl⟩
      · rw [if_neg h2] at hstep
        simp only [Except.ok.injEq, Prod.mk.injEq] at hstep
        rw [← hstep.2, if_neg (fun h => h2 h.2.2)]
        exact ⟨rfl, rfl⟩
    · rw [if_neg h1] at hstep
      simp only [Except.ok.injEq, Prod.mk.injEq] at hstep
      rw [← hstep.2, if_neg (fun h => h1 ⟨h.1, h.2.1⟩)]
      exact ⟨rfl, rfl⟩

/-- C23: in a pass of the outer loop of `make_lines` at a live slot `a`, the pass returns,
and either no line is joinable (a live non-empty line `b` other than `a`, compatible with
`a`, whose direction from the last glyph of `a` is within one degree of the angle of `a`)
and the state is unchanged, or the line moved onto `a` is a joinable line whose `adv` (the
value of `spans_adv`) is the least of all joinable lines, at the lowest slot among those of
equal `adv`. -/
theorem make_lines_joins_nearest_line (m : Libm) {orig : List span_t} {st : lines_state}
    (hinv : lines_inv orig st) (hne : ∀ s ∈ orig, s.chars ≠ []) (a : Nat) (line_a : line_t)
    (hla : st.lines[a]? = some (some line_a)) :
    ∃ ia span_a a1 st1, line_a.spans.getLast? = some ia ∧ st.spans[ia]? = some span_a ∧
      make_lines_step m a st = .ok (a1, st1) ∧
      (((∀ b adv, ¬ lines_joinable m st a line_a span_a (span_angle m span_a) b adv) ∧
          st1 = st) ∨
        ∃ b adv line_b,
          lines_joinable m st a line_a span_a (span_angle m span_a) b adv ∧
          (∀ b1 adv1, lines_joinable m st a line_a span_a (span_angle m span_a) b1 adv1 →
            adv ≤ adv1 ∧ (adv1 = adv → b ≤ b1)) ∧
          st.lines[b]? = some (some line_b) ∧
          st1.lines =
            (st.lines.set a (some { spans := line_a.spans ++ line_b.spans })).set b none) := by
  obtain ⟨ia, span_a, a1, st1, hia, hsa, hstep, hres⟩ :=
    make_lines_step_spec m hinv hne a line_a hla
  refine ⟨ia, span_a, a1, st1, hia, hsa, hstep, ?_⟩
  rcases hres with h | ⟨b, adv, line_b, ib, span_b, alast, bfirst, ta, tb, hj, hmin, hlb, -, -,
    -, -, -, -, hlines, -⟩
  · exact Or.inl h
  · exact Or.inr ⟨b, adv, line_b, hj, hmin, hlb, hlines⟩

/-- Witness of C23: the first pass over three spans on one baseline. -/
theorem make_lines_joins_nearest_line_witness :
    lines_inv sample_gap_spans (lines_state_init sample_gap_spans) ∧
    (∀ s ∈ sample_gap_spans, s.chars ≠ []) ∧
    (lines_state_init sample_gap_spans).lines[0]? = some (some { spans := [0] }) ∧
    ∃ ia span_a a1 st1, ({ spans := [0] } : line_t).spans.getLast? = some ia ∧
      (lines_state_init sample_gap_spans).spans[ia]? = some span_a ∧
      make_lines_step sample_libm 0 (lines_state_init sample_gap_spans) = .ok (a1, st1) ∧
      (((∀ b adv, ¬ lines_joinable sample_libm (lines_state_init sample_gap_spans) 0
            { spans := [0] } span_a (span_angle sample_libm span_a) b adv) ∧
          st1 = lines_state_init sample_gap_spans) ∨
        ∃ b adv line_b,
          lines_joinable sample_libm (lines_state_init sample_gap_spans) 0 { spans := [0] }
            span_a (span_angle sample_libm span_a) b adv ∧
          (∀ b1 adv1, lines_joinable sample_libm (lines_state_init sample_gap_spans) 0
              { spans := [0] } span_a (span_angle sample_libm span_a) b1 adv1 →
            adv ≤ adv1 ∧ (adv1 = adv → b ≤ b1)) ∧
          (lines_state_init sample_gap_spans).lines[b]? = some (some line_b) ∧
          st1.lines =
            ((lines_state_init sample_gap_spans).lines.set 0
              (some { spans := ({ spans := [0] } : line_t).spans ++ line_b.spans })).set
                b none) :=
  ⟨lines_inv_init sample_gap_spans, by decide, by decide,
    make_lines_joins_nearest_line sample_libm (lines_inv_init sample_gap_spans) (by decide) 0
      { spans := [0] } (by decide)⟩

/-- Of the two lines that can be joined onto the span at `x = 0`, the pass takes the one at
`x = 3/2`, in slot 2, although the one at `x = 3` comes first. -/
theorem sample_gap_spans_step :
    make_lines_step sample_libm 0 (lines_state_init sample_gap_spans) =
      .ok (0, { spans :=
                  [sample_span [sample_char 97 0 0 1, line_space (1 / 2)],
                    sample_span [sample_char 98 3 0 1],
                    sample_span [sample_char 99 (3 / 2) 0 1]]
                lines := [some { spans := [0, 2] }, some { spans := [1] }, none] }) := by
  decide!

/-- C22: in a pass of the outer loop of `make_lines` that moves a line `b` onto line `a`,
the spans afterwards are those before, with the space glyph of advance `adv` appended to
the last span of `a` exactly when neither the last glyph of `a` nor the first glyph of `b`
is a space and `adv > 0.25 * average_adv`, where `average_adv` is the sum of
`span_adv_total` of the last span of `a` and of the first span of `b` over the sum of their
glyph counts. -/
theorem make_lines_space_iff_gap (m : Libm) {orig : List span_t} {st : lines_state}
    (hinv : lines_inv orig st) (hne : ∀ s ∈ orig, s.chars ≠ []) (a : Nat) (line_a : line_t)
    (hla : st.lines[a]? = some (some line_a)) :
    ∃ ia span_a a1 st1, line_a.spans.getLast? = some ia ∧ st.spans[ia]? = some span_a ∧
      make_lines_step m a st = .ok (a1, st1) ∧
      (st1 = st ∨
        ∃ b adv line_b ib span_b alast bfirst ta tb,
          lines_joinable m st a line_a span_a (span_angle m span_a) b adv ∧
          st.lines[b]? = some (some line_b) ∧ line_b.spans.head? = some ib ∧
          st.spans[ib]? = some span_b ∧ span_a.chars.getLast? = some alast ∧
          span_b.chars.head? = some bfirst ∧ span_adv_total m span_a = .ok ta ∧
          span_adv_total m span_b = .ok tb ∧
          st1.lines =
            (st.lines.set a (some { spans := line_a.spans ++ line_b.spans })).set b none ∧
          (st1.spans =
            if alast.ucs ≠ 32 ∧ bfirst.ucs ≠ 32 ∧
                adv > (1 / 4) * ((ta + tb) /
                  ((span_a.chars.length + span_b.chars.length : Nat) : ℚ)) then
              st.spans.set ia { span_a with chars := span_a.chars ++ [line_space adv] }
            else st.spans) ∧
          (line_space adv).ucs = 32 ∧ (line_space adv).adv = adv ∧
          (st1.spans[ia]? = some { span_a with chars := span_a.chars ++ [line_space adv] } ↔
            alast.ucs ≠ 32 ∧ bfirst.ucs ≠ 32 ∧
              adv > (1 / 4) * ((ta + tb) /
                ((span_a.chars.length + span_b.chars.length : Nat) : ℚ)))) := by
  obtain ⟨ia, span_a, a1, st1, hia, hsa, hstep, hres⟩ :=
    make_lines_step_spec m hinv hne a line_a hla
  refine ⟨ia, span_a, a1, st1, hia, hsa, hstep, ?_⟩
  rcases hres with h | ⟨b, adv, line_b, ib, span_b, alast, bfirst, ta, tb, hj, -, hlb, hib, hsb,
    hal, hbf, hta, htb, hlines, hspans⟩
  · exact Or.inl h.2
  · refine Or.inr ⟨b, adv, line_b, ib, span_b, alast, bfirst, ta, tb, hj, hlb, hib, hsb, hal,
      hbf, hta, htb, hlines, hspans, rfl, rfl, ?_⟩
    have hlt : ia < st.spans.length := by
      by_contra hge
      rw [List.getElem?_eq_none (by omega)] at hsa
      cases hsa
    rw [hspans]
    constructor
    · intro h
      by_contra hc
      rw [if_neg hc, hsa] at h
      have := congrArg (fun s => s.chars.length) (Option.some.inj h)
      simp at this
    · intro h
      rw [if_pos h, List.getElem?_set_self hlt]

/-- Witness of C22: the first pass over `abc` and `def`, half a unit apart. -/
theorem make_lines_space_iff_gap_witness :
    lines_inv [sample_abc, sample_def (7 / 2)] (lines_state_init [sample_abc, sample_def (7 / 2)]) ∧
    (∀ s ∈ [sample_abc, sample_def (7 / 2)], s.chars ≠ []) ∧
    (lines_state_init [sample_abc, sample_def (7 / 2)]).lines[0]? = some (some { spans := [0] }) ∧
    ∃ ia span_a a1 st1, ({ spans := [0] } : line_t).spans.getLast? = some ia ∧
      (lines_state_init [sample_abc, sample_def (7 / 2)]).spans[ia]? = some span_a ∧
      make_lines_step sample_libm 0 (lines_state_init [sample_abc, sample_def (7 / 2)])
        = .ok (a1, st1) ∧
      (st1 = lines_state_init [sample_abc, sample_def (7 / 2)] ∨
        ∃ b adv line_b ib span_b alast bfirst ta tb,
          lines_joinable sample_libm (lines_state_init [sample_abc, sample_def (7 / 2)]) 0
            { spans := [0] } span_a (span_angle sample_libm span_a) b adv ∧
          (lines_state_init [sample_abc, sample_def (7 / 2)]).lines[b]?
            = some (some line_b) ∧
          line_b.spans.head? = some ib ∧
          (lines_state_init [sample_abc, sample_def (7 / 2)]).spans[ib]? = some span_b ∧
          span_a.chars.getLast? = some alast ∧
          span_b.chars.head? = some bfirst ∧ span_adv_total sample_libm span_a = .ok ta ∧
          span_adv_total sample_libm span_b = .ok tb ∧
          st1.lines =
            ((lines_state_init [sample_abc, sample_def (7 / 2)]).lines.set 0
              (some { spans := ({ spans := [0] } : line_t).spans ++ line_b.spans })).set
                b none ∧
          (st1.spans =
            if alast.ucs ≠ 32 ∧ bfirst.ucs ≠ 32 ∧
                adv > (1 / 4) * ((ta + tb) /
                  ((span_a.chars.length + span_b.chars.length : Nat) : ℚ)) then
              (lines_state_init [sample_abc, sample_def (7 / 2)]).spans.set ia
                { span_a with chars := span_a.chars ++ [line_space adv] }
            else (lines_state_init [sample_abc, sample_def (7 / 2)]).spans) ∧
          (line_space adv).ucs = 32 ∧ (line_space adv).adv = adv ∧
          (st1.spans[ia]? = some { span_a with chars := span_a.chars ++ [line_space adv] } ↔
            alast.ucs ≠ 32 ∧ bfirst.ucs ≠ 32 ∧
              adv > (1 / 4) * ((ta + tb) /
                ((span_a.chars.length + span_b.chars.length : Nat) : ℚ)))) :=
  ⟨lines_inv_init _, by decide, by decide,
    make_lines_space_iff_gap sample_libm (lines_inv_init [sample_abc, sample_def (7 / 2)])
      (by decide) 0 { spans := [0] } (by decide)⟩

/-- With `def` a tenth of a unit after the end of `abc` (a quarter of the average advance
is `1/4`), `make_lines` gives one line that reads `abcdef`. -/
theorem sample_abc_def_near :
    make_lines sample_libm [sample_abc, sample_def (31 / 10)] =
        .ok ([sample_abc, sample_def (31 / 10)], [{ spans := [0, 1] }]) ∧
      lines_ucs [sample_abc, sample_def (31 / 10)] [{ spans := [0, 1] }]
        = [97, 98, 99, 100, 101, 102] := by
  decide!

/-- With `def` half a unit after the end of `abc`, `make_lines` gives one line that reads
`abc def`: a space of advance `1/2` ends the first span. -/
theorem sample_abc_def_far :
    make_lines sample_libm [sample_abc, sample_def (7 / 2)] =
        .ok ([{ sample_abc with chars := sample_abc.chars ++ [line_space (1 / 2)] },
            sample_def (7 / 2)], [{ spans := [0, 1] }]) ∧
      lines_ucs [{ sample_abc with chars := sample_abc.chars ++ [line_space (1 / 2)] },
          sample_def (7 / 2)] [{ spans := [0, 1] }]
        = [97, 98, 99, 32, 100, 101, 102] := by
  decide!

/-! ## The lines of `make_lines` and their slots -/

theorem slot_heads_increasing (L : List (Option line_t)) :
    ∀ k : Nat, (∀ (b : Nat) (l : line_t), L[b]? = some (some l) → l.spans.head? = some (b + k)) →
      ∃ idxs : List Nat, idxs.Pairwise (· < ·) ∧ (∀ i ∈ idxs, k ≤ i) ∧
        L.reduceOption.map (fun l => l.spans.head?) = idxs.map some := by
  induction L with
  | nil => intro k _; exact ⟨[], List.Pairwise.nil, fun _ h => (by cases h), rfl⟩
  | cons o rest ih =>
    intro k h
    obtain ⟨idxs, hpw, hge, hmap⟩ := ih (k + 1) (by
      intro b l hb
      have := h (b + 1) l (by simpa using hb)
      rw [this]
      congr 1
      omega)
    cases o with
    | none =>
      refine ⟨idxs, hpw, fun i hi => by have := hge i hi; omega, ?_⟩
      rw [List.reduceOption_cons_of_none]
      exact hmap
    | some l =>
      have hl := h 0 l (by simp)
      refine ⟨k :: idxs, List.Pairwise.cons (fun i hi => by have := hge i hi; omega) hpw,
        ?_, ?_⟩
      · intro i hi
        rcases List.mem_cons.1 hi with rfl | hi
        · exact le_refl _
        · have := hge i hi; omega
      · rw [List.reduceOption_cons_of_some, List.map_cons, List.map_cons, hmap, hl]
        simp

/-- C28: for every list of non-empty spans that holds a span `make_lines` returns (on the
empty list the program ends at `assert(l)`), and the returned lines are in the order of
their slots: every returned line begins with the span whose index is the index of its slot,
so no returned line is empty and the first spans of the returned lines have strictly
increasing indices. -/
theorem make_lines_keeps_slot_order (m : Libm) (spans : List span_t) (hspans : spans ≠ [])
    (hne : ∀ s ∈ spans, s.chars ≠ []) :
    ∃ spans1 lines, make_lines m spans = .ok (spans1, lines) ∧
      (∀ l ∈ lines, l.spans ≠ []) ∧
      ∃ idxs : List Nat, idxs.Pairwise (· < ·) ∧ (∀ i ∈ idxs, i < spans.length) ∧
        lines.map (fun l => l.spans.head?) = idxs.map some := by
  obtain ⟨st, hinv, hres⟩ := make_lines_ok m spans hspans hne
  obtain ⟨idxs, hpw, -, hmap⟩ := slot_heads_increasing st.lines 0
    (fun b l hb => (hinv.wf b l hb).1)
  refine ⟨st.spans, st.lines.reduceOption, hres, ?_, idxs, hpw, ?_, hmap⟩
  · intro l hl hnil
    rw [List.reduceOption_mem_iff] at hl
    obtain ⟨b, hb⟩ := List.mem_iff_getElem?.1 hl
    have := (hinv.wf b l hb).1
    rw [hnil] at this
    cases this
  · intro i hi
    have hmem : some i ∈ idxs.map some := List.mem_map.2 ⟨i, hi, rfl⟩
    rw [← hmap] at hmem
    obtain ⟨l, hl, hhead⟩ := List.mem_map.1 hmem
    rw [List.reduceOption_mem_iff] at hl
    obtain ⟨b, hb⟩ := List.mem_iff_getElem?.1 hl
    exact (hinv.wf b l hb).2 i (List.mem_of_mem_head? hhead)

/-- Witness of C28: of three spans on one baseline, the first two are joined. -/
theorem make_lines_keeps_slot_order_witness :
    ∃ spans1 lines,
      make_lines sample_libm
          [sample_span [sample_char 97 0 0 1], sample_span [sample_char 98 1 0 1],
            sample_span [sample_char 99 0 5 1]]
        = .ok (spans1, lines) ∧
      (∀ l ∈ lines, l.spans ≠ []) ∧
      ∃ idxs : List Nat, idxs.Pairwise (· < ·) ∧
        (∀ i ∈ idxs, i < [sample_span [sample_char 97 0 0 1],
          sample_span [sample_char 98 1 0 1], sample_span [sample_char 99 0 5 1]].length) ∧
        lines.map (fun l => l.spans.head?) = idxs.map some :=
  make_lines_keeps_slot_order sample_libm
    [sample_span [sample_char 97 0 0 1], sample_span [sample_char 98 1 0 1],
      sample_span [sample_char 99 0 5 1]] (List.cons_ne_nil _ _) (by decide)

/-- C30: for every list of non-empty spans that holds a span `make_lines` returns (on the
empty list the program ends at `assert(l)`), the span pointers of the returned lines, line
after line, are a permutation of the indices of the input spans, so that every input span is
in exactly one line, exactly once; and there are at most as many lines as spans, and at
least one. -/
theorem make_lines_partitions_spans (m : Libm) (spans : List span_t) (hspans : spans ≠ [])
    (hne : ∀ s ∈ spans, s.chars ≠ []) :
    ∃ spans1 lines, make_lines m spans = .ok (spans1, lines) ∧
      (lines.flatMap line_t.spans).Perm (List.range spans.length) ∧
      (∀ i < spans.length, ∃ l ∈ lines, i ∈ l.spans) ∧
      (lines.flatMap line_t.spans).Nodup ∧
      lines.length ≤ spans.length ∧ 1 ≤ lines.length ∧ spans1.length = spans.length := by
  obtain ⟨st, hinv, hres⟩ := make_lines_ok m spans hspans hne
  have hperm : (st.lines.reduceOption.flatMap line_t.spans).Perm (List.range spans.length) := by
    rw [← Multiset.coe_eq_coe, coe_reduceOption_flatMap, hinv.part, Multiset.coe_range]
  refine ⟨st.spans, st.lines.reduceOption, hres, hperm, ?_, ?_, ?_,
    List.length_pos.2 (lines_inv_live hinv hspans), hinv.ext.length_eq.symm⟩
  · intro i hi
    have : i ∈ st.lines.reduceOption.flatMap line_t.spans :=
      hperm.mem_iff.2 (List.mem_range.2 hi)
    obtain ⟨l, hl, hil⟩ := List.mem_flatMap.1 this
    exact ⟨l, hl, hil⟩
  · exact hperm.nodup_iff.2 (List.nodup_range _)
  · have := List.reduceOption_length_le st.lines
    rw [hinv.len] at this
    exact this

/-- Witness of C30: of three spans on one baseline, the first two are joined. -/
theorem make_lines_partitions_spans_witness :
    ∃ spans1 lines,
      make_lines sample_libm
          [sample_span [sample_char 97 0 0 1], sample_span [sample_char 98 1 0 1],
            sample_span [sample_char 99 0 5 1]]
        = .ok (spans1, lines) ∧
      (lines.flatMap line_t.spans).Perm (List.range
        [sample_span [sample_char 97 0 0 1], sample_span [sample_char 98 1 0 1],
          sample_span [sample_char 99 0 5 1]].length) ∧
      (∀ i < [sample_span [sample_char 97 0 0 1], sample_span [sample_char 98 1 0 1],
          sample_span [sample_char 99 0 5 1]].length, ∃ l ∈ lines, i ∈ l.spans) ∧
      (lines.flatMap line_t.spans).Nodup ∧
      lines.length ≤ [sample_span [sample_char 97 0 0 1], sample_span [sample_char 98 1 0 1],
          sample_span [sample_char 99 0 5 1]].length ∧
      1 ≤ lines.length ∧
      spans1.length = [sample_span [sample_char 97 0 0 1], sample_span [sample_char 98 1 0 1],
          sample_span [sample_char 99 0 5 1]].length :=
  make_lines_partitions_spans sample_libm
    [sample_span [sample_char 97 0 0 1], sample_span [sample_char 98 1 0 1],
      sample_span [sample_char 99 0 5 1]] (List.cons_ne_nil _ _) (by decide)

theorem sample_three_spans_lines :
    make_lines sample_libm
        [sample_span [sample_char 97 0 0 1], sample_span [sample_char 98 1 0 1],
          sample_span [sample_char 99 0 5 1]]
      = .ok ([sample_span [sample_char 97 0 0 1], sample_span [sample_char 98 1 0 1],
          sample_span [sample_char 99 0 5 1]], [{ spans := [0, 1] }, { spans := [2] }]) := by
  decide!

/-! ## The font size that `make_paragraphs` compares with -/

/-- C24: the nearest line here is at distance `2` and the spans of its line have
`matrix_expansion` of the TRM `3/2`, so that `2 < 1.5 * 3/2`; yet `line_font_size_max`
returns `1`, as it holds each size in an `int`, and `make_paragraphs` leaves the two lines in
two paragraphs. -/
theorem line_font_size_max_truncates :
    matrix_expansion sample_libm (sample_sized_span (3 / 2) (sample_char 98 0 2 1)).trm = 3 / 2 ∧
    line_font_size_max sample_libm
        [sample_sized_span (3 / 2) (sample_char 97 0 0 1),
          sample_sized_span (3 / 2) (sample_char 98 0 2 1)] { spans := [1] } = .ok 1 ∧
    make_paragraphs_scan sample_libm
        [sample_sized_span (3 / 2) (sample_char 97 0 0 1),
          sample_sized_span (3 / 2) (sample_char 98 0 2 1)] sample_two_lines
        [some { lines := [0] }, some { lines := [1] }] 0 { spans := [0] } 0 [0, 1] (none, -1)
      = .ok (some 1, 2) ∧
    (2 : ℚ) < 3 / 2 * (3 / 2) ∧
    make_paragraphs sample_libm
        [sample_sized_span (3 / 2) (sample_char 97 0 0 1),
          sample_sized_span (3 / 2) (sample_char 98 0 2 1)] sample_two_lines
      = .ok ([sample_sized_span (3 / 2) (sample_char 97 0 0 1),
          sample_sized_span (3 / 2) (sample_char 98 0 2 1)],
        [{ lines := [0] }, { lines := [1] }]) := by
  decide!

/-- The same two lines in a font of size `2` are joined into one paragraph. -/
theorem line_font_size_max_whole :
    line_font_size_max sample_libm
        [sample_sized_span 2 (sample_char 97 0 0 1),
          sample_sized_span 2 (sample_char 98 0 2 1)] { spans := [1] } = .ok 2 ∧
    (make_paragraphs sample_libm
        [sample_sized_span 2 (sample_char 97 0 0 1),
          sample_sized_span 2 (sample_char 98 0 2 1)] sample_two_lines).map Prod.snd
      = .ok [{ lines := [0, 1] }] := by
  decide!

/-! ## The branches of `page_span_end_clean` -/

/-- `page_span_end_clean` on a page whose last span ends with the glyphs `prev` and `cur`,
branch by branch. -/
theorem page_span_end_clean_eq (m : Libm) (init : List span_t) (span : span_t)
    (pre : List char_t) (prev cur : char_t) (hchars : span.chars = pre ++ [prev, cur]) :
    page_span_end_clean m (init ++ [span]) =
      .ok (if prev.ucs = 32 then
            if span_end_overlap m span prev cur then
              init ++ [{ span with chars := pre ++ [cur] }]
            else init ++ [span]
          else if span_end_apart m span prev cur then
            init ++ [{ span with chars := pre ++ [prev] }, { span with chars := [cur] }]
          else init ++ [span]) := by
  have hn : span.chars.length = pre.length + 2 := by rw [hchars]; simp
  have h2 : span.chars[span.chars.length - 2]? = some prev := by
    rw [hn, hchars, Nat.add_sub_cancel, List.getElem?_append_right (le_refl _)]
    simp
  have h1 : span.chars[span.chars.length - 1]? = some cur := by
    rw [hn, hchars]
    rw [List.getElem?_append_right (by simp)]
    simp
  have hset : ∀ x : span_t, (init ++ [span]).set ((init ++ [span]).length - 1) x = init ++ [x] := by
    intro x
    simp
  have hdrop : (span.chars.set (span.chars.length - 2) cur).dropLast = pre ++ [cur] := by
    rw [hn, hchars]
    simp
  have hdl : span.chars.dropLast = pre ++ [prev] := by
    rw [hchars]
    have : pre ++ [prev, cur] = (pre ++ [prev]) ++ [cur] := by simp
    rw [this, List.dropLast_concat]
  have hlast : (init ++ [span]).getLast? = some span := by simp
  unfold page_span_end_clean
  simp only [hlast]
  rw [if_neg (by omega), if_neg (by omega)]
  simp only [h2, h1, hset, hdrop, hdl]
  by_cases hs : prev.ucs = 32
  · rw [if_pos ⟨by omega, hs⟩, if_pos hs]
    by_cases ho : span_end_overlap m span prev cur
    · rw [if_pos ho, if_pos]
      unfold span_end_overlap span_end_err_x span_end_dir span_end_font_size at ho
      simpa using ho
    · rw [if_neg ho, if_neg]
      unfold span_end_overlap span_end_err_x span_end_dir span_end_font_size at ho
      simpa using ho
  · rw [if_neg (fun h => hs h.2), if_neg hs]
    by_cases ha : span_end_apart m span prev cur
    · rw [if_pos ha, if_pos]
      · simp
      · exact ha
    · rw [if_neg ha, if_neg]
      exact ha

/-- C25 fails on the code, which looks at the last-but-one glyph: a span whose
third-from-last glyph is a space and whose last glyph is less than a tenth of its advance
after the glyph before it is left alone, and a span of a space and `x` at one position,
which has no third-from-last glyph, loses the space. -/
theorem span_end_clean_tests_last_but_one :
    page_span_end_clean sample_libm
        [sample_span [sample_char 32 (-1) 0 1, sample_char 97 0 0 1, sample_char 120 1 0 20]]
      = .ok [sample_span [sample_char 32 (-1) 0 1, sample_char 97 0 0 1,
          sample_char 120 1 0 20]] ∧
    span_end_overlap sample_libm
        (sample_span [sample_char 32 (-1) 0 1, sample_char 97 0 0 1, sample_char 120 1 0 20])
        (sample_char 97 0 0 1) (sample_char 120 1 0 20) ∧
    page_span_end_clean sample_libm [sample_span [sample_char 32 0 0 1, sample_char 120 0 0 1]]
      = .ok [sample_span [sample_char 120 0 0 1]] := by
  decide!

/-- C25, amended: on a page whose last span is not empty `page_span_end_clean` returns, and
the page loses a glyph exactly when the last span ends with two glyphs `prev` and `cur` of
which `prev` is a space and (`err_x` lies strictly between `-prev.adv` and `-prev.adv / 2`,
or `(cur.pre_x - prev.pre_x) / font_size < cur.adv / 10`); the last span is then the one
before without `prev`, and otherwise the glyphs of the page are those before. The quotients
are those of the floats of the code: by a `font_size` of zero an infinity or NaN, which the
comparisons treat as the code does. -/
theorem span_end_clean_drops_iff (m : Libm) (init : List span_t) (span : span_t)
    (hne : span.chars ≠ []) :
    ∃ spans1, page_span_end_clean m (init ++ [span]) = .ok spans1 ∧
      ((spans_ucs spans1).length + 1 = (spans_ucs (init ++ [span])).length ↔
        ∃ pre prev cur, span.chars = pre ++ [prev, cur] ∧ prev.ucs = 32 ∧
          span_end_overlap m span prev cur) ∧
      (∀ pre prev cur, span.chars = pre ++ [prev, cur] → prev.ucs = 32 →
        span_end_overlap m span prev cur →
        spans1 = init ++ [{ span with chars := pre ++ [cur] }]) ∧
      ((¬ ∃ pre prev cur, span.chars = pre ++ [prev, cur] ∧ prev.ucs = 32 ∧
          span_end_overlap m span prev cur) →
        spans_ucs spans1 = spans_ucs (init ++ [span])) := by
  rcases List.eq_nil_or_concat span.chars with h | ⟨l, cur, hl⟩
  · exact absurd h hne
  rcases List.eq_nil_or_concat l with h | ⟨pre, prev, hpre⟩
  · subst h
    have hone : span.chars = [cur] := by rw [hl]; rfl
    have hno : ¬ ∃ pre prev cur, span.chars = pre ++ [prev, cur] ∧ prev.ucs = 32 ∧
        span_end_overlap m span prev cur := by
      rintro ⟨pre, p, c, h, -⟩
      rw [hone] at h
      have := congrArg List.length h
      simp at this
    refine ⟨init ++ [span], ?_, ?_, ?_, fun _ => rfl⟩
    · unfold page_span_end_clean
      have hlast : (init ++ [span]).getLast? = some span := by simp
      simp only [hlast, hone, List.length_singleton]
      rfl
    · exact ⟨fun h => by omega, fun h => absurd h hno⟩
    · intro pre p c h hs ho
      exact absurd ⟨pre, p, c, h, hs, ho⟩ hno
  · have hchars : span.chars = pre ++ [prev, cur] := by
      rw [hl, hpre]; simp
    have huniq : ∀ pre1 prev1 cur1, span.chars = pre1 ++ [prev1, cur1] →
        pre1 = pre ∧ prev1 = prev ∧ cur1 = cur := by
      intro pre1 prev1 cur1 h
      rw [hchars] at h
      obtain ⟨h1, h2⟩ := List.append_inj' h rfl
      simp only [List.cons.injEq, and_true] at h2
      exact ⟨h1.symm, h2.1.symm, h2.2.symm⟩
    have heq := page_span_end_clean_eq m init span pre prev cur hchars
    have hlen : (spans_ucs (init ++ [span])).length
        = (spans_ucs init).length + pre.length + 2 := by
      simp [spans_ucs, hchars]
      omega
    by_cases hc : prev.ucs = 32 ∧ span_end_overlap m span prev cur
    · rw [if_pos hc.1, if_pos hc.2] at heq
      refine ⟨_, heq, ?_, ?_, ?_⟩
      · refine ⟨fun _ => ⟨pre, prev, cur, hchars, hc.1, hc.2⟩, fun _ => ?_⟩
        rw [hlen]
        simp [spans_ucs]
        omega
      · intro pre1 prev1 cur1 h _ _
        obtain ⟨rfl, -, rfl⟩ := huniq pre1 prev1 cur1 h
        rfl
      · intro hno
        exact absurd ⟨pre, prev, cur, hchars, hc.1, hc.2⟩ hno
    · have hno : ¬ ∃ pre prev cur, span.chars = pre ++ [prev, cur] ∧ prev.ucs = 32 ∧
          span_end_overlap m span prev cur := by
        rintro ⟨pre1, prev1, cur1, h, hs, ho⟩
        obtain ⟨rfl, rfl, rfl⟩ := huniq pre1 prev1 cur1 h
        exact hc ⟨hs, ho⟩
      have hsame : ∀ spans1, page_span_end_clean m (init ++ [span]) = .ok spans1 →
          spans_ucs spans1 = spans_ucs (init ++ [span]) := by
        intro spans1 h1
        rw [heq] at h1
        simp only [Except.ok.injEq] at h1
        rw [← h1]
        split_ifs
        · exact absurd ⟨‹prev.ucs = 32›, ‹span_end_overlap m span prev cur›⟩ hc
        · rfl
        · simp [spans_ucs, hchars]
        · rfl
      refine ⟨_, heq, ?_, ?_, fun _ => hsame _ heq⟩
      · refine ⟨fun h => ?_, fun h => absurd h hno⟩
        rw [hsame _ heq] at h
        omega
      · intro pre1 prev1 cur1 h hs ho
        exact absurd ⟨pre1, prev1, cur1, h, hs, ho⟩ hno

/-- Witness of C25, amended: a space and `x` at one position. -/
theorem span_end_clean_drops_iff_witness :
    (sample_span [sample_char 32 0 0 1, sample_char 120 0 0 1]).chars ≠ [] ∧
    ∃ spans1,
      page_span_end_clean sample_libm
        ([] ++ [sample_span [sample_char 32 0 0 1, sample_char 120 0 0 1]]) = .ok spans1 ∧
      ((spans_ucs spans1).length + 1
          = (spans_ucs ([] ++ [sample_span [sample_char 32 0 0 1,
              sample_char 120 0 0 1]])).length ↔
        ∃ pre prev cur,
          (sample_span [sample_char 32 0 0 1, sample_char 120 0 0 1]).chars
            = pre ++ [prev, cur] ∧ prev.ucs = 32 ∧
          span_end_overlap sample_libm
            (sample_span [sample_char 32 0 0 1, sample_char 120 0 0 1]) prev cur) ∧
      (∀ pre prev cur,
        (sample_span [sample_char 32 0 0 1, sample_char 120 0 0 1]).chars
          = pre ++ [prev, cur] → prev.ucs = 32 →
        span_end_overlap sample_libm
          (sample_span [sample_char 32 0 0 1, sample_char 120 0 0 1]) prev cur →
        spans1 = [] ++ [{ sample_span [sample_char 32 0 0 1, sample_char 120 0 0 1] with
          chars := pre ++ [cur] }]) ∧
      ((¬ ∃ pre prev cur,
          (sample_span [sample_char 32 0 0 1, sample_char 120 0 0 1]).chars
            = pre ++ [prev, cur] ∧ prev.ucs = 32 ∧
          span_end_overlap sample_libm
            (sample_span [sample_char 32 0 0 1, sample_char 120 0 0 1]) prev cur) →
        spans_ucs spans1
          = spans_ucs ([] ++ [sample_span [sample_char 32 0 0 1, sample_char 120 0 0 1]])) :=
  ⟨by decide, span_end_clean_drops_iff sample_libm []
    (sample_span [sample_char 32 0 0 1, sample_char 120 0 0 1]) (by decide)⟩

/-- C26 fails on the code: the last-but-one glyph is a space that is kept, the last glyph
is four units after its end, and the page is left as it is. -/
theorem span_end_clean_keeps_after_space :
    page_span_end_clean sample_libm [sample_span [sample_char 32 0 0 1, sample_char 120 5 0 1]]
      = .ok [sample_span [sample_char 32 0 0 1, sample_char 120 5 0 1]] ∧
    span_end_err_x sample_libm (sample_span [sample_char 32 0 0 1, sample_char 120 5 0 1])
      (sample_char 32 0 0 1) (sample_char 120 5 0 1) = .finite 4 := by
  decide!

/-- C26, amended: on a page whose last span ends with the glyphs `prev` and `cur`, of which
`prev` is not a space, `page_span_end_clean` moves `cur` into a new span at the end of the
page, a copy of the last span in all but its glyphs, when `|err_x| > 0.01` or
`|err_y| > 0.01`, and leaves the page unchanged when neither holds; the page is also
unchanged when `prev` is a space that is not removed. The errors are quotients of the floats
of the code: by a `font_size` of zero an infinity, which exceeds `0.01`, or NaN, which does
not. -/
theorem span_end_clean_splits (m : Libm) (init : List span_t) (span : span_t)
    (pre : List char_t) (prev cur : char_t) (hchars : span.chars = pre ++ [prev, cur]) :
    (prev.ucs ≠ 32 → span_end_apart m span prev cur →
      page_span_end_clean m (init ++ [span]) =
        .ok (init ++ [{ span with chars := pre ++ [prev] }, { span with chars := [cur] }])) ∧
    (prev.ucs ≠ 32 → ¬ span_end_apart m span prev cur →
      page_span_end_clean m (init ++ [span]) = .ok (init ++ [span])) ∧
    (prev.ucs = 32 → ¬ span_end_overlap m span prev cur →
      page_span_end_clean m (init ++ [span]) = .ok (init ++ [span])) := by
  have heq := page_span_end_clean_eq m init span pre prev cur hchars
  refine ⟨fun hs ha => ?_, fun hs ha => ?_, fun hs ho => ?_⟩
  · rw [heq, if_neg hs, if_pos ha]
  · rw [heq, if_neg hs, if_neg ha]
  · rw [heq, if_pos hs, if_neg ho]

/-- Witness of C26, amended: `x` four units after the end of `a`. -/
theorem span_end_clean_splits_witness :
    (sample_span [sample_char 97 0 0 1, sample_char 120 5 0 1]).chars
      = [] ++ [sample_char 97 0 0 1, sample_char 120 5 0 1] ∧
    (sample_char 97 0 0 1).ucs ≠ 32 ∧
    span_end_apart sample_libm (sample_span [sample_char 97 0 0 1, sample_char 120 5 0 1])
      (sample_char 97 0 0 1) (sample_char 120 5 0 1) ∧
    page_span_end_clean sample_libm
        ([] ++ [sample_span [sample_char 97 0 0 1, sample_char 120 5 0 1]]) =
      .ok ([] ++ [{ sample_span [sample_char 97 0 0 1, sample_char 120 5 0 1] with
            chars := [] ++ [sample_char 97 0 0 1] },
          { sample_span [sample_char 97 0 0 1, sample_char 120 5 0 1] with
            chars := [sample_char 120 5 0 1] }]) :=
  ⟨rfl, by decide, by decide!,
    (span_end_clean_splits sample_libm []
      (sample_span [sample_char 97 0 0 1, sample_char 120 5 0 1]) [] (sample_char 97 0 0 1)
      (sample_char 120 5 0 1) rfl).1 (by decide) (by decide!)⟩

/-- At `font_size == 0`, here for a TRM of zeros, the quotients of `page_span_end_clean` are
infinities: a space at `0` before `x` at `5` is kept, where `err_x` and the second quotient
are `+inf`, and `x` at `5` after `a` at `0` is moved into a new span. -/
theorem sample_span_end_zero_size :
    span_end_err_x sample_libm (sample_sized_span 0 (sample_char 32 0 0 1))
      (sample_char 32 0 0 1) (sample_char 120 5 0 1) = .pos_inf ∧
    page_span_end_clean sample_libm
        [{ sample_sized_span 0 (sample_char 32 0 0 1) with
            chars := [sample_char 32 0 0 1, sample_char 120 5 0 1] }]
      = .ok [{ sample_sized_span 0 (sample_char 32 0 0 1) with
            chars := [sample_char 32 0 0 1, sample_char 120 5 0 1] }] ∧
    page_span_end_clean sample_libm
        [{ sample_sized_span 0 (sample_char 97 0 0 1) with
            chars := [sample_char 97 0 0 1, sample_char 120 5 0 1] }]
      = .ok [{ sample_sized_span 0 (sample_char 97 0 0 1) with
              chars := [sample_char 97 0 0 1] },
          { sample_sized_span 0 (sample_char 97 0 0 1) with
              chars := [sample_char 120 5 0 1] }] := by
  decide!

/-! ## The autosplit of the loader -/

/-- C27: with autosplit on, for a `char` tag at `(x, y)` and the offset
`(offset_x, offset_y)`: when `y ≠ offset_y` and the current span holds a glyph, the loader
appends to the page a copy of the current span whose CTM has `e` and `f` moved by
`(a * dx + b * dy, c * dx + d * dy)` for `(dx, dy) = (x - offset_x, y - offset_y)`, which
holds the new glyph alone, and the offset becomes `(x, y)`; when `y = offset_y` the tag is
handled as with autosplit off, and the offset stays. -/
theorem autosplit_starts_span (m : Libm) (tag : extract_xml_tag_t) (offset_x offset_y : ℚ)
    (spans : List span_t) (span0 : span_t) (x y adv : ℚ) (ucs : Nat)
    (hx : extract_xml_tag_attributes_find_float tag "x" = .ok x)
    (hy : extract_xml_tag_attributes_find_float tag "y" = .ok y)
    (hadv : extract_xml_tag_attributes_find_float tag "adv" = .ok adv)
    (hucs : extract_xml_tag_attributes_find_uint tag "ucs" = .ok ucs)
    (hlast : spans.getLast? = some span0) :
    (y ≠ offset_y → span0.chars ≠ [] →
      load_char m true tag offset_x offset_y spans =
        .ok (x, y, spans ++
          [{ span0 with
              ctm := { span0.ctm with
                e := span0.ctm.e + span0.ctm.a * (x - offset_x) + span0.ctm.b * (y - offset_y)
                f := span0.ctm.f + span0.ctm.c * (x - offset_x) + span0.ctm.d * (y - offset_y) }
              chars :=
                [{ pre_x := 0, pre_y := 0
                   x := span0.ctm.e + span0.ctm.a * (x - offset_x)
                     + span0.ctm.b * (y - offset_y)
                   y := span0.ctm.f + span0.ctm.c * (x - offset_x)
                     + span0.ctm.d * (y - offset_y)
                   gid := 0, ucs := ucs, adv := adv }] }])) ∧
    (y = offset_y →
      load_char m true tag offset_x offset_y spans
        = load_char m false tag offset_x offset_y spans ∧
      ∃ spans1, load_char m true tag offset_x offset_y spans
          = .ok (offset_x, offset_y, spans1) ∧
        page_span_end_clean m (spans.set (spans.length - 1)
          { span0 with chars := span0.chars ++
              [{ pre_x := x - offset_x, pre_y := 0
                 x := span0.ctm.a * (x - offset_x) + span0.ctm.e
                 y := span0.ctm.c * (x - offset_x) + span0.ctm.f
                 gid := 0, ucs := ucs, adv := adv }] }) = .ok spans1) := by
  have hne : spans ≠ [] := by
    intro e
    rw [e] at hlast
    cases hlast
  constructor
  · intro hyne hchars
    have hpos : span0.chars.length > 0 := List.length_pos.2 hchars
    have hd : y - offset_y ≠ 0 := sub_ne_zero.2 hyne
    unfold load_char
    simp only [hx, hy, hlast, hadv, hucs, Bool.true_and, decide_eq_true_eq, hd, ne_eq,
      not_false_eq_true, if_true, hpos, and_self, List.nil_append, sub_self, mul_zero,
      add_zero, zero_add]
    have hset : ∀ z w : span_t, (spans ++ [z]).set ((spans ++ [z]).length - 1) w
        = spans ++ [w] := by
      intro z w
      simp
    rw [hset]
    simp [page_span_end_clean]
  · intro hyeq
    subst hyeq
    obtain ⟨s1, hs1, -⟩ := page_span_end_clean_ok m
      (spans.set (spans.length - 1)
        { span0 with chars := span0.chars ++
            [{ pre_x := x - offset_x, pre_y := 0
               x := span0.ctm.a * (x - offset_x) + span0.ctm.e
               y := span0.ctm.c * (x - offset_x) + span0.ctm.f
               gid := 0, ucs := ucs, adv := adv }] })
      _ (getLast?_set_last spans _ hne) (by simp)
    refine ⟨?_, s1, ?_, hs1⟩
    · unfold load_char
      simp [hx, hy, hlast, hadv, hucs]
    · unfold load_char
      simp only [hx, hy, hlast, hadv, hucs, sub_self, ne_eq, not_true_eq_false, decide_False,
        Bool.and_false, Bool.false_eq_true, if_false, false_and, mul_zero, add_zero]
      rw [hs1]

/-- Witness of C27: the tag at `(3, 4)` after a glyph of a span whose CTM scales by two and
moves by `(10, 20)` starts a span whose CTM moves by `(16, 28)`. -/
theorem autosplit_starts_span_witness :
    extract_xml_tag_attributes_find_float (sample_char_tag 98 3 4 1) "x" = .ok 3 ∧
    extract_xml_tag_attributes_find_float (sample_char_tag 98 3 4 1) "y" = .ok 4 ∧
    extract_xml_tag_attributes_find_float (sample_char_tag 98 3 4 1) "adv" = .ok 1 ∧
    extract_xml_tag_attributes_find_uint (sample_char_tag 98 3 4 1) "ucs" = .ok 98 ∧
    [{ sample_span [sample_char 97 10 20 1] with ctm := sample_ctm }].getLast?
      = some { sample_span [sample_char 97 10 20 1] with ctm := sample_ctm } ∧
    (4 : ℚ) ≠ 0 ∧
    ({ sample_span [sample_char 97 10 20 1] with ctm := sample_ctm } : span_t).chars ≠ [] ∧
    load_char sample_libm true (sample_char_tag 98 3 4 1) 0 0
        [{ sample_span [sample_char 97 10 20 1] with ctm := sample_ctm }] =
      .ok (3, 4, [{ sample_span [sample_char 97 10 20 1] with ctm := sample_ctm }] ++
        [{ ({ sample_span [sample_char 97 10 20 1] with ctm := sample_ctm } : span_t) with
            ctm := { sample_ctm with
              e := sample_ctm.e + sample_ctm.a * (3 - 0) + sample_ctm.b * (4 - 0)
              f := sample_ctm.f + sample_ctm.c * (3 - 0) + sample_ctm.d * (4 - 0) }
            chars :=
              [{ pre_x := 0, pre_y := 0
                 x := sample_ctm.e + sample_ctm.a * (3 - 0) + sample_ctm.b * (4 - 0)
                 y := sample_ctm.f + sample_ctm.c * (3 - 0) + sample_ctm.d * (4 - 0)
                 gid := 0, ucs := 98, adv := 1 }] }]) :=
  ⟨by decide!, by decide!, by decide!, by decide!, rfl, by decide!, by decide,
    (autosplit_starts_span sample_libm (sample_char_tag 98 3 4 1) 0 0
      [{ sample_span [sample_char 97 10 20 1] with ctm := sample_ctm }]
      { sample_span [sample_char 97 10 20 1] with ctm := sample_ctm } 3 4 1 98
      (by decide!) (by decide!) (by decide!) (by decide!) rfl).1 (by decide!) (by decide)⟩

/-- The span started by the tag of the sample has the CTM `2 0 0 2 16 28` and holds the
glyph at `(16, 28)`. -/
theorem sample_autosplit_load :
    load_char sample_libm true (sample_char_tag 98 3 4 1) 0 0
        [{ sample_span [sample_char 97 10 20 1] with ctm := sample_ctm }] =
      .ok (3, 4, [{ sample_span [sample_char 97 10 20 1] with ctm := sample_ctm },
        { sample_span [{ sample_char 98 16 28 1 with pre_x := 0, pre_y := 0 }] with
          ctm := { a := 2, b := 0, c := 0, d := 2, e := 16, f := 28 } }]) := by
  decide!

/-! ## The emitter with rotation: text boxes -/

theorem line_spans_of_boxable (spans : List span_t) (idxs : List Nat)
    (h : idxs.all (span_boxable spans) = true) : ∃ ss, line_spans spans idxs = some ss := by
  induction idxs with
  | nil => exact ⟨[], rfl⟩
  | cons s rest ih =>
    simp only [List.all_cons, Bool.and_eq_true] at h
    obtain ⟨ss, hss⟩ := ih h.2
    have h1 := h.1
    unfold span_boxable at h1
    cases hs : spans[s]? with
    | none => rw [hs] at h1; cases h1
    | some span => exact ⟨span :: ss, by simp only [line_spans, hs, hss]⟩

theorem paragraph_spans_of_boxable (spans : List span_t) (lines : List line_t) (ls : List Nat)
    (h : ls.all (line_boxable spans lines) = true) :
    ∃ ss, paragraph_spans spans lines ls = some ss := by
  induction ls with
  | nil => exact ⟨[], rfl⟩
  | cons l rest ih =>
    simp only [List.all_cons, Bool.and_eq_true] at h
    obtain ⟨tt, htt⟩ := ih h.2
    have h1 := h.1
    unfold line_boxable at h1
    cases hl : lines[l]? with
    | none => rw [hl] at h1; cases h1
    | some line =>
      rw [hl] at h1
      simp only [Bool.and_eq_true] at h1
      obtain ⟨ss, hss⟩ := line_spans_of_boxable spans line.spans h1.2
      exact ⟨ss ++ tt, by simp only [paragraph_spans, hl, hss, htt]⟩

theorem paragraph_spans_isSome_of_boxable (spans : List span_t) (lines : List line_t)
    (paragraph : paragraph_t) (h : paragraph_boxable spans lines paragraph = true) :
    ∃ ss, paragraph_spans spans lines paragraph.lines = some ss := by
  unfold paragraph_boxable at h
  simp only [Bool.and_eq_true] at h
  exact paragraph_spans_of_boxable spans lines paragraph.lines h.2

theorem docx_paragraph_span_of_boxable (spans : List span_t) (lines : List line_t)
    (paragraph : paragraph_t) (h : paragraph_boxable spans lines paragraph = true) :
    ∃ span, docx_paragraph_span spans lines paragraph = .ok span ∧ span.chars ≠ [] := by
  unfold paragraph_boxable at h
  simp only [Bool.and_eq_true] at h
  obtain ⟨h0, h1⟩ := h
  unfold docx_paragraph_span
  cases hl : paragraph.lines with
  | nil => rw [hl] at h0; cases h0
  | cons l rest =>
    rw [hl] at h1
    simp only [List.all_cons, Bool.and_eq_true] at h1
    have h2 := h1.1
    unfold line_boxable at h2
    cases hline : lines[l]? with
    | none => rw [hline] at h2; cases h2
    | some line =>
      rw [hline] at h2
      simp only [Bool.and_eq_true] at h2
      simp only [line_at, hline]
      cases hs : line.spans with
      | nil => rw [hs] at h2; simp at h2
      | cons s srest =>
        rw [hs] at h2
        simp only [List.all_cons, Bool.and_eq_true] at h2
        have h3 := h2.2.1
        unfold span_boxable at h3
        cases hsp : spans[s]? with
        | none => rw [hsp] at h3; cases h3
        | some span =>
          rw [hsp] at h3
          refine ⟨span, by simp only [span_at, hsp], ?_⟩
          intro e
          simp only [e] at h3
          cases h3

theorem docx_extent_lines_ok (m : Libm) (spans : List span_t) (lines : List line_t)
    (rotate : ℚ) (origin : point_t) (ctm_inverse : matrix_t) (ls : List Nat)
    (h : ls.all (line_boxable spans lines) = true) :
    ∀ extent, ∃ extent1,
      docx_extent_lines m spans lines rotate origin ctm_inverse ls extent = .ok extent1 := by
  induction ls with
  | nil => intro extent; exact ⟨extent, rfl⟩
  | cons l rest ih =>
    intro extent
    simp only [List.all_cons, Bool.and_eq_true] at h
    have h1 := h.1
    unfold line_boxable at h1
    cases hl : lines[l]? with
    | none => rw [hl] at h1; cases h1
    | some line =>
      rw [hl] at h1
      simp only [Bool.and_eq_true] at h1
      have hne : line.spans ≠ [] := by
        intro e
        rw [e] at h1
        simp at h1
      obtain ⟨s, hs⟩ := exists_getLast_of_ne_nil hne
      have hsb : span_boxable spans s = true :=
        List.all_eq_true.1 h1.2 s (List.mem_of_mem_getLast? hs)
      unfold span_boxable at hsb
      cases hsp : spans[s]? with
      | none => rw [hsp] at hsb; cases hsb
      | some span =>
        rw [hsp] at hsb
        have hcne : span.chars ≠ [] := by
          intro e
          simp only [e] at hsb
          cases hsb
        obtain ⟨c, hc⟩ := exists_getLast_of_ne_nil hcne
        obtain ⟨e1, he1⟩ := ih h.2
          { x := if ctm_inverse.a * (c.x + c.adv * matrix_expansion m span.trm * m.cos rotate
                  - origin.x) + ctm_inverse.b * (c.y + c.adv * matrix_expansion m span.trm
                  * m.sin rotate - origin.y) > extent.x
                then ctm_inverse.a * (c.x + c.adv * matrix_expansion m span.trm * m.cos rotate
                  - origin.x) + ctm_inverse.b * (c.y + c.adv * matrix_expansion m span.trm
                  * m.sin rotate - origin.y)
                else extent.x
            y := if -(ctm_inverse.c * (c.x + c.adv * matrix_expansion m span.trm * m.cos rotate
                  - origin.x) + ctm_inverse.d * (c.y + c.adv * matrix_expansion m span.trm
                  * m.sin rotate - origin.y)) > extent.y
                then -(ctm_inverse.c * (c.x + c.adv * matrix_expansion m span.trm * m.cos rotate
                  - origin.x) + ctm_inverse.d * (c.y + c.adv * matrix_expansion m span.trm
                  * m.sin rotate - origin.y))
                else extent.y }
        refine ⟨e1, ?_⟩
        rw [docx_extent_lines]
        simp only [line_at, hl, line_span_last_eq_ok hs, span_at, hsp, span_char_last_eq_ok hc,
          bind, Except.bind]
        exact he1

theorem paragraph_rotation_of_span (m : Libm) (spans : List span_t) (lines : List line_t)
    (paragraph : paragraph_t) (span : span_t)
    (h : docx_paragraph_span spans lines paragraph = .ok span) :
    paragraph_rotation m spans lines paragraph = m.atan2 span.ctm.b span.ctm.a := by
  unfold paragraph_rotation
  rw [h]

theorem docx_extent_paragraphs_eq (m : Libm) (spans : List span_t) (lines : List line_t)
    (rotate0 : ℚ) (origin : point_t) (ctm_inverse : matrix_t) (ps : List paragraph_t)
    (h : ∀ q ∈ ps, paragraph_boxable spans lines q = true) :
    ∀ (p : Nat) (extent : point_t), ∃ extent1,
      docx_extent_paragraphs m spans lines rotate0 origin ctm_inverse ps p extent
        = .ok (p + (ps.takeWhile fun q =>
            decide (paragraph_rotation m spans lines q = rotate0)).length, extent1) := by
  induction ps with
  | nil => intro p extent; exact ⟨extent, rfl⟩
  | cons q rest ih =>
    intro p extent
    have hq := h q (List.mem_cons_self _ _)
    obtain ⟨span, hspan, -⟩ := docx_paragraph_span_of_boxable spans lines q hq
    have hrot := paragraph_rotation_of_span m spans lines q span hspan
    have hlines : q.lines.all (line_boxable spans lines) = true := by
      unfold paragraph_boxable at hq
      simp only [Bool.and_eq_true] at hq
      exact hq.2
    rw [docx_extent_paragraphs]
    simp only [hspan, bind, Except.bind]
    by_cases hr : m.atan2 span.ctm.b span.ctm.a = rotate0
    · obtain ⟨e1, he1⟩ := docx_extent_lines_ok m spans lines (m.atan2 span.ctm.b span.ctm.a)
        origin ctm_inverse q.lines hlines extent
      obtain ⟨e2, he2⟩ := ih (fun q1 hq1 => h q1 (List.mem_cons_of_mem _ hq1)) (p + 1) e1
      refine ⟨e2, ?_⟩
      rw [if_neg (not_not.2 hr), he1]
      simp only []
      rw [he2, List.takeWhile_cons_of_pos (by simpa [hrot] using hr), List.length_cons]
      congr 2
      omega
    · refine ⟨extent, ?_⟩
      rw [if_pos hr, List.takeWhile_cons_of_neg (by simpa [hrot] using hr)]
      rfl

theorem docx_content_paragraphs_eq (m : Libm) (spans : List span_t) (lines : List line_t)
    (box : List paragraph_t) (h : ∀ q ∈ box, paragraph_boxable spans lines q = true) :
    ∀ (state : content_state_t) (content : List docx_item), state.font_name = none →
      ∃ state1, docx_content_paragraphs m spans lines box state content
          = .ok (state1, content ++ box.flatMap (paragraph_items m spans lines)) ∧
        state1.font_name = none := by
  induction box with
  | nil =>
    intro state content hname
    exact ⟨state, by simp [docx_content_paragraphs], hname⟩
  | cons q rest ih =>
    intro state content hname
    obtain ⟨ss, hss⟩ := paragraph_spans_isSome_of_boxable spans lines q
      (h q (List.mem_cons_self _ _))
    obtain ⟨state1, h1, hname1⟩ := ih (fun q1 hq1 => h q1 (List.mem_cons_of_mem _ hq1))
      { (ss.getLast?.map (state_after m)).getD state with font_name := none }
      (content ++ paragraph_items m spans lines q) rfl
    refine ⟨state1, ?_, hname1⟩
    rw [docx_content_paragraphs, paragraph_content_items m spans lines state q content ss hss
      hname]
    simp only []
    rw [h1, List.flatMap_cons, List.append_assoc]

theorem docx_append_texts_eq (content : List docx_item) (texts : List (List Char)) :
    docx_append_texts content texts = content ++ docx_text texts.flatten := by
  unfold docx_append_texts
  induction texts generalizing content with
  | nil => simp [docx_text]
  | cons t rest ih =>
    rw [List.foldl_cons, ih]
    simp [extract_docx_char_append_string, docx_text]

theorem take_length_takeWhile {α : Type} (f : α → Bool) (l : List α) :
    l.take (l.takeWhile f).length = l.takeWhile f := by
  induction l with
  | nil => rfl
  | cons a rest ih =>
    by_cases h : f a = true
    · rw [List.takeWhile_cons_of_pos h, List.length_cons, List.take_succ_cons, ih]
    · rw [List.takeWhile_cons_of_neg h]
      rfl

theorem drop_length_takeWhile {α : Type} (f : α → Bool) (l : List α) :
    l.drop (l.takeWhile f).length = l.dropWhile f := by
  induction l with
  | nil => rfl
  | cons a rest ih =>
    by_cases h : f a = true
    · rw [List.takeWhile_cons_of_pos h, List.dropWhile_cons_of_pos h, List.length_cons,
        List.drop_succ_cons, ih]
    · rw [List.takeWhile_cons_of_neg h, List.dropWhile_cons_of_neg h]
      rfl

/-- The branch `if (rotate)` of the emitter with rotation at a paragraph `p` whose pointers
are sound: it emits one text box that holds `p` and the paragraphs that follow it with the
same rotation, and ends at the first paragraph after them. -/
theorem docx_content_text_box_eq (m : Libm) (page : page_t) (p0 : Nat) (p : paragraph_t)
    (rest : List paragraph_t) (span : span_t) (state : content_state_t) (text_box_id : Int)
    (content : List docx_item)
    (hdrop : page.paragraphs.drop p0 = p :: rest)
    (hbox : ∀ q ∈ page.paragraphs, paragraph_boxable page.spans page.lines q = true)
    (hspan : docx_paragraph_span page.spans page.lines p = .ok span)
    (hname : state.font_name = none) :
    ∃ (x y w h : Int) (state1 : content_state_t),
      docx_content_text_box m page p0 span (m.atan2 span.ctm.b span.ctm.a) state text_box_id
          content
        = .ok (p0 + 1 + (rest.takeWhile fun q =>
              decide (paragraph_rotation m page.spans page.lines q
                = paragraph_rotation m page.spans page.lines p)).length,
            state1, text_box_id + 1,
            content ++ text_box_items m page.spans page.lines x y w h (text_box_id + 1)
              (text_box_rot (m.atan2 span.ctm.b span.ctm.a))
              (p :: rest.takeWhile fun q =>
                decide (paragraph_rotation m page.spans page.lines q
                  = paragraph_rotation m page.spans page.lines p))) ∧
      state1.font_name = none := by
  have hmem : ∀ q ∈ p :: rest, q ∈ page.paragraphs := by
    intro q hq
    rw [← hdrop] at hq
    exact List.mem_of_mem_drop hq
  have hrot := paragraph_rotation_of_span m page.spans page.lines p span hspan
  obtain ⟨span1, hspan1, hchars⟩ := docx_paragraph_span_of_boxable page.spans page.lines p
    (hbox p (hmem p (List.mem_cons_self _ _)))
  rw [hspan] at hspan1
  cases hspan1
  obtain ⟨c, cs, hc⟩ := List.exists_cons_of_ne_nil hchars
  obtain ⟨extent, hext⟩ := docx_extent_paragraphs_eq m page.spans page.lines
    (m.atan2 span.ctm.b span.ctm.a) { x := c.x, y := c.y }
    (if span.ctm.a * span.ctm.d - span.ctm.b * span.ctm.c ≠ 0 then
        { a := span.ctm.d / (span.ctm.a * span.ctm.d - span.ctm.b * span.ctm.c)
          b := -span.ctm.b / (span.ctm.a * span.ctm.d - span.ctm.b * span.ctm.c)
          c := -span.ctm.c / (span.ctm.a * span.ctm.d - span.ctm.b * span.ctm.c)
          d := span.ctm.a / (span.ctm.a * span.ctm.d - span.ctm.b * span.ctm.c)
          e := 0, f := 0 }
      else { a := 1, b := 0, c := 0, d := 1, e := 0, f := 0 })
    (p :: rest) (fun q hq => hbox q (hmem q hq)) p0 { x := 0, y := 0 }
  have hfun : (fun q => decide (paragraph_rotation m page.spans page.lines q
        = m.atan2 span.ctm.b span.ctm.a))
      = fun q => decide (paragraph_rotation m page.spans page.lines q
        = paragraph_rotation m page.spans page.lines p) := by
    rw [hrot]
  rw [hfun, List.takeWhile_cons_of_pos (by simp)] at hext
  have hlen : p0 + (p :: rest.takeWhile fun q =>
      decide (paragraph_rotation m page.spans page.lines q
        = paragraph_rotation m page.spans page.lines p)).length - p0
      = (rest.takeWhile fun q =>
        decide (paragraph_rotation m page.spans page.lines q
          = paragraph_rotation m page.spans page.lines p)).length + 1 := by
    rw [List.length_cons]
    omega
  have hrun : ((p :: rest).take ((rest.takeWhile fun q =>
        decide (paragraph_rotation m page.spans page.lines q
          = paragraph_rotation m page.spans page.lines p)).length + 1))
      = p :: rest.takeWhile fun q =>
        decide (paragraph_rotation m page.spans page.lines q
          = paragraph_rotation m page.spans page.lines p) := by
    rw [List.take_succ_cons, take_length_takeWhile]
  have hrunbox : ∀ q ∈ (p :: rest.takeWhile fun q =>
        decide (paragraph_rotation m page.spans page.lines q
          = paragraph_rotation m page.spans page.lines p)),
      paragraph_boxable page.spans page.lines q = true := by
    intro q hq
    rcases List.mem_cons.1 hq with rfl | hq
    · exact hbox _ (hmem _ (List.mem_cons_self _ _))
    · exact hbox q (hmem q (List.mem_cons_of_mem _ ((List.takeWhile_sublist _).subset hq)))
  obtain ⟨state1, hpar1, hname1⟩ := docx_content_paragraphs_eq m page.spans page.lines _
    hrunbox state
    (docx_append_texts content
      (docx_text_box_head
        (int_wrap (float_to_int (span.ctm.e * 12700) - float_to_int
          (((Int.tdiv (float_to_int (extent.x * 12700)) 2 : Int) : ℚ)
              * (1 - m.cos (m.atan2 span.ctm.b span.ctm.a))
            + ((Int.tdiv (int_wrap (float_to_int (extent.y * 12700) * 2)) 2 : Int) : ℚ)
              * m.sin (m.atan2 span.ctm.b span.ctm.a))))
        (int_wrap (float_to_int (span.ctm.f * 12700) - int_wrap (-float_to_int
          (((Int.tdiv (int_wrap (float_to_int (extent.y * 12700) * 2)) 2 : Int) : ℚ)
              * (m.cos (m.atan2 span.ctm.b span.ctm.a) - 1)
            + ((Int.tdiv (float_to_int (extent.x * 12700)) 2 : Int) : ℚ)
              * m.sin (m.atan2 span.ctm.b span.ctm.a)))))
        (float_to_int (extent.x * 12700)) (int_wrap (float_to_int (extent.y * 12700) * 2))
        (text_box_id + 1) (float_to_int (m.atan2 span.ctm.b span.ctm.a * 180 / g_pi * 60000))))
    hname
  obtain ⟨state2, hpar2, hname2⟩ := docx_content_paragraphs_eq m page.spans page.lines _
    hrunbox state1
    (docx_append_texts
      (docx_append_texts content
        (docx_text_box_head
          (int_wrap (float_to_int (span.ctm.e * 12700) - float_to_int
            (((Int.tdiv (float_to_int (extent.x * 12700)) 2 : Int) : ℚ)
                * (1 - m.cos (m.atan2 span.ctm.b span.ctm.a))
              + ((Int.tdiv (int_wrap (float_to_int (extent.y * 12700) * 2)) 2 : Int) : ℚ)
                * m.sin (m.atan2 span.ctm.b span.ctm.a))))
          (int_wrap (float_to_int (span.ctm.f * 12700) - int_wrap (-float_to_int
            (((Int.tdiv (int_wrap (float_to_int (extent.y * 12700) * 2)) 2 : Int) : ℚ)
                * (m.cos (m.atan2 span.ctm.b span.ctm.a) - 1)
              + ((Int.tdiv (float_to_int (extent.x * 12700)) 2 : Int) : ℚ)
                * m.sin (m.atan2 span.ctm.b span.ctm.a)))))
          (float_to_int (extent.x * 12700)) (int_wrap (float_to_int (extent.y * 12700) * 2))
          (text_box_id + 1)
          (float_to_int (m.atan2 span.ctm.b span.ctm.a * 180 / g_pi * 60000)))
        ++ (p :: rest.takeWhile fun q =>
            decide (paragraph_rotation m page.spans page.lines q
              = paragraph_rotation m page.spans page.lines p)).flatMap
          (paragraph_items m page.spans page.lines))
      (docx_text_box_middle (text_box_id + 1)))
    hname1
  refine ⟨(int_wrap (float_to_int (span.ctm.e * 12700) - float_to_int
      (((Int.tdiv (float_to_int (extent.x * 12700)) 2 : Int) : ℚ)
          * (1 - m.cos (m.atan2 span.ctm.b span.ctm.a))
        + ((Int.tdiv (int_wrap (float_to_int (extent.y * 12700) * 2)) 2 : Int) : ℚ)
          * m.sin (m.atan2 span.ctm.b span.ctm.a)))),
    (int_wrap (float_to_int (span.ctm.f * 12700) - int_wrap (-float_to_int
      (((Int.tdiv (int_wrap (float_to_int (extent.y * 12700) * 2)) 2 : Int) : ℚ)
          * (m.cos (m.atan2 span.ctm.b span.ctm.a) - 1)
        + ((Int.tdiv (float_to_int (extent.x * 12700)) 2 : Int) : ℚ)
          * m.sin (m.atan2 span.ctm.b span.ctm.a))))),
    (float_to_int (extent.x * 12700)), (int_wrap (float_to_int (extent.y * 12700) * 2)), state2, ?_, hname2⟩
  · unfold docx_content_text_box
    simp only [hc, hdrop, hext, hlen, hrun, hpar1, hpar2]
    simp only [docx_append_texts_eq, text_box_items, text_box_rot, List.append_assoc,
      List.length_cons]
    congr 2
    omega

theorem paragraph_items_keep (m : Libm) (spans : List span_t) (lines : List line_t)
    (p : paragraph_t) (h : paragraph_boxable spans lines p = true) :
    (paragraph_items m spans lines p).filter (fun item => decide (item ≠ .paragraph_empty))
      = paragraph_items m spans lines p := by
  obtain ⟨ss, hss⟩ := paragraph_spans_isSome_of_boxable spans lines p h
  rw [List.filter_eq_self]
  intro x hx
  simp only [ne_eq, decide_not, Bool.not_eq_true', decide_eq_false_iff_not]
  intro hxe
  subst hxe
  have hf : docx_item.paragraph_empty
      ∈ (paragraph_items m spans lines p).filter is_paragraph_item :=
    List.mem_filter.2 ⟨hx, rfl⟩
  rw [paragraph_items_filter m spans lines p ss hss] at hf
  simp at hf

theorem docx_text_keep (text : List Char) :
    (docx_text text).filter (fun item => decide (item ≠ .paragraph_empty)) = docx_text text := by
  rw [List.filter_eq_self]
  intro x hx
  unfold docx_text at hx
  obtain ⟨c, -, rfl⟩ := List.mem_map.1 hx
  simp

theorem replicate_empty_drop (n : Nat) :
    (List.replicate n docx_item.paragraph_empty).filter
      (fun item => decide (item ≠ .paragraph_empty)) = [] := by
  rw [List.filter_eq_nil_iff]
  intro x hx
  simp [List.eq_of_mem_replicate hx]

theorem flatMap_paragraph_items_keep (m : Libm) (spans : List span_t) (lines : List line_t)
    (run : List paragraph_t) (h : ∀ q ∈ run, paragraph_boxable spans lines q = true) :
    (run.flatMap (paragraph_items m spans lines)).filter
        (fun item => decide (item ≠ .paragraph_empty))
      = run.flatMap (paragraph_items m spans lines) := by
  induction run with
  | nil => rfl
  | cons q rest ih =>
    rw [List.flatMap_cons, List.filter_append,
      paragraph_items_keep m spans lines q (h q (List.mem_cons_self _ _)),
      ih fun q1 hq1 => h q1 (List.mem_cons_of_mem _ hq1)]

theorem text_box_items_keep (m : Libm) (spans : List span_t) (lines : List line_t)
    (x y w h text_box_id rot : Int) (run : List paragraph_t)
    (hrun : ∀ q ∈ run, paragraph_boxable spans lines q = true) :
    (text_box_items m spans lines x y w h text_box_id rot run).filter
        (fun item => decide (item ≠ .paragraph_empty))
      = text_box_items m spans lines x y w h text_box_id rot run := by
  unfold text_box_items
  simp only [List.filter_append, docx_text_keep,
    flatMap_paragraph_items_keep m spans lines run hrun]

/-- The loop over the paragraphs of a page of the emitter with rotation, from the paragraph
`p` on: with a budget of one step for each paragraph left and one more it returns, and what
it appends is, empty paragraphs apart, what `rotation_emits` describes. -/
theorem docx_content_rotation_page_emits (m : Libm) (page : page_t) (spacing : Int)
    (hbox : ∀ q ∈ page.paragraphs, paragraph_boxable page.spans page.lines q = true) :
    ∀ (fuel p : Nat) (state : content_state_t) (text_box_id : Int) (content : List docx_item),
      page.paragraphs.length + 1 ≤ fuel + p → p ≤ page.paragraphs.length →
      state.font_name = none →
      ∃ state1 text_box_id1 extra,
        docx_content_rotation_page m page spacing fuel p state text_box_id content
          = .ok (state1, text_box_id1, content ++ extra) ∧
        rotation_emits m page.spans page.lines (page.paragraphs.drop p)
          (extra.filter fun item => decide (item ≠ .paragraph_empty)) := by
  intro fuel
  induction fuel with
  | zero => intro p _ _ _ h1 h2 _; omega
  | succ fuel ih =>
    intro p state text_box_id content hfuel hp hname
    rw [docx_content_rotation_page]
    cases hget : page.paragraphs[p]? with
    | none =>
      have hge : page.paragraphs.length ≤ p := by
        by_contra hlt
        rw [List.getElem?_eq_getElem (by omega)] at hget
        cases hget
      refine ⟨state, text_box_id, [], by simp, ?_⟩
      rw [List.drop_eq_nil_of_le hge]
      exact rotation_emits.done
    | some paragraph =>
      have hlt : p < page.paragraphs.length := by
        by_contra hge
        rw [List.getElem?_eq_none (by omega)] at hget
        cases hget
      have hdrop : page.paragraphs.drop p = paragraph :: page.paragraphs.drop (p + 1) := by
        rw [List.drop_eq_getElem_cons hlt]
        rw [List.getElem?_eq_getElem hlt] at hget
        cases hget
        rfl
      have hmem : paragraph ∈ page.paragraphs := List.getElem?_mem hget
      have hpb := hbox paragraph hmem
      obtain ⟨ss, hss⟩ := paragraph_spans_isSome_of_boxable page.spans page.lines paragraph hpb
      obtain ⟨span, hspan, -⟩ :=
        docx_paragraph_span_of_boxable page.spans page.lines paragraph hpb
      have hrot := paragraph_rotation_of_span m page.spans page.lines paragraph span hspan
      simp only [docx_content_spacing_eq page.spans page.lines spacing state paragraph content
        ss hss, hspan]
      by_cases hr : m.atan2 span.ctm.b span.ctm.a = 0
      · rw [if_neg (not_not.2 hr),
          paragraph_content_items m page.spans page.lines state paragraph _ ss hss hname]
        simp only []
        obtain ⟨state1, id1, extra, hloop, hemit⟩ := ih (p + 1)
          { (ss.getLast?.map (state_after m)).getD state with font_name := none } text_box_id
          (content ++ List.replicate
              (empty_paragraphs page.spans page.lines spacing state.ctm_prev paragraph)
              docx_item.paragraph_empty
            ++ paragraph_items m page.spans page.lines paragraph)
          (by omega) (by omega) rfl
        refine ⟨state1, id1, List.replicate
              (empty_paragraphs page.spans page.lines spacing state.ctm_prev paragraph)
              docx_item.paragraph_empty
            ++ paragraph_items m page.spans page.lines paragraph ++ extra, ?_, ?_⟩
        · rw [hloop]
          simp only [List.append_assoc]
        · rw [hdrop, List.filter_append, List.filter_append, replicate_empty_drop,
            List.nil_append, paragraph_items_keep m page.spans page.lines paragraph hpb]
          exact rotation_emits.plain paragraph _ _ (hrot.trans hr) hemit
      · rw [if_pos hr]
        obtain ⟨x, y, w, h, state1, hbox1, hname1⟩ := docx_content_text_box_eq m page p
          paragraph (page.paragraphs.drop (p + 1)) span state text_box_id
          (content ++ List.replicate
              (empty_paragraphs page.spans page.lines spacing state.ctm_prev paragraph)
              docx_item.paragraph_empty)
          hdrop hbox hspan hname
        rw [hbox1]
        simp only []
        have hle : ((page.paragraphs.drop (p + 1)).takeWhile fun q =>
            decide (paragraph_rotation m page.spans page.lines q
              = paragraph_rotation m page.spans page.lines paragraph)).length
            ≤ page.paragraphs.length - (p + 1) := by
          have := (List.takeWhile_sublist (fun q =>
            decide (paragraph_rotation m page.spans page.lines q
              = paragraph_rotation m page.spans page.lines paragraph))
              (l := page.paragraphs.drop (p + 1))).length_le
          rw [List.length_drop] at this
          exact this
        obtain ⟨state2, id2, extra, hloop, hemit⟩ := ih
          (p + 1 + ((page.paragraphs.drop (p + 1)).takeWhile fun q =>
            decide (paragraph_rotation m page.spans page.lines q
              = paragraph_rotation m page.spans page.lines paragraph)).length)
          state1 (text_box_id + 1)
          (content ++ List.replicate
              (empty_paragraphs page.spans page.lines spacing state.ctm_prev paragraph)
              docx_item.paragraph_empty
            ++ text_box_items m page.spans page.lines x y w h (text_box_id + 1)
              (text_box_rot (m.atan2 span.ctm.b span.ctm.a))
              (paragraph :: (page.paragraphs.drop (p + 1)).takeWhile fun q =>
                decide (paragraph_rotation m page.spans page.lines q
                  = paragraph_rotation m page.spans page.lines paragraph)))
          (by omega) (by omega) hname1
        refine ⟨state2, id2, List.replicate
              (empty_paragraphs page.spans page.lines spacing state.ctm_prev paragraph)
              docx_item.paragraph_empty
            ++ text_box_items m page.spans page.lines x y w h (text_box_id + 1)
              (text_box_rot (m.atan2 span.ctm.b span.ctm.a))
              (paragraph :: (page.paragraphs.drop (p + 1)).takeWhile fun q =>
                decide (paragraph_rotation m page.spans page.lines q
                  = paragraph_rotation m page.spans page.lines paragraph)) ++ extra, ?_, ?_⟩
        · rw [hloop]
          simp only [List.append_assoc]
        · have hrunbox : ∀ q ∈ (paragraph :: (page.paragraphs.drop (p + 1)).takeWhile fun q =>
                decide (paragraph_rotation m page.spans page.lines q
                  = paragraph_rotation m page.spans page.lines paragraph)),
              paragraph_boxable page.spans page.lines q = true := by
            intro q hq
            rcases List.mem_cons.1 hq with rfl | hq
            · exact hpb
            · exact hbox q (List.mem_of_mem_drop ((List.takeWhile_sublist _).subset hq))
          rw [hdrop, List.filter_append, List.filter_append, replicate_empty_drop,
            List.nil_append, text_box_items_keep m page.spans page.lines x y w h _ _ _ hrunbox,
            ← hrot]
          refine rotation_emits.box paragraph _ _ x y w h (text_box_id + 1) ?_ ?_
          · rw [hrot]; exact hr
          · have e : ((page.paragraphs.drop (p + 1)).dropWhile fun q =>
                decide (paragraph_rotation m page.spans page.lines q
                  = paragraph_rotation m page.spans page.lines paragraph))
                = page.paragraphs.drop
                  (p + 1 + ((page.paragraphs.drop (p + 1)).takeWhile fun q =>
                    decide (paragraph_rotation m page.spans page.lines q
                      = paragraph_rotation m page.spans page.lines paragraph)).length) := by
              rw [← drop_length_takeWhile, List.drop_drop]
            rw [e]
            exact hemit

/-! ## The emitter with rotation: the runs of a page and the angle of a box -/

theorem docx_content_rotation_pages_emits (m : Libm) (spacing : Int) (pages : List page_t)
    (hbox : ∀ page ∈ pages, ∀ q ∈ page.paragraphs,
      paragraph_boxable page.spans page.lines q = true) :
    ∀ (text_box_id : Int) (content : List docx_item),
      ∃ extra, docx_content_rotation_pages m spacing pages text_box_id content
          = .ok (content ++ extra) ∧
        rotation_emits_pages m pages
          (extra.filter fun item => decide (item ≠ .paragraph_empty)) := by
  induction pages with
  | nil =>
    intro text_box_id content
    exact ⟨[], by simp [docx_content_rotation_pages], rotation_emits_pages.done⟩
  | cons page rest ih =>
    intro text_box_id content
    obtain ⟨state1, id1, extra, hloop, hemit⟩ := docx_content_rotation_page_emits m page spacing
      (hbox page (List.mem_cons_self _ _)) (page.paragraphs.length + 1) 0 content_state_init
      text_box_id content (by omega) (by omega) rfl
    obtain ⟨extra1, hrest, hemit1⟩ := ih
      (fun pg hpg => hbox pg (List.mem_cons_of_mem _ hpg)) id1 (content ++ extra)
    refine ⟨extra ++ extra1, ?_, ?_⟩
    · rw [docx_content_rotation_pages, hloop]
      simp only []
      rw [hrest, List.append_assoc]
    · rw [List.filter_append]
      exact rotation_emits_pages.page page rest _ _ hemit hemit1

theorem flatMap_part_of_mem {α β : Type} (f : α → List β) (l : List α) (a : α) (h : a ∈ l) :
    f a <:+: l.flatMap f := by
  obtain ⟨s, t, rfl⟩ := List.append_of_mem h
  refine ⟨s.flatMap f, t.flatMap f, ?_⟩
  simp [List.flatMap_append]

theorem rotation_emits_part (m : Libm) (spans : List span_t) (lines : List line_t)
    (ps : List paragraph_t) (items : List docx_item)
    (h : rotation_emits m spans lines ps items) :
    ∀ q ∈ ps, paragraph_items m spans lines q <:+: items := by
  induction h with
  | done => intro q hq; cases hq
  | plain p rest items _ _ ih =>
    intro q hq
    rcases List.mem_cons.1 hq with rfl | hq
    · exact (List.prefix_append _ _).isInfix
    · exact (ih q hq).trans (List.suffix_append _ _).isInfix
  | box p rest items x y w h text_box_id _ _ ih =>
    intro q hq
    have hsplit : q ∈ (p :: rest.takeWhile fun q =>
          decide (paragraph_rotation m spans lines q = paragraph_rotation m spans lines p))
        ∨ q ∈ (rest.dropWhile fun q =>
          decide (paragraph_rotation m spans lines q = paragraph_rotation m spans lines p)) := by
      rcases List.mem_cons.1 hq with rfl | hq
      · exact Or.inl (List.mem_cons_self _ _)
      · rw [← List.takeWhile_append_dropWhile (fun q =>
          decide (paragraph_rotation m spans lines q = paragraph_rotation m spans lines p))
          rest] at hq
        rcases List.mem_append.1 hq with hq | hq
        · exact Or.inl (List.mem_cons_of_mem _ hq)
        · exact Or.inr hq
    rcases hsplit with hrun | hlater
    · refine (flatMap_part_of_mem (paragraph_items m spans lines) _ q hrun).trans ?_
      refine List.IsInfix.trans ?_ (List.prefix_append _ _).isInfix
      unfold text_box_items
      exact ⟨_, _, rfl⟩
    · exact (ih q hlater).trans (List.suffix_append _ _).isInfix

theorem rotation_emits_pages_part (m : Libm) (pages : List page_t) (items : List docx_item)
    (h : rotation_emits_pages m pages items) :
    ∀ page ∈ pages, ∀ q ∈ page.paragraphs,
      paragraph_items m page.spans page.lines q <:+: items := by
  induction h with
  | done => intro page hp; cases hp
  | page page rest items items1 hpage _ ih =>
    intro pg hpg q hq
    rcases List.mem_cons.1 hpg with rfl | hpg
    · exact (rotation_emits_part m _ _ _ _ hpage q hq).trans
        (List.prefix_append _ _).isInfix
    · exact (ih pg hpg q hq).trans (List.suffix_append _ _).isInfix

/-- C29: with `rotation != 0` and paragraphs whose pointers are sound,
`extract_document_to_docx_content` returns, and its content is, empty paragraphs apart,
page by page what `rotation_emits` describes: a paragraph with rotation `0` gives its items
once; a paragraph with another rotation starts a text box that holds it and the paragraphs
after it up to the first one with a different rotation, their items once between the texts
that open and close `mc:Choice` and once more between those that open and close
`mc:Fallback`, in the order of the page, and the content goes on with the first paragraph
after them. The items of every paragraph of every page are part of the content. -/
theorem rotation_emits_runs_as_text_boxes (m : Libm) (document : extract_document_t)
    (spacing rotation : Int) (hrotation : rotation ≠ 0)
    (hbox : ∀ page ∈ document.pages, ∀ q ∈ page.paragraphs,
      paragraph_boxable page.spans page.lines q = true) :
    ∃ content, extract_document_to_docx_content m document spacing rotation = .ok content ∧
      rotation_emits_pages m document.pages
        (content.filter fun item => decide (item ≠ .paragraph_empty)) ∧
      (∀ page ∈ document.pages, ∀ q ∈ page.paragraphs,
        paragraph_items m page.spans page.lines q
          <:+: content.filter fun item => decide (item ≠ .paragraph_empty)) ∧
      (∀ x y w h text_box_id rot : Int,
        "      <mc:Choice Requires=\"wps\">\n".toList
          ∈ docx_text_box_head x y w h text_box_id rot) ∧
      (∀ text_box_id : Int, ∃ before after,
        docx_text_box_middle text_box_id
          = before ++ "      </mc:Choice>\n".toList :: "      <mc:Fallback>\n".toList :: after) ∧
      "      </mc:Fallback>\n".toList ∈ docx_text_box_tail := by
  obtain ⟨extra, hrun, hemit⟩ :=
    docx_content_rotation_pages_emits m spacing document.pages hbox 0 []
  rw [List.nil_append] at hrun
  refine ⟨extra, ?_, hemit, rotation_emits_pages_part m _ _ hemit, ?_, ?_, ?_⟩
  · unfold extract_document_to_docx_content extract_document_to_docx_content_rotation
    rw [if_pos hrotation, hrun]
  · intro x y w h text_box_id rot
    simp [docx_text_box_head]
  · intro text_box_id
    refine ⟨(docx_text_box_middle text_box_id).take 14,
      (docx_text_box_middle text_box_id).drop 16, ?_⟩
    rfl
  · simp [docx_text_box_tail]

/-- Witness of C29: the page of two paragraphs turned by a quarter and an upright one. -/
theorem rotation_emits_runs_as_text_boxes_witness :
    (1 : Int) ≠ 0 ∧
    (∀ page ∈ ({ pages := [sample_rotated_page] } : extract_document_t).pages,
      ∀ q ∈ page.paragraphs, paragraph_boxable page.spans page.lines q = true) ∧
    ∃ content,
      extract_document_to_docx_content sample_libm { pages := [sample_rotated_page] } 0 1
        = .ok content ∧
      rotation_emits_pages sample_libm
        ({ pages := [sample_rotated_page] } : extract_document_t).pages
        (content.filter fun item => decide (item ≠ .paragraph_empty)) ∧
      (∀ page ∈ ({ pages := [sample_rotated_page] } : extract_document_t).pages,
        ∀ q ∈ page.paragraphs,
          paragraph_items sample_libm page.spans page.lines q
            <:+: content.filter fun item => decide (item ≠ .paragraph_empty)) ∧
      (∀ x y w h text_box_id rot : Int,
        "      <mc:Choice Requires=\"wps\">\n".toList
          ∈ docx_text_box_head x y w h text_box_id rot) ∧
      (∀ text_box_id : Int, ∃ before after,
        docx_text_box_middle text_box_id
          = before ++ "      </mc:Choice>\n".toList :: "      <mc:Fallback>\n".toList :: after) ∧
      "      </mc:Fallback>\n".toList ∈ docx_text_box_tail :=
  ⟨by decide, by decide,
    rotation_emits_runs_as_text_boxes sample_libm { pages := [sample_rotated_page] } 0 1
      (by decide) (by decide)⟩

theorem sample_rotated_rot :
    docx_paragraph_span sample_rotated_page.spans sample_rotated_page.lines { lines := [0] }
      = .ok { sample_span [sample_char 97 5 7 1] with
          ctm := { a := 0, b := 1, c := -1, d := 0, e := 5, f := 7 } } ∧
    sample_libm.atan2 1 0 ≠ 0 ∧
    (90 : ℚ) ≤ sample_libm.atan2 1 0 * 180 / g_pi ∧
    sample_libm.atan2 1 0 * 180 / g_pi < 90 + 1 / 60000 ∧
    text_box_rot (sample_libm.atan2 1 0) = 5400000 ∧
    snprintf_i 5400000 = "5400000".toList := by
  decide!

theorem toDigitsCore_hex (fuel : Nat) :
    ∀ (n : Nat) (ds : List Char), (∀ ch ∈ ds, (hex_digit_value ch).isSome = true) →
      ∀ ch ∈ Nat.toDigitsCore 16 fuel n ds, (hex_digit_value ch).isSome = true := by
  induction fuel with
  | zero => intro n ds h; simpa [Nat.toDigitsCore] using h
  | succ fuel ih =>
    intro n ds h
    have hd := hex_digit_value_digitChar (n % 16) (Nat.mod_lt _ (by norm_num))
    have h1 : ∀ ch ∈ Nat.digitChar (n % 16) :: ds, (hex_digit_value ch).isSome = true := by
      intro ch hch
      rcases List.mem_cons.1 hch with rfl | hch
      · rw [hd]; rfl
      · exact h ch hch
    unfold Nat.toDigitsCore
    by_cases h0 : n / 16 = 0
    · simpa only [h0, if_true] using h1
    · simp only [h0, if_false]
      exact ih _ _ h1

theorem xml_safe_piece_char (c : Char) (h1 : c ≠ '<') (h2 : c ≠ '>') (h3 : c ≠ '&')
    (h4 : c ≠ Char.ofNat 34) (h5 : c ≠ Char.ofNat 39) : xml_safe_piece [c] :=
  Or.inl ⟨c, rfl, h1, h2, h3, h4, h5⟩

theorem ofNat_ne_of_ne (k j : Nat) (hk : k ≤ 127) (hj : j ≤ 127) (h : k ≠ j) :
    Char.ofNat k ≠ Char.ofNat j := by
  intro e
  have hvk : k.isValidChar := by
    unfold Nat.isValidChar
    omega
  have hvj : j.isValidChar := by
    unfold Nat.isValidChar
    omega
  have h1 : (Char.ofNat k).toNat = k := by
    simp [Char.ofNat, hvk, Char.toNat, Char.ofNatAux]
    rfl
  have h2 : (Char.ofNat j).toNat = j := by
    simp [Char.ofNat, hvj, Char.toNat, Char.ofNatAux]
    rfl
  rw [e, h2] at h1
  exact h h1.symm

/-- The text of a glyph is made of safe pieces. -/
theorem glyph_text_safe (k : Nat) : xml_safe_text (glyph_text k) := by
  unfold glyph_text
  have hf : xml_safe_piece ['f'] :=
    xml_safe_piece_char _ (by decide) (by decide) (by decide) (by decide) (by decide)
  have hi : xml_safe_piece ['i'] :=
    xml_safe_piece_char _ (by decide) (by decide) (by decide) (by decide) (by decide)
  have hl : xml_safe_piece ['l'] :=
    xml_safe_piece_char _ (by decide) (by decide) (by decide) (by decide) (by decide)
  have hent : ∀ e ∈ ["&lt;".toList, "&gt;".toList, "&amp;".toList, "&quot;".toList,
      "&apos;".toList], xml_safe_text e := by
    intro e he
    refine ⟨[e], by simp, ?_⟩
    intro p hp
    rw [List.mem_singleton.1 hp]
    exact Or.inr (Or.inl he)
  by_cases h1 : k = 60
  · rw [if_pos h1]; exact hent _ (by simp)
  rw [if_neg h1]
  by_cases h2 : k = 62
  · rw [if_pos h2]; exact hent _ (by simp)
  rw [if_neg h2]
  by_cases h3 : k = 38
  · rw [if_pos h3]; exact hent _ (by simp)
  rw [if_neg h3]
  by_cases h4 : k = 34
  · rw [if_pos h4]; exact hent _ (by simp)
  rw [if_neg h4]
  by_cases h5 : k = 39
  · rw [if_pos h5]; exact hent _ (by simp)
  rw [if_neg h5]
  by_cases h6 : k = 0xFB00
  · rw [if_pos h6]
    refine ⟨[['f'], ['f']], rfl, ?_⟩
    intro p hp
    simp only [List.mem_cons, List.mem_singleton, List.not_mem_nil, or_false, or_self] at hp
    rw [hp]; exact hf
  rw [if_neg h6]
  by_cases h7 : k = 0xFB01
  · rw [if_pos h7]
    refine ⟨[['f'], ['i']], rfl, ?_⟩
    intro p hp
    simp only [List.mem_cons, List.mem_singleton, List.not_mem_nil, or_false] at hp
    rcases hp with rfl | rfl
    · exact hf
    · exact hi
  rw [if_neg h7]
  by_cases h8 : k = 0xFB02
  · rw [if_pos h8]
    refine ⟨[['f'], ['l']], rfl, ?_⟩
    intro p hp
    simp only [List.mem_cons, List.mem_singleton, List.not_mem_nil, or_false] at hp
    rcases hp with rfl | rfl
    · exact hf
    · exact hl
  rw [if_neg h8]
  by_cases h9 : k = 0xFB03
  · rw [if_pos h9]
    refine ⟨[['f'], ['f'], ['i']], rfl, ?_⟩
    intro p hp
    simp only [List.mem_cons, List.mem_singleton, List.not_mem_nil, or_false] at hp
    rcases hp with rfl | rfl | rfl
    · exact hf
    · exact hf
    · exact hi
  rw [if_neg h9]
  by_cases h10 : k = 0xFB04
  · rw [if_pos h10]
    refine ⟨[['f'], ['f'], ['l']], rfl, ?_⟩
    intro p hp
    simp only [List.mem_cons, List.mem_singleton, List.not_mem_nil, or_false] at hp
    rcases hp with rfl | rfl | rfl
    · exact hf
    · exact hf
    · exact hl
  rw [if_neg h10]
  by_cases h11 : 32 ≤ k ∧ k ≤ 127
  · rw [if_pos h11]
    refine ⟨[[Char.ofNat k]], by simp, ?_⟩
    intro p hp
    rw [List.mem_singleton.1 hp]
    exact xml_safe_piece_char _ (ofNat_ne_of_ne k 60 h11.2 (by omega) h1)
      (ofNat_ne_of_ne k 62 h11.2 (by omega) h2) (ofNat_ne_of_ne k 38 h11.2 (by omega) h3)
      (ofNat_ne_of_ne k 34 h11.2 (by omega) h4) (ofNat_ne_of_ne k 39 h11.2 (by omega) h5)
  · rw [if_neg h11]
    refine ⟨["&#x".toList ++ Nat.toDigits 16 k ++ ";".toList], by simp, ?_⟩
    intro p hp
    rw [List.mem_singleton.1 hp]
    refine Or.inr (Or.inr ⟨Nat.toDigits 16 k, ?_, ?_, rfl⟩)
    · exact toDigitsCore_ne_nil _ _ _ (by omega)
    · exact toDigitsCore_hex _ _ _ (fun ch hch => by cases hch)

theorem xml_safe_text_append (s t : List Char) (hs : xml_safe_text s) (ht : xml_safe_text t) :
    xml_safe_text (s ++ t) := by
  obtain ⟨ps, rfl, hps⟩ := hs
  obtain ⟨pt, rfl, hpt⟩ := ht
  refine ⟨ps ++ pt, by simp, ?_⟩
  intro p hp
  rcases List.mem_append.1 hp with h | h
  · exact hps p h
  · exact hpt p h

theorem docx_content_chars_safe (chars : List char_t) :
    ∀ content : List Char, xml_safe_text content →
      xml_safe_text (docx_content_chars content chars) := by
  induction chars with
  | nil => intro content h; exact h
  | cons g gs ih =>
    intro content h
    unfold docx_content_chars
    rw [List.foldl_cons]
    apply ih
    rw [docx_content_char_mod, docx_content_char_eq _ _ (Nat.mod_lt _ (by norm_num))]
    exact xml_safe_text_append _ _ h (glyph_text_safe _)

theorem xml_safe_piece_chars (p : List Char) (h : xml_safe_piece p) :
    p ≠ [] ∧ '<' ∉ p ∧ '>' ∉ p ∧ Char.ofNat 34 ∉ p ∧ Char.ofNat 39 ∉ p ∧
      (p.getLast? = some '-' → p = ['-']) := by
  rcases h with ⟨c, rfl, h1, h2, h3, h4, h5⟩ | h | ⟨digits, hne, hd, rfl⟩
  · refine ⟨by simp, ?_, ?_, ?_, ?_, ?_⟩
    · simpa using h1.symm
    · simpa using h2.symm
    · simpa using h4.symm
    · simpa using h5.symm
    · intro h
      simp only [List.getLast?_singleton, Option.some.injEq] at h
      rw [h]
  · simp only [List.mem_cons, List.mem_singleton, List.not_mem_nil, or_false] at h
    rcases h with rfl | rfl | rfl | rfl | rfl <;> decide
  · have hmem : ∀ ch : Char, (hex_digit_value ch).isSome = false → ch ≠ '&' → ch ≠ '#' →
        ch ≠ 'x' → ch ≠ ';' → ch ∉ "&#x".toList ++ digits ++ ";".toList := by
      intro ch hch n1 n2 n3 n4 hin
      rcases List.mem_append.1 hin with hin | hin
      · rcases List.mem_append.1 hin with hin | hin
        · have h3 : ch = '&' ∨ ch = '#' ∨ ch = 'x' := by simpa using hin
          rcases h3 with h | h | h
          · exact n1 h
          · exact n2 h
          · exact n3 h
        · have := hd ch hin
          rw [hch] at this
          cases this
      · have h1 : ch = ';' := by simpa using hin
        exact n4 h1
    refine ⟨by simp, hmem _ (by decide) (by decide) (by decide) (by decide) (by decide),
      hmem _ (by decide) (by decide) (by decide) (by decide) (by decide),
      hmem _ (by decide) (by decide) (by decide) (by decide) (by decide),
      hmem _ (by decide) (by decide) (by decide) (by decide) (by decide), ?_⟩
    intro h
    rw [List.getLast?_append] at h
    simp at h

theorem xml_safe_text_truncate (text : List Char) (h : xml_safe_text text) :
    xml_safe_text (extract_docx_char_truncate_if text '-') := by
  unfold extract_docx_char_truncate_if
  split_ifs with hlast
  · obtain ⟨pieces, rfl, hp⟩ := h
    rcases List.eq_nil_or_concat pieces with rfl | ⟨ps, p, rfl⟩
    · simp at hlast
    · have hsafe := hp p (by simp)
      obtain ⟨hne, -, -, -, -, hdash⟩ := xml_safe_piece_chars p hsafe
      have hflat : (ps.concat p).flatten = ps.flatten ++ p := by simp
      rw [hflat] at hlast ⊢
      have hl : p.getLast? = some '-' := by
        rw [List.getLast?_append_of_ne_nil _ hne] at hlast
        exact hlast
      rw [hdash hl]
      refine ⟨ps, ?_, fun q hq => hp q (by simp [hq])⟩
      rw [List.dropLast_append_of_ne_nil _ (by simp)]
      simp
  · exact h

/-- C36: the text that the emitter appends for a sequence of glyphs holds no `<`, no `>`,
no double quote and no apostrophe, and it is made of pieces each of which is one character
other than these and `&`, or one of `&lt;` `&gt;` `&amp;` `&quot;` `&apos;`, or `&#x`
followed by hexadecimal digits and `;`: every `&` begins an entity or a numeric reference.
The same holds after the removal of a trailing `-`. -/
theorem glyph_text_is_xml_safe (chars : List char_t) :
    '<' ∉ docx_content_chars [] chars ∧ '>' ∉ docx_content_chars [] chars ∧
    Char.ofNat 34 ∉ docx_content_chars [] chars ∧
    Char.ofNat 39 ∉ docx_content_chars [] chars ∧
    xml_safe_text (docx_content_chars [] chars) ∧
    xml_safe_text (extract_docx_char_truncate_if (docx_content_chars [] chars) '-') := by
  have hsafe := docx_content_chars_safe chars [] ⟨[], rfl, fun p hp => (by cases hp)⟩
  have hno : ∀ ch : Char, (∀ p, xml_safe_piece p → ch ∉ p) →
      ch ∉ docx_content_chars [] chars := by
    intro ch hch hin
    obtain ⟨pieces, hflat, hp⟩ := hsafe
    rw [hflat, List.mem_flatten] at hin
    obtain ⟨p, hpm, hcp⟩ := hin
    exact hch p (hp p hpm) hcp
  exact ⟨hno _ fun p hp => (xml_safe_piece_chars p hp).2.1,
    hno _ fun p hp => (xml_safe_piece_chars p hp).2.2.1,
    hno _ fun p hp => (xml_safe_piece_chars p hp).2.2.2.1,
    hno _ fun p hp => (xml_safe_piece_chars p hp).2.2.2.2.1,
    hsafe, xml_safe_text_truncate _ hsafe⟩

/-- The text for the glyphs `<`, `a`, `&`, U+2014 and `-`, and what is left of it once the
trailing `-` is removed. -/
theorem sample_glyph_text :
    docx_content_chars []
        [sample_char 60 0 0 1, sample_char 97 0 0 1, sample_char 38 0 0 1,
          sample_char 0x2014 0 0 1, sample_char 45 0 0 1]
      = "&lt;a&amp;&#x2014;-".toList ∧
    extract_docx_char_truncate_if (docx_content_chars []
        [sample_char 60 0 0 1, sample_char 97 0 0 1, sample_char 38 0 0 1,
          sample_char 0x2014 0 0 1, sample_char 45 0 0 1]) '-'
      = "&lt;a&amp;&#x2014;".toList := by
  decide

theorem truncate_if_docx_text (text : List Char) :
    extract_docx_char_truncate_if (docx_text text) (docx_item.char '-')
      = docx_text (extract_docx_char_truncate_if text '-') := by
  unfold extract_docx_char_truncate_if docx_text
  rcases List.eq_nil_or_concat text with rfl | ⟨y, a, rfl⟩
  · simp
  · have e : y.concat a = y ++ [a] := by simp
    rw [e, List.map_append, List.map_singleton]
    have g1 : (List.map docx_item.char y ++ [docx_item.char a]).getLast?
        = some (docx_item.char a) := by simp
    have g2 : (y ++ [a]).getLast? = some a := by simp
    rw [g1, g2]
    by_cases h : a = '-'
    · subst h
      rw [if_pos rfl, if_pos rfl, List.dropLast_concat, List.dropLast_concat]
    · rw [if_neg (by simpa using h), if_neg (by simpa using h), List.map_append,
        List.map_singleton]

theorem truncate_if_open_run (before : List docx_item) (start : docx_item) (text : List Char)
    (h : is_run_start start = true) :
    extract_docx_char_truncate_if (before ++ start :: docx_text text) (docx_item.char '-')
      = before ++ start :: docx_text (extract_docx_char_truncate_if text '-') := by
  have e : before ++ start :: docx_text text = (before ++ [start]) ++ docx_text text := by simp
  have hl : (before ++ [start]).getLast? ≠ some (docx_item.char '-') := by
    intro hs
    have hs2 : start = docx_item.char '-' := by simpa using hs
    rw [hs2] at h
    cases h
  rw [e, truncate_if_append _ _ _ hl, truncate_if_docx_text]
  simp

/-- The items after a span when a run is open before it: a run is open after it, and the
runs before are closed. -/
theorem docx_content_span_open (m : Libm) (state : content_state_t) (span : span_t)
    (closed : List (docx_item × List Char)) (start : docx_item) (text : List Char)
    (hstate : state.font_name.isSome = true) (hstart : is_run_start start = true) :
    ∃ (closed1 : List (docx_item × List Char)) (start1 : docx_item) (text1 : List Char),
      is_run_start start1 = true ∧
      (∀ g ∈ closed1, g ∈ closed ∨ g = (start, text)) ∧
      (docx_content_span m state span (closed.flatMap run_group ++ start :: docx_text text)).2
        = closed1.flatMap run_group ++ start1 :: docx_text text1 := by
  obtain ⟨name, hname⟩ := Option.isSome_iff_exists.1 hstate
  unfold docx_content_span
  simp only [hname, Option.isSome_some, if_true, extract_docx_char_append_string,
    extract_docx_run_start, extract_docx_run_finish]
  split_ifs with hnew
  · refine ⟨closed ++ [(start, text)],
      .run_start span.font_name (matrices_to_font_size m span.ctm span.trm) span.font_bold
        span.font_italic,
      extract_docx_char_truncate_if (docx_content_chars [] span.chars) '-', rfl, ?_, ?_⟩
    · intro g hg
      rcases List.mem_append.1 hg with h | h
      · exact Or.inl h
      · exact Or.inr (List.mem_singleton.1 h)
    · have e : closed.flatMap run_group ++ start :: docx_text text ++ [docx_item.run_finish]
          ++ [docx_item.run_start span.font_name (matrices_to_font_size m span.ctm span.trm)
            span.font_bold span.font_italic]
          ++ docx_text (docx_content_chars [] span.chars)
          = (closed ++ [(start, text)]).flatMap run_group
            ++ docx_item.run_start span.font_name (matrices_to_font_size m span.ctm span.trm)
              span.font_bold span.font_italic
            :: docx_text (docx_content_chars [] span.chars) := by
        simp [List.flatMap_append, run_group]
      rw [e, truncate_if_open_run _ (docx_item.run_start span.font_name
        (matrices_to_font_size m span.ctm span.trm) span.font_bold span.font_italic) _ rfl]
  · refine ⟨closed, start,
      extract_docx_char_truncate_if (text ++ docx_content_chars [] span.chars) '-', hstart,
      fun g hg => Or.inl hg, ?_⟩
    have e : closed.flatMap run_group ++ start :: docx_text text
          ++ docx_text (docx_content_chars [] span.chars)
        = closed.flatMap run_group
          ++ start :: docx_text (text ++ docx_content_chars [] span.chars) := by
      simp [docx_text]
    rw [e, truncate_if_open_run _ _ _ hstart]

/-- The items after a span when no run is open before it: the span opens a run. -/
theorem docx_content_span_closed (m : Libm) (state : content_state_t) (span : span_t)
    (closed : List (docx_item × List Char)) (hstate : state.font_name = none) :
    ∃ (start1 : docx_item) (text1 : List Char), is_run_start start1 = true ∧
      (docx_content_span m state span (closed.flatMap run_group)).2
        = closed.flatMap run_group ++ start1 :: docx_text text1 := by
  unfold docx_content_span
  simp only [hstate, Option.isSome_none, Bool.false_eq_true, if_false, if_true,
    extract_docx_char_append_string, extract_docx_run_start]
  refine ⟨.run_start span.font_name (matrices_to_font_size m span.ctm span.trm) span.font_bold
      span.font_italic,
    extract_docx_char_truncate_if (docx_content_chars [] span.chars) '-', rfl, ?_⟩
  have e : closed.flatMap run_group
        ++ [docx_item.run_start span.font_name (matrices_to_font_size m span.ctm span.trm)
          span.font_bold span.font_italic]
        ++ docx_text (docx_content_chars [] span.chars)
      = closed.flatMap run_group
        ++ docx_item.run_start span.font_name (matrices_to_font_size m span.ctm span.trm)
          span.font_bold span.font_italic
        :: docx_text (docx_content_chars [] span.chars) := by
    simp
  rw [e, truncate_if_open_run _ (docx_item.run_start span.font_name
        (matrices_to_font_size m span.ctm span.trm) span.font_bold span.font_italic) _ rfl]

theorem docx_content_spans_open (m : Libm) (ss : List span_t) :
    ∀ (state : content_state_t) (closed : List (docx_item × List Char)) (start : docx_item)
      (text : List Char), state.font_name.isSome = true → is_run_start start = true →
      (∀ g ∈ closed, is_run_start g.1 = true) →
      ∃ (closed1 : List (docx_item × List Char)) (start1 : docx_item) (text1 : List Char),
      is_run_start start1 = true ∧
        (∀ g ∈ closed1, is_run_start g.1 = true) ∧
        (docx_content_spans m ss state
            (closed.flatMap run_group ++ start :: docx_text text)).2
          = closed1.flatMap run_group ++ start1 :: docx_text text1 := by
  induction ss with
  | nil =>
    intro state closed start text _ hstart hclosed
    exact ⟨closed, start, text, hstart, hclosed, rfl⟩
  | cons s rest ih =>
    intro state closed start text hstate hstart hclosed
    obtain ⟨closed1, start1, text1, hstart1, hfrom, heq⟩ :=
      docx_content_span_open m state s closed start text hstate hstart
    simp only [docx_content_spans]
    rw [heq, docx_content_span_state]
    refine ih (state_after m s) closed1 start1 text1 rfl hstart1 ?_
    intro g hg
    rcases hfrom g hg with h | h
    · exact hclosed g h
    · rw [h]; exact hstart

/-- The items that the loop over the spans of a paragraph appends when no run is open
before it, with the closing of the last run: runs one after the other. -/
theorem docx_content_spans_groups (m : Libm) (ss : List span_t) (state : content_state_t)
    (hstate : state.font_name = none) :
    ∃ groups : List (docx_item × List Char),
      (∀ g ∈ groups, is_run_start g.1 = true) ∧
      (docx_content_spans m ss state []).2 ++ (if ss = [] then [] else [docx_item.run_finish])
        = groups.flatMap run_group := by
  cases ss with
  | nil => exact ⟨[], fun g hg => (by cases hg), rfl⟩
  | cons s rest =>
    obtain ⟨start1, text1, hstart1, heq⟩ := docx_content_span_closed m state s [] hstate
    simp only [List.flatMap_nil, List.nil_append] at heq
    obtain ⟨closed2, start2, text2, hstart2, hclosed2, heq2⟩ :=
      docx_content_spans_open m rest (state_after m s) [] start1 text1 rfl hstart1
        (fun g hg => (by cases hg))
    simp only [List.flatMap_nil, List.nil_append] at heq2
    refine ⟨closed2 ++ [(start2, text2)], ?_, ?_⟩
    · intro g hg
      rcases List.mem_append.1 hg with h | h
      · exact hclosed2 g h
      · rw [List.mem_singleton.1 h]; exact hstart2
    · simp only [docx_content_spans]
      rw [heq, docx_content_span_state, heq2, if_neg (by simp)]
      simp [List.flatMap_append, run_group]

theorem docx_content_line_spans (m : Libm) (spans : List span_t) (idxs : List Nat) :
    ∀ (state : content_state_t) (content : List docx_item)
      (r : content_state_t × List docx_item),
      docx_content_line m spans idxs state content = .ok r →
      ∃ ss, line_spans spans idxs = some ss := by
  induction idxs with
  | nil => intro _ _ _ _; exact ⟨[], rfl⟩
  | cons s rest ih =>
    intro state content r h
    rw [docx_content_line] at h
    cases hs : spans[s]? with
    | none => simp only [span_at, hs] at h; cases h
    | some span =>
      simp only [span_at, hs] at h
      obtain ⟨ss, hss⟩ := ih _ _ _ h
      exact ⟨span :: ss, by simp only [line_spans, hs, hss]⟩

theorem docx_content_lines_spans (m : Libm) (spans : List span_t) (lines : List line_t)
    (ls : List Nat) :
    ∀ (state : content_state_t) (content : List docx_item)
      (r : content_state_t × List docx_item),
      docx_content_lines m spans lines ls state content = .ok r →
      ∃ ss, paragraph_spans spans lines ls = some ss := by
  induction ls with
  | nil => intro _ _ _ _; exact ⟨[], rfl⟩
  | cons l rest ih =>
    intro state content r h
    rw [docx_content_lines] at h
    cases hl : lines[l]? with
    | none => simp only [line_at, hl] at h; cases h
    | some line =>
      simp only [line_at, hl] at h
      split at h
      · cases h
      · rename_i state1 content1 hline
        obtain ⟨ss, hss⟩ := docx_content_line_spans m spans line.spans _ _ _ hline
        obtain ⟨tt, htt⟩ := ih _ _ _ h
        exact ⟨ss ++ tt, by simp only [paragraph_spans, hl, hss, htt]⟩

/-- C37: for a run state whose `font_name` is `NULL`, the paragraph emitter returns exactly
when the pointers of the paragraph are sound, and what it then appends is well bracketed:
the opening of the paragraph, then runs one after the other, each a `run_start` item, the
characters of its text and a `run_finish` item, then the closing of the paragraph; the
`font_name` of the state it returns is `NULL`. -/
theorem paragraph_is_well_bracketed (m : Libm) (spans : List span_t) (lines : List line_t)
    (state : content_state_t) (paragraph : paragraph_t) (content : List docx_item)
    (hname : state.font_name = none) :
    ((∃ ss, paragraph_spans spans lines paragraph.lines = some ss) ↔
      ∃ r, extract_document_to_docx_content_paragraph m spans lines state paragraph content
        = .ok r) ∧
    ∀ state1 content1,
      extract_document_to_docx_content_paragraph m spans lines state paragraph content
        = .ok (state1, content1) →
      state1.font_name = none ∧
      ∃ items, content1 = content ++ items ∧ well_bracketed items := by
  constructor
  · constructor
    · rintro ⟨ss, hss⟩
      exact ⟨_, paragraph_content_eq m spans lines state paragraph content ss hss⟩
    · rintro ⟨r, hr⟩
      unfold extract_document_to_docx_content_paragraph at hr
      split at hr
      · cases hr
      · rename_i state1 content1 hlines
        exact docx_content_lines_spans m spans lines paragraph.lines _ _ _ hlines
  · intro state1 content1 h
    have hss : ∃ ss, paragraph_spans spans lines paragraph.lines = some ss := by
      unfold extract_document_to_docx_content_paragraph at h
      split at h
      · cases h
      · rename_i state2 content2 hlines
        exact docx_content_lines_spans m spans lines paragraph.lines _ _ _ hlines
    obtain ⟨ss, hss⟩ := hss
    rw [paragraph_content_items m spans lines state paragraph content ss hss hname] at h
    simp only [Except.ok.injEq, Prod.mk.injEq] at h
    obtain ⟨h1, h2⟩ := h
    refine ⟨by rw [← h1], paragraph_items m spans lines paragraph, h2.symm, ?_⟩
    obtain ⟨groups, hstarts, hgroups⟩ :=
      docx_content_spans_groups m ss content_state_init rfl
    refine ⟨groups, hstarts, ?_⟩
    rw [paragraph_items_eq m spans lines paragraph ss hss, ← hgroups]
    simp

/-- Witness of C37: the paragraph of the spans `a`, `b` and a bold `c`, which has two
runs. -/
theorem paragraph_is_well_bracketed_witness :
    content_state_init.font_name = none ∧
    ((∃ ss, paragraph_spans sample_run_spans [{ spans := [0, 1, 2] }]
        (paragraph_t.mk [0]).lines = some ss) ↔
      ∃ r, extract_document_to_docx_content_paragraph sample_libm sample_run_spans
        [{ spans := [0, 1, 2] }] content_state_init { lines := [0] } [] = .ok r) ∧
    ∀ state1 content1,
      extract_document_to_docx_content_paragraph sample_libm sample_run_spans
          [{ spans := [0, 1, 2] }] content_state_init { lines := [0] } []
        = .ok (state1, content1) →
      state1.font_name = none ∧
      ∃ items, content1 = [] ++ items ∧ well_bracketed items :=
  ⟨rfl, paragraph_is_well_bracketed sample_libm sample_run_spans [{ spans := [0, 1, 2] }]
    content_state_init { lines := [0] } [] rfl⟩

/-- The result of the loop without rotation, as the loop with rotation returns it. -/
theorem docx_content_rotation_page_unrotated (m : Libm) (page : page_t) (spacing : Int)
    (h : ∀ p ∈ page.paragraphs, ∃ span,
      docx_paragraph_span page.spans page.lines p = .ok span ∧
        m.atan2 span.ctm.b span.ctm.a = 0) :
    ∀ (fuel p : Nat) (state : content_state_t) (text_box_id : Int) (content : List docx_item),
      page.paragraphs.length - p + 1 ≤ fuel →
      docx_content_rotation_page m page spacing fuel p state text_box_id content
        = match docx_content_norotation_page m page.spans page.lines spacing
              (page.paragraphs.drop p) state content with
          | .error err => .error (.fault err)
          | .ok (state1, content1) => .ok (state1, text_box_id, content1) := by
  intro fuel
  induction fuel with
  | zero =>
    intro p state text_box_id content hfuel
    exfalso
    omega
  | succ fuel ih =>
    intro p state text_box_id content hfuel
    rw [docx_content_rotation_page]
    cases hget : page.paragraphs[p]? with
    | none =>
      have hp : page.paragraphs.length ≤ p := List.getElem?_eq_none_iff.1 hget
      rw [List.drop_of_length_le hp]
      rfl
    | some paragraph =>
      have hlt : p < page.paragraphs.length := (List.getElem?_eq_some_iff.1 hget).1
      have hdrop : page.paragraphs.drop p = paragraph :: page.paragraphs.drop (p + 1) := by
        rw [List.drop_eq_getElem_cons hlt]
        congr 1
        exact (List.getElem?_eq_some_iff.1 hget).2
      have hmem : paragraph ∈ page.paragraphs := List.mem_iff_getElem?.2 ⟨p, hget⟩
      obtain ⟨span, hspan, hrot⟩ := h paragraph hmem
      rw [hdrop, docx_content_norotation_page]
      simp only []
      cases hsp : docx_content_spacing page.spans page.lines spacing state paragraph
          content with
      | error err => rfl
      | ok content1 =>
        simp only [hspan, hrot, ne_eq, not_true_eq_false, if_false]
        cases hpar : extract_document_to_docx_content_paragraph m page.spans page.lines
            state paragraph content1 with
        | error err => rfl
        | ok r =>
          obtain ⟨state1, content2⟩ := r
          simp only []
          exact ih (p + 1) state1 text_box_id content2 (by omega)

theorem docx_content_rotation_pages_unrotated (m : Libm) (spacing : Int) :
    ∀ (pages : List page_t) (text_box_id : Int) (content : List docx_item),
      (∀ page ∈ pages, ∀ p ∈ page.paragraphs, ∃ span,
        docx_paragraph_span page.spans page.lines p = .ok span ∧
          m.atan2 span.ctm.b span.ctm.a = 0) →
      docx_content_rotation_pages m spacing pages text_box_id content
        = match docx_content_norotation_pages m spacing pages content with
          | .error err => .error (.fault err)
          | .ok content1 => .ok content1 := by
  intro pages
  induction pages with
  | nil => intro _ _ _; rfl
  | cons page rest ih =>
    intro text_box_id content h
    rw [docx_content_rotation_pages, docx_content_norotation_pages,
      docx_content_rotation_page_unrotated m page spacing
        (h page (List.mem_cons_self _ _)) _ 0 content_state_init text_box_id content
        (by omega),
      List.drop_zero]
    cases hpage : docx_content_norotation_page m page.spans page.lines spacing
        page.paragraphs content_state_init content with
    | error err => rfl
    | ok r =>
      obtain ⟨state1, content1⟩ := r
      simp only []
      exact ih text_box_id content1 (fun q hq => h q (List.mem_cons_of_mem _ hq))

/-- C35: for a document in which each paragraph has a first span, and the angle
`atan2(b, a)` of the CTM of that span is zero, `extract_document_to_docx_content` with
`rotation` on gives what it gives with `rotation` off: the same content, so the same
length, or the same error. This holds for each `spacing`; the budget of the loop over the
paragraphs is not used up, and with sound pointers in each paragraph both return
content. -/
theorem rotation_same_when_unrotated (m : Libm) (document : extract_document_t)
    (spacing rotation : Int)
    (h : ∀ page ∈ document.pages, ∀ p ∈ page.paragraphs, ∃ span,
      docx_paragraph_span page.spans page.lines p = .ok span ∧
        m.atan2 span.ctm.b span.ctm.a = 0) :
    extract_document_to_docx_content m document spacing rotation
      = extract_document_to_docx_content m document spacing 0 ∧
    extract_document_to_docx_content m document spacing rotation ≠ .error .out_of_fuel ∧
    ((∀ page ∈ document.pages, ∀ p ∈ page.paragraphs,
        (paragraph_spans page.spans page.lines p.lines).isSome) →
      ∃ content,
        extract_document_to_docx_content m document spacing rotation = .ok content ∧
        extract_document_to_docx_content m document spacing 0 = .ok content) := by
  have heq : extract_document_to_docx_content m document spacing rotation
      = extract_document_to_docx_content m document spacing 0 := by
    by_cases hr : rotation = 0
    · rw [hr]
    · unfold extract_document_to_docx_content
      rw [if_pos hr, if_neg (by simp)]
      unfold extract_document_to_docx_content_rotation
        extract_document_to_docx_content_norotation
      exact docx_content_rotation_pages_unrotated m spacing document.pages 0 [] h
  have hzero : extract_document_to_docx_content m document spacing 0
      = match extract_document_to_docx_content_norotation m document spacing with
        | .error err => .error (.fault err)
        | .ok content => .ok content := by
    unfold extract_document_to_docx_content
    rw [if_neg (by simp)]
  refine ⟨heq, ?_, ?_⟩
  · rw [heq, hzero]
    cases extract_document_to_docx_content_norotation m document spacing with
    | error err => simp
    | ok content => simp
  · intro hsome
    have hn := docx_content_norotation_pages_eq m spacing document.pages [] hsome
    rw [heq, hzero]
    unfold extract_document_to_docx_content_norotation
    rw [hn]
    exact ⟨_, rfl, rfl⟩

theorem sample_spacing_page_unrotated :
    ∀ page ∈ ({ pages := [sample_spacing_page] } : extract_document_t).pages,
      ∀ p ∈ page.paragraphs, ∃ span,
        docx_paragraph_span page.spans page.lines p = .ok span ∧
          sample_libm.atan2 span.ctm.b span.ctm.a = 0 := by
  intro page hpage p hp
  rw [List.mem_singleton.1 hpage] at hp ⊢
  simp only [sample_spacing_page, List.mem_cons, List.mem_singleton, List.not_mem_nil,
    or_false] at hp
  rcases hp with rfl | rfl | rfl
  · exact ⟨sample_span [sample_char 97 0 0 1], rfl, by decide!⟩
  · exact ⟨{ sample_span [sample_char 98 0 0 1] with ctm := sample_ctm }, rfl, by decide!⟩
  · exact ⟨{ sample_span [sample_char 99 0 0 1] with ctm := sample_ctm }, rfl, by decide!⟩

/-- Witness of C35: a page of three paragraphs whose CTMs scale and do not rotate, with
spacing and rotation on. -/
theorem rotation_same_when_unrotated_witness :
    extract_document_to_docx_content sample_libm { pages := [sample_spacing_page] } 1 1
      = extract_document_to_docx_content sample_libm { pages := [sample_spacing_page] } 1 0 ∧
    extract_document_to_docx_content sample_libm { pages := [sample_spacing_page] } 1 1
      ≠ .error .out_of_fuel ∧
    ((∀ page ∈ ({ pages := [sample_spacing_page] } : extract_document_t).pages,
        ∀ p ∈ page.paragraphs, (paragraph_spans page.spans page.lines p.lines).isSome) →
      ∃ content,
        extract_document_to_docx_content sample_libm { pages := [sample_spacing_page] } 1 1
          = .ok content ∧
        extract_document_to_docx_content sample_libm { pages := [sample_spacing_page] } 1 0
          = .ok content) :=
  rotation_same_when_unrotated sample_libm { pages := [sample_spacing_page] } 1 1
    sample_spacing_page_unrotated

/-! ## The inverse of the CTM and the order of paragraphs -/

/-- The text box finds its extent with `text_box_ctm_inverse` of the CTM of its first
span, from the first glyph of that span as origin. -/
theorem docx_content_text_box_inverse (m : Libm) (page : page_t) (p0 : Nat) (span : span_t)
    (rotate : ℚ) (state : content_state_t) (text_box_id : Int) (content : List docx_item)
    (r : Nat × content_state_t × Int × List docx_item)
    (h : docx_content_text_box m page p0 span rotate state text_box_id content = .ok r) :
    ∃ c cs extent, span.chars = c :: cs ∧
      docx_extent_paragraphs m page.spans page.lines rotate { x := c.x, y := c.y }
        (text_box_ctm_inverse span.ctm) (page.paragraphs.drop p0) p0 { x := 0, y := 0 }
        = .ok (r.1, extent) := by
  unfold docx_content_text_box at h
  split at h
  · cases h
  · rename_i c cs hc
    simp only [] at h
    split at h
    · cases h
    · rename_i p1 extent hext
      split at h
      · cases h
      · split at h
        · cases h
        · cases h
          exact ⟨c, cs, extent, hc, hext⟩

/-- C38: the `ctm_inverse` of a text box inverts the linear part of the CTM: when
`a*d - b*c ≠ 0`, the products `ctm_inverse.a * dx + ctm_inverse.b * dy` and
`ctm_inverse.c * dx + ctm_inverse.d * dy` that the extent loop forms give `u` and `v` for
`(dx, dy) = (a*u + b*v, c*u + d*v)`; when `a*d - b*c = 0` it is `(1, 0, 0, 1)`. Its `e` and
`f` are `0` in both cases. -/
theorem ctm_inverse_inverts (ctm : matrix_t) :
    (ctm.a * ctm.d - ctm.b * ctm.c ≠ 0 → ∀ u v : ℚ,
      (text_box_ctm_inverse ctm).a * (ctm.a * u + ctm.b * v)
          + (text_box_ctm_inverse ctm).b * (ctm.c * u + ctm.d * v) = u ∧
      (text_box_ctm_inverse ctm).c * (ctm.a * u + ctm.b * v)
          + (text_box_ctm_inverse ctm).d * (ctm.c * u + ctm.d * v) = v) ∧
    (ctm.a * ctm.d - ctm.b * ctm.c = 0 →
      text_box_ctm_inverse ctm = { a := 1, b := 0, c := 0, d := 1, e := 0, f := 0 }) ∧
    (text_box_ctm_inverse ctm).e = 0 ∧ (text_box_ctm_inverse ctm).f = 0 := by
  refine ⟨?_, ?_, ?_, ?_⟩
  · intro hdet u v
    unfold text_box_ctm_inverse
    simp only [if_pos hdet]
    constructor
    · field_simp
      ring
    · field_simp
      ring
  · intro hdet
    unfold text_box_ctm_inverse
    simp only [hdet, ne_eq, not_true_eq_false, if_false]
  · unfold text_box_ctm_inverse
    simp only []
    split_ifs <;> rfl
  · unfold text_box_ctm_inverse
    simp only []
    split_ifs <;> rfl

/-- The inverse for the CTM of a quarter turn scaled by two, and the fallback for a CTM
of determinant zero. -/
theorem sample_ctm_inverse :
    text_box_ctm_inverse { a := 0, b := 2, c := -2, d := 0, e := 5, f := 7 }
      = { a := 0, b := -1 / 2, c := 1 / 2, d := 0, e := 0, f := 0 } ∧
    text_box_ctm_inverse { a := 1, b := 2, c := 2, d := 4, e := 5, f := 7 }
      = { a := 1, b := 0, c := 0, d := 1, e := 0, f := 0 } := by
  decide!

theorem paragraph_first_span_chain {spans : List span_t} {lines : List line_t}
    {p : paragraph_t} {s : span_t} (h : paragraph_first_span spans lines p = some s) :
    ∃ li l i, p.lines.head? = some li ∧ lines[li]? = some l ∧ l.spans.head? = some i ∧
      spans[i]? = some s := by
  unfold paragraph_first_span at h
  cases h1 : p.lines.head? with
  | none => rw [h1] at h; cases h
  | some li =>
    rw [h1] at h
    simp only [Option.some_bind] at h
    cases h2 : lines[li]? with
    | none => rw [h2] at h; cases h
    | some l =>
      rw [h2] at h
      simp only [Option.some_bind] at h
      cases h3 : l.spans.head? with
      | none => rw [h3] at h; cases h
      | some i =>
        rw [h3] at h
        simp only [Option.some_bind] at h
        exact ⟨li, l, i, rfl, h2, h3, h⟩

theorem s_sign_neg (x : ℚ) : s_sign (-x) = -s_sign x := by
  unfold s_sign
  rcases lt_trichotomy x 0 with h | h | h
  · rw [if_neg (by linarith), if_pos (by linarith), if_pos h]
    rfl
  · subst h
    simp
  · rw [if_pos (by linarith), if_neg (by linarith), if_pos h]

theorem matrix_cmp4_swap (x y : matrix_t) : matrix_cmp4 y x = -matrix_cmp4 x y := by
  have ha : s_sign (y.a - x.a) = -s_sign (x.a - y.a) := by rw [← s_sign_neg]; congr 1; ring
  have hb : s_sign (y.b - x.b) = -s_sign (x.b - y.b) := by rw [← s_sign_neg]; congr 1; ring
  have hc : s_sign (y.c - x.c) = -s_sign (x.c - y.c) := by rw [← s_sign_neg]; congr 1; ring
  have hd : s_sign (y.d - x.d) = -s_sign (x.d - y.d) := by rw [← s_sign_neg]; congr 1; ring
  unfold matrix_cmp4
  rw [ha, hb, hc, hd]
  simp only [ne_eq, neg_eq_zero]
  split_ifs <;> simp

/-- What `paragraphs_cmp` returns for two paragraphs whose first spans hold a glyph: the
sign of the first difference of the CTMs, or else the side on which the first glyph of the
second lies, at the one angle of the two first spans. -/
theorem paragraphs_cmp_eq (m : Libm) (spans : List span_t) (lines : List line_t)
    (p q : paragraph_t) (sa sb : span_t) (ga gb : char_t)
    (hp : paragraph_first_span spans lines p = some sa)
    (hq : paragraph_first_span spans lines q = some sb)
    (hga : sa.chars.head? = some ga) (hgb : sb.chars.head? = some gb) :
    paragraphs_cmp m spans lines p q
      = .ok (if matrix_cmp4 sa.ctm sb.ctm ≠ 0 then matrix_cmp4 sa.ctm sb.ctm
          else if line_distance m ga.x ga.y gb.x gb.y (span_angle m sa) > 0 then -1
          else if line_distance m ga.x ga.y gb.x gb.y (span_angle m sa) < 0 then 1
          else 0) := by
  obtain ⟨la, a_line, ia, h1a, h2a, h3a, h4a⟩ := paragraph_first_span_chain hp
  obtain ⟨lb, b_line, ib, h1b, h2b, h3b, h4b⟩ := paragraph_first_span_chain hq
  unfold paragraphs_cmp
  simp only [paragraph_line_first, h1a, h1b, line_at, h2a, h2b, line_span_first_eq_ok h3a,
    line_span_first_eq_ok h3b, span_at_eq_ok h4a, span_at_eq_ok h4b]
  by_cases hc : matrix_cmp4 sa.ctm sb.ctm = 0
  · have hang : span_angle m sb = span_angle m sa := by
      have := (matrix_cmp4_eq_zero_iff sa.ctm sb.ctm).1 hc
      unfold span_angle
      rw [this.1, this.2.2.1]
    have hmid : (span_angle m sa + span_angle m sa) / 2 = span_angle m sa := by ring
    rw [if_neg (not_not.2 hc), if_neg (not_not.2 hc), line_angle_eq m h3a h4a,
      line_angle_eq m h3b h4b]
    simp only [hang, sub_self, abs_zero, hmid, line_item_first_eq h3a h4a,
      line_item_first_eq h3b h4b, span_char_first_eq_ok hga, span_char_first_eq_ok hgb]
    rw [if_neg (by norm_num)]
    split_ifs <;> rfl
  · rw [if_pos hc, if_pos hc]

/-- C40: for two paragraphs whose first spans hold a glyph and have CTMs that
`matrix_cmp4` finds equal, the angles of the two first lines are one angle, the test
`fabs(a_angle - b_angle) > 3.14/2` of `paragraphs_cmp` is false, and `paragraphs_cmp`
returns `-1`, `+1` or `0` as `line_distance` at that angle is positive, negative or zero. -/
theorem paragraphs_cmp_never_gives_up (m : Libm) (spans : List span_t) (lines : List line_t)
    (p q : paragraph_t) (sa sb : span_t) (ga gb : char_t)
    (hp : paragraph_first_span spans lines p = some sa)
    (hq : paragraph_first_span spans lines q = some sb)
    (hga : sa.chars.head? = some ga) (hgb : sb.chars.head? = some gb)
    (hcmp : matrix_cmp4 sa.ctm sb.ctm = 0) :
    ∃ a_ptr b_ptr a_line b_line angle,
      paragraph_line_first p = .ok a_ptr ∧ paragraph_line_first q = .ok b_ptr ∧
      line_at lines a_ptr = .ok a_line ∧ line_at lines b_ptr = .ok b_line ∧
      line_angle m spans a_line = .ok angle ∧ line_angle m spans b_line = .ok angle ∧
      ¬ (|angle - angle| > (314 / 100 : ℚ) / 2) ∧ (angle + angle) / 2 = angle ∧
      paragraphs_cmp m spans lines p q
        = .ok (if line_distance m ga.x ga.y gb.x gb.y angle > 0 then -1
            else if line_distance m ga.x ga.y gb.x gb.y angle < 0 then 1
            else 0) := by
  obtain ⟨la, a_line, ia, h1a, h2a, h3a, h4a⟩ := paragraph_first_span_chain hp
  obtain ⟨lb, b_line, ib, h1b, h2b, h3b, h4b⟩ := paragraph_first_span_chain hq
  have hang : span_angle m sb = span_angle m sa := by
    have := (matrix_cmp4_eq_zero_iff sa.ctm sb.ctm).1 hcmp
    unfold span_angle
    rw [this.1, this.2.2.1]
  refine ⟨la, lb, a_line, b_line, span_angle m sa, ?_, ?_, ?_, ?_, line_angle_eq m h3a h4a,
    ?_, ?_, by ring, ?_⟩
  · simp only [paragraph_line_first, h1a]
  · simp only [paragraph_line_first, h1b]
  · simp only [line_at, h2a]
  · simp only [line_at, h2b]
  · rw [line_angle_eq m h3b h4b, hang]
  · rw [sub_self, abs_zero]
    norm_num
  · rw [paragraphs_cmp_eq m spans lines p q sa sb ga gb hp hq hga hgb,
      if_neg (not_not.2 hcmp)]

theorem line_distance_swap (m : Libm) (ax ay bx «by» angle : ℚ) :
    line_distance m bx «by» ax ay angle = -line_distance m ax ay bx «by» angle := by
  unfold line_distance
  ring

/-- C34: for paragraphs whose first spans hold a glyph, `paragraphs_cmp` returns, and its
values are those of a consistent ordering: `cmp(x, y) = -cmp(y, x)`, `cmp(x, x) = 0`, and
`cmp(x, y) <= 0` with `cmp(y, z) <= 0` gives `cmp(x, z) <= 0`. -/
theorem paragraphs_cmp_consistent (m : Libm) (spans : List span_t) (lines : List line_t)
    (x y z : paragraph_t) (sx sy sz : span_t)
    (hx : paragraph_first_span spans lines x = some sx)
    (hy : paragraph_first_span spans lines y = some sy)
    (hz : paragraph_first_span spans lines z = some sz)
    (hcx : sx.chars ≠ []) (hcy : sy.chars ≠ []) (hcz : sz.chars ≠ []) :
    ∃ dxy dyx dyz dxz : Int,
      paragraphs_cmp m spans lines x y = .ok dxy ∧
      paragraphs_cmp m spans lines y x = .ok dyx ∧
      paragraphs_cmp m spans lines y z = .ok dyz ∧
      paragraphs_cmp m spans lines x z = .ok dxz ∧
      dxy = -dyx ∧
      paragraphs_cmp m spans lines x x = .ok 0 ∧
      (dxy ≤ 0 → dyz ≤ 0 → dxz ≤ 0) := by
  obtain ⟨gx, hgx⟩ := exists_head_of_ne_nil hcx
  obtain ⟨gy, hgy⟩ := exists_head_of_ne_nil hcy
  obtain ⟨gz, hgz⟩ := exists_head_of_ne_nil hcz
  have hxy := paragraphs_cmp_eq m spans lines x y sx sy gx gy hx hy hgx hgy
  have hyx := paragraphs_cmp_eq m spans lines y x sy sx gy gx hy hx hgy hgx
  have hyz := paragraphs_cmp_eq m spans lines y z sy sz gy gz hy hz hgy hgz
  have hxz := paragraphs_cmp_eq m spans lines x z sx sz gx gz hx hz hgx hgz
  have hxx := paragraphs_cmp_eq m spans lines x x sx sx gx gx hx hx hgx hgx
  refine ⟨_, _, _, _, hxy, hyx, hyz, hxz, ?_, ?_, ?_⟩
  · have hswap := matrix_cmp4_swap sx.ctm sy.ctm
    by_cases hc : matrix_cmp4 sx.ctm sy.ctm = 0
    · have hc' : matrix_cmp4 sy.ctm sx.ctm = 0 := by rw [hswap, hc]; rfl
      have hang : span_angle m sy = span_angle m sx := by
        have := (matrix_cmp4_eq_zero_iff sx.ctm sy.ctm).1 hc
        unfold span_angle
        rw [this.1, this.2.2.1]
      rw [if_neg (not_not.2 hc), if_neg (not_not.2 hc'), hang,
        line_distance_swap m gx.x gx.y gy.x gy.y]
      rcases lt_trichotomy (line_distance m gx.x gx.y gy.x gy.y (span_angle m sx)) 0 with
        h | h | h
      · rw [if_neg (by linarith), if_pos h, if_pos (by linarith)]
        rfl
      · rw [h]
        simp
      · rw [if_pos h, if_neg (by linarith), if_pos (by linarith)]
    · have hc' : matrix_cmp4 sy.ctm sx.ctm ≠ 0 := by
        rw [hswap]
        simpa using hc
      rw [if_pos hc, if_pos hc', hswap, neg_neg]
  · have hzero : matrix_cmp4 sx.ctm sx.ctm = 0 := by
      have := matrix_cmp4_swap sx.ctm sx.ctm
      omega
    have hdist : line_distance m gx.x gx.y gx.x gx.y (span_angle m sx) = 0 := by
      unfold line_distance
      ring
    rw [hxx, if_neg (not_not.2 hzero), hdist]
    simp
  · intro h1 h2
    rw [paragraphs_cmp_le_iff m spans lines x y _ hxy] at h1
    rw [paragraphs_cmp_le_iff m spans lines y z _ hyz] at h2
    rw [paragraphs_cmp_le_iff m spans lines x z _ hxz]
    exact le_trans h1 h2

/-- Witness of C34: the paragraphs of `b` at `(0, 10)` and of `a` at `(0, 0)`. -/
theorem paragraphs_cmp_consistent_witness :
    paragraph_first_span sample_far_spans sample_two_lines { lines := [0] }
      = some (sample_span [sample_char 98 0 10 1]) ∧
    paragraph_first_span sample_far_spans sample_two_lines { lines := [1] }
      = some (sample_span [sample_char 97 0 0 1]) ∧
    (sample_span [sample_char 98 0 10 1]).chars ≠ [] ∧
    (sample_span [sample_char 97 0 0 1]).chars ≠ [] ∧
    ∃ dxy dyx dyz dxz : Int,
      paragraphs_cmp sample_libm sample_far_spans sample_two_lines { lines := [0] }
        { lines := [1] } = .ok dxy ∧
      paragraphs_cmp sample_libm sample_far_spans sample_two_lines { lines := [1] }
        { lines := [0] } = .ok dyx ∧
      paragraphs_cmp sample_libm sample_far_spans sample_two_lines { lines := [1] }
        { lines := [0] } = .ok dyz ∧
      paragraphs_cmp sample_libm sample_far_spans sample_two_lines { lines := [0] }
        { lines := [0] } = .ok dxz ∧
      dxy = -dyx ∧
      paragraphs_cmp sample_libm sample_far_spans sample_two_lines { lines := [0] }
        { lines := [0] } = .ok 0 ∧
      (dxy ≤ 0 → dyz ≤ 0 → dxz ≤ 0) :=
  ⟨rfl, rfl, by decide, by decide,
    paragraphs_cmp_consistent sample_libm sample_far_spans sample_two_lines { lines := [0] }
      { lines := [1] } { lines := [0] } (sample_span [sample_char 98 0 10 1])
      (sample_span [sample_char 97 0 0 1]) (sample_span [sample_char 98 0 10 1])
      rfl rfl rfl (by decide) (by decide) (by decide)⟩

/-- The two paragraphs of the sample compare as `+1` and `-1`: `b` lies above `a`. -/
theorem sample_paragraphs_cmp :
    paragraphs_cmp sample_libm sample_far_spans sample_two_lines { lines := [0] }
      { lines := [1] } = .ok 1 ∧
    paragraphs_cmp sample_libm sample_far_spans sample_two_lines { lines := [1] }
      { lines := [0] } = .ok (-1) := by
  decide!

/-- Witness of C40: the paragraphs of `b` at `(0, 10)` and of `a` at `(0, 0)`. -/
theorem paragraphs_cmp_never_gives_up_witness :
    paragraph_first_span sample_far_spans sample_two_lines { lines := [0] }
      = some (sample_span [sample_char 98 0 10 1]) ∧
    paragraph_first_span sample_far_spans sample_two_lines { lines := [1] }
      = some (sample_span [sample_char 97 0 0 1]) ∧
    (sample_span [sample_char 98 0 10 1]).chars.head? = some (sample_char 98 0 10 1) ∧
    (sample_span [sample_char 97 0 0 1]).chars.head? = some (sample_char 97 0 0 1) ∧
    matrix_cmp4 (sample_span [sample_char 98 0 10 1]).ctm
      (sample_span [sample_char 97 0 0 1]).ctm = 0 ∧
    ∃ a_ptr b_ptr a_line b_line angle,
      paragraph_line_first { lines := [0] } = .ok a_ptr ∧
      paragraph_line_first { lines := [1] } = .ok b_ptr ∧
      line_at sample_two_lines a_ptr = .ok a_line ∧
      line_at sample_two_lines b_ptr = .ok b_line ∧
      line_angle sample_libm sample_far_spans a_line = .ok angle ∧
      line_angle sample_libm sample_far_spans b_line = .ok angle ∧
      ¬ (|angle - angle| > (314 / 100 : ℚ) / 2) ∧ (angle + angle) / 2 = angle ∧
      paragraphs_cmp sample_libm sample_far_spans sample_two_lines { lines := [0] }
          { lines := [1] }
        = .ok (if line_distance sample_libm (sample_char 98 0 10 1).x (sample_char 98 0 10 1).y
              (sample_char 97 0 0 1).x (sample_char 97 0 0 1).y angle > 0 then -1
            else if line_distance sample_libm (sample_char 98 0 10 1).x
              (sample_char 98 0 10 1).y (sample_char 97 0 0 1).x (sample_char 97 0 0 1).y
              angle < 0 then 1
            else 0) :=
  ⟨rfl, rfl, rfl, rfl, by decide!,
    paragraphs_cmp_never_gives_up sample_libm sample_far_spans sample_two_lines { lines := [0] }
      { lines := [1] } (sample_span [sample_char 98 0 10 1]) (sample_span [sample_char 97 0 0 1])
      (sample_char 98 0 10 1) (sample_char 97 0 0 1) rfl rfl rfl rfl (by decide!)⟩

/-! ## The end of a span, the places of the glyphs, and the step budget of the joins -/

theorem span_end_overlap_chars (m : Libm) (span : span_t) (chars : List char_t)
    (prev cur : char_t) :
    span_end_overlap m { span with chars := chars } prev cur ↔ span_end_overlap m span prev cur :=
  Iff.rfl

theorem span_end_apart_chars (m : Libm) (span : span_t) (chars : List char_t)
    (prev cur : char_t) :
    span_end_apart m { span with chars := chars } prev cur ↔ span_end_apart m span prev cur :=
  Iff.rfl

theorem page_span_end_clean_single (m : Libm) (init : List span_t) (span : span_t) (c : char_t)
    (h : span.chars = [c]) :
    page_span_end_clean m (init ++ [span]) = .ok (init ++ [span]) := by
  have hlast : (init ++ [span]).getLast? = some span := by simp
  unfold page_span_end_clean
  simp only [hlast, h, List.length_singleton]
  rfl

/-- C33: on a page whose last span is not empty `page_span_end_clean` returns; the spans
before the last one are left as they are, and the last span and a new span after it, if
any, hold a glyph, so that a page of non-empty spans stays one. The glyphs of the page, span
after span, are those before, or those before without the last-but-one glyph of the last
span, which is then a space. -/
theorem span_end_clean_keeps_spans_nonempty (m : Libm) (init : List span_t) (span : span_t)
    (hne : span.chars ≠ []) :
    ∃ spans1, page_span_end_clean m (init ++ [span]) = .ok spans1 ∧
      (∃ tail, spans1 = init ++ tail ∧ tail ≠ [] ∧ ∀ s ∈ tail, s.chars ≠ []) ∧
      ((∀ s ∈ init, s.chars ≠ []) → ∀ s ∈ spans1, s.chars ≠ []) ∧
      (spans1 = init ++ [span] ∨
        (∃ pre prev cur, span.chars = pre ++ [prev, cur] ∧
          spans1 = init ++ [{ span with chars := pre ++ [prev] }, { span with chars := [cur] }]) ∨
        (∃ pre prev cur, span.chars = pre ++ [prev, cur] ∧ prev.ucs = 32 ∧
          spans1 = init ++ [{ span with chars := pre ++ [cur] }])) ∧
      (spans1.flatMap span_t.chars = (init ++ [span]).flatMap span_t.chars ∨
        ∃ pre prev cur, span.chars = pre ++ [prev, cur] ∧ prev.ucs = 32 ∧
          spans1.flatMap span_t.chars = init.flatMap span_t.chars ++ (pre ++ [cur])) := by
  have hall : ∀ (spans1 tail : List span_t), spans1 = init ++ tail →
      (∀ s ∈ tail, s.chars ≠ []) → (∀ s ∈ init, s.chars ≠ []) → ∀ s ∈ spans1, s.chars ≠ [] := by
    intro spans1 tail h1 h2 h3 s hs
    rw [h1] at hs
    rcases List.mem_append.1 hs with hs | hs
    · exact h3 s hs
    · exact h2 s hs
  rcases List.eq_nil_or_concat span.chars with h | ⟨l, cur, hl⟩
  · exact absurd h hne
  rcases List.eq_nil_or_concat l with h | ⟨pre, prev, hpre⟩
  · subst h
    have hone : span.chars = [cur] := by rw [hl]; rfl
    have htail : ∀ s ∈ [span], s.chars ≠ [] := by
      intro s hs
      rw [List.mem_singleton.1 hs]
      exact hne
    exact ⟨init ++ [span], page_span_end_clean_single m init span cur hone,
      ⟨[span], rfl, by simp, htail⟩, hall _ _ rfl htail, Or.inl rfl, Or.inl rfl⟩
  · have hchars : span.chars = pre ++ [prev, cur] := by
      rw [hl, hpre]; simp
    have heq := page_span_end_clean_eq m init span pre prev cur hchars
    by_cases hs : prev.ucs = 32
    · rw [if_pos hs] at heq
      by_cases ho : span_end_overlap m span prev cur
      · rw [if_pos ho] at heq
        have htail : ∀ s ∈ [({ span with chars := pre ++ [cur] } : span_t)], s.chars ≠ [] := by
          intro s hs
          rw [List.mem_singleton.1 hs]
          simp
        refine ⟨_, heq, ⟨_, rfl, by simp, htail⟩, hall _ _ rfl htail,
          Or.inr (Or.inr ⟨pre, prev, cur, hchars, hs, rfl⟩),
          Or.inr ⟨pre, prev, cur, hchars, hs, ?_⟩⟩
        simp
      · rw [if_neg ho] at heq
        have htail : ∀ s ∈ [span], s.chars ≠ [] := by
          intro s hs
          rw [List.mem_singleton.1 hs]
          exact hne
        exact ⟨_, heq, ⟨[span], rfl, by simp, htail⟩, hall _ _ rfl htail, Or.inl rfl,
          Or.inl rfl⟩
    · rw [if_neg hs] at heq
      by_cases ha : span_end_apart m span prev cur
      · rw [if_pos ha] at heq
        have htail : ∀ s ∈ [({ span with chars := pre ++ [prev] } : span_t),
            { span with chars := [cur] }], s.chars ≠ [] := by
          intro s hs
          rcases List.mem_cons.1 hs with rfl | hs
          · simp
          · rw [List.mem_singleton.1 hs]
            simp
        refine ⟨_, heq, ⟨_, rfl, by simp, htail⟩, hall _ _ rfl htail,
          Or.inr (Or.inl ⟨pre, prev, cur, hchars, rfl⟩), Or.inl ?_⟩
        simp [hchars]
      · rw [if_neg ha] at heq
        have htail : ∀ s ∈ [span], s.chars ≠ [] := by
          intro s hs
          rw [List.mem_singleton.1 hs]
          exact hne
        exact ⟨_, heq, ⟨[span], rfl, by simp, htail⟩, hall _ _ rfl htail, Or.inl rfl,
          Or.inl rfl⟩

/-- Witness of C33: the span of `a`, a space and `x`, with `x` at the place of the space. -/
theorem span_end_clean_keeps_spans_nonempty_witness :
    (sample_span [sample_char 97 0 0 1, sample_char 32 1 0 1, sample_char 120 1 0 1]).chars
      ≠ [] ∧
    page_span_end_clean sample_libm
        [sample_span [sample_char 97 0 0 1, sample_char 32 1 0 1, sample_char 120 1 0 1]]
      = .ok [sample_span [sample_char 97 0 0 1, sample_char 120 1 0 1]] ∧
    ∃ spans1,
      page_span_end_clean sample_libm
        ([] ++ [sample_span [sample_char 97 0 0 1, sample_char 32 1 0 1,
          sample_char 120 1 0 1]]) = .ok spans1 ∧
      (∃ tail, spans1 = [] ++ tail ∧ tail ≠ [] ∧ ∀ s ∈ tail, s.chars ≠ []) ∧
      ((∀ s ∈ ([] : List span_t), s.chars ≠ []) → ∀ s ∈ spans1, s.chars ≠ []) ∧
      (spans1 = [] ++ [sample_span [sample_char 97 0 0 1, sample_char 32 1 0 1,
          sample_char 120 1 0 1]] ∨
        (∃ pre prev cur,
          (sample_span [sample_char 97 0 0 1, sample_char 32 1 0 1,
            sample_char 120 1 0 1]).chars = pre ++ [prev, cur] ∧
          spans1 = [] ++ [{ sample_span [sample_char 97 0 0 1, sample_char 32 1 0 1,
              sample_char 120 1 0 1] with chars := pre ++ [prev] },
            { sample_span [sample_char 97 0 0 1, sample_char 32 1 0 1,
              sample_char 120 1 0 1] with chars := [cur] }]) ∨
        (∃ pre prev cur,
          (sample_span [sample_char 97 0 0 1, sample_char 32 1 0 1,
            sample_char 120 1 0 1]).chars = pre ++ [prev, cur] ∧ prev.ucs = 32 ∧
          spans1 = [] ++ [{ sample_span [sample_char 97 0 0 1, sample_char 32 1 0 1,
              sample_char 120 1 0 1] with chars := pre ++ [cur] }])) ∧
      (spans1.flatMap span_t.chars
          = ([] ++ [sample_span [sample_char 97 0 0 1, sample_char 32 1 0 1,
              sample_char 120 1 0 1]]).flatMap span_t.chars ∨
        ∃ pre prev cur,
          (sample_span [sample_char 97 0 0 1, sample_char 32 1 0 1,
            sample_char 120 1 0 1]).chars = pre ++ [prev, cur] ∧ prev.ucs = 32 ∧
          spans1.flatMap span_t.chars
            = ([] : List span_t).flatMap span_t.chars ++ (pre ++ [cur])) :=
  ⟨by decide, by decide!,
    span_end_clean_keeps_spans_nonempty sample_libm []
      (sample_span [sample_char 97 0 0 1, sample_char 32 1 0 1, sample_char 120 1 0 1])
      (by decide)⟩

/-- C39: on a page whose last span holds the glyphs `pre`, then `prev` and `cur`,
`page_span_end_clean` returns, without a read outside the array, one of three pages: the
page itself, the page with `prev` removed, or the page with `cur` moved into a new span.
Which of the three does not depend on `pre` nor on the spans before the last one, and `pre`
is kept as it is: only `prev` and `cur`, at `chars_num-2` and `chars_num-1`, are read or
written. On a last span of one glyph it returns the page unchanged. -/
theorem span_end_clean_reads_last_two (m : Libm) (span : span_t) (prev cur : char_t) :
    ((∀ (init : List span_t) (pre : List char_t),
        page_span_end_clean m (init ++ [{ span with chars := pre ++ [prev, cur] }])
          = .ok (init ++ [{ span with chars := pre ++ [prev, cur] }])) ∨
      (∀ (init : List span_t) (pre : List char_t),
        page_span_end_clean m (init ++ [{ span with chars := pre ++ [prev, cur] }])
          = .ok (init ++ [{ span with chars := pre ++ [cur] }])) ∨
      (∀ (init : List span_t) (pre : List char_t),
        page_span_end_clean m (init ++ [{ span with chars := pre ++ [prev, cur] }])
          = .ok (init ++ [{ span with chars := pre ++ [prev] },
              { span with chars := [cur] }]))) ∧
    (∀ (init : List span_t) (c : char_t),
      page_span_end_clean m (init ++ [{ span with chars := [c] }])
        = .ok (init ++ [{ span with chars := [c] }])) := by
  have heq : ∀ (init : List span_t) (pre : List char_t),
      page_span_end_clean m (init ++ [{ span with chars := pre ++ [prev, cur] }]) =
        .ok (if prev.ucs = 32 then
              if span_end_overlap m span prev cur then
                init ++ [{ span with chars := pre ++ [cur] }]
              else init ++ [{ span with chars := pre ++ [prev, cur] }]
            else if span_end_apart m span prev cur then
              init ++ [{ span with chars := pre ++ [prev] }, { span with chars := [cur] }]
            else init ++ [{ span with chars := pre ++ [prev, cur] }]) := by
    intro init pre
    exact page_span_end_clean_eq m init { span with chars := pre ++ [prev, cur] } pre prev cur
      rfl
  refine ⟨?_, fun init c => page_span_end_clean_single m init _ c rfl⟩
  by_cases hs : prev.ucs = 32
  · by_cases ho : span_end_overlap m span prev cur
    · refine Or.inr (Or.inl fun init pre => ?_)
      rw [heq, if_pos hs, if_pos ho]
    · refine Or.inl fun init pre => ?_
      rw [heq, if_pos hs, if_neg ho]
  · by_cases ha : span_end_apart m span prev cur
    · refine Or.inr (Or.inr fun init pre => ?_)
      rw [heq, if_neg hs, if_pos ha]
    · refine Or.inl fun init pre => ?_
      rw [heq, if_neg hs, if_neg ha]

theorem spans_glyphs_append (l1 l2 : List span_t) :
    spans_glyphs (l1 ++ l2) = spans_glyphs l1 ++ spans_glyphs l2 := by
  simp [spans_glyphs, List.flatMap_append]

theorem spans_glyphs_singleton (s : span_t) :
    spans_glyphs [s] = s.chars.map char_place := by
  simp [spans_glyphs]

/-- What `page_span_end_clean` does to the glyphs of a page and to the CTM of its last
span. -/
theorem page_span_end_clean_glyphs (m : Libm) (init : List span_t) (span : span_t)
    (hne : span.chars ≠ []) :
    ∃ spans1 last, page_span_end_clean m (init ++ [span]) = .ok spans1 ∧
      spans1.getLast? = some last ∧ last.ctm = span.ctm ∧
      List.Sublist (spans_glyphs spans1) (spans_glyphs (init ++ [span])) := by
  rcases List.eq_nil_or_concat span.chars with h | ⟨l, cur, hl⟩
  · exact absurd h hne
  rcases List.eq_nil_or_concat l with h | ⟨pre, prev, hpre⟩
  · subst h
    have hone : span.chars = [cur] := by rw [hl]; rfl
    exact ⟨init ++ [span], span, page_span_end_clean_single m init span cur hone, by simp, rfl,
      List.Sublist.refl _⟩
  · have hchars : span.chars = pre ++ [prev, cur] := by
      rw [hl, hpre]; simp
    have heq := page_span_end_clean_eq m init span pre prev cur hchars
    by_cases hs : prev.ucs = 32
    · rw [if_pos hs] at heq
      by_cases ho : span_end_overlap m span prev cur
      · rw [if_pos ho] at heq
        refine ⟨_, { span with chars := pre ++ [cur] }, heq, by simp, rfl, ?_⟩
        rw [spans_glyphs_append, spans_glyphs_append, spans_glyphs_singleton,
          spans_glyphs_singleton, hchars]
        refine List.Sublist.append (List.Sublist.refl _) (List.Sublist.map _ ?_)
        exact List.Sublist.append (List.Sublist.refl _) (List.Sublist.cons _ (List.Sublist.refl _))
      · rw [if_neg ho] at heq
        exact ⟨_, span, heq, by simp, rfl, List.Sublist.refl _⟩
    · rw [if_neg hs] at heq
      by_cases ha : span_end_apart m span prev cur
      · rw [if_pos ha] at heq
        refine ⟨_, { span with chars := [cur] }, heq, by simp, rfl, ?_⟩
        rw [spans_glyphs_append, spans_glyphs_append]
        simp [spans_glyphs, hchars]
      · rw [if_neg ha] at heq
        exact ⟨_, span, heq, by simp, rfl, List.Sublist.refl _⟩

theorem set_last_append {α : Type} (init : List α) (x y : α) :
    (init ++ [x]).set ((init ++ [x]).length - 1) y = init ++ [y] := by
  simp

theorem sublist_of_eq {α : Type} {l1 l2 : List α} (h : l1 = l2) : l1.Sublist l2 :=
  h ▸ List.Sublist.refl l1

theorem load_char_finish (m : Libm) (init : List span_t) (span : span_t)
    (ox oy ox1 oy1 : ℚ) (spans1 : List span_t) (hne : span.chars ≠ [])
    (h : (match page_span_end_clean m (init ++ [span]) with
        | .error err => .error err
        | .ok spans2 => .ok (ox, oy, spans2))
      = (.ok (ox1, oy1, spans1) : Except Fault (ℚ × ℚ × List span_t))) :
    ox1 = ox ∧ oy1 = oy ∧ ∃ last, spans1.getLast? = some last ∧ last.ctm = span.ctm ∧
      List.Sublist (spans_glyphs spans1) (spans_glyphs (init ++ [span])) := by
  obtain ⟨spans2, last, heq, hlast, hctm, hsub⟩ := page_span_end_clean_glyphs m init span hne
  rw [heq] at h
  simp only [Except.ok.injEq, Prod.mk.injEq] at h
  obtain ⟨h1, h2, h3⟩ := h
  subst h3
  exact ⟨h1.symm, h2.symm, last, hlast, hctm, hsub⟩

/-- A step of the loop over the `char` tags of a span, for either value of `autosplit`:
the page gains at most the glyph of the tag under the matrix of the `span` tag, and the CTM
of its last span stays that matrix moved by the offset. -/
theorem load_char_glyphs (m : Libm) (autosplit : Bool) (tag : extract_xml_tag_t)
    (offset_x offset_y : ℚ) (spans spans1 : List span_t) (offset_x1 offset_y1 : ℚ)
    (M : matrix_t) (hM : span_ctm_shifted M offset_x offset_y spans)
    (h : load_char m autosplit tag offset_x offset_y spans
      = .ok (offset_x1, offset_y1, spans1)) :
    ∃ g, tag_glyph M tag = some g ∧
      List.Sublist (spans_glyphs spans1) (spans_glyphs spans ++ [g]) ∧
      span_ctm_shifted M offset_x1 offset_y1 spans1 := by
  obtain ⟨span0, hlast, ha, hb, hc, hd, he, hf⟩ := hM
  obtain ⟨init, rfl⟩ : ∃ init, spans = init ++ [span0] := by
    rcases List.eq_nil_or_concat spans with e | ⟨init, x, e⟩
    · rw [e] at hlast; cases hlast
    · rw [e] at hlast ⊢
      simp at hlast
      exact ⟨init, by rw [hlast]; simp⟩
  unfold load_char at h
  split at h
  · rename_i x y hx hy
    simp only [hlast] at h
    split at h
    · rename_i adv ucs hadv hucs
      have hg : tag_glyph M tag
          = some (M.a * x + M.b * y + M.e, M.c * x + M.d * y + M.f, ucs, adv) := by
        simp only [tag_glyph, hx, hy, hadv, hucs]
      refine ⟨_, hg, ?_⟩
      by_cases hsplit : (autosplit && decide (y - offset_y ≠ 0)) = true
      · simp only [hsplit, if_true, true_and, set_last_append] at h
        by_cases hlen : span0.chars.length > 0
        · simp only [hlen, if_true, set_last_append] at h
          obtain ⟨h1, h2, last, hl, hctm, hsub⟩ :=
            load_char_finish m _ _ _ _ _ _ _ (by simp) h
          subst h1 h2
          refine ⟨hsub.trans (sublist_of_eq ?_), last, hl, ?_⟩
          · rw [spans_glyphs_append, spans_glyphs_singleton]
            simp only [List.nil_append, List.map_singleton, char_place, ha, hb, hc, hd, he, hf]
            simp only [List.append_cancel_left_eq, List.cons.injEq, Prod.mk.injEq, and_true]
            constructor <;> ring
          · rw [hctm]
            refine ⟨ha, hb, hc, hd, ?_, ?_⟩
            · show span0.ctm.e + span0.ctm.a * (offset_x1 - offset_x)
                + span0.ctm.b * (offset_y1 - offset_y) = _
              rw [ha, hb, he]; ring
            · show span0.ctm.f + span0.ctm.c * (offset_x1 - offset_x)
                + span0.ctm.d * (offset_y1 - offset_y) = _
              rw [hc, hd, hf]; ring
        · simp only [hlen, if_false, set_last_append] at h
          have hnil : span0.chars = [] := by
            cases hch : span0.chars with
            | nil => rfl
            | cons c cs => rw [hch] at hlen; simp at hlen
          obtain ⟨h1, h2, last, hl, hctm, hsub⟩ :=
            load_char_finish m _ _ _ _ _ _ _ (by simp) h
          subst h1 h2
          refine ⟨hsub.trans (sublist_of_eq ?_), last, hl, ?_⟩
          · rw [spans_glyphs_append, spans_glyphs_append, spans_glyphs_singleton,
              spans_glyphs_singleton]
            simp only [hnil, List.nil_append, List.append_nil, List.map_singleton, List.map_nil,
              char_place,
              ha, hb, hc, hd, he, hf]
            simp only [List.append_cancel_left_eq, List.cons.injEq, Prod.mk.injEq, and_true]
            constructor <;> ring
          · rw [hctm]
            refine ⟨ha, hb, hc, hd, ?_, ?_⟩
            · show span0.ctm.e + span0.ctm.a * (offset_x1 - offset_x)
                + span0.ctm.b * (offset_y1 - offset_y) = _
              rw [ha, hb, he]; ring
            · show span0.ctm.f + span0.ctm.c * (offset_x1 - offset_x)
                + span0.ctm.d * (offset_y1 - offset_y) = _
              rw [hc, hd, hf]; ring
      · simp only [hsplit, if_false, false_and, set_last_append, Bool.false_eq_true] at h
        obtain ⟨h1, h2, last, hl, hctm, hsub⟩ :=
          load_char_finish m _ _ _ _ _ _ _ (by simp) h
        subst h1 h2
        refine ⟨hsub.trans (sublist_of_eq ?_), last, hl, ?_⟩
        · rw [spans_glyphs_append, spans_glyphs_append, spans_glyphs_singleton,
            spans_glyphs_singleton]
          simp only [List.map_append, List.map_singleton, char_place, ha, hb, hc, hd, he, hf,
            List.append_assoc]
          simp only [List.append_cancel_left_eq, List.cons.injEq, Prod.mk.injEq, and_true]
          constructor <;> ring
        · rw [hctm]
          exact ⟨ha, hb, hc, hd, he, hf⟩
    · cases h
    · cases h
  · cases h
  · cases h

theorem events_glyphs_nil (cur : Option matrix_t) : events_glyphs cur [] = [] := by
  cases cur <;> rfl

theorem events_glyphs_tag (cur : Option matrix_t) (tag : extract_xml_tag_t)
    (rest : List xml_event) :
    events_glyphs cur (.tag tag :: rest)
      = if tag.name = "span" then
          match s_matrix_read (extract_xml_tag_attributes_find tag "ctm") with
          | .ok M => events_glyphs (some M) rest
          | .error _ => events_glyphs cur rest
        else if tag.name = "char" then
          match cur with
          | some M => (tag_glyph M tag).toList ++ events_glyphs cur rest
          | none => events_glyphs cur rest
        else events_glyphs cur rest := by
  cases cur <;> rfl

theorem events_glyphs_skip (cur : Option matrix_t) (tag : extract_xml_tag_t)
    (rest : List xml_event) (h1 : tag.name ≠ "span") (h2 : tag.name ≠ "char") :
    events_glyphs cur (.tag tag :: rest) = events_glyphs cur rest := by
  rw [events_glyphs_tag, if_neg h1, if_neg h2]

theorem events_glyphs_skip_sublist (cur : Option matrix_t) (tag : extract_xml_tag_t)
    (rest : List xml_event) (doc L : List (ℚ × ℚ × Nat × ℚ))
    (h1 : tag.name ≠ "span") (h2 : tag.name ≠ "char")
    (h : List.Sublist doc (L ++ events_glyphs cur rest)) :
    List.Sublist doc (L ++ events_glyphs cur (.tag tag :: rest)) := by
  rw [events_glyphs_skip cur tag rest h1 h2]
  exact h

/-- The glyphs of a loaded document, for either value of `autosplit`, against the glyphs of
the `char` tags that are read: from any point of the load on, the document holds the glyphs
kept so far and glyphs of the tags that follow, in their order. -/
theorem load_events_glyphs (m : Libm) (autosplit : Bool) (events : List xml_event) :
    ∀ (mode : load_mode) (done : List page_t) (spans : List span_t) (cur : Option matrix_t)
      (doc : extract_document_t) (L : List (ℚ × ℚ × Nat × ℚ)),
      load_events m autosplit mode done spans events = .ok doc →
      load_mode_shifted cur mode spans →
      List.Sublist (pages_glyphs done ++ spans_glyphs spans) L →
      List.Sublist (document_glyphs doc) (L ++ events_glyphs cur events) := by
  induction events with
  | nil =>
    intro mode done spans cur doc L h _ hL
    cases mode <;> simp [load_events] at h
    subst h
    rw [events_glyphs_nil, List.append_nil]
    exact (List.sublist_append_left _ _).trans hL
  | cons ev rest ih =>
    intro mode done spans cur doc L h hI hL
    cases ev with
    | failure => cases mode <;> simp [load_events] at h
    | tag tag =>
      cases mode with
      | document =>
        simp only [load_events] at h
        split_ifs at h with h1 h2
        · exact events_glyphs_skip_sublist cur tag rest _ L (by rw [h1]; decide)
            (by rw [h1]; decide) (ih _ _ _ cur _ L h trivial hL)
        · have h2 : tag.name = "page" := by simpa using h2
          refine events_glyphs_skip_sublist cur tag rest _ L (by rw [h2]; decide)
            (by rw [h2]; decide) (ih _ _ _ cur _ L h trivial ?_)
          exact (List.Sublist.append (List.Sublist.refl _) (List.nil_sublist _)).trans hL
      | page =>
        simp only [load_events] at h
        split_ifs at h with h1 h2 h3
        · refine events_glyphs_skip_sublist cur tag rest _ L (by rw [h1]; decide)
            (by rw [h1]; decide) (ih _ _ _ cur _ L h trivial ?_)
          have e : pages_glyphs (done ++ [{ spans := spans, lines := [], paragraphs := [] }])
              ++ spans_glyphs [] = pages_glyphs done ++ spans_glyphs spans := by
            simp [pages_glyphs, spans_glyphs]
          rw [e]
          exact hL
        · refine events_glyphs_skip_sublist cur tag rest _ L (by rw [h2]; decide)
            (by rw [h2]; decide) ?_
          revert h
          split
          · intro h; cases h
          · split_ifs
            · split
              · split_ifs
                · intro h; exact ih _ _ _ cur _ L h trivial hL
                · intro h; exact ih _ _ _ cur _ L h trivial hL
              · intro h; cases h
              · intro h; cases h
            · split
              · intro h; cases h
              · split
                · intro h; cases h
                · intro h; exact ih _ _ _ cur _ L h trivial hL
        · have h3 : tag.name = "span" := by simpa using h3
          revert h
          split
          · intro h; cases h
          · rename_i span hspan_ok
            intro h
            obtain ⟨ctm, trm, f, wmode, hctm, -, -, -, hspan⟩ := load_span_inv tag span hspan_ok
            rw [events_glyphs_tag, if_pos h3, hctm]
            refine ih _ _ _ (some ctm) _ L h ⟨ctm, rfl, span, by simp, ?_⟩ ?_
            · rw [hspan]
              refine ⟨rfl, rfl, rfl, rfl, ?_, ?_⟩ <;> simp
            · have e : spans_glyphs (spans ++ [span]) = spans_glyphs spans := by
                rw [spans_glyphs_append, spans_glyphs_singleton, hspan]
                simp
              rw [e]
              exact hL
      | span ox oy =>
        obtain ⟨M, hcur, hM⟩ := hI
        simp only [load_events] at h
        split_ifs at h with h1 h2
        · exact events_glyphs_skip_sublist cur tag rest _ L (by rw [h1]; decide)
            (by rw [h1]; decide) (ih _ _ _ cur _ L h trivial hL)
        · have h2 : tag.name = "char" := by simpa using h2
          revert h
          split
          · intro h; cases h
          · rename_i ox1 oy1 spans1 hchar_ok
            intro h
            obtain ⟨g, hg, hsub, hM1⟩ :=
              load_char_glyphs m autosplit tag ox oy spans spans1 ox1 oy1 M hM hchar_ok
            rw [events_glyphs_tag, if_neg (by rw [h2]; decide), if_pos h2, hcur]
            simp only [hg, Option.toList_some]
            rw [← List.append_assoc]
            refine ih _ _ _ (some M) _ (L ++ [g]) h ⟨M, rfl, hM1⟩ ?_
            refine (List.Sublist.append (List.Sublist.refl _) hsub).trans ?_
            rw [← List.append_assoc]
            exact List.Sublist.append hL (List.Sublist.refl _)
      | pixmap_line y hh =>
        simp only [load_events] at h
        split_ifs at h with h1
        have h1 : tag.name = "line" := by simpa using h1
        refine events_glyphs_skip_sublist cur tag rest _ L (by rw [h1]; decide)
          (by rw [h1]; decide) ?_
        revert h
        split
        · intro h; cases h
        · split_ifs
          · intro h; cases h
          · intro h; exact ih _ _ _ cur _ L h trivial hL
      | pixmap_line_end y hh =>
        simp only [load_events] at h
        split_ifs at h with h1 h2
        all_goals
          have h1 : tag.name = "/line" := by simpa using h1
          exact events_glyphs_skip_sublist cur tag rest _ L (by rw [h1]; decide)
            (by rw [h1]; decide) (ih _ _ _ cur _ L h trivial hL)
      | image_end =>
        simp only [load_events] at h
        split_ifs at h with h1
        have h1 : tag.name = "/image" := by simpa using h1
        exact events_glyphs_skip_sublist cur tag rest _ L (by rw [h1]; decide)
          (by rw [h1]; decide) (ih _ _ _ cur _ L h trivial hL)

/-- C32: for either value of `autosplit`, the glyphs of a document that the loader returns
are, in their order, glyphs of the `char` tags of the input, each at the position
`(a * x + b * y + e, c * x + d * y + f)` for the attributes `x` and `y` of its tag and the
`ctm` of the `span` tag before it, and with the `ucs` and `adv` of its tag. The position of
a glyph thus does not depend on `autosplit`: the move of `e` and `f` of the CTM of a span
cancels the offset taken off `x` and `y`. -/
theorem autosplit_keeps_glyph_positions (m : Libm) (events : List xml_event)
    (autosplit : Bool) (doc : extract_document_t)
    (h : extract_intermediate_to_document m events autosplit = .ok doc) :
    List.Sublist (document_glyphs doc) (events_glyphs none events) := by
  have key := load_events_glyphs m autosplit events .document [] [] none doc [] h trivial
    (List.Sublist.refl _)
  simpa using key

/-- Witness of C32: with autosplit on, the wide `b` starts a span whose CTM moves by
`(12, 30)`, and it stays at `(12, 30)`. -/
theorem autosplit_keeps_glyph_positions_witness :
    extract_intermediate_to_document sample_libm sample_autosplit_events true
      = .ok sample_autosplit_document ∧
    List.Sublist (document_glyphs sample_autosplit_document)
      (events_glyphs none sample_autosplit_events) :=
  ⟨by decide!, autosplit_keeps_glyph_positions sample_libm sample_autosplit_events true
    sample_autosplit_document (by decide!)⟩

/-- The glyphs of the sample: the positions are those of the tags with autosplit on and
off; with autosplit off `page_span_end_clean` removes the space, with autosplit on the `b`
is alone in its span and the space stays. -/
theorem sample_autosplit_glyphs :
    events_glyphs none sample_autosplit_events
      = [(10, 20, 97, 1), (12, 20, 32, 1), (12, 30, 98, 20)] ∧
    (extract_intermediate_to_document sample_libm sample_autosplit_events true).toOption.map
        document_glyphs
      = some [(10, 20, 97, 1), (12, 20, 32, 1), (12, 30, 98, 20)] ∧
    (extract_intermediate_to_document sample_libm sample_autosplit_events false).toOption.map
        document_glyphs
      = some [(10, 20, 97, 1), (12, 30, 98, 20)] := by
  decide!

theorem join_slots_live {α : Type} (l : List (Option α)) (a b : Nat) (x y z : α)
    (ha : l[a]? = some (some x)) (hb : l[b]? = some (some y)) :
    ((l.set a (some z)).set b none).reduceOption.length + 1 = l.reduceOption.length ∧
    (a ≠ b → 2 ≤ l.reduceOption.length) := by
  have halt : a < l.length := (List.getElem?_eq_some_iff.1 ha).1
  have hb' : ∃ v, (l.set a (some z))[b]? = some (some v) := by
    by_cases hab : a = b
    · subst hab
      exact ⟨z, List.getElem?_set_self halt⟩
    · exact ⟨y, by rw [List.getElem?_set_ne hab]; exact hb⟩
  obtain ⟨v, hv⟩ := hb'
  have h1 : ((l.set a (some z)).set b none).reduceOption.length + 1
      = l.reduceOption.length := by
    rw [reduceOption_length_set_none _ b v hv, reduceOption_length_set_some _ a x _ ha]
  refine ⟨h1, fun hab => ?_⟩
  have h2 := reduceOption_length_set_none l b y hb
  have h3 : (l.set b none)[a]? = some (some x) := by
    rw [List.getElem?_set_ne (fun e => hab e.symm)]; exact ha
  have h4 := reduceOption_length_set_none (l.set b none) a x h3
  omega

/-- What a pass of the loop of `make_paragraphs` does when it returns: it goes on to the next
index and leaves the state as it is, or it joins, which takes one from the number of
paragraphs left, and then goes on to the next index or stays, in which case a paragraph is
left. -/
theorem make_paragraphs_step_pass (m : Libm) (lines : List line_t) (a a1 : Nat)
    (st st1 : paragraphs_state) (ha : a < st.paragraphs.length)
    (h : make_paragraphs_step m lines a st = .ok (a1, st1)) :
    st1.paragraphs.length = st.paragraphs.length ∧
    ((st1 = st ∧ a1 = a + 1) ∨
      (st1.paragraphs.reduceOption.length + 1 = st.paragraphs.reduceOption.length ∧
        (a1 = a + 1 ∨ (a1 = a ∧ 1 ≤ st1.paragraphs.reduceOption.length)))) := by
  rcases make_paragraphs_step_inv m lines a a1 st st1 h with ⟨rfl, rfl⟩ |
    ⟨b, pa, pb, la, lb, ia, line_a, line_b, a_span, prev, angle_a, hpa, hpb, -, -, -, -, -, -,
      -, -, hpar, -, ha1⟩
  · exact ⟨rfl, Or.inl ⟨rfl, rfl⟩⟩
  · have hlen : st1.paragraphs.length = st.paragraphs.length := by
      rw [hpar, List.length_set, List.length_set]
    obtain ⟨hlive, htwo⟩ := join_slots_live st.paragraphs a b pa pb
      { lines := pa.lines ++ pb.lines } hpa hpb
    rw [← hpar] at hlive
    refine ⟨hlen, Or.inr ⟨hlive, ?_⟩⟩
    rw [ha1]
    split_ifs with hba
    · have := htwo (by omega)
      exact Or.inr ⟨rfl, by omega⟩
    · exact Or.inl rfl

/-- The loop of `make_paragraphs` does not use up a budget of the number of indices left
plus the number of paragraphs left but one, on any input. -/
theorem make_paragraphs_loop_budget (m : Libm) (lines : List line_t) :
    ∀ (fuel a : Nat) (st : paragraphs_state),
      (st.paragraphs.length - a) + (st.paragraphs.reduceOption.length - 1) ≤ fuel →
      make_paragraphs_loop m lines fuel a st ≠ .error .out_of_fuel := by
  intro fuel
  induction fuel with
  | zero =>
    intro a st hfuel
    unfold make_paragraphs_loop
    rw [if_neg (by omega)]
    intro h; cases h
  | succ fuel ih =>
    intro a st hfuel
    unfold make_paragraphs_loop
    by_cases ha : a < st.paragraphs.length
    · rw [if_pos ha]
      cases hstep : make_paragraphs_step m lines a st with
      | error e => simp only []; intro h; cases h
      | ok r =>
        obtain ⟨a1, st1⟩ := r
        simp only []
        obtain ⟨hlen, hpass⟩ := make_paragraphs_step_pass m lines a a1 st st1 ha hstep
        refine ih a1 st1 ?_
        rcases hpass with ⟨rfl, rfl⟩ | ⟨hlive, rfl | ⟨rfl, hone⟩⟩ <;> omega
    · rw [if_neg ha]
      intro h; cases h

/-- A larger budget does not change what the loop of `make_paragraphs` returns. -/
theorem make_paragraphs_loop_more (m : Libm) (lines : List line_t) :
    ∀ (fuel fuel1 a : Nat) (st st1 : paragraphs_state), fuel ≤ fuel1 →
      make_paragraphs_loop m lines fuel a st = .ok st1 →
      make_paragraphs_loop m lines fuel1 a st = .ok st1 := by
  intro fuel
  induction fuel with
  | zero =>
    intro fuel1 a st st1 _ h
    unfold make_paragraphs_loop at h
    split_ifs at h with ha
    cases fuel1 with
    | zero => unfold make_paragraphs_loop; rw [if_neg ha]; exact h
    | succ k => unfold make_paragraphs_loop; rw [if_neg ha]; exact h
  | succ fuel ih =>
    intro fuel1 a st st1 hle h
    obtain ⟨k, rfl⟩ : ∃ k, fuel1 = k + 1 := ⟨fuel1 - 1, by omega⟩
    unfold make_paragraphs_loop at h ⊢
    by_cases ha : a < st.paragraphs.length
    · rw [if_pos ha] at h ⊢
      cases hstep : make_paragraphs_step m lines a st with
      | error e => rw [hstep] at h; cases h
      | ok r =>
        obtain ⟨a1, st2⟩ := r
        rw [hstep] at h
        exact ih k a1 st2 st1 (by omega) h
    · rw [if_neg ha] at h ⊢
      exact h

/-- The loop of `make_paragraphs` keeps the length of the array and does not add a
paragraph. -/
theorem make_paragraphs_loop_live (m : Libm) (lines : List line_t) :
    ∀ (fuel a : Nat) (st st1 : paragraphs_state),
      make_paragraphs_loop m lines fuel a st = .ok st1 →
      st1.paragraphs.length = st.paragraphs.length ∧
      st1.paragraphs.reduceOption.length ≤ st.paragraphs.reduceOption.length := by
  intro fuel
  induction fuel with
  | zero =>
    intro a st st1 h
    unfold make_paragraphs_loop at h
    split_ifs at h
    cases h
    exact ⟨rfl, le_refl _⟩
  | succ fuel ih =>
    intro a st st1 h
    unfold make_paragraphs_loop at h
    by_cases ha : a < st.paragraphs.length
    · rw [if_pos ha] at h
      cases hstep : make_paragraphs_step m lines a st with
      | error e => rw [hstep] at h; cases h
      | ok r =>
        obtain ⟨a1, st2⟩ := r
        rw [hstep] at h
        obtain ⟨hlen, hpass⟩ := make_paragraphs_step_pass m lines a a1 st st2 ha hstep
        obtain ⟨h1, h2⟩ := ih a1 st2 st1 h
        refine ⟨h1.trans hlen, ?_⟩
        rcases hpass with ⟨rfl, -⟩ | ⟨hlive, -⟩ <;> omega
    · rw [if_neg ha] at h
      cases h
      exact ⟨rfl, le_refl _⟩

/-- When the loop of `make_paragraphs` returns, it has made at most as many passes as there
were indices left, and one more for each join: the number of joins is the number of
paragraphs that are no longer there. -/
theorem make_paragraphs_loop_passes (m : Libm) (lines : List line_t) :
    ∀ (fuel a : Nat) (st st1 : paragraphs_state),
      make_paragraphs_loop m lines fuel a st = .ok st1 →
      make_paragraphs_loop m lines
          ((st.paragraphs.length - a)
            + (st.paragraphs.reduceOption.length - st1.paragraphs.reduceOption.length)) a st
        = .ok st1 := by
  intro fuel
  induction fuel with
  | zero =>
    intro a st st1 h
    unfold make_paragraphs_loop at h
    split_ifs at h with ha
    cases h
    have e : (st.paragraphs.length - a)
        + (st.paragraphs.reduceOption.length - st.paragraphs.reduceOption.length) = 0 := by
      omega
    rw [e]
    unfold make_paragraphs_loop
    rw [if_neg ha]
  | succ fuel ih =>
    intro a st st1 h
    have hfull := h
    unfold make_paragraphs_loop at h
    by_cases ha : a < st.paragraphs.length
    · rw [if_pos ha] at h
      cases hstep : make_paragraphs_step m lines a st with
      | error e => rw [hstep] at h; cases h
      | ok r =>
        obtain ⟨a1, st2⟩ := r
        rw [hstep] at h
        obtain ⟨hlen, hpass⟩ := make_paragraphs_step_pass m lines a a1 st st2 ha hstep
        obtain ⟨-, hle⟩ := make_paragraphs_loop_live m lines fuel a1 st2 st1 h
        have hrest := ih a1 st2 st1 h
        obtain ⟨k, hk, hkle⟩ : ∃ k, (st.paragraphs.length - a)
            + (st.paragraphs.reduceOption.length - st1.paragraphs.reduceOption.length) = k + 1 ∧
            (st2.paragraphs.length - a1)
              + (st2.paragraphs.reduceOption.length - st1.paragraphs.reduceOption.length)
              ≤ k := by
          refine ⟨(st.paragraphs.length - a)
            + (st.paragraphs.reduceOption.length - st1.paragraphs.reduceOption.length) - 1,
            ?_, ?_⟩
          · omega
          · rcases hpass with ⟨rfl, rfl⟩ | ⟨hlive, rfl | ⟨rfl, hone⟩⟩ <;> omega
        rw [hk]
        unfold make_paragraphs_loop
        rw [if_pos ha, hstep]
        exact make_paragraphs_loop_more m lines _ k a1 st2 st1 hkle hrest
    · rw [if_neg ha] at h
      cases h
      have e : (st.paragraphs.length - a)
          + (st.paragraphs.reduceOption.length - st.paragraphs.reduceOption.length) = 0 := by
        omega
      rw [e]
      unfold make_paragraphs_loop
      rw [if_neg ha]

/-- What a pass of the loop of `make_lines` does to the slots when it returns: nothing, or
the join of another line `b` onto `a`. -/
theorem make_lines_step_slots (m : Libm) (a a1 : Nat) (st st1 : lines_state)
    (h : make_lines_step m a st = .ok (a1, st1)) :
    (st1 = st ∧ a1 = a + 1) ∨
    ∃ (b : Nat) (line_a line_b : line_t),
      st.lines[a]? = some (some line_a) ∧ st.lines[b]? = some (some line_b) ∧ b ≠ a ∧
      st1.lines = (st.lines.set a (some { spans := line_a.spans ++ line_b.spans })).set b none ∧
      a1 = (if b > a then a else a + 1) := by
  unfold make_lines_step at h
  split at h
  case h_2 => left; cases h; exact ⟨rfl, rfl⟩
  case h_1 line_a hla =>
    split at h
    · cases h
    rename_i ia hia
    split at h
    · cases h
    rename_i span_a hspan_a
    split at h
    · cases h
    · left; cases h; exact ⟨rfl, rfl⟩
    · rename_i b nearest_adv hscan
      split at h
      · cases h
      rename_i st2 hjoin
      simp only [Except.ok.injEq, Prod.mk.injEq] at h
      obtain ⟨h1, h2⟩ := h
      subst h2
      right
      obtain ⟨-, hbest⟩ := make_lines_scan_best m st a line_a span_a (span_angle m span_a)
        (List.range st.lines.length) none (some (b, nearest_adv)) (List.pairwise_lt_range _)
        (by intro nb nadv hn; cases hn) hscan
      obtain ⟨hfrom, -, -⟩ := hbest b nearest_adv rfl
      rcases hfrom with hfrom | ⟨-, line_b, ib, span_b, bfirst, alast, hlb, hne, -⟩
      · cases hfrom
      · refine ⟨b, line_a, line_b, hla, hlb, hne, ?_, h1.symm⟩
        unfold make_lines_join at hjoin
        simp only [hlb] at hjoin
        split at hjoin
        · cases hjoin
        · split at hjoin
          · split at hjoin
            · cases hjoin
            · cases hjoin
              rfl
          · cases hjoin
          · cases hjoin

/-- What a pass of the loop of `make_lines` does when it returns: it goes on to the next
index and leaves the state as it is, or it joins, which takes one from the number of lines
left and leaves a line, and then goes on to the next index or stays. -/
theorem make_lines_step_pass (m : Libm) (a a1 : Nat) (st st1 : lines_state)
    (h : make_lines_step m a st = .ok (a1, st1)) :
    st1.lines.length = st.lines.length ∧
    ((st1 = st ∧ a1 = a + 1) ∨
      (st1.lines.reduceOption.length + 1 = st.lines.reduceOption.length ∧
        1 ≤ st1.lines.reduceOption.length ∧ (a1 = a + 1 ∨ a1 = a))) := by
  rcases make_lines_step_slots m a a1 st st1 h with ⟨rfl, rfl⟩ |
    ⟨b, line_a, line_b, hla, hlb, hne, hlines, ha1⟩
  · exact ⟨rfl, Or.inl ⟨rfl, rfl⟩⟩
  · have hlen : st1.lines.length = st.lines.length := by
      rw [hlines, List.length_set, List.length_set]
    obtain ⟨hlive, htwo⟩ := join_slots_live st.lines a b line_a line_b
      { spans := line_a.spans ++ line_b.spans } hla hlb
    rw [← hlines] at hlive
    have h2 := htwo (fun e => hne e.symm)
    refine ⟨hlen, Or.inr ⟨hlive, by omega, ?_⟩⟩
    rw [ha1]
    split_ifs
    · exact Or.inr rfl
    · exact Or.inl rfl

/-- The loop of `make_lines` does not use up a budget of the number of indices left plus
the number of lines left but one, on any input. -/
theorem make_lines_loop_budget (m : Libm) :
    ∀ (fuel a : Nat) (st : lines_state),
      (st.lines.length - a) + (st.lines.reduceOption.length - 1) ≤ fuel →
      make_lines_loop m fuel a st ≠ .error .out_of_fuel := by
  intro fuel
  induction fuel with
  | zero =>
    intro a st hfuel
    unfold make_lines_loop
    rw [if_neg (by omega)]
    intro h; cases h
  | succ fuel ih =>
    intro a st hfuel
    unfold make_lines_loop
    by_cases ha : a < st.lines.length
    · rw [if_pos ha]
      cases hstep : make_lines_step m a st with
      | error e => simp only []; intro h; cases h
      | ok r =>
        obtain ⟨a1, st1⟩ := r
        simp only []
        obtain ⟨hlen, hpass⟩ := make_lines_step_pass m a a1 st st1 hstep
        refine ih a1 st1 ?_
        rcases hpass with ⟨rfl, rfl⟩ | ⟨hlive, hone, rfl | rfl⟩ <;> omega
    · rw [if_neg ha]
      intro h; cases h

/-- A larger budget does not change what the loop of `make_lines` returns. -/
theorem make_lines_loop_more (m : Libm) :
    ∀ (fuel fuel1 a : Nat) (st st1 : lines_state), fuel ≤ fuel1 →
      make_lines_loop m fuel a st = .ok st1 → make_lines_loop m fuel1 a st = .ok st1 := by
  intro fuel
  induction fuel with
  | zero =>
    intro fuel1 a st st1 _ h
    unfold make_lines_loop at h
    split_ifs at h with ha
    cases fuel1 with
    | zero => unfold make_lines_loop; rw [if_neg ha]; exact h
    | succ k => unfold make_lines_loop; rw [if_neg ha]; exact h
  | succ fuel ih =>
    intro fuel1 a st st1 hle h
    obtain ⟨k, rfl⟩ : ∃ k, fuel1 = k + 1 := ⟨fuel1 - 1, by omega⟩
    unfold make_lines_loop at h ⊢
    by_cases ha : a < st.lines.length
    · rw [if_pos ha] at h ⊢
      cases hstep : make_lines_step m a st with
      | error e => rw [hstep] at h; cases h
      | ok r =>
        obtain ⟨a1, st2⟩ := r
        rw [hstep] at h
        exact ih k a1 st2 st1 (by omega) h
    · rw [if_neg ha] at h ⊢
      exact h

/-- The loop of `make_lines` keeps the length of the array, does not add a line, and leaves
a line when there was one. -/
theorem make_lines_loop_live (m : Libm) :
    ∀ (fuel a : Nat) (st st1 : lines_state), make_lines_loop m fuel a st = .ok st1 →
      st1.lines.length = st.lines.length ∧
      st1.lines.reduceOption.length ≤ st.lines.reduceOption.length ∧
      (1 ≤ st.lines.reduceOption.length → 1 ≤ st1.lines.reduceOption.length) := by
  intro fuel
  induction fuel with
  | zero =>
    intro a st st1 h
    unfold make_lines_loop at h
    split_ifs at h
    cases h
    exact ⟨rfl, le_refl _, fun h => h⟩
  | succ fuel ih =>
    intro a st st1 h
    unfold make_lines_loop at h
    by_cases ha : a < st.lines.length
    · rw [if_pos ha] at h
      cases hstep : make_lines_step m a st with
      | error e => rw [hstep] at h; cases h
      | ok r =>
        obtain ⟨a1, st2⟩ := r
        rw [hstep] at h
        obtain ⟨hlen, hpass⟩ := make_lines_step_pass m a a1 st st2 hstep
        obtain ⟨h1, h2, h3⟩ := ih a1 st2 st1 h
        refine ⟨h1.trans hlen, ?_, ?_⟩
        · rcases hpass with ⟨rfl, -⟩ | ⟨hlive, -⟩ <;> omega
        · intro hone
          apply h3
          rcases hpass with ⟨rfl, -⟩ | ⟨-, hone2, -⟩
          · exact hone
          · exact hone2
    · rw [if_neg ha] at h
      cases h
      exact ⟨rfl, le_refl _, fun h => h⟩

/-- When the loop of `make_lines` returns, it has made at most as many passes as there were
indices left, and one more for each join: the number of joins is the number of lines that
are no longer there. -/
theorem make_lines_loop_passes (m : Libm) :
    ∀ (fuel a : Nat) (st st1 : lines_state), make_lines_loop m fuel a st = .ok st1 →
      make_lines_loop m
          ((st.lines.length - a)
            + (st.lines.reduceOption.length - st1.lines.reduceOption.length)) a st
        = .ok st1 := by
  intro fuel
  induction fuel with
  | zero =>
    intro a st st1 h
    unfold make_lines_loop at h
    split_ifs at h with ha
    cases h
    have e : (st.lines.length - a)
        + (st.lines.reduceOption.length - st.lines.reduceOption.length) = 0 := by omega
    rw [e]
    unfold make_lines_loop
    rw [if_neg ha]
  | succ fuel ih =>
    intro a st st1 h
    unfold make_lines_loop at h
    by_cases ha : a < st.lines.length
    · rw [if_pos ha] at h
      cases hstep : make_lines_step m a st with
      | error e => rw [hstep] at h; cases h
      | ok r =>
        obtain ⟨a1, st2⟩ := r
        rw [hstep] at h
        obtain ⟨hlen, hpass⟩ := make_lines_step_pass m a a1 st st2 hstep
        obtain ⟨-, hle, -⟩ := make_lines_loop_live m fuel a1 st2 st1 h
        have hrest := ih a1 st2 st1 h
        obtain ⟨k, hk, hkle⟩ : ∃ k, (st.lines.length - a)
            + (st.lines.reduceOption.length - st1.lines.reduceOption.length) = k + 1 ∧
            (st2.lines.length - a1)
              + (st2.lines.reduceOption.length - st1.lines.reduceOption.length) ≤ k := by
          refine ⟨(st.lines.length - a)
            + (st.lines.reduceOption.length - st1.lines.reduceOption.length) - 1, ?_, ?_⟩
          · omega
          · rcases hpass with ⟨rfl, rfl⟩ | ⟨hlive, hone, rfl | rfl⟩ <;> omega
        rw [hk]
        unfold make_lines_loop
        rw [if_pos ha, hstep]
        exact make_lines_loop_more m _ k a1 st2 st1 hkle hrest
    · rw [if_neg ha] at h
      cases h
      have e : (st.lines.length - a)
          + (st.lines.reduceOption.length - st.lines.reduceOption.length) = 0 := by omega
      rw [e]
      unfold make_lines_loop
      rw [if_neg ha]

/-- C31: the loops of `make_lines` and `make_paragraphs` end on every input. A pass that
returns goes on to the next index, or it joins and takes one from the number of non-empty
slots; only after a join does the index stay. So a loop that returns for `n` items has made
at most `n` passes and one more for each join, the joins being the slots that are no longer
there, and on no input does a loop need more than `2 * n - 1` passes. In `make_lines` a
line always remains, and when `make_paragraphs` returns a paragraph remains (else it ends at
`assert(p)`), so that the joins are then at most `n - 1`. -/
theorem join_loops_end_within_budget (m : Libm) (spans : List span_t) (lines : List line_t) :
    (make_lines_loop m (2 * spans.length - 1) 0 (lines_state_init spans)
        ≠ .error .out_of_fuel ∧
      make_lines m spans ≠ .error .out_of_fuel ∧
      (∀ fuel st1, make_lines_loop m fuel 0 (lines_state_init spans) = .ok st1 →
        make_lines_loop m (spans.length + (spans.length - st1.lines.reduceOption.length)) 0
            (lines_state_init spans) = .ok st1 ∧
        (1 ≤ spans.length → 1 ≤ st1.lines.reduceOption.length ∧
          spans.length + (spans.length - st1.lines.reduceOption.length)
            ≤ 2 * spans.length - 1)) ∧
      ∀ a a1 st st1, make_lines_step m a st = .ok (a1, st1) →
        st1.lines.length = st.lines.length ∧
        ((st1 = st ∧ a1 = a + 1) ∨
          (st1.lines.reduceOption.length + 1 = st.lines.reduceOption.length ∧
            1 ≤ st1.lines.reduceOption.length ∧ (a1 = a + 1 ∨ a1 = a)))) ∧
    (make_paragraphs_loop m lines (2 * lines.length - 1) 0
          { spans := spans
            paragraphs := (List.range lines.length).map fun a => some { lines := [a] } }
        ≠ .error .out_of_fuel ∧
      make_paragraphs m spans lines ≠ .error .out_of_fuel ∧
      (∀ fuel st1, make_paragraphs_loop m lines fuel 0
          { spans := spans
            paragraphs := (List.range lines.length).map fun a => some { lines := [a] } }
          = .ok st1 →
        make_paragraphs_loop m lines
            (lines.length + (lines.length - st1.paragraphs.reduceOption.length)) 0
            { spans := spans
              paragraphs := (List.range lines.length).map fun a => some { lines := [a] } }
          = .ok st1) ∧
      (∀ spans1 paragraphs, make_paragraphs m spans lines = .ok (spans1, paragraphs) →
        ∃ st1, make_paragraphs_loop m lines (2 * lines.length) 0
            { spans := spans
              paragraphs := (List.range lines.length).map fun a => some { lines := [a] } }
            = .ok st1 ∧
          1 ≤ st1.paragraphs.reduceOption.length ∧
          lines.length + (lines.length - st1.paragraphs.reduceOption.length)
            ≤ 2 * lines.length - 1) ∧
      ∀ a a1 st st1, a < st.paragraphs.length →
        make_paragraphs_step m lines a st = .ok (a1, st1) →
        st1.paragraphs.length = st.paragraphs.length ∧
        ((st1 = st ∧ a1 = a + 1) ∨
          (st1.paragraphs.reduceOption.length + 1 = st.paragraphs.reduceOption.length ∧
            (a1 = a + 1 ∨ (a1 = a ∧ 1 ≤ st1.paragraphs.reduceOption.length))))) := by
  have hllive : (lines_state_init spans).lines.reduceOption.length = spans.length := by
    show ((List.range spans.length).map fun a =>
      some ({ spans := [a] } : line_t)).reduceOption.length = _
    rw [reduceOption_init_slots]
    simp
  have hllen : (lines_state_init spans).lines.length = spans.length := by
    simp [lines_state_init]
  have hplive : ((List.range lines.length).map fun a =>
      some ({ lines := [a] } : paragraph_t)).reduceOption.length = lines.length := by
    rw [reduceOption_init_slots]
    simp
  have hplen : ((List.range lines.length).map fun a =>
      some ({ lines := [a] } : paragraph_t)).length = lines.length := by
    simp
  refine ⟨⟨?_, ?_, ?_, fun a a1 st st1 h => make_lines_step_pass m a a1 st st1 h⟩,
    ?_, make_paragraphs_fuel m spans lines, ?_, ?_,
    fun a a1 st st1 ha h => make_paragraphs_step_pass m lines a a1 st st1 ha h⟩
  · exact make_lines_loop_budget m _ 0 _ (by rw [hllive, hllen]; omega)
  · have hloop := make_lines_loop_budget m (2 * spans.length) 0 (lines_state_init spans)
      (by rw [hllive, hllen]; omega)
    unfold make_lines
    simp only []
    split
    · rename_i e he
      intro h
      cases h
      exact hloop he
    · split_ifs
      · intro h; cases h
      · intro h; cases h
  · intro fuel st1 h
    have hpass := make_lines_loop_passes m fuel 0 _ st1 h
    obtain ⟨-, hle, hone⟩ := make_lines_loop_live m fuel 0 _ st1 h
    rw [hllive] at hpass hle hone
    rw [hllen, Nat.sub_zero] at hpass
    refine ⟨hpass, fun hn => ?_⟩
    have := hone hn
    exact ⟨this, by omega⟩
  · exact make_paragraphs_loop_budget m lines _ 0 _ (by
      show (_ - 0) + (_ - 1) ≤ _
      rw [hplive, hplen]
      omega)
  · intro fuel st1 h
    have hpass := make_paragraphs_loop_passes m lines fuel 0 _ st1 h
    simp only [hplive, hplen, Nat.sub_zero] at hpass
    exact hpass
  · intro spans1 paragraphs h
    unfold make_paragraphs at h
    simp only [] at h
    split at h
    · cases h
    rename_i st hst
    split_ifs at h with hnil
    refine ⟨st, hst, ?_⟩
    have hpos : 1 ≤ st.paragraphs.reduceOption.length := List.length_pos.2 hnil
    obtain ⟨-, hle⟩ := make_paragraphs_loop_live m lines _ 0 _ st hst
    simp only [hplive] at hle
    exact ⟨hpos, by omega⟩

/-- The page of `sample_fold_spans`: `make_paragraphs`, whose inner loop does not skip
`b == a`, joins the second line onto the first and then the paragraph of both lines onto
itself, which clears its slot. The loop makes `3 = 2 * n - 1` passes and leaves no
paragraph, and `make_paragraphs` ends at `assert(p)`. -/
theorem sample_fold_joins :
    make_paragraphs_step sample_libm sample_two_lines 0 sample_fold_start
      = .ok (0, sample_fold_joined) ∧
    make_paragraphs_step sample_libm sample_two_lines 0 sample_fold_joined
      = .ok (1, sample_fold_emptied) ∧
    make_paragraphs_step sample_libm sample_two_lines 1 sample_fold_emptied
      = .ok (2, sample_fold_emptied) ∧
    make_paragraphs_loop sample_libm sample_two_lines 3 0 sample_fold_start
      = .ok sample_fold_emptied ∧
    make_paragraphs_loop sample_libm sample_two_lines 2 0 sample_fold_start
      = .error .out_of_fuel ∧
    make_paragraphs sample_libm sample_fold_spans sample_two_lines
      = .error (.fault .assert_failed) := by
  decide!

/-! ## The glyphs of a span and the tag of the span, with autosplit off -/

theorem spans_chars_append (l1 l2 : List span_t) :
    spans_chars (l1 ++ l2) = spans_chars l1 ++ spans_chars l2 := by
  simp [spans_chars, List.flatMap_append]

theorem spans_chars_singleton (s : span_t) :
    spans_chars [s] = s.chars.map fun g => (s.ctm, g) := by
  simp [spans_chars]

/-- What `page_span_end_clean` does to the glyphs of a page, each taken with the CTM of its
span, and to the CTM of the last span. -/
theorem page_span_end_clean_chars (m : Libm) (init : List span_t) (span : span_t)
    (hne : span.chars ≠ []) :
    ∃ spans1 last, page_span_end_clean m (init ++ [span]) = .ok spans1 ∧
      spans1.getLast? = some last ∧ last.ctm = span.ctm ∧
      List.Sublist (spans_chars spans1) (spans_chars (init ++ [span])) := by
  rcases List.eq_nil_or_concat span.chars with h | ⟨l, cur, hl⟩
  · exact absurd h hne
  rcases List.eq_nil_or_concat l with h | ⟨pre, prev, hpre⟩
  · subst h
    have hone : span.chars = [cur] := by rw [hl]; rfl
    exact ⟨init ++ [span], span, page_span_end_clean_single m init span cur hone, by simp, rfl,
      List.Sublist.refl _⟩
  · have hchars : span.chars = pre ++ [prev, cur] := by
      rw [hl, hpre]; simp
    have heq := page_span_end_clean_eq m init span pre prev cur hchars
    by_cases hs : prev.ucs = 32
    · rw [if_pos hs] at heq
      by_cases ho : span_end_overlap m span prev cur
      · rw [if_pos ho] at heq
        refine ⟨_, { span with chars := pre ++ [cur] }, heq, by simp, rfl, ?_⟩
        rw [spans_chars_append, spans_chars_append, spans_chars_singleton,
          spans_chars_singleton, hchars]
        refine List.Sublist.append (List.Sublist.refl _) (List.Sublist.map _ ?_)
        exact List.Sublist.append (List.Sublist.refl _) (List.Sublist.cons _ (List.Sublist.refl _))
      · rw [if_neg ho] at heq
        exact ⟨_, span, heq, by simp, rfl, List.Sublist.refl _⟩
    · rw [if_neg hs] at heq
      by_cases ha : span_end_apart m span prev cur
      · rw [if_pos ha] at heq
        refine ⟨_, { span with chars := [cur] }, heq, by simp, rfl, ?_⟩
        rw [spans_chars_append, spans_chars_append]
        simp [spans_chars, hchars]
      · rw [if_neg ha] at heq
        exact ⟨_, span, heq, by simp, rfl, List.Sublist.refl _⟩

/-- A step of the loop over the `char` tags of a span with autosplit off: the page gains at
most the glyph of the tag, held by a span with the matrix of the `span` tag, and the CTM of
its last span stays that matrix. -/
theorem load_char_chars (m : Libm) (tag : extract_xml_tag_t) (spans spans1 : List span_t)
    (offset_x1 offset_y1 : ℚ) (M : matrix_t) (span0 : span_t)
    (hlast : spans.getLast? = some span0) (hM : span0.ctm = M)
    (h : load_char m false tag 0 0 spans = .ok (offset_x1, offset_y1, spans1)) :
    ∃ g, tag_char M tag = some g ∧
      List.Sublist (spans_chars spans1) (spans_chars spans ++ [(M, g)]) ∧
      offset_x1 = 0 ∧ offset_y1 = 0 ∧
      ∃ last, spans1.getLast? = some last ∧ last.ctm = M := by
  obtain ⟨init, rfl⟩ : ∃ init, spans = init ++ [span0] := by
    rcases List.eq_nil_or_concat spans with e | ⟨init, x, e⟩
    · rw [e] at hlast; cases hlast
    · rw [e] at hlast ⊢
      simp at hlast
      exact ⟨init, by rw [hlast]; simp⟩
  unfold load_char at h
  split at h
  · rename_i x y hx hy
    simp only [hlast] at h
    split at h
    · rename_i adv ucs hadv hucs
      have hg : tag_char M tag
          = some { pre_x := x, pre_y := y
                   x := M.a * x + M.b * y + M.e
                   y := M.c * x + M.d * y + M.f
                   gid := 0, ucs := ucs, adv := adv } := by
        simp only [tag_char, hx, hy, hadv, hucs]
      refine ⟨_, hg, ?_⟩
      simp only [Bool.false_and, Bool.false_eq_true, if_false, false_and, set_last_append,
        sub_zero] at h
      split at h
      · cases h
      · rename_i spans2 hclean
        simp only [Except.ok.injEq, Prod.mk.injEq] at h
        obtain ⟨h1, h2, h3⟩ := h
        subst h3
        obtain ⟨spans3, last, heq, hl, hctm, hsub⟩ := page_span_end_clean_chars m init
          { span0 with chars := span0.chars ++
            [{ pre_x := x, pre_y := y
               x := span0.ctm.a * x + span0.ctm.b * y + span0.ctm.e
               y := span0.ctm.c * x + span0.ctm.d * y + span0.ctm.f
               gid := 0, ucs := ucs, adv := adv }] } (by simp)
        rw [heq] at hclean
        cases hclean
        refine ⟨hsub.trans (sublist_of_eq ?_), h1.symm, h2.symm, last, hl, hctm.trans hM⟩
        rw [spans_chars_append, spans_chars_append, spans_chars_singleton,
          spans_chars_singleton]
        simp only [List.map_append, List.map_singleton, List.append_assoc, hM]
    · cases h
    · cases h
  · cases h
  · cases h

theorem events_chars_nil (cur : Option matrix_t) : events_chars cur [] = [] := by
  cases cur <;> rfl

theorem events_chars_tag (cur : Option matrix_t) (tag : extract_xml_tag_t)
    (rest : List xml_event) :
    events_chars cur (.tag tag :: rest)
      = if tag.name = "span" then
          match s_matrix_read (extract_xml_tag_attributes_find tag "ctm") with
          | .ok M => events_chars (some M) rest
          | .error _ => events_chars cur rest
        else if tag.name = "/span" then events_chars none rest
        else if tag.name = "char" then
          match cur with
          | some M => ((tag_char M tag).map fun g => (M, g)).toList ++ events_chars cur rest
          | none => events_chars cur rest
        else events_chars cur rest := by
  cases cur <;> rfl

theorem events_chars_skip_sublist (cur : Option matrix_t) (tag : extract_xml_tag_t)
    (rest : List xml_event) (doc L : List (matrix_t × char_t))
    (h1 : tag.name ≠ "span") (h2 : tag.name ≠ "/span") (h3 : tag.name ≠ "char")
    (h : List.Sublist doc (L ++ events_chars cur rest)) :
    List.Sublist doc (L ++ events_chars cur (.tag tag :: rest)) := by
  rw [events_chars_tag, if_neg h1, if_neg h2, if_neg h3]
  exact h

/-- The glyphs of a document loaded with autosplit off, each with the CTM of its span,
against the glyphs of the `char` tags that are read, each with the matrix of its `span`
tag: from any point of the load on, the document holds the glyphs kept so far and glyphs of
the tags that follow, in their order. -/
theorem load_events_chars (m : Libm) (events : List xml_event) :
    ∀ (mode : load_mode) (done : List page_t) (spans : List span_t) (cur : Option matrix_t)
      (doc : extract_document_t) (L : List (matrix_t × char_t)),
      load_events m false mode done spans events = .ok doc →
      load_mode_enclosed cur mode spans →
      List.Sublist (pages_chars done ++ spans_chars spans) L →
      List.Sublist (pages_chars doc.pages) (L ++ events_chars cur events) := by
  induction events with
  | nil =>
    intro mode done spans cur doc L h _ hL
    cases mode <;> simp [load_events] at h
    subst h
    rw [events_chars_nil, List.append_nil]
    exact (List.sublist_append_left _ _).trans hL
  | cons ev rest ih =>
    intro mode done spans cur doc L h hI hL
    cases ev with
    | failure => cases mode <;> simp [load_events] at h
    | tag tag =>
      cases mode with
      | document =>
        simp only [load_events] at h
        split_ifs at h with h1 h2
        · exact events_chars_skip_sublist cur tag rest _ L (by rw [h1]; decide)
            (by rw [h1]; decide) (by rw [h1]; decide) (ih _ _ _ cur _ L h trivial hL)
        · have h2 : tag.name = "page" := by simpa using h2
          refine events_chars_skip_sublist cur tag rest _ L (by rw [h2]; decide)
            (by rw [h2]; decide) (by rw [h2]; decide) (ih _ _ _ cur _ L h trivial ?_)
          exact (List.Sublist.append (List.Sublist.refl _) (List.nil_sublist _)).trans hL
      | page =>
        simp only [load_events] at h
        split_ifs at h with h1 h2 h3
        · refine events_chars_skip_sublist cur tag rest _ L (by rw [h1]; decide)
            (by rw [h1]; decide) (by rw [h1]; decide) (ih _ _ _ cur _ L h trivial ?_)
          have e : pages_chars (done ++ [{ spans := spans, lines := [], paragraphs := [] }])
              ++ spans_chars [] = pages_chars done ++ spans_chars spans := by
            simp [pages_chars, spans_chars]
          rw [e]
          exact hL
        · refine events_chars_skip_sublist cur tag rest _ L (by rw [h2]; decide)
            (by rw [h2]; decide) (by rw [h2]; decide) ?_
          revert h
          split
          · intro h; cases h
          · split_ifs
            · split
              · split_ifs
                · intro h; exact ih _ _ _ cur _ L h trivial hL
                · intro h; exact ih _ _ _ cur _ L h trivial hL
              · intro h; cases h
              · intro h; cases h
            · split
              · intro h; cases h
              · split
                · intro h; cases h
                · intro h; exact ih _ _ _ cur _ L h trivial hL
        · have h3 : tag.name = "span" := by simpa using h3
          revert h
          split
          · intro h; cases h
          · rename_i span hspan_ok
            intro h
            obtain ⟨ctm, trm, f, wmode, hctm, -, -, -, hspan⟩ := load_span_inv tag span hspan_ok
            rw [events_chars_tag, if_pos h3, hctm]
            refine ih _ _ _ (some ctm) _ L h ⟨rfl, rfl, ctm, span, rfl, by simp, ?_⟩ ?_
            · rw [hspan]
            · have e : spans_chars (spans ++ [span]) = spans_chars spans := by
                rw [spans_chars_append, spans_chars_singleton, hspan]
                simp
              rw [e]
              exact hL
      | span ox oy =>
        obtain ⟨rfl, rfl, M, span0, hcur, hlast, hM⟩ := hI
        simp only [load_events] at h
        split_ifs at h with h1 h2
        · rw [events_chars_tag, if_neg (by rw [h1]; decide), if_pos h1]
          exact ih _ _ _ none _ L h trivial hL
        · have h2 : tag.name = "char" := by simpa using h2
          revert h
          split
          · intro h; cases h
          · rename_i ox1 oy1 spans1 hchar_ok
            intro h
            obtain ⟨g, hg, hsub, rfl, rfl, last, hl1, hM1⟩ :=
              load_char_chars m tag spans spans1 ox1 oy1 M span0 hlast hM hchar_ok
            rw [events_chars_tag, if_neg (by rw [h2]; decide), if_neg (by rw [h2]; decide),
              if_pos h2, hcur]
            simp only [hg, Option.map_some', Option.toList_some]
            rw [← List.append_assoc]
            refine ih _ _ _ (some M) _ (L ++ [(M, g)]) h ⟨rfl, rfl, M, last, rfl, hl1, hM1⟩ ?_
            refine (List.Sublist.append (List.Sublist.refl _) hsub).trans ?_
            rw [← List.append_assoc]
            exact List.Sublist.append hL (List.Sublist.refl _)
      | pixmap_line y hh =>
        simp only [load_events] at h
        split_ifs at h with h1
        have h1 : tag.name = "line" := by simpa using h1
        refine events_chars_skip_sublist cur tag rest _ L (by rw [h1]; decide)
          (by rw [h1]; decide) (by rw [h1]; decide) ?_
        revert h
        split
        · intro h; cases h
        · split_ifs
          · intro h; cases h
          · intro h; exact ih _ _ _ cur _ L h trivial hL
      | pixmap_line_end y hh =>
        simp only [load_events] at h
        split_ifs at h with h1 h2
        all_goals
          have h1 : tag.name = "/line" := by simpa using h1
          exact events_chars_skip_sublist cur tag rest _ L (by rw [h1]; decide)
            (by rw [h1]; decide) (by rw [h1]; decide) (ih _ _ _ cur _ L h trivial hL)
      | image_end =>
        simp only [load_events] at h
        split_ifs at h with h1
        have h1 : tag.name = "/image" := by simpa using h1
        exact events_chars_skip_sublist cur tag rest _ L (by rw [h1]; decide)
          (by rw [h1]; decide) (by rw [h1]; decide) (ih _ _ _ cur _ L h trivial hL)

theorem sample_two_ctm_load :
    extract_intermediate_to_document sample_libm sample_two_ctm_events false
      = .ok sample_two_ctm_document ∧
    events_chars none sample_two_ctm_events
      = [(sample_ctm,
          { pre_x := 3, pre_y := 4, x := 16, y := 28, gid := 0, ucs := 97, adv := 1 }),
        (matrix_identity,
          { pre_x := 5, pre_y := 6, x := 5, y := 6, gid := 0, ucs := 98, adv := 1 })] := by
  decide!

/-- C12: with autosplit off, the glyphs of a loaded document, each taken with the CTM of the
span that holds it, are in their order glyphs of the `char` tags of the input, each taken
with the `ctm` of the `span` tag that encloses it: such a glyph has the attributes `x` and
`y` of its tag as `pre_x` and `pre_y`, the position
`(ctm.a * pre_x + ctm.b * pre_y + ctm.e, ctm.c * pre_x + ctm.d * pre_y + ctm.f)`, and the
`ucs` and `adv` of its tag. -/
theorem glyph_placed_by_enclosing_span (m : Libm) (events : List xml_event)
    (doc : extract_document_t)
    (h : extract_intermediate_to_document m events false = .ok doc) :
    List.Sublist (pages_chars doc.pages) (events_chars none events) ∧
    (∀ page ∈ doc.pages, ∀ span ∈ page.spans, ∀ g ∈ span.chars,
      (span.ctm, g) ∈ events_chars none events) ∧
    ∀ page ∈ doc.pages, ∀ span ∈ page.spans,
      span_of_span_tag events span ∧
      ∀ g ∈ span.chars, glyph_placed span.ctm g ∧ glyph_of_char_tag events g := by
  have key : List.Sublist (pages_chars doc.pages) (events_chars none events) := by
    have := load_events_chars m events .document [] [] none doc [] h trivial
      (List.Sublist.refl _)
    simpa using this
  refine ⟨key, ?_, glyph_position_from_tag m events doc h⟩
  intro page hpage span hspan g hg
  apply key.subset
  unfold pages_chars spans_chars
  exact List.mem_flatMap.2 ⟨page, hpage,
    List.mem_flatMap.2 ⟨span, hspan, List.mem_map.2 ⟨g, hg, rfl⟩⟩⟩

/-- Witness of C12: two spans with different CTMs; the glyph at `(3, 4)` of the span whose
CTM scales by two and moves by `(10, 20)` is placed at `(16, 28)`, the glyph at `(5, 6)` of
the span with the identity stays at `(5, 6)`. -/
theorem glyph_placed_by_enclosing_span_witness :
    extract_intermediate_to_document sample_libm sample_two_ctm_events false
      = .ok sample_two_ctm_document ∧
    List.Sublist (pages_chars sample_two_ctm_document.pages)
      (events_chars none sample_two_ctm_events) ∧
    (∀ page ∈ sample_two_ctm_document.pages, ∀ span ∈ page.spans, ∀ g ∈ span.chars,
      (span.ctm, g) ∈ events_chars none sample_two_ctm_events) ∧
    ∀ page ∈ sample_two_ctm_document.pages, ∀ span ∈ page.spans,
      span_of_span_tag sample_two_ctm_events span ∧
      ∀ g ∈ span.chars, glyph_placed span.ctm g
        ∧ glyph_of_char_tag sample_two_ctm_events g :=
  ⟨sample_two_ctm_load.1,
    glyph_placed_by_enclosing_span sample_libm sample_two_ctm_events sample_two_ctm_document
      sample_two_ctm_load.1⟩

end Extract
